import Mathlib

/-!
# baSe: bit-granular I/O (`bitio.c`)

A shallow embedding of `src/bitio.c` and a verification of its behaviour.

Conventions of the embedding.

* Bytes are natural numbers; every store into an `unsigned char` is reduced
  modulo 256, every store into an `unsigned short` modulo 65536.
* The buffer `buffer_[BitIO_BufferSize + BitIO_BufferRedundancy]` is a list of
  bytes and `current_byte_` is an index into it.
* A `FILE` is the sequence of bytes still to be read (input) or already written
  (output), together with its end-of-file indicator.  `fread` sets the
  indicator exactly when it returns fewer bytes than requested.
* The members of the anonymous union `size_` are kept as separate fields; the
  code only ever touches the members that belong to the current status, and
  `BitIO_initialize_` clears all of them at once (`clean_helper = 0`).
* Loops that may fail to terminate take a fuel argument and return `none`
  when the fuel runs out.
* Functions that contain an `assert` take the build flag `NDEBUG` and return
  `none` when an assertion that is active (`NDEBUG = false`) fails.
* A pointer into the caller's array is an offset into a list; a read past the
  end of that list yields 0.
-/

namespace BaSe

/-! ## Constants -/

/-- Number of bits in a byte (`<limits.h>`). -/
def CHAR_BIT : Nat := 8

/-- Size of the effective buffer (`enum BitIO_Constant`). -/
def BitIO_BufferSize : Nat := 1024

/-- Size of the redundancy buffer (`enum BitIO_Constant`). -/
def BitIO_BufferRedundancy : Nat := 2

/-- The value `(unsigned char)EOF`, returned by `BitIO_get` as end marker. -/
def EOF_uchar : Nat := 255

/-- The file header `"BitIO"`. -/
def BitIO_Signature : List Nat := [0x42, 0x69, 0x74, 0x49, 0x4F]

/-- Length of the file header. -/
def BitIO_SignatureLength : Nat := 5

/-- Open request `BitIOOpen_Read`. -/
def BitIOOpen_Read : Nat := 0x01
/-- Open request `BitIOOpen_Write`. -/
def BitIOOpen_Write : Nat := 0x02
/-- Open request `BitIOOpen_Plain`. -/
def BitIOOpen_Plain : Nat := 0x04
/-- Open request `BitIOOpen_BitIO`. -/
def BitIOOpen_BitIO : Nat := 0x08
/-- Open request `BitIOOpen_Unmanaged`. -/
def BitIOOpen_Unmanaged : Nat := 0x10
/-- Open request `BitIOOpen_ByPath`. -/
def BitIOOpen_ByPath : Nat := 0x20
/-- Enumerator following `BitIOOpen_ByPath`, hence one larger. -/
def BitIOOpen_UpperBound_ : Nat := BitIOOpen_ByPath + 1
/-- Mask of the defined request bits, `(BitIOOpen_UpperBound_ << 1) - 3`. -/
def BitIOOpen_Mask : Nat := (BitIOOpen_UpperBound_ <<< 1) - 3

/-! ## Streams -/

/-- A C stream: remaining input (or produced output), end-of-file indicator,
and whether `fclose` was called on it. -/
structure FILE where
  bytes : List Nat
  eofInd : Bool
  closed : Bool
deriving DecidableEq, Repr

/-- A fresh input stream over the given bytes. -/
def FILE.input (bytes : List Nat) : FILE := ⟨bytes, false, false⟩

/-- A fresh, empty output stream. -/
def FILE.output : FILE := ⟨[], false, false⟩

/-- The call `fread(dst, 1, n, f)`: the bytes obtained and the stream after. -/
def fread (n : Nat) (f : FILE) : List Nat × FILE :=
  (f.bytes.take n,
   { f with bytes := f.bytes.drop n, eofInd := f.eofInd || decide (f.bytes.length < n) })

/-- The call `fwrite(data, |data|, 1, f)`. -/
def fwrite (data : List Nat) (f : FILE) : FILE :=
  { f with bytes := f.bytes ++ data }

/-- The call `fputc(c, f)`. -/
def fputc (c : Nat) (f : FILE) : FILE :=
  { f with bytes := f.bytes ++ [c % 256] }

/-- The call `fclose(f)`. -/
def fclose (f : FILE) : FILE :=
  { f with closed := true }

/-- The `source` argument of `BitIO_open`: what the pointer denotes when it is
used as a `FILE*`, and what `fopen` returns when it is used as a path. -/
structure Source where
  file : FILE
  fopen : Option FILE

/-! ## The BitIO object -/

/-- Status of a BitIO (`enum BitIOStatus`). -/
inductive BitIOStatus where
  | Read
  | Write
  | Closed
deriving DecidableEq, Repr

/-- The possible values of the function pointer `streamOperation_`. -/
inductive StreamOp where
  | null
  | pull_BitIO
  | pull_regular
  | push
deriving DecidableEq, Repr

/-- The object `struct BitIO_`. -/
structure BitIO where
  buffer_ : List Nat
  current_byte_ : Nat
  eof : Bool
  bits_available : Nat
  bits_read : Nat
  bits_written : Nat
  bytes_written : Nat
  stream_ : Option FILE
  managed_ : Bool
  plain_ : Bool
  status_ : BitIOStatus
  streamOperation_ : StreamOp
deriving DecidableEq, Repr

/-- The byte `*io->current_byte_`. -/
def BitIO.cur (io : BitIO) : Nat := io.buffer_.getD io.current_byte_ 0

/-- The store `*io->current_byte_ = v`. -/
def BitIO.setCur (io : BitIO) (v : Nat) : BitIO :=
  { io with buffer_ := io.buffer_.set io.current_byte_ (v % 256) }

/-- The call `memcpy(buf + off, data, |data|)`. -/
def memcpyAt (buf : List Nat) (off : Nat) (data : List Nat) : List Nat :=
  buf.take off ++ data ++ buf.drop (off + data.length)

/-- Function `BitIO_initialize_`. -/
def BitIO_initialize_ (io : BitIO) : BitIO :=
  { io with
    eof := false, bits_available := 0, bits_read := 0,
    bits_written := 0, bytes_written := 0,
    stream_ := none, managed_ := true, plain_ := false,
    status_ := BitIOStatus.Closed, current_byte_ := 0,
    streamOperation_ := StreamOp.null }

/-- Function `BitIO_create`; `buf` is the content of the freshly allocated,
uninitialised buffer. -/
def BitIO_create (buf : List Nat) : BitIO :=
  BitIO_initialize_
    { buffer_ := buf, current_byte_ := 0, eof := false, bits_available := 0, bits_read := 0,
      bits_written := 0, bytes_written := 0, stream_ := none, managed_ := true,
      plain_ := false, status_ := BitIOStatus.Closed, streamOperation_ := StreamOp.null }

/-- Function `BitIO_check_`: whether the requested operation must be refused. -/
def BitIO_check_ (io : BitIO) (write : Bool) : Bool :=
  match io.status_ with
  | BitIOStatus.Closed => true
  | BitIOStatus.Read => write
  | BitIOStatus.Write => !write

/-- Function `BitIO_pull_BitIO_`. -/
def BitIO_pull_BitIO_ (io : BitIO) : Bool × BitIO :=
  if io.eof then (false, io) else
  match io.stream_ with
  | none => (false, io)
  | some f =>
    if f.eofInd then (false, { io with eof := true }) else
    let buf1 := memcpyAt io.buffer_ 0
      ((io.buffer_.drop BitIO_BufferSize).take BitIO_BufferRedundancy)
    let r := fread BitIO_BufferSize f
    let buf2 := memcpyAt buf1 BitIO_BufferRedundancy r.1
    let read_size := r.1.length
    let bits_read :=
      if read_size = BitIO_BufferSize then BitIO_BufferSize * CHAR_BIT
      else (CHAR_BIT * read_size + buf2.getD (BitIO_BufferRedundancy + read_size - 1) 0) % 65536
    (decide (bits_read > 0),
     { io with
       buffer_ := buf2, stream_ := some r.2, bits_read := bits_read, current_byte_ := 0,
       bits_available := if bits_read > CHAR_BIT then CHAR_BIT else bits_read })

/-- Function `BitIO_pull_regular_`. -/
def BitIO_pull_regular_ (io : BitIO) : Bool × BitIO :=
  if io.eof then (false, io) else
  match io.stream_ with
  | none => (false, io)
  | some f =>
    if f.eofInd then (false, { io with eof := true }) else
    let r := fread BitIO_BufferSize f
    let read_size := r.1.length
    (decide (read_size > 0),
     { io with
       buffer_ := memcpyAt io.buffer_ 0 r.1, stream_ := some r.2,
       bits_read := read_size * CHAR_BIT, current_byte_ := 0,
       bits_available := if read_size > 0 then CHAR_BIT else 0 })

/-- Function `BitIO_push_`. -/
def BitIO_push_ (io : BitIO) : Bool × BitIO :=
  (true,
   { io with
     stream_ := io.stream_.map (fwrite (io.buffer_.take io.bytes_written)),
     bytes_written := 0, current_byte_ := 0 })

/-- The indirect call `io->streamOperation_(io)`. -/
def streamOperation (io : BitIO) : Bool × BitIO :=
  match io.streamOperation_ with
  | StreamOp.null => (false, io)
  | StreamOp.pull_BitIO => BitIO_pull_BitIO_ io
  | StreamOp.pull_regular => BitIO_pull_regular_ io
  | StreamOp.push => BitIO_push_ io

/-- Function `BitIO_close`.  The result is `none` when an active `assert`
fails (`NDEBUG = false`); otherwise it is the reset object together with the
stream that was detached from it. -/
def BitIO_close (NDEBUG : Bool) (io : BitIO) : Option ( BitIO × Option FILE) :=
  if io.status_ = BitIOStatus.Closed then some (io, none) else
  if !NDEBUG && io.stream_.isNone then none else
  let io1 :=
    if io.status_ = BitIOStatus.Write then
      if io.bits_written ≠ 0 then
        let a := io.setCur (io.cur <<< (CHAR_BIT - io.bits_written))
        let b := { a with bytes_written := (a.bytes_written + 1) % 65536 }
        let c := (streamOperation b).2
        if c.plain_ then c
        else { c with stream_ := c.stream_.map (fputc c.bits_written) }
      else
        let c := (streamOperation io).2
        if !c.plain_ then { c with stream_ := c.stream_.map (fputc CHAR_BIT) } else c
    else io
  let released := if io1.managed_ then io1.stream_.map fclose else io1.stream_
  some (BitIO_initialize_ io1, released)

/-- Result of `BitIO_open`: the returned flag, the object afterwards, and the
stream that a failing open closed and detached, if any. -/
structure OpenResult where
  ok : Bool
  io : BitIO
  released : Option FILE

/-- Whether the request bit `flag` is set in `modes`. -/
def hasFlag (modes flag : Nat) : Bool := decide (modes &&& flag ≠ 0)

/-- The read branch of `BitIO_open`, entered with the stream `f` attached. -/
def BitIO_open_read (NDEBUG : Bool) (io0 : BitIO) (f : FILE) (modes : Nat) : Option OpenResult :=
  let io1 := { io0 with status_ := BitIOStatus.Read }
  let r := fread BitIO_SignatureLength f
  let io2 := { io1 with buffer_ := memcpyAt io1.buffer_ 0 r.1, stream_ := some r.2 }
  let read_size := r.1.length
  let detected : Option BitIO :=
    if !hasFlag modes BitIOOpen_Plain && decide (read_size = BitIO_SignatureLength)
        && decide (io2.buffer_.take BitIO_SignatureLength = BitIO_Signature) then
      let r2 := fread BitIO_BufferRedundancy r.2
      let buf := memcpyAt io2.buffer_ BitIO_BufferSize r2.1
      if !NDEBUG && (decide (r2.1.length = 0)
          || (decide (r2.1.length = 1)
              && (decide (buf.getD BitIO_BufferSize 0 ≠ CHAR_BIT) || !r2.2.eofInd))) then
        none
      else
        some { io2 with
          buffer_ := buf, stream_ := some r2.2, bits_read := 0, bits_available := 0,
          streamOperation_ := StreamOp.pull_BitIO }
    else some io2
  match detected with
  | none => none
  | some io3 =>
    if io3.streamOperation_ = StreamOp.null then
      if hasFlag modes BitIOOpen_BitIO then
        match BitIO_close NDEBUG io3 with
        | none => none
        | some (io4, rel) => some ⟨false, io4, rel⟩
      else
        some ⟨true,
          { io3 with
            streamOperation_ := StreamOp.pull_regular,
            bits_read := read_size * CHAR_BIT,
            bits_available := if read_size > 0 then CHAR_BIT else 0 },
          none⟩
    else some ⟨true, io3, none⟩

/-- Function `BitIO_open`.  The result is `none` when an active `assert`
fails (`NDEBUG = false`). -/
def BitIO_open (NDEBUG : Bool) (io : BitIO) (source : Option Source) (modes0 : Nat) :
    Option OpenResult :=
  if !NDEBUG && decide (io.status_ ≠ BitIOStatus.Closed) then none else
  let modes := if modes0 = 0 then BitIOOpen_Read else modes0
  if modes &&& (0xFFFFFFFF ^^^ BitIOOpen_Mask) ≠ 0 then some ⟨false, io, none⟩ else
  if !(xor (hasFlag modes BitIOOpen_Read) (hasFlag modes BitIOOpen_Write)) then
    some ⟨false, io, none⟩ else
  if hasFlag modes BitIOOpen_Plain && hasFlag modes BitIOOpen_BitIO then
    some ⟨false, io, none⟩ else
  if hasFlag modes BitIOOpen_Unmanaged && hasFlag (modes &&& modes) BitIOOpen_ByPath then
    some ⟨false, io, none⟩ else
  match source with
  | none => some ⟨false, io, none⟩
  | some src =>
    let stream := if hasFlag modes BitIOOpen_ByPath then src.fopen else some src.file
    match stream with
    | none => some ⟨false, { io with stream_ := none }, none⟩
    | some f =>
      let io0 := { io with stream_ := some f, managed_ := !hasFlag modes BitIOOpen_Unmanaged }
      if hasFlag modes BitIOOpen_Write then
        if hasFlag modes BitIOOpen_Plain then
          some ⟨true,
            { io0 with
              plain_ := true, streamOperation_ := StreamOp.push,
              status_ := BitIOStatus.Write }, none⟩
        else
          some ⟨true,
            { io0 with
              stream_ := some (fwrite BitIO_Signature f), plain_ := false,
              streamOperation_ := StreamOp.push, status_ := BitIOStatus.Write }, none⟩
      else BitIO_open_read NDEBUG io0 f modes

/-- Function `BitIO_eof`. -/
def BitIO_eof (io : BitIO) : Bool :=
  match io.status_ with
  | BitIOStatus.Closed => true
  | BitIOStatus.Write => false
  | BitIOStatus.Read => io.eof

/-! ## Write path -/

/-- Function `BitIO_writeBuffer_`; `off` is the position of `data` in the
caller's array `bits`. -/
def BitIO_writeBuffer_ : Nat → BitIO → List Nat → Nat → Nat → Option BitIO
  | 0, _, _, _, _ => none
  | fuel + 1, io, bits, off, length =>
    if length = 0 then some io else
    let buffer_available := (BitIO_BufferSize + 4294967296 - io.bytes_written) % 4294967296
    let write_size := if buffer_available < length then buffer_available else length
    let io1 := { io with
      buffer_ := memcpyAt io.buffer_ io.current_byte_ ((bits.drop off).take write_size),
      current_byte_ := io.current_byte_ + write_size,
      bytes_written := (io.bytes_written + write_size) % 65536 }
    let io2 := if write_size = buffer_available then (streamOperation io1).2 else io1
    BitIO_writeBuffer_ fuel io2 bits (off + write_size) (length - write_size)

/-- Function `BitIO_advanceWriteBufferPointer_`. -/
def BitIO_advanceWriteBufferPointer_ (io : BitIO) : BitIO :=
  let io1 := { io with
    current_byte_ := io.current_byte_ + 1,
    bytes_written := (io.bytes_written + 1) % 65536 }
  if io1.bytes_written = BitIO_BufferSize then (streamOperation io1).2 else io1

/-- Function `BitIO_put`. -/
def BitIO_put (io : BitIO) (bit : Bool) : BitIO :=
  if BitIO_check_ io true then io else
  let io1 := io.setCur ((io.cur <<< 1) ||| bit.toNat)
  let io2 := { io1 with bits_written := (io1.bits_written + 1) % 256 }
  if io2.bits_written = CHAR_BIT then
    BitIO_advanceWriteBufferPointer_ { io2 with bits_written := 0 }
  else io2

/-- The `while(bit_length)` loop of `BitIO_write` (unaligned case); `off` is the
position of the pointer `bits` in the caller's array. -/
def BitIO_write_loop : Nat → BitIO → List Nat → Nat → Nat → Nat → Option BitIO
  | 0, _, _, _, _, _ => none
  | fuel + 1, io, bits, off, bit_length, padding_bits =>
    if bit_length = 0 then some io else
    let src := bits.getD off 0
    if bit_length < padding_bits then
      let io1 := io.setCur ((io.cur <<< bit_length) ||| (src >>> (CHAR_BIT - bit_length)))
      let io2 := { io1 with bits_written := (io1.bits_written + bit_length) % 256 }
      BitIO_write_loop fuel io2 bits off 0 padding_bits
    else
      let io1 := io.setCur ((io.cur <<< padding_bits) ||| (src >>> io.bits_written))
      let io2 := BitIO_advanceWriteBufferPointer_ io1
      let io3 := io2.setCur src
      if bit_length < CHAR_BIT then
        let io4 := { io3 with bits_written := (bit_length - padding_bits) % 256 }
        let io5 := io4.setCur (io4.cur >>> (CHAR_BIT - bit_length))
        BitIO_write_loop fuel io5 bits off 0 padding_bits
      else
        BitIO_write_loop fuel io3 bits (off + 1) (bit_length - CHAR_BIT) padding_bits

/-- Function `BitIO_write`; `fuel` bounds the iterations of each loop.  In the
aligned case the byte `bits[byte_length]` is read also when `bits_left = 0`; all
of its bits are then shifted out. -/
def BitIO_write (fuel : Nat) (io : BitIO) (bits : List Nat) (bit_length : Nat) : Option BitIO :=
  if BitIO_check_ io true then some io else
  if io.bits_written = 0 then
    let byte_length := bit_length / CHAR_BIT
    let bits_left := bit_length - byte_length * CHAR_BIT
    match BitIO_writeBuffer_ fuel io bits 0 byte_length with
    | none => none
    | some io1 =>
      let io2 := io1.setCur (bits.getD byte_length 0 >>> (CHAR_BIT - bits_left))
      some { io2 with bits_written := bits_left % 256 }
  else
    let padding_bits := (CHAR_BIT + 256 - io.bits_written) % 256
    BitIO_write_loop fuel io bits 0 bit_length padding_bits

/-! ## Read path -/

/-- Function `BitIO_readBuffer_`; `off` is the position of `data` in the
caller's array `bits`, `acc` the local counter `bits_read`. -/
def BitIO_readBuffer_ :
    Nat → BitIO → List Nat → Nat → Nat → Nat → Option (Nat × List Nat × BitIO)
  | 0, _, _, _, _, _ => none
  | fuel + 1, io, bits, off, length, acc =>
    if length = 0 then some (acc, bits, io) else
    let r := if io.bits_available = 0 then streamOperation io else (true, io)
    if r.1 = false then some (acc, bits, r.2) else
    let io1 := r.2
    let bytes_available :=
      io1.bits_read / CHAR_BIT + (if io1.bits_read % CHAR_BIT ≠ 0 then 1 else 0)
    let bytes_read := if length > bytes_available then bytes_available else length
    let bits_in_read_byte := bytes_read * CHAR_BIT
    let actual_bits_read :=
      if bits_in_read_byte > io1.bits_read then io1.bits_read else bits_in_read_byte
    let bits1 := memcpyAt bits off ((io1.buffer_.drop io1.current_byte_).take bytes_read)
    let io2 := { io1 with
      bits_read := (io1.bits_read + 65536 - actual_bits_read) % 65536,
      current_byte_ := io1.current_byte_ + bytes_read }
    BitIO_readBuffer_ fuel io2 bits1 (off + bytes_read) (length - bytes_read)
      (acc + actual_bits_read)

/-- Function `BitIO_advanceReadBufferPointer_`. -/
def BitIO_advanceReadBufferPointer_ (io : BitIO) : Bool × BitIO :=
  if io.bits_read = 0 then
    let r := streamOperation io
    if r.1 = false then (false, r.2) else (true, r.2)
  else
    (true,
     { io with
       current_byte_ := io.current_byte_ + 1,
       bits_available := if io.bits_read > CHAR_BIT then CHAR_BIT else io.bits_read })

/-- Function `BitIO_get`. -/
def BitIO_get (io : BitIO) : Nat × BitIO :=
  if BitIO_check_ io false then (EOF_uchar, io) else
  if BitIO_eof io then (EOF_uchar, io) else
  let r := if io.bits_available = 0 then BitIO_advanceReadBufferPointer_ io else (true, io)
  if r.1 = false then (EOF_uchar, r.2) else
  let io1 := r.2
  let result := (io1.cur >>> (CHAR_BIT - 1)) % 256
  let io2 := io1.setCur (io1.cur <<< 1)
  (result,
   { io2 with
     bits_read := (io2.bits_read + 65536 - 1) % 65536,
     bits_available := (io2.bits_available + 256 - 1) % 256 })

/-- The `while(bit_length)` loop of `BitIO_read`; `off` is the position of the
pointer `bits` in the caller's array, `acc` the local counter `bits_read`. -/
def BitIO_read_loop :
    Nat → BitIO → List Nat → Nat → Nat → Nat → Nat → Nat → Option (Nat × List Nat × BitIO)
  | 0, _, _, _, _, _, _, _ => none
  | fuel + 1, io, bits, off, bit_length, acc, bits_available, padding_bits =>
    if bit_length = 0 then some (acc, bits, io) else
    if bit_length ≤ io.bits_available then
      let io1 := { io with
        bits_available := (io.bits_available - bit_length) % 256,
        bits_read := (io.bits_read + 65536 - bit_length % 65536) % 65536 }
      let bits1 := bits.set off io1.cur
      let io2 := io1.setCur (io1.cur <<< bit_length)
      BitIO_read_loop fuel io2 bits1 off 0 acc bits_available padding_bits
    else
      let helper := io.cur
      let r := BitIO_advanceReadBufferPointer_ io
      if r.1 = false then some (acc + bits_available, bits.set off helper, r.2) else
      let io1 := r.2
      let helper1 := ((helper &&& (255 <<< padding_bits)) ||| (io1.cur >>> bits_available)) % 256
      let bits1 := bits.set off helper1
      let effective_bits_in_helper :=
        if io1.bits_available ≥ padding_bits then CHAR_BIT
        else (bits_available + io1.bits_available) % 256
      let actual_bits_read :=
        if effective_bits_in_helper > bit_length then bit_length % 256
        else effective_bits_in_helper
      let current_byte_consumed_bits := (actual_bits_read + 256 - bits_available) % 256
      let io2 := io1.setCur (io1.cur <<< current_byte_consumed_bits)
      let io3 := { io2 with
        bits_read := (io2.bits_read + 65536 - actual_bits_read) % 65536,
        bits_available := (io2.bits_available + 256 - current_byte_consumed_bits) % 256 }
      BitIO_read_loop fuel io3 bits1 off (bit_length - actual_bits_read)
        (acc + actual_bits_read) bits_available padding_bits

/-- Function `BitIO_read`; `bits` is the caller's destination array, returned
updated together with the number of bits reported as read. -/
def BitIO_read (fuel : Nat) (io : BitIO) (bits : List Nat) (bit_length : Nat) :
    Option (Nat × List Nat × BitIO) :=
  if BitIO_check_ io false then some (0, bits, io) else
  let r := if io.bits_available = 0 then BitIO_advanceReadBufferPointer_ io else (true, io)
  if r.1 = false then some (0, bits, r.2) else
  let io1 := r.2
  let tail (io2 : BitIO) (bits2 : List Nat) (off acc len : Nat) :=
    let bits_available := io2.bits_available
    let padding_bits := (CHAR_BIT + 256 - bits_available) % 256
    BitIO_read_loop fuel io2 bits2 off len acc bits_available padding_bits
  if io1.bits_available = 8 then
    let byte_length := bit_length / CHAR_BIT
    let bits_left := bit_length - byte_length * CHAR_BIT
    match BitIO_readBuffer_ fuel io1 bits 0 byte_length 0 with
    | none => none
    | some (n, bits1, io2) =>
      if n ≠ bit_length - bits_left then some (n, bits1, io2)
      else tail io2 bits1 byte_length n bits_left
  else tail io1 bits 0 0 bit_length

/-! ## Specification-level functions -/

/-- Value of the `len` bits of `e` that start at position `start`, the first
bit being the most significant; bits beyond the end of `e` count as 0. -/
def bitsVal (e : List Bool) (start : Nat) : Nat → Nat
  | 0 => 0
  | len + 1 => 2 * bitsVal e start len + (e.getD (start + len) false).toNat

/-- Content byte `j` of the MSB-first packing of `e`, zero padded. -/
def packedByte (e : List Bool) (j : Nat) : Nat := bitsVal e (8 * j) 8

/-- The MSB-first packing of a bit sequence into `ceil(K/8)` bytes. -/
def packBits (e : List Bool) : List Nat :=
  (List.range ((e.length + 7) / 8)).map (packedByte e)

/-- The size indicator for `K` content bits. -/
def trailerOf (K : Nat) : Nat := if K % 8 = 0 then 8 else K % 8

/-- Bit `i` of a byte sequence, counting from the most significant bit of the
first byte. -/
def bitAt (bytes : List Nat) (i : Nat) : Nat :=
  (bytes.getD (i / 8) 0 / 2 ^ (7 - i % 8)) % 2

/-- The first `n` bits of a byte sequence, most significant bit first. -/
def srcBits (bits : List Nat) (n : Nat) : List Bool :=
  (List.range n).map (fun i => decide (bitAt bits i = 1))

/-- Successive calls of `BitIO_put`, one per bit. -/
def putAll (io : BitIO) (bs : List Bool) : BitIO := bs.foldl BitIO_put io

/-- The results of `n` successive calls of `BitIO_get`, and the object after. -/
def getN : Nat → BitIO → List Nat × BitIO
  | 0, io => ([], io)
  | n + 1, io => ((BitIO_get io).1 :: (getN n (BitIO_get io).2).1, (getN n (BitIO_get io).2).2)

/-- The full bytes formed by the bits `e`. -/
def fullBytes (e : List Bool) : List Nat :=
  (List.range (e.length / 8)).map (packedByte e)

/-- The value of the bits of `e` that do not fill a byte. -/
def pendVal (e : List Bool) : Nat := bitsVal e (8 * (e.length / 8)) (e.length % 8)

/-- Shape of a BitIO between two write operations. -/
structure WInv (io : BitIO) : Prop where
  status : io.status_ = BitIOStatus.Write
  op : io.streamOperation_ = StreamOp.push
  cursor : io.current_byte_ = io.bytes_written
  room : io.bytes_written < BitIO_BufferSize
  buflen : BitIO_BufferSize ≤ io.buffer_.length
  attached : io.stream_.isSome = true

/-- The bytes that a writer has produced so far: the content of the sink
followed by the bytes committed to the buffer. -/
def producedBytes (io : BitIO) : List Nat :=
  (match io.stream_ with
   | some f => f.bytes
   | none => []) ++ io.buffer_.take io.bytes_written

/-- The writer `io`, whose plain flag is `pl`, has produced the bytes `pre`
followed by the bytes `B`. -/
def WBytes (io : BitIO) (pl : Bool) (pre B : List Nat) : Prop :=
  WInv io ∧ io.plain_ = pl ∧ producedBytes io = pre ++ B

/-- The writer `io`, whose plain flag is `pl`, has emitted, after the bytes
`pre`, exactly the bits `e`. -/
def WRel (io : BitIO) (pl : Bool) (pre : List Nat) (e : List Bool) : Prop :=
  WInv io ∧ io.plain_ = pl ∧ producedBytes io = pre ++ fullBytes e ∧
    io.bits_written = e.length % 8 ∧ io.cur % 2 ^ (e.length % 8) = pendVal e

/-- A request word that opens a structured writer on a stream handle: it
passes the validation of `BitIO_open`, asks for writing, and sets neither
`BitIOOpen_Plain` nor `BitIOOpen_ByPath`. -/
def structuredWriteRequest (modes : Nat) : Bool :=
  decide (modes &&& (0xFFFFFFFF ^^^ BitIOOpen_Mask) = 0) && hasFlag modes BitIOOpen_Write
    && !hasFlag modes BitIOOpen_Read && !hasFlag modes BitIOOpen_Plain
    && !hasFlag modes BitIOOpen_ByPath

/-- A call of one of the two write operations. -/
inductive WriteCall where
  | put (bit : Bool)
  | write (bits : List Nat) (bit_length : Nat)

/-- The bits that a call is asked to emit. -/
def WriteCall.emitted : WriteCall → List Bool
  | WriteCall.put b => [b]
  | WriteCall.write bits n => srcBits bits n

/-- A call is well formed when its source holds `bit_length` bits, its source
bytes are bytes, and `fuel` covers the iterations of `BitIO_write`. -/
def WriteCall.wf (fuel : Nat) : WriteCall → Prop
  | WriteCall.put _ => True
  | WriteCall.write bits n => n ≤ 8 * bits.length ∧ (∀ x ∈ bits, x < 256) ∧ n / 8 + 2 ≤ fuel

/-- A sequence of write calls, performed in order. -/
def runCalls (fuel : Nat) : List WriteCall → BitIO → Option BitIO
  | [], io => some io
  | WriteCall.put b :: cs, io => runCalls fuel cs (BitIO_put io b)
  | WriteCall.write bits n :: cs, io =>
    match BitIO_write fuel io bits n with
    | none => none
    | some io1 => runCalls fuel cs io1

/-- All bits that a sequence of calls is asked to emit. -/
def emittedAll : List WriteCall → List Bool
  | [] => []
  | c :: cs => c.emitted ++ emittedAll cs

/-- Number of bits that a call is asked to emit. -/
def WriteCall.bitCount : WriteCall → Nat
  | WriteCall.put _ => 1
  | WriteCall.write _ n => n

/-- Number of bits that a sequence of calls is asked to emit. -/
def totalBits (calls : List WriteCall) : Nat := (calls.map WriteCall.bitCount).sum

/-- What can be observed of a writer: the bytes produced so far (sink and
committed part of the buffer), the number of pending bits, and their value. -/
def writerView (io : BitIO) : List Nat × Nat × Nat :=
  (producedBytes io, io.bits_written, io.cur % 2 ^ io.bits_written)

/-- The bytes of the stream left behind by `BitIO_close`, if it returned one. -/
def closedBytes (r : Option ( BitIO × Option FILE)) : Option (List Nat) :=
  match r with
  | some (_, some f) => some f.bytes
  | _ => none

/-- The sink content after a continuation of write calls and `BitIO_close`. -/
def finishWith (NDEBUG : Bool) (fuel : Nat) (calls : List WriteCall) (io : BitIO) :
    Option (List Nat) :=
  match runCalls fuel calls io with
  | none => none
  | some io1 => closedBytes (BitIO_close NDEBUG io1)

/-- A writer with three pending bits (binary 101) whose buffer holds 1023
committed bytes; used to instantiate statements about writer states. -/
def sampleWriter : BitIO :=
  { buffer_ := List.replicate 1023 0 ++ [5, 0, 0], current_byte_ := 1023, eof := false,
    bits_available := 0, bits_read := 0, bits_written := 3, bytes_written := 1023,
    stream_ := some FILE.output, managed_ := true, plain_ := false,
    status_ := BitIOStatus.Write, streamOperation_ := StreamOp.push }

/-- A reader that has not reached the end of its stream. -/
structure RInv (io : BitIO) : Prop where
  status : io.status_ = BitIOStatus.Read
  noeof : io.eof = false

/-- The object `io1` differs from `io` at most in its counters, its cursor and
the buffer bytes below index `q`. -/
structure RFrame (io io1 : BitIO) (q : Nat) : Prop where
  status : io1.status_ = io.status_
  eof : io1.eof = io.eof
  stream : io1.stream_ = io.stream_
  op : io1.streamOperation_ = io.streamOperation_
  buflen : io1.buffer_.length = io.buffer_.length
  above : io1.buffer_.drop q = io.buffer_.drop q

/-- A structured reader whose buffer is used up: the two lookahead bytes in the
redundancy buffer followed by the unread rest of the source are `F`. -/
structure RReady (io : BitIO) (F : List Nat) : Prop where
  status : io.status_ = BitIOStatus.Read
  noeof : io.eof = false
  op : io.streamOperation_ = StreamOp.pull_BitIO
  buflen : io.buffer_.length = BitIO_BufferSize + BitIO_BufferRedundancy
  avail : io.bits_available = 0
  pending : io.bits_read = 0
  source : ∃ f, io.stream_ = some f ∧ f.eofInd = false ∧
    io.buffer_.drop BitIO_BufferSize ++ f.bytes = F

/-- A request word that opens a reader on a stream handle and lets it detect
the structure from the signature: after the default is applied it passes the
validation of `BitIO_open`, asks for reading, and sets neither
`BitIOOpen_Plain` nor `BitIOOpen_ByPath`. -/
def detectingReadRequest (modes : Nat) : Bool :=
  decide ((if modes = 0 then BitIOOpen_Read else modes) &&& (0xFFFFFFFF ^^^ BitIOOpen_Mask) = 0)
    && hasFlag (if modes = 0 then BitIOOpen_Read else modes) BitIOOpen_Read
    && !hasFlag (if modes = 0 then BitIOOpen_Read else modes) BitIOOpen_Write
    && !hasFlag (if modes = 0 then BitIOOpen_Read else modes) BitIOOpen_Plain
    && !hasFlag (if modes = 0 then BitIOOpen_Read else modes) BitIOOpen_ByPath

/-- The reader obtained by creating a BitIO with a zeroed buffer and opening it,
with the default request, on a stream that holds `bytes`; `none` when the open
fails or aborts. -/
def openedReader (bytes : List Nat) : Option BitIO :=
  match BitIO_open false (BitIO_create (List.replicate 1026 0))
      (some ⟨FILE.input bytes, none⟩) 0 with
  | some r => if r.ok then some r.io else none
  | none => none

/-- The five reasons for which the validation of `BitIO_open` refuses a request:
a bit outside the six flags, a nonzero word that does not name exactly one of
read and write, plain together with structured, unmanaged together with
by-path, or no source. -/
def rejectedRequest (modes : Nat) (source : Option Source) : Prop :=
  64 ≤ modes ∨
  (modes ≠ 0 ∧ hasFlag modes BitIOOpen_Read = hasFlag modes BitIOOpen_Write) ∨
  (hasFlag modes BitIOOpen_Plain = true ∧ hasFlag modes ( BitIOOpen_BitIO) = true) ∨
  (hasFlag modes BitIOOpen_Unmanaged = true ∧ hasFlag modes BitIOOpen_ByPath = true) ∨
  source = none

/-- The part of `BitIO_open` that follows the validation, as it runs for the
request word `m` (the default already applied) on the source `src`. -/
def afterValidation (NDEBUG : Bool) (io : BitIO) (src : Source) (m : Nat) : Option OpenResult :=
  match (if hasFlag m BitIOOpen_ByPath then src.fopen else some src.file) with
  | none => some ⟨false, { io with stream_ := none }, none⟩
  | some f =>
    let io0 := { io with stream_ := some f, managed_ := !hasFlag m BitIOOpen_Unmanaged }
    if hasFlag m BitIOOpen_Write then
      if hasFlag m BitIOOpen_Plain then
        some ⟨true,
          { io0 with
            plain_ := true, streamOperation_ := StreamOp.push,
            status_ := BitIOStatus.Write }, none⟩
      else
        some ⟨true,
          { io0 with
            stream_ := some (fwrite BitIO_Signature f), plain_ := false,
            streamOperation_ := StreamOp.push, status_ := BitIOStatus.Write }, none⟩
    else BitIO_open_read NDEBUG io0 f m

/-- A request word that opens a plain writer on a stream handle: it passes the
validation of `BitIO_open`, asks for writing, sets `BitIOOpen_Plain`, and does
not set `BitIOOpen_ByPath`. -/
def plainWriteRequest (modes : Nat) : Bool :=
  decide (modes &&& (0xFFFFFFFF ^^^ BitIOOpen_Mask) = 0) && hasFlag modes BitIOOpen_Write
    && !hasFlag modes BitIOOpen_Read && hasFlag modes BitIOOpen_Plain
    && !hasFlag modes ( BitIOOpen_BitIO) && !hasFlag modes BitIOOpen_ByPath

/-- A call of one of the public operations on an open BitIO. -/
inductive PublicCall where
  | put (bit : Bool)
  | write (bits : List Nat) (bit_length : Nat)
  | get
  | read (bits : List Nat) (bit_length : Nat)
  | eof

/-- What a public operation hands back to its caller: nothing, the value
returned by `BitIO_get`, the count returned by `BitIO_read` together with the
destination array, or the flag returned by `BitIO_eof`. -/
inductive CallResult where
  | done
  | bit (v : Nat)
  | count (n : Nat) (dest : List Nat)
  | flag (b : Bool)
deriving DecidableEq, Repr

/-- One public call: what it returns and the object afterwards; `none` when
`fuel` does not cover the iterations of a loop. -/
def PublicCall.run (fuel : Nat) : PublicCall → BitIO → Option (CallResult × BitIO)
  | PublicCall.put b, io => some (CallResult.done, BitIO_put io b)
  | PublicCall.write bits n, io =>
    match BitIO_write fuel io bits n with
    | none => none
    | some io1 => some (CallResult.done, io1)
  | PublicCall.get, io => some (CallResult.bit (BitIO_get io).1, (BitIO_get io).2)
  | PublicCall.read bits n, io =>
    match BitIO_read fuel io bits n with
    | none => none
    | some (k, dest, io1) => some (CallResult.count k dest, io1)
  | PublicCall.eof, io => some (CallResult.flag (BitIO_eof io), io)

/-- A sequence of public calls, performed in order: the results and the object
afterwards. -/
def runPublic (fuel : Nat) : List PublicCall → BitIO → Option (List CallResult × BitIO)
  | [], io => some ([], io)
  | c :: cs, io =>
    match c.run fuel io with
    | none => none
    | some (r, io1) =>
      match runPublic fuel cs io1 with
      | none => none
      | some (rs, io2) => some (r :: rs, io2)

/-- The objects `io` and `io1` have the same status, the same ownership flag,
and hold or lack a stream alike, closed or not alike. -/
structure SameHandle (io io1 : BitIO) : Prop where
  managed : io1.managed_ = io.managed_
  status : io1.status_ = io.status_
  handle : io1.stream_.map FILE.closed = io.stream_.map FILE.closed

/-- The stream that `BitIO_open` attaches for the request word `modes`: the
result of `fopen` with `BitIOOpen_ByPath`, the given handle otherwise. -/
def Source.handle (src : Source) (modes : Nat) : Option FILE :=
  if hasFlag modes BitIOOpen_ByPath then src.fopen else some src.file

/-- The session that opens a freshly created BitIO with buffer bytes `buf` on
an input stream holding `src` and performs public calls: what the calls
return; `none` when the open fails or aborts or `fuel` runs out. -/
def openAndRun (NDEBUG : Bool) (buf src : List Nat) (modes fuel : Nat)
    (calls : List PublicCall) : Option (List CallResult) :=
  match BitIO_open NDEBUG (BitIO_create buf) (some ⟨FILE.input src, none⟩) modes with
  | some r =>
    if r.ok then
      match runPublic fuel calls r.io with
      | some (rs, _) => some rs
      | none => none
    else none
  | none => none

/-- A request word under which `BitIO_open` reads a stream handle holding `src`
as plain: after the default is applied it passes the validation, asks for
reading, sets neither `BitIOOpen_ByPath` nor `BitIOOpen_BitIO`, and either sets
`BitIOOpen_Plain` or `src` does not start with the signature. -/
def plainReadRequest (modes : Nat) (src : List Nat) : Bool :=
  decide ((if modes = 0 then BitIOOpen_Read else modes) &&& (0xFFFFFFFF ^^^ BitIOOpen_Mask) = 0)
    && hasFlag (if modes = 0 then BitIOOpen_Read else modes) BitIOOpen_Read
    && !hasFlag (if modes = 0 then BitIOOpen_Read else modes) BitIOOpen_Write
    && !hasFlag (if modes = 0 then BitIOOpen_Read else modes) BitIOOpen_ByPath
    && !hasFlag (if modes = 0 then BitIOOpen_Read else modes) ( BitIOOpen_BitIO)
    && (hasFlag (if modes = 0 then BitIOOpen_Read else modes) BitIOOpen_Plain
        || decide (src.take BitIO_SignatureLength ≠ BitIO_Signature))

/-- A plain reader whose buffer is used up; `R` is the unread rest of the
source. -/
structure PReady (io : BitIO) (R : List Nat) : Prop where
  status : io.status_ = BitIOStatus.Read
  noeof : io.eof = false
  op : io.streamOperation_ = StreamOp.pull_regular
  buflen : BitIO_BufferSize ≤ io.buffer_.length
  avail : io.bits_available = 0
  pending : io.bits_read = 0
  source : ∃ f, io.stream_ = some f ∧ f.bytes = R ∧ (f.eofInd = true → R = [])

/-- A plain reader whose buffer has just been filled with the bytes `D`; `R`
is the unread rest of the source. -/
structure PLoaded (io : BitIO) (D R : List Nat) : Prop where
  status : io.status_ = BitIOStatus.Read
  noeof : io.eof = false
  op : io.streamOperation_ = StreamOp.pull_regular
  buflen : BitIO_BufferSize ≤ io.buffer_.length
  size : D.length ≤ BitIO_BufferSize
  cursor : io.current_byte_ = 0
  avail : io.bits_available = if io.bits_read > CHAR_BIT then CHAR_BIT else io.bits_read
  pending : io.bits_read = 8 * D.length
  loaded : ∀ j, j < D.length → io.buffer_.getD j 0 = D.getD j 0
  source : ∃ f, io.stream_ = some f ∧ f.bytes = R ∧ (f.eofInd = true → R = [])

/-! ## Containers: Vector, KeyValue, Heap

Pointers to stored objects are values of a type parameter; `NULL` results are
`none`.  Releasing memory (`RAII_delete`, `free`) has no counterpart: only the
ownership flags that decide it are kept.  Values of type `unsigned int` are
natural numbers reduced modulo `2 ^ 32`. -/

/-- Number of values of an `unsigned int`. -/
def UINT_RANGE : Nat := 4294967296

/-- Constant `VectorInitialCapability`. -/
def VectorInitialCapability : Nat := 32
/-- Constant `VectorEnlargeBias`. -/
def VectorEnlargeBias : Nat := 10

/-- The object `VectorItem_`: the stored pointer, and whether the item owns it
(which deleter `VectorItem_create_` installed). -/
structure VectorItem_ (α : Type) where
  data : α
  owned : Bool

/-- Function `VectorItem_create_`. -/
def VectorItem_create_ {α : Type} (data : α) (owned : Bool) : VectorItem_ α := ⟨data, owned⟩

/-- The object `struct Vector`.  The array `data` together with the field
`size` is the list of its live slots `data[0 .. size-1]`, so `size` is the
length of that list; slots at and above `size` are never read. -/
structure Vector (α : Type) where
  data : List (VectorItem_ α)
  capability : Nat

/-- Function `Vector_create` (with `Vector_initialize_`). -/
def Vector_create {α : Type} : Vector α := ⟨[], VectorInitialCapability⟩

/-- Function `Vector_clear`. -/
def Vector_clear {α : Type} (_vector : Vector α) : Vector α := ⟨[], VectorInitialCapability⟩

/-- Function `Vector_size`. -/
def Vector_size {α : Type} (vector : Vector α) : Nat := vector.data.length

/-- Function `Vector_recap`. -/
def Vector_recap {α : Type} (vector : Vector α) (new_capability : Nat) : Vector α :=
  if new_capability = vector.capability ∨ new_capability < Vector_size vector then vector
  else { vector with capability := new_capability }

/-- Function `Vector_emplace_back`: the store `data[size] = item` followed by
`size += 1` appends the item to the live slots. -/
def Vector_emplace_back {α : Type} (vector : Vector α) (data : α) (owned : Bool) : Vector α :=
  let v1 :=
    if Vector_size vector = vector.capability then
      Vector_recap vector ((vector.capability <<< 1) + VectorEnlargeBias)
    else vector
  { v1 with data := v1.data ++ [VectorItem_create_ data owned] }

/-- Function `Vector_pop_back`. -/
def Vector_pop_back {α : Type} (vector : Vector α) : Vector α :=
  if Vector_size vector = 0 then vector else
  let v1 := { vector with data := vector.data.dropLast }
  if Vector_size v1 < (v1.capability >>> 1) then Vector_recap v1 (v1.capability >>> 1) else v1

/-- Function `Vector_swap`. -/
def Vector_swap {α : Type} (vector : Vector α) (p q : Nat) : Vector α :=
  if p ≥ Vector_size vector ∨ q ≥ Vector_size vector then vector else
  match vector.data[p]?, vector.data[q]? with
  | some temp, some b => { vector with data := (vector.data.set p b).set q temp }
  | _, _ => vector

/-- Function `Vector_at`. -/
def Vector_at {α : Type} (vector : Vector α) (index : Nat) : Option α :=
  if index ≥ Vector_size vector then none
  else (vector.data[index]?).map (fun item => item.data)

/-- The object `KeyValue`. -/
structure KeyValue (K V : Type) where
  key : K
  value : V
  key_owned : Bool
  value_owned : Bool

/-- Function `KeyValue_create`. -/
def KeyValue_create {K V : Type} (key : K) (owns_key : Bool) (value : V) (owns_value : Bool) :
    KeyValue K V :=
  ⟨key, value, owns_key, owns_value⟩

/-- A three-way comparison that is a total preorder: swapping the arguments
swaps the sign, and "not greater" is transitive. -/
structure ThreeWayPreorder {K : Type} (compare : K → K → Int) : Prop where
  flip : ∀ a b, compare a b < 0 ↔ 0 < compare b a
  trans : ∀ a b c, compare a b ≤ 0 → compare b c ≤ 0 → compare a c ≤ 0

/-- The usual three-way comparison of natural numbers; used to instantiate
statements about heaps. -/
def natCompare (a b : Nat) : Int := (a : Int) - (b : Int)

/-- A structured reader whose buffer is used up, whose redundancy bytes are
`AA 08` and whose stream has nothing left but has not reported its end; used
to instantiate statements about reader states. -/
def sampleReader : BitIO :=
  { buffer_ := List.replicate 1024 0 ++ [0xAA, 0x08], current_byte_ := 0, eof := false,
    bits_available := 0, bits_read := 0, bits_written := 0, bytes_written := 0,
    stream_ := some (FILE.input []), managed_ := true, plain_ := false,
    status_ := BitIOStatus.Read, streamOperation_ := StreamOp.pull_BitIO }

/-- A structured stream of 8193 content bits: 1024 zero bytes, a single 1 bit
in a 1025th content byte, and the trailer 1. -/
def longSource : List Nat := BitIO_Signature ++ List.replicate 1024 0 ++ [0x80, 0x01]

/-! ## Linked lists

The `List` objects and their nodes live in a memory `ListMem`.  A `List*` is
the address of the `List`; its embedded head node is the cell
`NodeRef.head` of that address.  `NULL` is `none`.  Releasing memory
(`RAII_delete`) has no counterpart. -/

/-- A non-null `ListNode*`: the head node embedded in the `List` at address
`l`, or a node allocated at address `a`. -/
inductive NodeRef where
  | head (l : Nat)
  | node (a : Nat)
deriving DecidableEq, Repr

/-- The object `ListNode`; `owned` records which deleter `ListNode_create`
installed. -/
structure ListNode (α : Type) where
  data : Option α
  next : Option NodeRef
  prev : Option NodeRef
  owned : Bool

/-- The memory of list nodes and of the fields `size` of the `List` objects. -/
structure ListMem (α : Type) where
  cell : NodeRef → ListNode α
  size : Nat → Nat

/-- The store `p->next = v`. -/
def ListMem.setNext {α : Type} (m : ListMem α) (p : NodeRef) (v : Option NodeRef) : ListMem α :=
  { m with cell := fun q => if q = p then { m.cell p with next := v } else m.cell q }

/-- The store `p->prev = v`. -/
def ListMem.setPrev {α : Type} (m : ListMem α) (p : NodeRef) (v : Option NodeRef) : ListMem α :=
  { m with cell := fun q => if q = p then { m.cell p with prev := v } else m.cell q }

/-- The store `list->size = v`. -/
def ListMem.setSize {α : Type} (m : ListMem α) (list : Nat) (v : Nat) : ListMem α :=
  { m with size := fun l => if l = list then v else m.size l }

/-- Function `ListNode_create`; `a` is the address that `malloc` returned. -/
def ListNode_create {α : Type} (m : ListMem α) (a : Nat) (data : Option α) (owned : Bool) :
    NodeRef × ListMem α :=
  (NodeRef.node a,
   { m with cell := fun q => if q = NodeRef.node a then ⟨data, none, none, owned⟩ else m.cell q })

/-- Function `ListNode_get`. -/
def ListNode_get {α : Type} (m : ListMem α) (list_node : NodeRef) : Option α :=
  (m.cell list_node).data

/-- Function `List_initialize`. -/
def List_initialize {α : Type} (m : ListMem α) (list : Nat) : ListMem α :=
  let m1 : ListMem α :=
    { m with
      cell := fun q => if q = NodeRef.head list then { m.cell q with data := none } else m.cell q }
  let m2 := m1.setNext (NodeRef.head list) (some (NodeRef.head list))
  let m3 := m2.setPrev (NodeRef.head list) (some (NodeRef.head list))
  m3.setSize list 0

/-- Function `List_empty`. -/
def List_empty {α : Type} (m : ListMem α) (list : Nat) : Bool :=
  decide ((m.cell (NodeRef.head list)).next = some (NodeRef.head list))

/-- Function `List_size`. -/
def List_size {α : Type} (m : ListMem α) (list : Nat) : Nat := m.size list

/-- Function `List_emplace_after`; `none` when a `NULL` pointer is
dereferenced. -/
def List_emplace_after {α : Type} (m : ListMem α) (list : Nat) (insert after : NodeRef) :
    Option (NodeRef × ListMem α) :=
  let m1 := m.setNext insert (m.cell after).next
  match (m1.cell after).next with
  | none => none
  | some after_next =>
    let m2 := m1.setPrev after_next (some insert)
    let m3 := m2.setNext after (some insert)
    let m4 := m3.setPrev insert (some after)
    some (insert, m4.setSize list (m4.size list + 1))

/-- Function `List_emplace_before`; `none` when a `NULL` pointer is
dereferenced. -/
def List_emplace_before {α : Type} (m : ListMem α) (list : Nat) (insert before : NodeRef) :
    Option (NodeRef × ListMem α) :=
  let m1 := m.setPrev insert (m.cell before).prev
  let m2 := m1.setPrev before (some insert)
  let m3 := m2.setNext insert (some before)
  match (m3.cell insert).prev with
  | none => none
  | some insert_prev =>
    let m4 := m3.setNext insert_prev (some insert)
    some (insert, m4.setSize list (m4.size list + 1))

/-- Function `List_emplace_front`. -/
def List_emplace_front {α : Type} (m : ListMem α) (list : Nat) (list_node : NodeRef) :
    Option (NodeRef × ListMem α) :=
  List_emplace_after m list list_node (NodeRef.head list)

/-- Function `List_emplace_back`. -/
def List_emplace_back {α : Type} (m : ListMem α) (list : Nat) (list_node : NodeRef) :
    Option (NodeRef × ListMem α) :=
  List_emplace_before m list list_node (NodeRef.head list)

/-- Function `List_detach`; `none` when a `NULL` pointer is dereferenced. -/
def List_detach {α : Type} (m : ListMem α) (list : Nat) (list_node : NodeRef) :
    Option (ListMem α) :=
  if m.size list = 0 then some m else
  match (m.cell list_node).prev with
  | none => none
  | some node_prev =>
    let m1 := m.setNext node_prev (m.cell list_node).next
    match (m1.cell list_node).next with
    | none => none
    | some node_next =>
      let m2 := m1.setPrev node_next (m1.cell list_node).prev
      let m3 := m2.setPrev list_node none
      let m4 := m3.setNext list_node none
      some (m4.setSize list (m4.size list - 1))

/-- Function `List_erase`. -/
def List_erase {α : Type} (m : ListMem α) (list : Nat) (list_node : NodeRef) :
    Option (ListMem α) :=
  List_detach m list list_node

/-- Function `List_default_comparator`: equality of the two pointers. -/
def List_default_comparator {α : Type} [DecidableEq α] (data rhs : Option α) : Bool :=
  decide (data = rhs)

/-- The `for` loop of `List_find`, entered with the pointer `node`; the outer
`none` when `fuel` runs out or a `NULL` pointer is dereferenced. -/
def List_find_loop {α : Type} (m : ListMem α) (list : Nat) (data : Option α)
    (comparator : Option α → Option α → Bool) : Nat → Option NodeRef → Option (Option NodeRef)
  | 0, _ => none
  | _ + 1, none => none
  | fuel + 1, some node =>
    if node = NodeRef.head list then some none else
    if comparator data (m.cell node).data then some (some node)
    else List_find_loop m list data comparator fuel (m.cell node).next

/-- Function `List_find`; `fuel` bounds the iterations of its loop, and a
`comparator` of `none` is `NULL`. -/
def List_find {α : Type} [DecidableEq α] (fuel : Nat) (m : ListMem α) (list : Nat)
    (data : Option α) (comparator : Option (Option α → Option α → Bool)) :
    Option (Option NodeRef) :=
  let comparator1 :=
    match comparator with
    | none => List_default_comparator
    | some c => c
  List_find_loop m list data comparator1 fuel (m.cell (NodeRef.head list)).next

/-- The `while` loop of `List_clear`, entered with the pointer `current`: it
follows the `next` pointers up to the head; `none` when `fuel` runs out or a
`NULL` pointer is dereferenced. -/
def List_clear_loop {α : Type} (m : ListMem α) (list : Nat) : Nat → Option NodeRef → Option Unit
  | 0, _ => none
  | _ + 1, none => none
  | fuel + 1, some current =>
    if current = NodeRef.head list then some ()
    else List_clear_loop m list fuel (m.cell current).next

/-- Function `List_clear`; `fuel` bounds the iterations of its loop. -/
def List_clear {α : Type} (fuel : Nat) (m : ListMem α) (list : Nat) : Option (ListMem α) :=
  match List_clear_loop m list fuel (m.cell (NodeRef.head list)).next with
  | none => none
  | some _ => some ( List_initialize m list)

/-- Consecutive entries of a path of node pointers are linked both ways. -/
def Linked {α : Type} (m : ListMem α) : List NodeRef → Prop
  | a :: b :: l => (m.cell a).next = some b ∧ (m.cell b).prev = some a ∧ Linked m (b :: l)
  | _ => True

/-- The `List` at address `list` holds exactly the nodes `seq`, front to
back: following `next` from the head visits them in order and returns to the
head, `prev` links run the other way, and `size` is their number. -/
structure ListRepr {α : Type} (m : ListMem α) (list : Nat) (seq : List NodeRef) : Prop where
  linked : Linked m (NodeRef.head list :: seq ++ [NodeRef.head list])
  nodup : (NodeRef.head list :: seq).Nodup
  size : m.size list = seq.length

/-- The sequence `seq` with `n` placed right after its entry `a`. -/
def seqInsertAfter (n a : NodeRef) : List NodeRef → List NodeRef
  | [] => []
  | x :: xs => if x = a then x :: n :: xs else x :: seqInsertAfter n a xs

/-- The sequence `seq` with `n` placed right before its entry `c`. -/
def seqInsertBefore (n c : NodeRef) : List NodeRef → List NodeRef
  | [] => []
  | x :: xs => if x = c then n :: x :: xs else x :: seqInsertBefore n c xs

/-- The sequence that `List_emplace_after` leaves. -/
def listInsertAfter (list : Nat) (n a : NodeRef) (seq : List NodeRef) : List NodeRef :=
  if a = NodeRef.head list then n :: seq else seqInsertAfter n a seq

/-- The sequence that `List_emplace_before` leaves. -/
def listInsertBefore (list : Nat) (n c : NodeRef) (seq : List NodeRef) : List NodeRef :=
  if c = NodeRef.head list then seq ++ [n] else seqInsertBefore n c seq

/-- In `m1` the node `n` is linked between `a` and `b`, and nothing else
differs from `m`. -/
structure Spliced {α : Type} (m m1 : ListMem α) (a n b : NodeRef) : Prop where
  next_n : (m1.cell n).next = some b
  prev_n : (m1.cell n).prev = some a
  next_a : (m1.cell a).next = some n
  prev_b : (m1.cell b).prev = some n
  next_other : ∀ x, x ≠ a → x ≠ n → (m1.cell x).next = (m.cell x).next
  prev_other : ∀ x, x ≠ b → x ≠ n → (m1.cell x).prev = (m.cell x).prev
  data : ∀ x, (m1.cell x).data = (m.cell x).data
  cell_other : ∀ x, x ≠ a → x ≠ b → x ≠ n → m1.cell x = m.cell x

/-- In `m1` the node `n` that sat between `a` and `b` is unlinked, and nothing
else differs from `m`. -/
structure Unspliced {α : Type} (m m1 : ListMem α) (a n b : NodeRef) : Prop where
  next_a : (m1.cell a).next = some b
  prev_b : (m1.cell b).prev = some a
  next_other : ∀ x, x ≠ a → x ≠ n → (m1.cell x).next = (m.cell x).next
  prev_other : ∀ x, x ≠ b → x ≠ n → (m1.cell x).prev = (m.cell x).prev
  data : ∀ x, (m1.cell x).data = (m.cell x).data
  cell_other : ∀ x, x ≠ a → x ≠ b → x ≠ n → m1.cell x = m.cell x

/-- The lists built at address `list`: `ListBuilt list m seq` holds when the
memory `m` results from `List_initialize` followed by node creations,
emplacements and detachments, used as their contract demands (an emplaced node
is not in the list, an anchor and a detached node are), and `seq` is the
sequence of nodes this leaves, front to back. -/
inductive ListBuilt {α : Type} (list : Nat) : ListMem α → List NodeRef → Prop
  | init (m : ListMem α) : ListBuilt list ( List_initialize m list) []
  | create (m : ListMem α) (seq : List NodeRef) (a : Nat) (data : Option α) (owned : Bool) :
      ListBuilt list m seq → NodeRef.node a ∉ seq →
      ListBuilt list (ListNode_create m a data owned).2 seq
  | emplace_front (m : ListMem α) (seq : List NodeRef) (n : NodeRef) (r : NodeRef × ListMem α) :
      ListBuilt list m seq → n ∉ NodeRef.head list :: seq →
      List_emplace_front m list n = some r → ListBuilt list r.2 (n :: seq)
  | emplace_back (m : ListMem α) (seq : List NodeRef) (n : NodeRef) (r : NodeRef × ListMem α) :
      ListBuilt list m seq → n ∉ NodeRef.head list :: seq →
      List_emplace_back m list n = some r → ListBuilt list r.2 (seq ++ [n])
  | emplace_after (m : ListMem α) (seq : List NodeRef) (n a : NodeRef)
      (r : NodeRef × ListMem α) :
      ListBuilt list m seq → n ∉ NodeRef.head list :: seq → a ∈ NodeRef.head list :: seq →
      List_emplace_after m list n a = some r → ListBuilt list r.2 (listInsertAfter list n a seq)
  | emplace_before (m : ListMem α) (seq : List NodeRef) (n c : NodeRef)
      (r : NodeRef × ListMem α) :
      ListBuilt list m seq → n ∉ NodeRef.head list :: seq → c ∈ NodeRef.head list :: seq →
      List_emplace_before m list n c = some r →
      ListBuilt list r.2 (listInsertBefore list n c seq)
  | detach (m : ListMem α) (seq : List NodeRef) (n : NodeRef) (m1 : ListMem α) :
      ListBuilt list m seq → n ∈ seq → List_detach m list n = some m1 →
      ListBuilt list m1 (seq.erase n)

/-- A memory in which nothing has been stored yet. -/
def emptyListMem : ListMem Nat := ⟨fun _ => ⟨none, none, none, false⟩, fun _ => 0⟩

/-- The list at address 0 after `List_initialize` and the emplacement of a node
at address 1 holding 5. -/
def sampleListMem1 : ListMem Nat :=
  match List_emplace_front (ListNode_create ( List_initialize emptyListMem 0) 1 (some 5) true).2 0
      (NodeRef.node 1) with
  | some r => r.2
  | none => emptyListMem

/-- The list of `sampleListMem1` after the emplacement, at its front, of a
node at address 2 holding 7. -/
def sampleListMem : ListMem Nat :=
  match List_emplace_front (ListNode_create sampleListMem1 2 (some 7) true).2 0
      (NodeRef.node 2) with
  | some r => r.2
  | none => emptyListMem

/-! ## Hash tables

The bucket lists of a table live in a `ListMem` whose node data are
`KeyValue*` values; the `List` of bucket `i` is at address `index + i`. -/

/-- A non-null `KeyValue*`: the address of a `KeyValue` and the object stored
there (a `KeyValue` is never modified after `KeyValue_create`). -/
structure KeyValueRef (K V : Type) where
  addr : Nat
  target : KeyValue K V

/-- The object `HashTable`. -/
structure HashTable (K V : Type) where
  index : Nat
  size : Nat
  lines : Nat
  hash : K → Nat
  compare : K → K → Int

/-- Function `HashTable_bounded_hash_`: the `unsigned int` that `hash` returns,
reduced modulo `lines`; `none` for the division by zero of a table without
lines. -/
def HashTable_bounded_hash_ {K V : Type} (hash_table : HashTable K V) (data : K) : Option Nat :=
  if hash_table.lines = 0 then none
  else some ((hash_table.hash data % UINT_RANGE) % hash_table.lines)

/-- Function `HashTable_initialize`; `index` is the address that `malloc`
returned. -/
def HashTable_initialize {K V : Type} (m : ListMem (KeyValueRef K V)) (index lines : Nat)
    (hash : K → Nat) (compare : K → K → Int) : ListMem (KeyValueRef K V) × HashTable K V :=
  ((List.range lines).foldl (fun m1 i => List_initialize m1 (index + i)) m,
   ⟨index, 0, lines, hash, compare⟩)

/-- The `for` loop of `HashTable_clear` over the bucket numbers `is`. -/
def HashTable_clear_loop {K V : Type} (fuel : Nat) (index : Nat) :
    List Nat → ListMem (KeyValueRef K V) → Option (ListMem (KeyValueRef K V))
  | [], m => some m
  | i :: is, m =>
    match List_clear fuel m (index + i) with
    | none => none
    | some m1 => HashTable_clear_loop fuel index is m1

/-- Function `HashTable_clear`; `fuel` bounds the iterations of each
`List_clear`. -/
def HashTable_clear {K V : Type} (fuel : Nat) (m : ListMem (KeyValueRef K V))
    (hash_table : HashTable K V) : Option (ListMem (KeyValueRef K V) × HashTable K V) :=
  match HashTable_clear_loop fuel hash_table.index (List.range hash_table.lines) m with
  | none => none
  | some m1 => some (m1, { hash_table with size := 0 })

/-- The `for` loop of `HashTable_find` over the bucket list at address `list`,
entered with the pointer `target`; the outer `none` when `fuel` runs out or a
`NULL` pointer is dereferenced. -/
def HashTable_find_loop {K V : Type} (m : ListMem (KeyValueRef K V))
    (hash_table : HashTable K V) (list : Nat) (key : K) :
    Nat → Option NodeRef → Option (Option (KeyValueRef K V))
  | 0, _ => none
  | _ + 1, none => none
  | fuel + 1, some target =>
    if target = NodeRef.head list then some none else
    match (m.cell target).data with
    | none => none
    | some current =>
      if hash_table.compare key current.target.key = 0 then some (some current)
      else HashTable_find_loop m hash_table list key fuel (m.cell target).next

/-- Function `HashTable_find`; the inner `none` is `NULL`. -/
def HashTable_find {K V : Type} (fuel : Nat) (m : ListMem (KeyValueRef K V))
    (hash_table : HashTable K V) (key : K) : Option (Option (KeyValueRef K V)) :=
  match HashTable_bounded_hash_ hash_table key with
  | none => none
  | some hash =>
    HashTable_find_loop m hash_table (hash_table.index + hash) key fuel
      (m.cell (NodeRef.head (hash_table.index + hash))).next

/-- The `for` loop of `HashTable_erase_entry_key_hint` up to its `break`: the
node whose data is the pointer `entry`, or `NULL` when the loop ends without
one. -/
def HashTable_erase_loop {K V : Type} (m : ListMem (KeyValueRef K V)) (list : Nat)
    (entry : KeyValueRef K V) : Nat → Option NodeRef → Option (Option NodeRef)
  | 0, _ => none
  | _ + 1, none => none
  | fuel + 1, some target =>
    if target = NodeRef.head list then some none else
    if ((m.cell target).data.map fun c => c.addr) = some entry.addr then some (some target)
    else HashTable_erase_loop m list entry fuel (m.cell target).next

/-- Function `HashTable_erase_entry_key_hint`. -/
def HashTable_erase_entry_key_hint {K V : Type} (fuel : Nat) (m : ListMem (KeyValueRef K V))
    (hash_table : HashTable K V) (hint : K) (entry : KeyValueRef K V) :
    Option (ListMem (KeyValueRef K V)) :=
  match HashTable_bounded_hash_ hash_table hint with
  | none => none
  | some hash =>
    match HashTable_erase_loop m (hash_table.index + hash) entry fuel
        (m.cell (NodeRef.head (hash_table.index + hash))).next with
    | none => none
    | some none => some m
    | some (some target) => List_erase m (hash_table.index + hash) target

/-- Function `HashTable_insert_direct`; `entry_addr` and `node_addr` are the
addresses that `malloc` returned for the `KeyValue` and for the list node. -/
def HashTable_insert_direct {K V : Type} (m : ListMem (KeyValueRef K V))
    (hash_table : HashTable K V) (key : K) (owns_key : Bool) (value : V) (owns_value : Bool)
    (entry_addr node_addr : Nat) : Option (KeyValueRef K V × ListMem (KeyValueRef K V)) :=
  match HashTable_bounded_hash_ hash_table key with
  | none => none
  | some hash =>
    let entry : KeyValueRef K V := ⟨entry_addr, KeyValue_create key owns_key value owns_value⟩
    let created := ListNode_create m node_addr (some entry) true
    match List_emplace_front created.2 (hash_table.index + hash) created.1 with
    | none => none
    | some r => some (entry, r.2)

/-- Function `HashTable_insert`.  `result` is `none` for a `NULL` pointer and
otherwise holds the `KeyValue*` (possibly `NULL`) that `*result` contains; the
second component returned is `result` after the call. -/
def HashTable_insert {K V : Type} (fuel : Nat) (m : ListMem (KeyValueRef K V))
    (hash_table : HashTable K V) (key : K) (owns_key : Bool) (value : V) (owns_value : Bool)
    (result : Option (Option (KeyValueRef K V))) (entry_addr node_addr : Nat) :
    Option (Bool × Option (Option (KeyValueRef K V)) × ListMem (KeyValueRef K V)) :=
  match HashTable_find fuel m hash_table key with
  | none => none
  | some (some find_result) => some (false, result.map (fun _ => some find_result), m)
  | some none =>
    match HashTable_insert_direct m hash_table key owns_key value owns_value entry_addr
        node_addr with
    | none => none
    | some r => some (true, result.map (fun _ => some r.1), r.2)

/-- The bucket number of a key. -/
def bucketOf {K V : Type} (t : HashTable K V) (key : K) : Nat :=
  (t.hash key % UINT_RANGE) % t.lines

/-- The nodes of bucket `i`, front to back, when `log` lists the stored
entries with the addresses of their nodes, the most recently inserted first. -/
def bucketNodes {K V : Type} (t : HashTable K V) (i : Nat)
    (log : List (Nat × KeyValueRef K V)) : List NodeRef :=
  (log.filter (fun p => decide (bucketOf t p.2.target.key = i))).map (fun p => NodeRef.node p.1)

/-- The memory `m` represents the table `t` holding the entries `log` (node
address and entry, the most recently inserted first). -/
structure TableRepr {K V : Type} (m : ListMem (KeyValueRef K V)) (t : HashTable K V)
    (log : List (Nat × KeyValueRef K V)) : Prop where
  buckets : ∀ i, i < t.lines → ListRepr m (t.index + i) (bucketNodes t i log)
  data : ∀ p ∈ log, (m.cell (NodeRef.node p.1)).data = some p.2
  nodup : (log.map Prod.fst).Nodup

/-- The entries left when `HashTable_erase_entry_key_hint` is called with
`hint` and `entry`: the most recent entry at the address of `entry` in the
bucket of `hint` is gone. -/
def logErase {K V : Type} (t : HashTable K V) (hint : K) (entry : KeyValueRef K V)
    (log : List (Nat × KeyValueRef K V)) : List (Nat × KeyValueRef K V) :=
  log.eraseP (fun p => decide (p.2.addr = entry.addr) &&
    decide (bucketOf t p.2.target.key = bucketOf t hint))

/-- The tables in use: `TableBuilt m t log` holds when the memory `m` and the
table `t` result from `HashTable_initialize` followed by insertions, erasures
and clearings, each node being allocated at an address that no stored node
occupies and each loop being given more fuel than there are entries, and `log`
lists the entries this leaves with the addresses of their
nodes, the most recently inserted first. -/
inductive TableBuilt {K V : Type} :
    ListMem (KeyValueRef K V) → HashTable K V → List (Nat × KeyValueRef K V) → Prop
  | init (m : ListMem (KeyValueRef K V)) (index lines : Nat) (hash : K → Nat)
      (compare : K → K → Int) :
      TableBuilt ( HashTable_initialize m index lines hash compare).1
        ( HashTable_initialize m index lines hash compare).2 []
  | insert_direct (m : ListMem (KeyValueRef K V)) (t : HashTable K V)
      (log : List (Nat × KeyValueRef K V)) (key : K) (owns_key : Bool) (value : V)
      (owns_value : Bool) (entry_addr node_addr : Nat)
      (r : KeyValueRef K V × ListMem (KeyValueRef K V)) :
      TableBuilt m t log → node_addr ∉ log.map Prod.fst →
      HashTable_insert_direct m t key owns_key value owns_value entry_addr node_addr = some r →
      TableBuilt r.2 t ((node_addr, r.1) :: log)
  | insert (m : ListMem (KeyValueRef K V)) (t : HashTable K V)
      (log : List (Nat × KeyValueRef K V)) (fuel : Nat) (key : K) (owns_key : Bool) (value : V)
      (owns_value : Bool) (result : Option (Option (KeyValueRef K V)))
      (entry_addr node_addr : Nat)
      (r : Bool × Option (Option (KeyValueRef K V)) × ListMem (KeyValueRef K V)) :
      TableBuilt m t log → node_addr ∉ log.map Prod.fst → log.length < fuel →
      HashTable_insert fuel m t key owns_key value owns_value result entry_addr node_addr
        = some r →
      TableBuilt r.2.2 t
        (if r.1 then
          (node_addr, ⟨entry_addr, KeyValue_create key owns_key value owns_value⟩) :: log
         else log)
  | erase (m : ListMem (KeyValueRef K V)) (t : HashTable K V)
      (log : List (Nat × KeyValueRef K V)) (fuel : Nat) (hint : K) (entry : KeyValueRef K V)
      (m1 : ListMem (KeyValueRef K V)) :
      TableBuilt m t log → log.length < fuel →
      HashTable_erase_entry_key_hint fuel m t hint entry = some m1 →
      TableBuilt m1 t (logErase t hint entry log)
  | clear (m : ListMem (KeyValueRef K V)) (t : HashTable K V)
      (log : List (Nat × KeyValueRef K V)) (fuel : Nat)
      (r : ListMem (KeyValueRef K V) × HashTable K V) :
      TableBuilt m t log → log.length < fuel → HashTable_clear fuel m t = some r →
      TableBuilt r.1 r.2 []

/-- The tables populated only through `HashTable_insert`. -/
inductive TableInserted {K V : Type} :
    ListMem (KeyValueRef K V) → HashTable K V → List (Nat × KeyValueRef K V) → Prop
  | init (m : ListMem (KeyValueRef K V)) (index lines : Nat) (hash : K → Nat)
      (compare : K → K → Int) :
      TableInserted ( HashTable_initialize m index lines hash compare).1
        ( HashTable_initialize m index lines hash compare).2 []
  | insert (m : ListMem (KeyValueRef K V)) (t : HashTable K V)
      (log : List (Nat × KeyValueRef K V)) (fuel : Nat) (key : K) (owns_key : Bool) (value : V)
      (owns_value : Bool) (result : Option (Option (KeyValueRef K V)))
      (entry_addr node_addr : Nat)
      (r : Bool × Option (Option (KeyValueRef K V)) × ListMem (KeyValueRef K V)) :
      TableInserted m t log → node_addr ∉ log.map Prod.fst → log.length < fuel →
      HashTable_insert fuel m t key owns_key value owns_value result entry_addr node_addr
        = some r →
      TableInserted r.2.2 t
        (if r.1 then
          (node_addr, ⟨entry_addr, KeyValue_create key owns_key value owns_value⟩) :: log
         else log)

/-- A table memory in which nothing has been stored yet. -/
def emptyTableMem : ListMem (KeyValueRef Nat Nat) :=
  ⟨fun _ => ⟨none, none, none, false⟩, fun _ => 0⟩

/-- A table of four lines over natural-number keys, hashed by their value and
compared by `natCompare`, with its bucket array at address 0. -/
def sampleTable : HashTable Nat Nat :=
  ( HashTable_initialize emptyTableMem 0 4 (fun k => k) natCompare).2

/-- The memory of `sampleTable` right after `HashTable_initialize`. -/
def sampleTableMem0 : ListMem (KeyValueRef Nat Nat) :=
  ( HashTable_initialize emptyTableMem 0 4 (fun k => k) natCompare).1

/-- The memory of `sampleTable` after `HashTable_insert_direct` of key 1 with
value 10 (entry at address 100, node at address 1). -/
def sampleTableMem1 : ListMem (KeyValueRef Nat Nat) :=
  match HashTable_insert_direct sampleTableMem0 sampleTable 1 false 10 false 100 1 with
  | some r => r.2
  | none => emptyTableMem

/-- The memory of `sampleTable` after a second `HashTable_insert_direct` of key
1, with value 11 (entry at address 101, node at address 2). -/
def sampleTableMem : ListMem (KeyValueRef Nat Nat) :=
  match HashTable_insert_direct sampleTableMem1 sampleTable 1 false 11 false 101 2 with
  | some r => r.2
  | none => emptyTableMem

/-- The entries of `sampleTable` in `sampleTableMem`, the most recent first. -/
def sampleLog : List (Nat × KeyValueRef Nat Nat) :=
  [(2, ⟨101, KeyValue_create 1 false 11 false⟩), (1, ⟨100, KeyValue_create 1 false 10 false⟩)]

/-- The reader over the structured source `42 69 74 49 4F AA 08` after its
eight content bits have been taken by eight calls of `BitIO_get`: the state in
which the next call has to pull. -/
def drainedReader : Option BitIO :=
  (openedReader [0x42, 0x69, 0x74, 0x49, 0x4F, 0xAA, 0x08]).map
    (fun io => Nat.iterate (fun x => (BitIO_get x).2) 8 io)

/-- A structured source of ten content bits: the signature, the content bytes
`FF C0` and the size indicator `02` (two valid bits in the last content
byte). -/
def tenBitSource : List Nat := [0x42, 0x69, 0x74, 0x49, 0x4F, 0xFF, 0xC0, 0x02]

/-- The total number of entries stored across the bucket lists of a table: the
sum of `List_size` over its `lines` buckets. -/
def storedEntries {K V : Type} (m : ListMem (KeyValueRef K V)) (t : HashTable K V) : Nat :=
  ((List.range t.lines).map (fun i => List_size m (t.index + i))).sum

/-- Number of values of a `size_t` (64 bits). -/
def SIZE_RANGE : Nat := 18446744073709551616

/-- The vectors in use: those obtained from `Vector_create` by appending,
removing, changing the capability to any `size_t` value, swapping and
clearing.  An append to a full vector is considered only while the new
capability `(capability << 1) + 10` is a `size_t` value, so that the
computation in natural numbers is the one of the machine. -/
inductive VectorReachable {α : Type} : Vector α → Prop
  | create : VectorReachable Vector_create
  | emplace_back (v : Vector α) (x : α) (owned : Bool) : VectorReachable v →
      (Vector_size v = v.capability → (v.capability <<< 1) + VectorEnlargeBias < SIZE_RANGE) →
      VectorReachable (Vector_emplace_back v x owned)
  | pop_back (v : Vector α) : VectorReachable v → VectorReachable (Vector_pop_back v)
  | recap (v : Vector α) (new_capability : Nat) : VectorReachable v →
      new_capability < SIZE_RANGE → VectorReachable (Vector_recap v new_capability)
  | swap (v : Vector α) (p q : Nat) : VectorReachable v → VectorReachable (Vector_swap v p q)
  | clear (v : Vector α) : VectorReachable v → VectorReachable (Vector_clear v)

/-- The vector obtained from `Vector_create` by lowering the capability to 1
and appending 7: a full vector. -/
def sampleVector : Vector Nat :=
  Vector_emplace_back (Vector_recap Vector_create 1) 7 false

/-! ## Source indices read by the write path

The functions below follow `BitIO_writeBuffer_`, the loop of `BitIO_write` and
`BitIO_write` itself statement by statement and collect the indices of the
caller's array `bits` that are read, in the order of the reads. -/

/-- The indices read by `BitIO_writeBuffer_`: each `memcpy` reads `write_size`
bytes starting at `data`, whose position in the caller's array is `off`. -/
def BitIO_writeBuffer_reads : Nat → BitIO → List Nat → Nat → Nat → Option (List Nat)
  | 0, _, _, _, _ => none
  | fuel + 1, io, bits, off, length =>
    if length = 0 then some [] else
    let buffer_available := (BitIO_BufferSize + 4294967296 - io.bytes_written) % 4294967296
    let write_size := if buffer_available < length then buffer_available else length
    let io1 := { io with
      buffer_ := memcpyAt io.buffer_ io.current_byte_ ((bits.drop off).take write_size),
      current_byte_ := io.current_byte_ + write_size,
      bytes_written := (io.bytes_written + write_size) % 65536 }
    let io2 := if write_size = buffer_available then (streamOperation io1).2 else io1
    match BitIO_writeBuffer_reads fuel io2 bits (off + write_size) (length - write_size) with
    | none => none
    | some rest => some (List.range' off write_size ++ rest)

/-- The indices read by the `while(bit_length)` loop of `BitIO_write`: every
iteration reads `*bits`, whose position in the caller's array is `off`. -/
def BitIO_write_loop_reads : Nat → BitIO → List Nat → Nat → Nat → Nat → Option (List Nat)
  | 0, _, _, _, _, _ => none
  | fuel + 1, io, bits, off, bit_length, padding_bits =>
    if bit_length = 0 then some [] else
    let src := bits.getD off 0
    if bit_length < padding_bits then
      let io1 := io.setCur ((io.cur <<< bit_length) ||| (src >>> (CHAR_BIT - bit_length)))
      let io2 := { io1 with bits_written := (io1.bits_written + bit_length) % 256 }
      (BitIO_write_loop_reads fuel io2 bits off 0 padding_bits).map (fun rest => off :: rest)
    else
      let io1 := io.setCur ((io.cur <<< padding_bits) ||| (src >>> io.bits_written))
      let io2 := BitIO_advanceWriteBufferPointer_ io1
      let io3 := io2.setCur src
      if bit_length < CHAR_BIT then
        let io4 := { io3 with bits_written := (bit_length - padding_bits) % 256 }
        let io5 := io4.setCur (io4.cur >>> (CHAR_BIT - bit_length))
        (BitIO_write_loop_reads fuel io5 bits off 0 padding_bits).map (fun rest => off :: rest)
      else
        (BitIO_write_loop_reads fuel io3 bits (off + 1) (bit_length - CHAR_BIT)
          padding_bits).map (fun rest => off :: rest)

/-- The indices of `bits` read by `BitIO_write`.  In the aligned case these are
the reads of `BitIO_writeBuffer_` followed by the read of `bits[byte_length]`,
which is made whatever `bits_left` is. -/
def BitIO_write_reads (fuel : Nat) (io : BitIO) (bits : List Nat) (bit_length : Nat) :
    Option (List Nat) :=
  if BitIO_check_ io true then some [] else
  if io.bits_written = 0 then
    let byte_length := bit_length / CHAR_BIT
    match BitIO_writeBuffer_reads fuel io bits 0 byte_length with
    | none => none
    | some rest => some (rest ++ [byte_length])
  else
    let padding_bits := (CHAR_BIT + 256 - io.bits_written) % 256
    BitIO_write_loop_reads fuel io bits 0 bit_length padding_bits

/-- A freshly opened structured writer on an empty stream. -/
def freshWriter : Option BitIO :=
  match BitIO_open false (BitIO_create (List.replicate 1026 0))
      (some ⟨FILE.output, none⟩) BitIOOpen_Write with
  | some r => if r.ok then some r.io else none
  | none => none

/-- A writer between two operations whose sink holds `base` bytes followed by
whole blocks of `BitIO_BufferSize` bytes. -/
structure WBlocks (io : BitIO) (base : Nat) : Prop where
  inv : WInv io
  blocks : ∃ f k, io.stream_ = some f ∧ f.bytes.length = base + BitIO_BufferSize * k

/-- The memory of `sampleTable` after `HashTable_insert` of key 1 with value 10
into the empty table (entry at address 100, node at address 1). -/
def insertedTableMem1 : ListMem (KeyValueRef Nat Nat) :=
  match HashTable_insert 3 sampleTableMem0 sampleTable 1 false 10 false none 100 1 with
  | some r => r.2.2
  | none => emptyTableMem

/-- The memory of `sampleTable` after a further `HashTable_insert`, of key 5
with value 50 (entry at address 101, node at address 2); the keys 1 and 5 share
bucket 1. -/
def insertedTableMem : ListMem (KeyValueRef Nat Nat) :=
  match HashTable_insert 3 insertedTableMem1 sampleTable 5 false 50 false none 101 2 with
  | some r => r.2.2
  | none => emptyTableMem

/-- The entries of `sampleTable` in `insertedTableMem`, the most recent first. -/
def insertedLog : List (Nat × KeyValueRef Nat Nat) :=
  [(2, ⟨101, KeyValue_create 5 false 50 false⟩), (1, ⟨100, KeyValue_create 1 false 10 false⟩)]

/-! ## Heaps beyond the index bound

Heaps of more than `2 ^ 31 + 1` entries are described by their size `n` and
the function giving the key in each slot; every entry has its key as value. -/

theorem take_set_ge {α : Type} (l : List α) (m n : Nat) (a : α) (h : n ≤ m) :
    (l.set m a).take n = l.take n := by
  induction l generalizing m n with
  | nil => simp
  | cons x xs ih =>
    cases n with
    | zero => simp
    | succ n =>
      cases m with
      | zero => omega
      | succ m => simp [ih m n (by omega)]

theorem take_succ_set {α : Type} (l : List α) (n : Nat) (a : α) (h : n < l.length) :
    (l.set n a).take (n + 1) = l.take n ++ [a] := by
  induction l generalizing n with
  | nil => simp at h
  | cons x xs ih =>
    cases n with
    | zero => simp
    | succ n =>
      simp only [List.length_cons, Nat.add_lt_add_iff_right] at h
      simp [ih n h]

theorem getD_set_self (l : List Nat) (n a d : Nat) (h : n < l.length) :
    (l.set n a).getD n d = a := by
  simp [List.getD_eq_getElem?_getD, List.getElem?_set_self h]

theorem toNat_le_one (b : Bool) : b.toNat ≤ 1 := by cases b <;> simp

theorem bitsVal_lt (e : List Bool) (s len : Nat) : bitsVal e s len < 2 ^ len := by
  induction len with
  | zero => simp [bitsVal]
  | succ n ih =>
    have := toNat_le_one (e.getD (s + n) false)
    rw [bitsVal, pow_succ]; omega

theorem bitsVal_append_left (e e' : List Bool) (s len : Nat) (h : s + len ≤ e.length) :
    bitsVal (e ++ e') s len = bitsVal e s len := by
  induction len with
  | zero => rfl
  | succ n ih =>
    rw [bitsVal, bitsVal, ih (by omega), List.getD_append _ _ _ _ (by omega)]

theorem bitsVal_beyond (e : List Bool) (s len : Nat) (h : e.length ≤ s) :
    bitsVal e s len = 0 := by
  induction len with
  | zero => rfl
  | succ n ih =>
    rw [bitsVal, ih, List.getD_eq_default _ _ (by omega)]; rfl

theorem bitsVal_add (e : List Bool) (s a b : Nat) :
    bitsVal e s (a + b) = bitsVal e s a * 2 ^ b + bitsVal e (s + a) b := by
  induction b with
  | zero => simp [bitsVal]
  | succ n ih =>
    rw [← Nat.add_assoc, bitsVal, bitsVal, ih, pow_succ, Nat.add_assoc s a n]; ring

theorem bitsVal_snoc (e : List Bool) (b : Bool) (s len : Nat) (h : s + len = e.length) :
    bitsVal (e ++ [b]) s (len + 1) = 2 * bitsVal e s len + b.toNat := by
  rw [bitsVal, bitsVal_append_left _ _ _ _ (by omega),
    List.getD_append_right _ _ _ _ (by omega)]
  simp [h]

theorem fullBytes_append (e e' : List Bool) (h : (e ++ e').length / 8 = e.length / 8) :
    fullBytes (e ++ e') = fullBytes e := by
  unfold fullBytes
  rw [h]
  apply List.map_congr_left
  intro j hj
  have hj' : j < e.length / 8 := List.mem_range.mp hj
  unfold packedByte
  exact bitsVal_append_left _ _ _ _ (by omega)

theorem fullBytes_append_succ (e e' : List Bool)
    (h : (e ++ e').length / 8 = e.length / 8 + 1) :
    fullBytes (e ++ e') = fullBytes e ++ [packedByte (e ++ e') (e.length / 8)] := by
  unfold fullBytes
  rw [h, List.range_succ, List.map_append]
  congr 1
  apply List.map_congr_left
  intro j hj
  have hj' : j < e.length / 8 := List.mem_range.mp hj
  unfold packedByte
  exact bitsVal_append_left _ _ _ _ (by omega)

/-- Appending one bit to an unfinished byte. -/
theorem snoc_pending (e : List Bool) (b : Bool) (h : e.length % 8 ≠ 7) :
    fullBytes (e ++ [b]) = fullBytes e ∧ pendVal (e ++ [b]) = 2 * pendVal e + b.toNat := by
  have hl : (e ++ [b]).length = e.length + 1 := by simp
  have hd : (e ++ [b]).length / 8 = e.length / 8 := by rw [hl]; omega
  have hm : (e ++ [b]).length % 8 = e.length % 8 + 1 := by rw [hl]; omega
  refine ⟨fullBytes_append _ _ hd, ?_⟩
  unfold pendVal
  rw [hd, hm, bitsVal_snoc _ _ _ _ (by omega)]

/-- Appending the bit that completes a byte. -/
theorem snoc_commit (e : List Bool) (b : Bool) (h : e.length % 8 = 7) :
    fullBytes (e ++ [b]) = fullBytes e ++ [2 * pendVal e + b.toNat] ∧
      pendVal (e ++ [b]) = 0 ∧ (e ++ [b]).length % 8 = 0 := by
  have hl : (e ++ [b]).length = e.length + 1 := by simp
  have hd : (e ++ [b]).length / 8 = e.length / 8 + 1 := by rw [hl]; omega
  have hm : (e ++ [b]).length % 8 = 0 := by rw [hl]; omega
  refine ⟨?_, ?_, hm⟩
  · rw [fullBytes_append_succ _ _ hd]
    congr 2
    unfold packedByte pendVal
    rw [h, bitsVal_snoc _ _ _ _ (by omega)]
  · unfold pendVal
    rw [hm]; rfl


theorem shl_lor (c s k : Nat) (h : s < 2 ^ k) : (c <<< k) ||| s = c * 2 ^ k + s := by
  rw [Nat.shiftLeft_eq, Nat.mul_comm, ← Nat.mul_add_lt_is_or h]

theorem WInv.check_write (io : BitIO) (h : WInv io) : BitIO_check_ io true = false := by
  simp [BitIO_check_, h.status]

theorem WInv.cur_lt (io : BitIO) (h : WInv io) : io.current_byte_ < io.buffer_.length := by
  have := h.cursor; have := h.room; have := h.buflen; omega

/-- Explicit form of `BitIO_put` on a writer. -/
theorem put_eq (io : BitIO) (b : Bool) (h : WInv io) (hw : io.bits_written < 8) :
    BitIO_put io b =
      if io.bits_written = 7 then
        if io.bytes_written + 1 = BitIO_BufferSize then
          { io with
            buffer_ := io.buffer_.set io.current_byte_ ((2 * io.cur + b.toNat) % 256),
            bits_written := 0, bytes_written := 0, current_byte_ := 0,
            stream_ := io.stream_.map (fwrite
              ((io.buffer_.set io.current_byte_ ((2 * io.cur + b.toNat) % 256)).take
                BitIO_BufferSize)) }
        else
          { io with
            buffer_ := io.buffer_.set io.current_byte_ ((2 * io.cur + b.toNat) % 256),
            bits_written := 0, bytes_written := io.bytes_written + 1,
            current_byte_ := io.current_byte_ + 1 }
      else
        { io with
          buffer_ := io.buffer_.set io.current_byte_ ((2 * io.cur + b.toNat) % 256),
          bits_written := io.bits_written + 1 } := by
  have hb := toNat_le_one b
  have hr := h.room
  unfold BitIO_BufferSize at hr
  have e1 : (io.cur <<< 1) ||| b.toNat = 2 * io.cur + b.toNat := by
    rw [shl_lor _ _ _ (by simpa using (by omega : b.toNat < 2))]; ring
  unfold BitIO_put
  rw [h.check_write]
  simp only [Bool.false_eq_true, if_false, BitIO.setCur, e1, CHAR_BIT]
  by_cases h7 : io.bits_written = 7
  · have e2 : (io.bits_written + 1) % 256 = 8 := by omega
    simp only [h7, e2, if_true, BitIO_advanceWriteBufferPointer_]
    have e3 : (io.bytes_written + 1) % 65536 = io.bytes_written + 1 := by omega
    simp only [e3]
    by_cases hp : io.bytes_written + 1 = BitIO_BufferSize
    · simp only [hp, if_true, streamOperation, h.op, BitIO_push_]
    · simp only [hp, if_false]
  · have e2 : (io.bits_written + 1) % 256 = io.bits_written + 1 := by omega
    have e3 : ¬ io.bits_written + 1 = 8 := by omega
    simp only [h7, e2, e3, if_false]


theorem low_bits_step (c b w : Nat) (hb : b ≤ 1) (hw : w < 8) :
    ((2 * c + b) % 256) % 2 ^ (w + 1) = 2 * (c % 2 ^ w) + b := by
  interval_cases w <;> simp <;> omega

/-- One call of `BitIO_put` emits one bit. -/
theorem put_rel (io : BitIO) (pl : Bool) (pre : List Nat) (e : List Bool) (b : Bool)
    (h : WRel io pl pre e) : WRel (BitIO_put io b) pl pre (e ++ [b]) := by
  obtain ⟨inv, hpl, hprod, hw, hc⟩ := h
  have hb := toNat_le_one b
  have hw8 : io.bits_written < 8 := by rw [hw]; exact Nat.mod_lt _ (by decide)
  have hp := inv.cur_lt
  have hcur := inv.cursor
  have hroom := inv.room
  have hlen : (e ++ [b]).length = e.length + 1 := by simp
  obtain ⟨f, hf⟩ := Option.isSome_iff_exists.mp inv.attached
  rw [put_eq io b inv hw8]
  unfold producedBytes at hprod
  rw [hf] at hprod
  simp only at hprod
  by_cases h7 : io.bits_written = 7
  · have he7 : e.length % 8 = 7 := by omega
    obtain ⟨hfull, hpend, hmod⟩ := snoc_commit e b he7
    have hv : (2 * io.cur + b.toNat) % 256 = 2 * pendVal e + b.toNat := by
      rw [← hc, he7]; omega
    rw [if_pos h7]
    by_cases hpush : io.bytes_written + 1 = BitIO_BufferSize
    · rw [if_pos hpush]
      refine ⟨⟨inv.status, inv.op, rfl, ?_, by simpa using inv.buflen, by simp [hf]⟩,
        hpl, ?_, hmod.symm, ?_⟩
      · show 0 < BitIO_BufferSize
        decide
      · simp only [producedBytes, hf, Option.map_some', fwrite, List.take_zero,
          List.append_nil]
        rw [← hpush, hcur, take_succ_set _ _ _ (by omega), ← List.append_assoc, hprod, hfull,
          hv, List.append_assoc]
      · rw [hmod, hpend]; simp [Nat.mod_one]
    · rw [if_neg hpush]
      refine ⟨⟨inv.status, inv.op, by simp [hcur], ?_, by simpa using inv.buflen,
        by simp [hf]⟩, hpl, ?_, hmod.symm, ?_⟩
      · show io.bytes_written + 1 < BitIO_BufferSize
        omega
      · simp only [producedBytes, hf]
        rw [hcur, take_succ_set _ _ _ (by omega), ← List.append_assoc, hprod, hfull,
          hv, List.append_assoc]
      · rw [hmod, hpend]; simp [Nat.mod_one]
  · have he7 : e.length % 8 ≠ 7 := by omega
    obtain ⟨hfull, hpend⟩ := snoc_pending e b he7
    rw [if_neg h7]
    refine ⟨⟨inv.status, inv.op, inv.cursor, inv.room, by simpa using inv.buflen,
      inv.attached⟩, hpl, ?_, ?_, ?_⟩
    · simp only [producedBytes, hf]
      rw [hcur, take_set_ge _ _ _ _ (le_refl _), hprod, hfull]
    · show io.bits_written + 1 = (e ++ [b]).length % 8
      rw [hlen]; omega
    · have e1 : (e ++ [b]).length % 8 = e.length % 8 + 1 := by rw [hlen]; omega
      rw [e1, hpend, ← hc]
      show (List.getD (io.buffer_.set io.current_byte_ _) io.current_byte_ 0) % _ = _
      rw [getD_set_self _ _ _ _ hp]
      exact low_bits_step _ _ _ hb (by omega)

theorem putAll_rel (io : BitIO) (pl : Bool) (pre : List Nat) (e bs : List Bool)
    (h : WRel io pl pre e) : WRel (putAll io bs) pl pre (e ++ bs) := by
  induction bs generalizing io e with
  | nil => simpa [putAll] using h
  | cons b bs ih =>
    have := ih (BitIO_put io b) (e ++ [b]) (put_rel io pl pre e b h)
    simpa [putAll] using this


theorem packBits_aligned (e : List Bool) (h : e.length % 8 = 0) : packBits e = fullBytes e := by
  unfold packBits fullBytes
  have : (e.length + 7) / 8 = e.length / 8 := by omega
  rw [this]

theorem packBits_unaligned (e : List Bool) (h : e.length % 8 ≠ 0) :
    packBits e = fullBytes e ++ [pendVal e * 2 ^ (8 - e.length % 8)] := by
  unfold packBits fullBytes
  have h1 : (e.length + 7) / 8 = e.length / 8 + 1 := by omega
  rw [h1, List.range_succ, List.map_append]
  congr 1
  simp only [List.map_cons, List.map_nil, packedByte, pendVal]
  have h2 : e.length % 8 + (8 - e.length % 8) = 8 := by omega
  have h3 := bitsVal_add e (8 * (e.length / 8)) (e.length % 8) (8 - e.length % 8)
  rw [h2, bitsVal_beyond e (8 * (e.length / 8) + e.length % 8) _ (by omega)] at h3
  simpa using h3

theorem top_align (c w : Nat) (hw : w < 8) :
    (c * 2 ^ (8 - w)) % 256 = (c % 2 ^ w) * 2 ^ (8 - w) := by
  interval_cases w <;> simp <;> omega

/-- Closing a structured writer emits the pending byte, top aligned, and the
size indicator. -/
theorem close_rel (nd : Bool) (io : BitIO) (pre : List Nat) (e : List Bool)
    (h : WRel io false pre e) :
    ∃ io1 f, BitIO_close nd io = some (io1, some f) ∧
      f.bytes = pre ++ packBits e ++ [trailerOf e.length] ∧
      io1.status_ = BitIOStatus.Closed ∧ io1.stream_ = none := by
  obtain ⟨inv, hplain, hprod, hw, hc⟩ := h
  have hp := inv.cur_lt
  have hcur := inv.cursor
  have hroom := inv.room
  unfold BitIO_BufferSize at hroom
  obtain ⟨f, hf⟩ := Option.isSome_iff_exists.mp inv.attached
  unfold producedBytes at hprod
  rw [hf] at hprod
  simp only at hprod
  have hst : ¬ io.status_ = BitIOStatus.Closed := by rw [inv.status]; decide
  have hnone : io.stream_.isNone = false := by simp [hf]
  unfold BitIO_close
  rw [if_neg hst, hnone]
  simp only [Bool.and_false, Bool.false_eq_true, if_false, inv.status, if_true]
  by_cases h0 : io.bits_written = 0
  · have he : e.length % 8 = 0 := by omega
    simp only [h0, ne_eq, not_true_eq_false, if_false, streamOperation, inv.op, BitIO_push_,
      hplain, Bool.not_false, if_true, hf, Option.map_some', fwrite, fputc, CHAR_BIT]
    have ht : trailerOf e.length = 8 := by unfold trailerOf; rw [if_pos he]
    rw [packBits_aligned e he, ← hprod, ht]
    cases hm : io.managed_
    · simp only [Bool.false_eq_true, if_false]
      exact ⟨_, _, rfl, by simp, rfl, rfl⟩
    · simp only [if_true]
      exact ⟨_, _, rfl, by simp [fclose], rfl, rfl⟩
  · have he : e.length % 8 ≠ 0 := by omega
    have hw8 : io.bits_written < 8 := by rw [hw]; exact Nat.mod_lt _ (by decide)
    have e3 : (io.bytes_written + 1) % 65536 = io.bytes_written + 1 := by omega
    simp only [h0, ne_eq, not_false_eq_true, if_true, streamOperation, BitIO.setCur, inv.op,
      BitIO_push_, hplain, Bool.false_eq_true, if_false, hf, Option.map_some', fwrite, fputc,
      CHAR_BIT, e3]
    have ht : trailerOf e.length = io.bits_written := by
      unfold trailerOf; rw [if_neg he, hw]
    have e4 : io.bits_written % 256 = io.bits_written := by omega
    rw [packBits_unaligned e he, ← List.append_assoc pre, ← hprod,
      ← hc, ← hw, ← top_align _ _ hw8, ht]
    rw [Nat.shiftLeft_eq, hcur, take_succ_set _ _ _ (by omega), e4]
    cases hm : io.managed_
    · simp only [Bool.false_eq_true, if_false]
      exact ⟨_, _, rfl, by simp, rfl, rfl⟩
    · simp only [if_true]
      exact ⟨_, _, rfl, by simp [fclose], rfl, rfl⟩


/-- A successful structured write-open: the signature is written and nothing
has been emitted yet. -/
theorem open_write_rel (nd : Bool) (buf : List Nat) (src : Source) (modes : Nat)
    (hbuf : BitIO_BufferSize ≤ buf.length)
    (hvalid : modes &&& (0xFFFFFFFF ^^^ BitIOOpen_Mask) = 0)
    (hW : hasFlag modes BitIOOpen_Write = true) (hR : hasFlag modes BitIOOpen_Read = false)
    (hP : hasFlag modes BitIOOpen_Plain = false)
    (hPath : hasFlag modes BitIOOpen_ByPath = false) :
    ∃ io, BitIO_open nd (BitIO_create buf) (some src) modes = some ⟨true, io, none⟩ ∧
      WRel io false (src.file.bytes ++ BitIO_Signature) [] := by
  have h0 : modes ≠ 0 := by
    intro h; rw [h] at hW; simp [hasFlag] at hW
  have hPath2 : hasFlag (modes &&& modes) BitIOOpen_ByPath = false := by
    rw [Nat.and_self]; exact hPath
  refine ⟨{ BitIO_create buf with
      stream_ := some (fwrite BitIO_Signature src.file),
      managed_ := !hasFlag modes BitIOOpen_Unmanaged, plain_ := false,
      streamOperation_ := StreamOp.push, status_ := BitIOStatus.Write }, ?_, ?_⟩
  · unfold BitIO_open
    simp only [BitIO_create, BitIO_initialize_, ne_eq, not_true_eq_false, decide_False,
      Bool.and_false, Bool.false_eq_true, if_false, h0, hvalid, hW, hR, hP, hPath, hPath2,
      Bool.xor_true, Bool.not_false, Bool.not_true, Bool.false_and, Bool.and_self,
      if_true]
  · refine ⟨⟨rfl, rfl, rfl, ?_, hbuf, rfl⟩, rfl, ?_, rfl, ?_⟩
    · show 0 < BitIO_BufferSize
      decide
    · simp [producedBytes, fwrite, fullBytes, BitIO_create, BitIO_initialize_]
    · simp [pendVal, bitsVal, Nat.mod_one]


theorem bitsVal8_bit (e : List Bool) (s k : Nat) (hk : k < 8) :
    (bitsVal e s 8 / 2 ^ (7 - k)) % 2 = (e.getD (s + k) false).toNat := by
  have h0 := toNat_le_one (e.getD (s + 0) false)
  have h1 := toNat_le_one (e.getD (s + 1) false)
  have h2 := toNat_le_one (e.getD (s + 2) false)
  have h3 := toNat_le_one (e.getD (s + 3) false)
  have h4 := toNat_le_one (e.getD (s + 4) false)
  have h5 := toNat_le_one (e.getD (s + 5) false)
  have h6 := toNat_le_one (e.getD (s + 6) false)
  have h7 := toNat_le_one (e.getD (s + 7) false)
  simp only [bitsVal]
  interval_cases k <;> simp only [Nat.reduceSub, Nat.reducePow] <;> omega

theorem packBits_length (e : List Bool) : (packBits e).length = (e.length + 7) / 8 := by
  simp [packBits]

theorem packBits_getD (e : List Bool) (j : Nat) (h : j < (e.length + 7) / 8) :
    (packBits e).getD j 0 = packedByte e j := by
  unfold packBits
  rw [List.getD_eq_getElem _ _ (by simpa using h)]
  simp

/-- Bit `i` of the packing of `e` is `e[i]`; the padding bits are 0. -/
theorem bitAt_packBits (e : List Bool) (i : Nat) (h : i < 8 * ((e.length + 7) / 8)) :
    bitAt (packBits e) i = (e.getD i false).toNat := by
  unfold bitAt
  rw [packBits_getD e _ (by omega)]
  unfold packedByte
  rw [bitsVal8_bit e _ _ (Nat.mod_lt _ (by decide))]
  congr 2
  omega


theorem decide_mod2 (y : Nat) : (decide (y % 2 = 1)).toNat = y % 2 := by
  rcases Nat.mod_two_eq_zero_or_one y with h | h <;> simp [h]

theorem srcBits_length (src : List Nat) (m : Nat) : (srcBits src m).length = m := by
  simp [srcBits]

theorem srcBits_getD (src : List Nat) (m i : Nat) (h : i < m) :
    ((srcBits src m).getD i false).toNat = bitAt src i := by
  unfold srcBits
  rw [List.getD_eq_getElem _ _ (by simpa using h)]
  simp only [List.getElem_map, List.getElem_range]
  unfold bitAt
  exact decide_mod2 _

theorem bitsVal_append_right (e t : List Bool) (s len : Nat) :
    bitsVal (e ++ t) (e.length + s) len = bitsVal t s len := by
  induction len with
  | zero => rfl
  | succ n ih =>
    rw [bitsVal, bitsVal, ih, Nat.add_assoc, List.getD_append_right _ _ _ _ (by omega)]
    simp

theorem field_step (x k len : Nat) (h : k + len < 8) :
    2 * ((x / 2 ^ (8 - k - len)) % 2 ^ len) + (x / 2 ^ (7 - (k + len))) % 2
      = (x / 2 ^ (8 - k - (len + 1))) % 2 ^ (len + 1) := by
  have hk : k < 8 := by omega
  have hl : len < 8 := by omega
  interval_cases k <;> interval_cases len <;> omega

/-- A run of bits inside one source byte, read as a number. -/
theorem bitsVal_srcBits (src : List Nat) (m j k len : Nat) (h1 : k + len ≤ 8)
    (h2 : 8 * j + k + len ≤ m) :
    bitsVal (srcBits src m) (8 * j + k) len = (src.getD j 0 / 2 ^ (8 - k - len)) % 2 ^ len := by
  induction len with
  | zero => simp [bitsVal, Nat.mod_one]
  | succ n ih =>
    rw [bitsVal, ih (by omega) (by omega), srcBits_getD _ _ _ (by omega)]
    unfold bitAt
    have e1 : (8 * j + k + n) / 8 = j := by omega
    have e2 : (8 * j + k + n) % 8 = k + n := by omega
    rw [e1, e2]
    exact field_step _ _ _ (by omega)

theorem top_field_lt (x j : Nat) (hx : x < 256) (hj : j ≤ 8) :
    (x / 2 ^ (8 - j)) % 2 ^ j = x / 2 ^ (8 - j) := by
  interval_cases j <;> simp only [Nat.reduceSub, Nat.reducePow] <;> omega

/-- Appending `j` source bits that do not complete the current byte. -/
theorem append_src_pending (e : List Bool) (src : List Nat) (j : Nat)
    (hx : src.getD 0 0 < 256) (hj : e.length % 8 + j < 8) :
    fullBytes (e ++ srcBits src j) = fullBytes e ∧
      pendVal (e ++ srcBits src j) = pendVal e * 2 ^ j + src.getD 0 0 / 2 ^ (8 - j) ∧
      (e ++ srcBits src j).length % 8 = e.length % 8 + j := by
  have hl : (e ++ srcBits src j).length = e.length + j := by simp [srcBits_length]
  have hd : (e ++ srcBits src j).length / 8 = e.length / 8 := by rw [hl]; omega
  have hm : (e ++ srcBits src j).length % 8 = e.length % 8 + j := by rw [hl]; omega
  refine ⟨fullBytes_append _ _ hd, ?_, hm⟩
  unfold pendVal
  rw [hd, hm, bitsVal_add, bitsVal_append_left _ _ _ _ (by omega)]
  have e1 : 8 * (e.length / 8) + e.length % 8 = e.length + 0 := by omega
  rw [e1, bitsVal_append_right]
  have := bitsVal_srcBits src j 0 0 j (by omega) (by omega)
  simp only [Nat.mul_zero, Nat.add_zero, Nat.sub_zero] at this
  rw [this, top_field_lt _ _ hx (by omega)]

theorem high_field_lt (x w : Nat) (hx : x < 256) (hw : w ≤ 8) :
    (x / 2 ^ (8 - (8 - w) - 0)) % 2 ^ (8 - w) = x / 2 ^ w := by
  interval_cases w <;> simp only [Nat.reduceSub, Nat.reducePow] <;> omega

/-- Appending `j` source bits that complete the current byte. -/
theorem append_src_commit (e : List Bool) (src : List Nat) (j : Nat)
    (hx : src.getD 0 0 < 256) (hj : 8 ≤ e.length % 8 + j) (hj8 : j ≤ 8) :
    fullBytes (e ++ srcBits src j) =
        fullBytes e ++ [pendVal e * 2 ^ (8 - e.length % 8) + src.getD 0 0 / 2 ^ (e.length % 8)] ∧
      pendVal (e ++ srcBits src j) =
        (src.getD 0 0 / 2 ^ (8 - j)) % 2 ^ (e.length % 8 + j - 8) ∧
      (e ++ srcBits src j).length % 8 = e.length % 8 + j - 8 := by
  have hw : e.length % 8 < 8 := Nat.mod_lt _ (by decide)
  have hl : (e ++ srcBits src j).length = e.length + j := by simp [srcBits_length]
  have hd : (e ++ srcBits src j).length / 8 = e.length / 8 + 1 := by rw [hl]; omega
  have hm : (e ++ srcBits src j).length % 8 = e.length % 8 + j - 8 := by rw [hl]; omega
  refine ⟨?_, ?_, hm⟩
  · rw [fullBytes_append_succ _ _ hd]
    congr 2
    unfold packedByte pendVal
    have e0 : e.length % 8 + (8 - e.length % 8) = 8 := by omega
    have h3 := bitsVal_add (e ++ srcBits src j) (8 * (e.length / 8)) (e.length % 8)
      (8 - e.length % 8)
    rw [e0] at h3
    rw [h3, bitsVal_append_left _ _ _ _ (by omega)]
    have e1 : 8 * (e.length / 8) + e.length % 8 = e.length + 0 := by omega
    rw [e1, bitsVal_append_right]
    have := bitsVal_srcBits src j 0 0 (8 - e.length % 8) (by omega) (by omega)
    simp only [Nat.mul_zero, Nat.add_zero] at this
    rw [this]
    have h4 := high_field_lt (src.getD 0 0) (e.length % 8) hx (by omega)
    simp only [Nat.sub_zero] at h4
    have e5 : 8 - (8 - e.length % 8) = e.length % 8 := by omega
    rw [e5] at h4
    simp only [Nat.sub_zero]
    rw [e5, h4]
  · unfold pendVal
    rw [hd, hm]
    have e1 : 8 * (e.length / 8 + 1) = e.length + (8 - e.length % 8) := by omega
    rw [e1, bitsVal_append_right]
    have := bitsVal_srcBits src j 0 (8 - e.length % 8) (e.length % 8 + j - 8) (by omega)
      (by omega)
    simp only [Nat.mul_zero, Nat.zero_add] at this
    rw [this]
    congr 3
    omega


theorem getD_drop (l : List Nat) (a i d : Nat) : (l.drop a).getD i d = l.getD (a + i) d := by
  simp [List.getD_eq_getElem?_getD, List.getElem?_drop]

theorem bitAt_drop (src : List Nat) (a i : Nat) :
    bitAt (src.drop a) i = bitAt src (8 * a + i) := by
  unfold bitAt
  rw [getD_drop]
  have e1 : (8 * a + i) / 8 = a + i / 8 := by omega
  have e2 : (8 * a + i) % 8 = i % 8 := by omega
  rw [e1, e2]

/-- The first `8a + r` source bits are the bits of the first `a` bytes followed
by `r` bits of the rest. -/
theorem srcBits_add (src : List Nat) (a r : Nat) :
    srcBits src (8 * a + r) = srcBits src (8 * a) ++ srcBits (src.drop a) r := by
  unfold srcBits
  rw [List.range_add, List.map_append, List.map_map]
  congr 1
  apply List.map_congr_left
  intro i _
  simp only [Function.comp_apply, bitAt_drop]

theorem srcBits_zero (src : List Nat) : srcBits src 0 = [] := rfl

theorem pendVal_aligned (e : List Bool) (h : e.length % 8 = 0) : pendVal e = 0 := by
  unfold pendVal; rw [h]; rfl

/-- Appending the bits of whole source bytes to a byte-aligned sequence. -/
theorem append_src_bytes (e : List Bool) (src : List Nat) (n : Nat)
    (he : e.length % 8 = 0) (hn : n ≤ src.length) (hb : ∀ x ∈ src, x < 256) :
    fullBytes (e ++ srcBits src (8 * n)) = fullBytes e ++ src.take n ∧
      (e ++ srcBits src (8 * n)).length % 8 = 0 := by
  induction n generalizing e src with
  | zero => simp [srcBits_zero, he]
  | succ n ih =>
    cases src with
    | nil => simp at hn
    | cons x xs =>
      have hx : (x :: xs).getD 0 0 < 256 := by simpa using hb x (by simp)
      have e1 : 8 * (n + 1) = 8 * 1 + 8 * n := by ring
      obtain ⟨h1, _, h3⟩ := append_src_commit e (x :: xs) 8 hx (by omega) (le_refl _)
      rw [e1, srcBits_add, ← List.append_assoc]
      have he' : (e ++ srcBits (x :: xs) (8 * 1)).length % 8 = 0 := by
        rw [h3, he]
      obtain ⟨h4, h5⟩ := ih (e ++ srcBits (x :: xs) (8 * 1)) ((x :: xs).drop 1) he'
        (by simpa using hn) (by intro y hy; exact hb y (by simp at hy; simp [hy]))
      refine ⟨?_, h5⟩
      rw [h4, h1, pendVal_aligned e he, he]
      simp

theorem memcpyAt_length (buf : List Nat) (off : Nat) (data : List Nat)
    (h : off + data.length ≤ buf.length) : (memcpyAt buf off data).length = buf.length := by
  simp [memcpyAt]
  omega

theorem memcpyAt_take (buf : List Nat) (off : Nat) (data : List Nat) (h : off ≤ buf.length) :
    (memcpyAt buf off data).take (off + data.length) = buf.take off ++ data := by
  unfold memcpyAt
  rw [List.take_append_of_le_length (by simp; omega)]
  rw [List.take_of_length_le (by simp)]


/-- One `memcpy` of whole bytes into the buffer, followed by the push that the
code performs when the buffer became full. -/
theorem copy_rel (io : BitIO) (pl : Bool) (pre : List Nat) (e e' : List Bool)
    (chunk : List Nat) (h : WRel io pl pre e) (he : e.length % 8 = 0)
    (hws : io.bytes_written + chunk.length ≤ BitIO_BufferSize)
    (hfull : fullBytes e' = fullBytes e ++ chunk) (he' : e'.length % 8 = 0) :
    WRel
      (if chunk.length = BitIO_BufferSize - io.bytes_written then
        (streamOperation { io with
          buffer_ := memcpyAt io.buffer_ io.current_byte_ chunk,
          current_byte_ := io.current_byte_ + chunk.length,
          bytes_written := (io.bytes_written + chunk.length) % 65536 }).2
       else
        { io with
          buffer_ := memcpyAt io.buffer_ io.current_byte_ chunk,
          current_byte_ := io.current_byte_ + chunk.length,
          bytes_written := (io.bytes_written + chunk.length) % 65536 })
      pl pre e' := by
  obtain ⟨inv, hpl, hprod, hw, hc⟩ := h
  have hcur := inv.cursor
  have hroom := inv.room
  have hbl := inv.buflen
  unfold BitIO_BufferSize at hws hroom hbl
  obtain ⟨f, hf⟩ := Option.isSome_iff_exists.mp inv.attached
  unfold producedBytes at hprod
  rw [hf] at hprod
  simp only at hprod
  have e3 : (io.bytes_written + chunk.length) % 65536 = io.bytes_written + chunk.length := by
    omega
  have hlen : (memcpyAt io.buffer_ io.current_byte_ chunk).length = io.buffer_.length :=
    memcpyAt_length _ _ _ (by omega)
  have htake : (memcpyAt io.buffer_ io.current_byte_ chunk).take
      (io.bytes_written + chunk.length) = io.buffer_.take io.bytes_written ++ chunk := by
    rw [← hcur]; exact memcpyAt_take _ _ _ (by omega)
  have hpend : pendVal e' = 0 := pendVal_aligned e' he'
  rw [e3]
  by_cases hpush : chunk.length = BitIO_BufferSize - io.bytes_written
  · rw [if_pos hpush]
    simp only [streamOperation, inv.op, BitIO_push_]
    refine ⟨⟨inv.status, rfl, rfl, ?_, by rw [← hlen] at hbl; exact hbl, by simp [hf]⟩,
      hpl, ?_, ?_, ?_⟩
    · show 0 < BitIO_BufferSize
      decide
    · simp only [producedBytes, hf, Option.map_some', fwrite, List.take_zero, List.append_nil]
      rw [htake, ← List.append_assoc, hprod, hfull, List.append_assoc]
    · show io.bits_written = e'.length % 8
      rw [he', hw, he]
    · rw [he', hpend]; simp [Nat.mod_one]
  · rw [if_neg hpush]
    unfold BitIO_BufferSize at hpush
    refine ⟨⟨inv.status, inv.op, by simp [hcur], ?_, by rw [← hlen] at hbl; exact hbl,
      inv.attached⟩, hpl, ?_, ?_, ?_⟩
    · show io.bytes_written + chunk.length < BitIO_BufferSize
      unfold BitIO_BufferSize
      omega
    · simp only [producedBytes, hf]
      rw [htake, ← List.append_assoc, hprod, hfull, List.append_assoc]
    · show io.bits_written = e'.length % 8
      rw [he', hw, he]
    · rw [he', hpend]; simp [Nat.mod_one]



theorem writeBuffer_rel (fuel : Nat) (io : BitIO) (pl : Bool) (pre : List Nat) (e : List Bool)
    (bits : List Nat) (off length : Nat)
    (h : WRel io pl pre e) (he : e.length % 8 = 0) (hlen : off + length ≤ bits.length)
    (hb : ∀ x ∈ bits, x < 256) (hfuel : length + 2 ≤ fuel) :
    ∃ io1, BitIO_writeBuffer_ fuel io bits off length = some io1 ∧
      WRel io1 pl pre (e ++ srcBits (bits.drop off) (8 * length)) := by
  induction fuel generalizing io e off length with
  | zero => omega
  | succ fuel ih =>
    rw [BitIO_writeBuffer_]
    by_cases h0 : length = 0
    · subst h0
      exact ⟨io, by simp, by simpa [srcBits_zero] using h⟩
    · rw [if_neg h0]
      have hroom := h.1.room
      have hB : BitIO_BufferSize = 1024 := rfl
      have havail : (BitIO_BufferSize + 4294967296 - io.bytes_written) % 4294967296
          = BitIO_BufferSize - io.bytes_written := by
        omega
      simp only [havail]
      generalize hws : (if BitIO_BufferSize - io.bytes_written < length
        then BitIO_BufferSize - io.bytes_written else length) = ws
      have hws1 : 1 ≤ ws ∧ ws ≤ length ∧ io.bytes_written + ws ≤ BitIO_BufferSize := by
        split at hws <;> omega
      have hcl : ((bits.drop off).take ws).length = ws := by
        simp only [List.length_take, List.length_drop]; omega
      have hbd : ∀ x ∈ bits.drop off, x < 256 := fun x hx => hb x (List.mem_of_mem_drop hx)
      obtain ⟨hfull, hmod⟩ := append_src_bytes e (bits.drop off) ws he
        (by simp only [List.length_drop]; omega) hbd
      have hstep := copy_rel io pl pre e (e ++ srcBits (bits.drop off) (8 * ws))
        ((bits.drop off).take ws) h he (by rw [hcl]; exact hws1.2.2) hfull hmod
      rw [hcl] at hstep
      obtain ⟨io1, h1, h2⟩ := ih _ (e ++ srcBits (bits.drop off) (8 * ws)) (off + ws)
        (length - ws) hstep hmod (by omega) (by omega)
      refine ⟨io1, h1, ?_⟩
      have e1 : 8 * length = 8 * ws + 8 * (length - ws) := by omega
      rw [e1, srcBits_add, List.drop_drop, ← List.append_assoc]
      exact h2


theorem WBytes.setCur {io : BitIO} {pl : Bool} {pre B : List Nat}
    (h : WBytes io pl pre B) (v : Nat) : WBytes (io.setCur v) pl pre B := by
  obtain ⟨inv, hpl, hprod⟩ := h
  refine ⟨⟨inv.status, inv.op, inv.cursor, inv.room, ?_, inv.attached⟩, hpl, ?_⟩
  · simpa [ BitIO.setCur] using inv.buflen
  · rw [← hprod]
    simp only [producedBytes, BitIO.setCur]
    rw [inv.cursor, take_set_ge _ _ _ _ (le_refl _)]

theorem WBytes.setBits {io : BitIO} {pl : Bool} {pre B : List Nat}
    (h : WBytes io pl pre B) (k : Nat) : WBytes { io with bits_written := k } pl pre B := by
  obtain ⟨inv, hpl, hprod⟩ := h
  exact ⟨⟨inv.status, inv.op, inv.cursor, inv.room, inv.buflen, inv.attached⟩, hpl, hprod⟩

theorem cur_setCur {io : BitIO} {pl : Bool} {pre B : List Nat}
    (h : WBytes io pl pre B) (v : Nat) : (io.setCur v).cur = v % 256 := by
  simp only [ BitIO.cur, BitIO.setCur]
  exact getD_set_self _ _ _ _ h.1.cur_lt

/-- Committing the current byte. -/
theorem WBytes.advance {io : BitIO} {pl : Bool} {pre B : List Nat}
    (h : WBytes io pl pre B) :
    WBytes (BitIO_advanceWriteBufferPointer_ io) pl pre (B ++ [io.cur]) ∧
      (BitIO_advanceWriteBufferPointer_ io).bits_written = io.bits_written := by
  obtain ⟨inv, hpl, hprod⟩ := h
  have hcur := inv.cursor
  have hroom := inv.room
  have hbl := inv.buflen
  have hp := inv.cur_lt
  have hB : BitIO_BufferSize = 1024 := rfl
  obtain ⟨f, hf⟩ := Option.isSome_iff_exists.mp inv.attached
  unfold producedBytes at hprod
  rw [hf] at hprod
  simp only at hprod
  have e3 : (io.bytes_written + 1) % 65536 = io.bytes_written + 1 := by omega
  have htake : io.buffer_.take (io.bytes_written + 1) =
      io.buffer_.take io.bytes_written ++ [io.cur] := by
    rw [List.take_succ, BitIO.cur, hcur, List.getD_eq_getElem?_getD]
    rw [List.getElem?_eq_getElem (by omega)]
    simp
  unfold BitIO_advanceWriteBufferPointer_
  simp only [e3]
  by_cases hpush : io.bytes_written + 1 = BitIO_BufferSize
  · rw [if_pos hpush]
    simp only [streamOperation, inv.op, BitIO_push_]
    refine ⟨⟨⟨inv.status, rfl, rfl, ?_, hbl, by simp [hf]⟩, hpl, ?_⟩, trivial⟩
    · show 0 < BitIO_BufferSize
      decide
    · simp only [producedBytes, hf, Option.map_some', fwrite, List.take_zero, List.append_nil]
      rw [htake, ← List.append_assoc, hprod, List.append_assoc]
  · rw [if_neg hpush]
    refine ⟨⟨⟨inv.status, inv.op, by simp [hcur], ?_, hbl, inv.attached⟩, hpl, ?_⟩, rfl⟩
    · show io.bytes_written + 1 < BitIO_BufferSize
      omega
    · simp only [producedBytes, hf]
      rw [htake, ← List.append_assoc, hprod, List.append_assoc]

theorem WRel.bytes {io : BitIO} {pl : Bool} {pre : List Nat} {e : List Bool}
    (h : WRel io pl pre e) : WBytes io pl pre (fullBytes e) := ⟨h.1, h.2.1, h.2.2.1⟩

theorem stage2b_val (c x w n : Nat) (hx : x < 256) (h : w + n < 8) :
    (((c <<< n) ||| (x >>> (8 - n))) % 256) % 2 ^ (w + n) =
      (c % 2 ^ w) * 2 ^ n + x / 2 ^ (8 - n) := by
  have hlt : x >>> (8 - n) < 2 ^ n := by
    rw [Nat.shiftRight_eq_div_pow]
    have hn : n < 8 := by omega
    interval_cases n <;> omega
  rw [shl_lor _ _ _ hlt, Nat.shiftRight_eq_div_pow]
  have hw : w < 8 := by omega
  have hn : n < 8 := by omega
  interval_cases w <;> interval_cases n <;> omega

theorem commit_val (c x w : Nat) (hx : x < 256) (h0 : 0 < w) (h : w < 8) :
    ((c <<< (8 - w)) ||| (x >>> w)) % 256 = (c % 2 ^ w) * 2 ^ (8 - w) + x / 2 ^ w := by
  have hlt : x >>> w < 2 ^ (8 - w) := by
    rw [Nat.shiftRight_eq_div_pow]
    interval_cases w <;> omega
  rw [shl_lor _ _ _ hlt, Nat.shiftRight_eq_div_pow]
  interval_cases w <;> omega


theorem write_loop_zero (fuel : Nat) (io : BitIO) (bits : List Nat) (off p : Nat)
    (h : 1 ≤ fuel) : BitIO_write_loop fuel io bits off 0 p = some io := by
  cases fuel with
  | zero => omega
  | succ k => simp [BitIO_write_loop]

theorem getD_lt (bits : List Nat) (i : Nat) (hb : ∀ x ∈ bits, x < 256) :
    bits.getD i 0 < 256 := by
  by_cases h : i < bits.length
  · rw [List.getD_eq_getElem _ _ h]; exact hb _ (List.getElem_mem _)
  · rw [List.getD_eq_default _ _ (by omega)]; decide

/-- The unaligned loop of `BitIO_write` emits the first `n` bits of its source. -/
theorem write_loop_rel (fuel : Nat) (io : BitIO) (pl : Bool) (pre : List Nat) (e : List Bool)
    (bits : List Nat) (off n : Nat)
    (h : WRel io pl pre e) (hw0 : e.length % 8 ≠ 0)
    (hb : ∀ x ∈ bits, x < 256) (hfuel : n / 8 + 2 ≤ fuel) :
    ∃ io1, BitIO_write_loop fuel io bits off n (8 - e.length % 8) = some io1 ∧
      WRel io1 pl pre (e ++ srcBits (bits.drop off) n) := by
  induction fuel generalizing io e off n with
  | zero => omega
  | succ fuel ih =>
    rw [BitIO_write_loop]
    by_cases h0 : n = 0
    · subst h0
      exact ⟨io, by simp, by simpa [srcBits_zero] using h⟩
    · rw [if_neg h0]
      have hw8 : e.length % 8 < 8 := Nat.mod_lt _ (by decide)
      have hx : bits.getD off 0 < 256 := getD_lt bits off hb
      have hx' : (bits.drop off).getD 0 0 < 256 := by rw [getD_drop]; exact hx
      have hxe : (bits.drop off).getD 0 0 = bits.getD off 0 := by rw [getD_drop]; rfl
      have hwb := h.2.2.2.1
      have hcv := h.2.2.2.2
      have hB := h.bytes
      simp only [CHAR_BIT]
      by_cases hlt : n < 8 - e.length % 8
      · rw [if_pos hlt, write_loop_zero _ _ _ _ _ (by omega)]
        refine ⟨_, rfl, ?_⟩
        obtain ⟨h1, h2, h3⟩ := append_src_pending e (bits.drop off) n hx' (by omega)
        have hP := (hB.setCur
          ((io.cur <<< n) ||| (bits.getD off 0 >>> (8 - n)))).setBits
          ((io.bits_written + n) % 256)
        refine ⟨hP.1, hP.2.1, ?_, ?_, ?_⟩
        · rw [h1]; exact hP.2.2
        · show (io.bits_written + n) % 256 = _
          rw [h3, hwb]; omega
        · show (io.setCur _).cur % _ = _
          rw [cur_setCur hB, h3, h2, hxe, ← hcv]
          exact stage2b_val _ _ _ _ hx (by omega)
      · rw [if_neg hlt]
        have hV := commit_val io.cur (bits.getD off 0) (e.length % 8) hx (by omega) hw8
        have hP1 := hB.setCur
          ((io.cur <<< (8 - e.length % 8)) ||| (bits.getD off 0 >>> io.bits_written))
        obtain ⟨hP2, hbw2⟩ := hP1.advance
        have hbyte : (io.setCur ((io.cur <<< (8 - e.length % 8)) |||
            (bits.getD off 0 >>> io.bits_written))).cur =
            pendVal e * 2 ^ (8 - e.length % 8) + bits.getD off 0 / 2 ^ (e.length % 8) := by
          rw [cur_setCur hB, hwb, hV, hcv]
        rw [hbyte] at hP2
        have hP3 := hP2.setCur (bits.getD off 0)
        have hc3 := cur_setCur hP2 (bits.getD off 0)
        have hx256 : bits.getD off 0 % 256 = bits.getD off 0 := Nat.mod_eq_of_lt hx
        by_cases h8 : n < 8
        · rw [if_pos h8, write_loop_zero _ _ _ _ _ (by omega)]
          refine ⟨_, rfl, ?_⟩
          obtain ⟨h1, h2, h3⟩ := append_src_commit e (bits.drop off) n hx' (by omega)
            (by omega)
          have hP4 := (hP3.setBits ((n - (8 - e.length % 8)) % 256)).setCur
            (( BitIO.cur { (BitIO_advanceWriteBufferPointer_ (io.setCur
              ((io.cur <<< (8 - e.length % 8)) ||| (bits.getD off 0 >>> io.bits_written)))).setCur
              (bits.getD off 0) with bits_written := (n - (8 - e.length % 8)) % 256 })
              >>> (8 - n))
          have hc4 := cur_setCur (hP3.setBits ((n - (8 - e.length % 8)) % 256))
            (( BitIO.cur { (BitIO_advanceWriteBufferPointer_ (io.setCur
              ((io.cur <<< (8 - e.length % 8)) ||| (bits.getD off 0 >>> io.bits_written)))).setCur
              (bits.getD off 0) with bits_written := (n - (8 - e.length % 8)) % 256 })
              >>> (8 - n))
          refine ⟨hP4.1, hP4.2.1, ?_, ?_, ?_⟩
          · rw [h1, hxe]; exact hP4.2.2
          · show (n - (8 - e.length % 8)) % 256 = _
            rw [h3]; omega
          · have : ∀ y, (y % 256) % 2 ^ (e.length % 8 + n - 8) = y % 2 ^ (e.length % 8 + n - 8) := by
              intro y
              have hk : e.length % 8 + n - 8 < 8 := by omega
              generalize e.length % 8 + n - 8 = k at hk
              interval_cases k <;> omega
            show ((_ : BitIO).setCur _).cur % _ = _
            rw [hc4, h3, h2, hxe, this, Nat.shiftRight_eq_div_pow]
            congr 3
            show ((_ : BitIO).setCur _).cur = _
            rw [hc3, hx256]
        · rw [if_neg h8]
          obtain ⟨h1, h2, h3⟩ := append_src_commit e (bits.drop off) 8 hx' (by omega)
            (le_refl _)
          have hrel : WRel ((BitIO_advanceWriteBufferPointer_ (io.setCur
              ((io.cur <<< (8 - e.length % 8)) ||| (bits.getD off 0 >>> io.bits_written)))).setCur
              (bits.getD off 0)) pl pre (e ++ srcBits (bits.drop off) 8) := by
            refine ⟨hP3.1, hP3.2.1, ?_, ?_, ?_⟩
            · rw [h1, hxe]; exact hP3.2.2
            · show (BitIO_advanceWriteBufferPointer_ _).bits_written = _
              rw [hbw2, h3]
              show io.bits_written = _
              rw [hwb]; omega
            · rw [hc3, h3, h2, hxe, hx256]
              have e1 : e.length % 8 + 8 - 8 = e.length % 8 := by omega
              rw [e1]
              simp
          have hmod : (e ++ srcBits (bits.drop off) 8).length % 8 = e.length % 8 := by
            rw [h3]; omega
          obtain ⟨io1, hr1, hr2⟩ := ih _ (e ++ srcBits (bits.drop off) 8) (off + 1) (n - 8)
            hrel (by rw [hmod]; exact hw0) (by omega)
          rw [hmod] at hr1
          refine ⟨io1, hr1, ?_⟩
          have e2 : 8 * 1 + (n - 8) = n := by omega
          have e3 := srcBits_add (bits.drop off) 1 (n - 8)
          rw [List.drop_drop, e2] at e3
          rw [e3, ← List.append_assoc]
          exact hr2


theorem field_mod (x j : Nat) (hx : x < 256) (hj : j < 8) :
    ((x >>> (8 - j)) % 256) % 2 ^ j = x / 2 ^ (8 - j) := by
  rw [Nat.shiftRight_eq_div_pow]
  interval_cases j <;> omega

/-- One call of `BitIO_write` emits the first `n` bits of its source. -/
theorem write_rel (fuel : Nat) (io : BitIO) (pl : Bool) (pre : List Nat) (e : List Bool)
    (bits : List Nat) (n : Nat)
    (h : WRel io pl pre e) (hn : n ≤ 8 * bits.length)
    (hb : ∀ x ∈ bits, x < 256) (hfuel : n / 8 + 2 ≤ fuel) :
    ∃ io1, BitIO_write fuel io bits n = some io1 ∧ WRel io1 pl pre (e ++ srcBits bits n) := by
  have hwb := h.2.2.2.1
  have hw8 : e.length % 8 < 8 := Nat.mod_lt _ (by decide)
  unfold BitIO_write
  rw [h.1.check_write]
  simp only [Bool.false_eq_true, if_false, CHAR_BIT]
  by_cases h0 : io.bits_written = 0
  · rw [if_pos h0]
    have he : e.length % 8 = 0 := by omega
    obtain ⟨io1, h1, h2⟩ := writeBuffer_rel fuel io pl pre e bits 0 (n / 8) h he (by omega) hb
      hfuel
    rw [h1]
    simp only [List.drop_zero] at h2
    refine ⟨_, rfl, ?_⟩
    have hx : (bits.drop (n / 8)).getD 0 0 < 256 := by rw [getD_drop]; exact getD_lt _ _ hb
    have hxe : (bits.drop (n / 8)).getD 0 0 = bits.getD (n / 8) 0 := by rw [getD_drop]; rfl
    have he1 : (e ++ srcBits bits (8 * (n / 8))).length % 8 = 0 := by
      simp only [List.length_append, srcBits_length]; omega
    have hleft : n - n / 8 * 8 = n % 8 := by omega
    obtain ⟨h3, h4, h5⟩ := append_src_pending (e ++ srcBits bits (8 * (n / 8)))
      (bits.drop (n / 8)) (n % 8) hx (by omega)
    have e1 : 8 * (n / 8) + n % 8 = n := by omega
    have e2 := srcBits_add bits (n / 8) (n % 8)
    rw [e1] at e2
    rw [List.append_assoc, ← e2] at h3 h4 h5
    rw [hleft]
    have hP := (h2.bytes.setCur (bits.getD (n / 8) 0 >>> (8 - n % 8))).setBits (n % 8 % 256)
    refine ⟨hP.1, hP.2.1, ?_, ?_, ?_⟩
    · rw [h3]; exact hP.2.2
    · show n % 8 % 256 = _
      rw [h5, he1]; omega
    · show (io1.setCur _).cur % _ = _
      rw [cur_setCur h2.bytes, h5, he1, h4, pendVal_aligned _ he1, hxe, Nat.zero_add]
      simp only [Nat.zero_mul, Nat.zero_add]
      exact field_mod _ _ (getD_lt _ _ hb) (Nat.mod_lt _ (by decide))
  · rw [if_neg h0]
    have hp : (8 + 256 - io.bits_written) % 256 = 8 - e.length % 8 := by omega
    rw [hp]
    have := write_loop_rel fuel io pl pre e bits 0 n h (by omega) hb hfuel
    simpa using this

/-- Closing a plain writer emits the pending byte, top aligned, and nothing
else. -/
theorem close_rel_plain (nd : Bool) (io : BitIO) (pre : List Nat) (e : List Bool)
    (h : WRel io true pre e) :
    ∃ io1 f, BitIO_close nd io = some (io1, some f) ∧
      f.bytes = pre ++ packBits e ∧
      io1.status_ = BitIOStatus.Closed ∧ io1.stream_ = none := by
  obtain ⟨inv, hplain, hprod, hw, hc⟩ := h
  have hp := inv.cur_lt
  have hcur := inv.cursor
  have hroom := inv.room
  unfold BitIO_BufferSize at hroom
  obtain ⟨f, hf⟩ := Option.isSome_iff_exists.mp inv.attached
  unfold producedBytes at hprod
  rw [hf] at hprod
  simp only at hprod
  have hst : ¬ io.status_ = BitIOStatus.Closed := by rw [inv.status]; decide
  have hnone : io.stream_.isNone = false := by simp [hf]
  unfold BitIO_close
  rw [if_neg hst, hnone]
  simp only [Bool.and_false, Bool.false_eq_true, if_false, inv.status, if_true]
  by_cases h0 : io.bits_written = 0
  · have he : e.length % 8 = 0 := by omega
    simp only [h0, ne_eq, not_true_eq_false, if_false, streamOperation, inv.op, BitIO_push_,
      hplain, Bool.not_true, Bool.false_eq_true, if_true, hf, Option.map_some', fwrite, fputc,
      CHAR_BIT]
    rw [packBits_aligned e he, ← hprod]
    cases hm : io.managed_
    · simp only [Bool.false_eq_true, if_false]
      exact ⟨_, _, rfl, by simp, rfl, rfl⟩
    · simp only [if_true]
      exact ⟨_, _, rfl, by simp [fclose], rfl, rfl⟩
  · have he : e.length % 8 ≠ 0 := by omega
    have hw8 : io.bits_written < 8 := by rw [hw]; exact Nat.mod_lt _ (by decide)
    have e3 : (io.bytes_written + 1) % 65536 = io.bytes_written + 1 := by omega
    simp only [h0, ne_eq, not_false_eq_true, if_true, streamOperation, BitIO.setCur, inv.op,
      BitIO_push_, hplain, Bool.false_eq_true, if_false, hf, Option.map_some', fwrite, fputc,
      CHAR_BIT, e3]
    rw [packBits_unaligned e he, ← List.append_assoc pre, ← hprod,
      ← hc, ← hw, ← top_align _ _ hw8]
    rw [Nat.shiftLeft_eq, hcur, take_succ_set _ _ _ (by omega)]
    cases hm : io.managed_
    · simp only [Bool.false_eq_true, if_false]
      exact ⟨_, _, rfl, by simp, rfl, rfl⟩
    · simp only [if_true]
      exact ⟨_, _, rfl, by simp [fclose], rfl, rfl⟩

theorem runCalls_rel (fuel : Nat) (calls : List WriteCall) (io : BitIO) (pl : Bool)
    (pre : List Nat) (e : List Bool) (h : WRel io pl pre e)
    (hwf : ∀ c ∈ calls, c.wf fuel) :
    ∃ io1, runCalls fuel calls io = some io1 ∧ WRel io1 pl pre (e ++ emittedAll calls) := by
  induction calls generalizing io e with
  | nil => exact ⟨io, rfl, by simpa [emittedAll] using h⟩
  | cons c cs ih =>
    have hcs : ∀ c ∈ cs, c.wf fuel := fun c hc => hwf c (List.mem_cons_of_mem _ hc)
    have hc := hwf c (List.mem_cons_self _ _)
    cases c with
    | put b =>
      obtain ⟨io1, h1, h2⟩ := ih (BitIO_put io b) (e ++ [b]) (put_rel io pl pre e b h) hcs
      exact ⟨io1, h1, by simpa [emittedAll, WriteCall.emitted] using h2⟩
    | write bits n =>
      obtain ⟨hn, hb, hf⟩ := hc
      obtain ⟨io0, h0, hr⟩ := write_rel fuel io pl pre e bits n h hn hb hf
      obtain ⟨io1, h1, h2⟩ := ih io0 (e ++ srcBits bits n) hr hcs
      refine ⟨io1, ?_, by simpa [emittedAll, WriteCall.emitted] using h2⟩
      simp only [runCalls, h0]
      exact h1

theorem low_field (c w : Nat) (hw : w < 8) :
    ((c % 2 ^ w * 2 ^ (8 - w)) / 2 ^ (8 - 0 - w)) % 2 ^ w = c % 2 ^ w := by
  interval_cases w <;> omega

/-- Every writer between two operations has emitted some bit sequence. -/
theorem WInv.rel (io : BitIO) (h : WInv io) (hw : io.bits_written < 8) :
    ∃ e, WRel io io.plain_ (producedBytes io) e := by
  refine ⟨srcBits [io.cur % 2 ^ io.bits_written * 2 ^ (8 - io.bits_written)] io.bits_written,
    h, rfl, ?_, ?_, ?_⟩
  · have : (srcBits [io.cur % 2 ^ io.bits_written * 2 ^ (8 - io.bits_written)]
        io.bits_written).length / 8 = 0 := by
      rw [srcBits_length]; omega
    simp [fullBytes, this]
  · rw [srcBits_length]; omega
  · unfold pendVal
    rw [srcBits_length]
    have e1 : io.bits_written / 8 = 0 := by omega
    have e2 : io.bits_written % 8 = io.bits_written := by omega
    rw [e1, e2]
    have := bitsVal_srcBits [io.cur % 2 ^ io.bits_written * 2 ^ (8 - io.bits_written)]
      io.bits_written 0 0 io.bits_written (by omega) (by omega)
    simp only [Nat.mul_zero, Nat.add_zero] at this
    rw [this]
    simp only [List.getD_cons_zero]
    exact (low_field _ _ hw).symm

theorem emittedAll_length (calls : List WriteCall) :
    (emittedAll calls).length = totalBits calls := by
  induction calls with
  | nil => rfl
  | cons c cs ih =>
    cases c <;> simp [emittedAll, WriteCall.emitted, totalBits, WriteCall.bitCount,
      srcBits_length] at ih ⊢ <;> omega

theorem structuredWriteRequest_flags (modes : Nat) (h : structuredWriteRequest modes = true) :
    modes &&& (0xFFFFFFFF ^^^ BitIOOpen_Mask) = 0 ∧ hasFlag modes BitIOOpen_Write = true ∧
      hasFlag modes BitIOOpen_Read = false ∧ hasFlag modes BitIOOpen_Plain = false ∧
      hasFlag modes BitIOOpen_ByPath = false := by
  simp only [structuredWriteRequest, Bool.and_eq_true, decide_eq_true_eq,
    Bool.not_eq_true'] at h
  obtain ⟨⟨⟨⟨a, b⟩, c⟩, d⟩, e⟩ := h
  exact ⟨a, b, c, d, e⟩

/-- Opening a structured writer, performing write calls and closing. -/
theorem structured_session (nd : Bool) (buf : List Nat) (sink : Source) (modes fuel : Nat)
    (calls : List WriteCall)
    (hbuf : buf.length = BitIO_BufferSize + BitIO_BufferRedundancy)
    (hmodes : structuredWriteRequest modes = true)
    (hwf : ∀ c ∈ calls, c.wf fuel) :
    ∃ io io1 io2 f,
      BitIO_open nd (BitIO_create buf) (some sink) modes = some ⟨true, io, none⟩ ∧
      runCalls fuel calls io = some io1 ∧
      BitIO_close nd io1 = some (io2, some f) ∧
      f.bytes = sink.file.bytes ++ BitIO_Signature ++ packBits (emittedAll calls)
        ++ [trailerOf (totalBits calls)] := by
  obtain ⟨h1, h2, h3, h4, h5⟩ := structuredWriteRequest_flags modes hmodes
  obtain ⟨io, ho, hr⟩ := open_write_rel nd buf sink modes
    (by rw [hbuf]; decide) h1 h2 h3 h4 h5
  obtain ⟨io1, hr1, hr2⟩ := runCalls_rel fuel calls io false _ [] hr hwf
  obtain ⟨io2, f, hc, hb, _, _⟩ := close_rel nd io1 _ _ hr2
  refine ⟨io, io1, io2, f, ho, hr1, hc, ?_⟩
  rw [hb, List.nil_append, emittedAll_length]

theorem runCalls_put (fuel : Nat) (bs : List Bool) (io : BitIO) :
    runCalls fuel (bs.map WriteCall.put) io = some (putAll io bs) := by
  induction bs generalizing io with
  | nil => rfl
  | cons b bs ih => simp [runCalls, putAll, ih]

theorem emittedAll_put (bs : List Bool) : emittedAll (bs.map WriteCall.put) = bs := by
  induction bs with
  | nil => rfl
  | cons b bs ih => simp [emittedAll, WriteCall.emitted, ih]

/-- C3 (encoded layout).  For every bit sequence `b` of length `K` written
with `BitIO_put` to a structured writer opened on an empty sink and then
closed, the sink holds exactly `5 + ceil(K/8) + 1` bytes: the signature, then
`ceil(K/8)` content bytes in which bit `b[i]` sits at bit position
`7 - (i mod 8)` of content byte `i / 8` and every unused low bit of the last
content byte is 0, then the trailer (`K mod 8`, or 8 when that is 0).  The
nine bits 1,0,1,1,0,0,1,0,1 give `B2 80` and trailer 1; no bits give exactly
`42 69 74 49 4F 08`. -/
theorem C3_encoded_layout (nd : Bool) (buf : List Nat) (sink : Source) (modes : Nat)
    (b : List Bool)
    (hbuf : buf.length = BitIO_BufferSize + BitIO_BufferRedundancy)
    (hsink : sink.file.bytes = [])
    (hmodes : structuredWriteRequest modes = true) :
    ∃ io io1 f content,
      BitIO_open nd (BitIO_create buf) (some sink) modes = some ⟨true, io, none⟩ ∧
      BitIO_close nd (putAll io b) = some (io1, some f) ∧
      f.bytes = BitIO_Signature ++ content ++ [if b.length % 8 = 0 then 8 else b.length % 8] ∧
      f.bytes.length = 5 + (b.length + 7) / 8 + 1 ∧
      content.length = (b.length + 7) / 8 ∧
      (∀ i, i < b.length → bitAt content i = (b.getD i false).toNat) ∧
      (∀ i, b.length ≤ i → i < 8 * ((b.length + 7) / 8) → bitAt content i = 0) ∧
      (b = [true, false, true, true, false, false, true, false, true] →
        f.bytes = [0x42, 0x69, 0x74, 0x49, 0x4F, 0xB2, 0x80, 0x01]) ∧
      (b = [] → f.bytes = [0x42, 0x69, 0x74, 0x49, 0x4F, 0x08]) := by
  obtain ⟨io, io1, io2, f, ho, hr, hc, hb⟩ := structured_session nd buf sink modes 0
    (b.map WriteCall.put) hbuf hmodes (by
      intro c hc
      obtain ⟨x, _, rfl⟩ := List.mem_map.mp hc
      trivial)
  rw [runCalls_put] at hr
  cases hr
  have hK : totalBits (b.map WriteCall.put) = b.length := by
    rw [← emittedAll_length, emittedAll_put]
  rw [emittedAll_put, hK, hsink, List.nil_append] at hb
  refine ⟨io, io2, f, packBits b, ho, hc, hb, ?_, packBits_length b, ?_, ?_, ?_, ?_⟩
  · rw [hb]
    simp [packBits_length, BitIO_Signature]
    omega
  · intro i hi
    exact bitAt_packBits b i (by omega)
  · intro i h1 h2
    rw [bitAt_packBits b i h2, List.getD_eq_default _ _ h1]
    rfl
  · intro h
    subst h
    rw [hb]
    decide
  · intro h
    subst h
    rw [hb]
    decide

/-- Instance of C3 at the nine bits 1,0,1,1,0,0,1,0,1. -/
theorem C3_encoded_layout_witness :
    (List.replicate 1026 0).length = BitIO_BufferSize + BitIO_BufferRedundancy ∧
    (Source.mk FILE.output none).file.bytes = [] ∧
    structuredWriteRequest BitIOOpen_Write = true ∧
    ∃ io io1 f content,
      BitIO_open false (BitIO_create (List.replicate 1026 0))
        (some (Source.mk FILE.output none)) BitIOOpen_Write = some ⟨true, io, none⟩ ∧
      BitIO_close false
        (putAll io [true, false, true, true, false, false, true, false, true])
        = some (io1, some f) ∧
      f.bytes = BitIO_Signature ++ content ++ [if 9 % 8 = 0 then 8 else 9 % 8] ∧
      f.bytes.length = 5 + (9 + 7) / 8 + 1 ∧
      content.length = (9 + 7) / 8 ∧
      (∀ i, i < 9 → bitAt content i =
        ([true, false, true, true, false, false, true, false, true].getD i false).toNat) ∧
      (∀ i, 9 ≤ i → i < 8 * ((9 + 7) / 8) → bitAt content i = 0) ∧
      ([true, false, true, true, false, false, true, false, true]
          = [true, false, true, true, false, false, true, false, true] →
        f.bytes = [0x42, 0x69, 0x74, 0x49, 0x4F, 0xB2, 0x80, 0x01]) ∧
      ([true, false, true, true, false, false, true, false, true] = [] →
        f.bytes = [0x42, 0x69, 0x74, 0x49, 0x4F, 0x08]) :=
  ⟨List.length_replicate _ _, rfl, by decide,
    C3_encoded_layout false (List.replicate 1026 0) (Source.mk FILE.output none) BitIOOpen_Write
      [true, false, true, true, false, false, true, false, true] (List.length_replicate _ _) rfl
      (by decide)⟩

theorem WRel.view_eq {a b : BitIO} {pl : Bool} {pre : List Nat} {e : List Bool}
    (ha : WRel a pl pre e) (hb : WRel b pl pre e) : writerView a = writerView b := by
  obtain ⟨_, _, a1, a2, a3⟩ := ha
  obtain ⟨_, _, b1, b2, b3⟩ := hb
  unfold writerView
  rw [a1, b1, a2, b2, a3, b3]

theorem finishWith_rel (nd : Bool) (fuel : Nat) (calls : List WriteCall) (io : BitIO)
    (pl : Bool) (pre : List Nat) (e : List Bool) (h : WRel io pl pre e)
    (hwf : ∀ c ∈ calls, c.wf fuel) :
    finishWith nd fuel calls io =
      some (pre ++ packBits (e ++ emittedAll calls) ++
        (if pl then [] else [trailerOf (e ++ emittedAll calls).length])) := by
  obtain ⟨io1, h1, h2⟩ := runCalls_rel fuel calls io pl pre e h hwf
  unfold finishWith
  rw [h1]
  cases pl with
  | false =>
    obtain ⟨io2, f, hc, hb, _, _⟩ := close_rel nd io1 _ _ h2
    simp [hc, closedBytes, hb]
  | true =>
    obtain ⟨io2, f, hc, hb, _, _⟩ := close_rel_plain nd io1 _ _ h2
    simp [hc, closedBytes, hb]

/-- C4 (trailer correctness).  For every sequence of `BitIO_put` and
`BitIO_write` calls on a structured writer that emits `K` bits in total, the
last byte that `BitIO_close` writes to the sink is `K mod 8` when that is
nonzero and 8 otherwise; it follows the signature and `ceil(K/8)` content
bytes, so for `K = 0` there is no content byte between signature and trailer. -/
theorem C4_trailer_correctness (nd : Bool) (buf : List Nat) (sink : Source) (modes fuel : Nat)
    (calls : List WriteCall)
    (hbuf : buf.length = BitIO_BufferSize + BitIO_BufferRedundancy)
    (hmodes : structuredWriteRequest modes = true)
    (hwf : ∀ c ∈ calls, c.wf fuel) :
    ∃ io io1 io2 f content,
      BitIO_open nd (BitIO_create buf) (some sink) modes = some ⟨true, io, none⟩ ∧
      runCalls fuel calls io = some io1 ∧
      BitIO_close nd io1 = some (io2, some f) ∧
      f.bytes = sink.file.bytes ++ BitIO_Signature ++ content ++
        [if totalBits calls % 8 = 0 then 8 else totalBits calls % 8] ∧
      content.length = (totalBits calls + 7) / 8 ∧
      f.bytes.getLast? = some (if totalBits calls % 8 = 0 then 8 else totalBits calls % 8) ∧
      (totalBits calls = 0 → f.bytes = sink.file.bytes ++ BitIO_Signature ++ [8]) := by
  obtain ⟨io, io1, io2, f, ho, hr, hc, hb⟩ := structured_session nd buf sink modes fuel
    calls hbuf hmodes hwf
  have hlen : (packBits (emittedAll calls)).length = (totalBits calls + 7) / 8 := by
    rw [packBits_length, emittedAll_length]
  refine ⟨io, io1, io2, f, packBits (emittedAll calls), ho, hr, hc, hb, hlen, ?_, ?_⟩
  · rw [hb]
    simp [trailerOf]
  · intro h0
    rw [h0] at hlen
    have : packBits (emittedAll calls) = [] := List.length_eq_zero.mp hlen
    rw [hb, this, h0, List.append_nil]
    rfl

/-- Instance of C4: one put, a ten-bit write, one put. -/
theorem C4_trailer_correctness_witness :
    (List.replicate 1026 0).length = BitIO_BufferSize + BitIO_BufferRedundancy ∧
    structuredWriteRequest BitIOOpen_Write = true ∧
    (∀ c ∈ [WriteCall.put true, WriteCall.write [0xA5, 0xC0] 10, WriteCall.put false],
      c.wf 4) ∧
    ∃ io io1 io2 f content,
      BitIO_open false (BitIO_create (List.replicate 1026 0))
        (some (Source.mk FILE.output none)) BitIOOpen_Write = some ⟨true, io, none⟩ ∧
      runCalls 4 [WriteCall.put true, WriteCall.write [0xA5, 0xC0] 10, WriteCall.put false] io
        = some io1 ∧
      BitIO_close false io1 = some (io2, some f) ∧
      f.bytes = (Source.mk FILE.output none).file.bytes ++ BitIO_Signature ++ content ++
        [if totalBits [WriteCall.put true, WriteCall.write [0xA5, 0xC0] 10,
            WriteCall.put false] % 8 = 0 then 8
         else totalBits [WriteCall.put true, WriteCall.write [0xA5, 0xC0] 10,
            WriteCall.put false] % 8] ∧
      content.length = (totalBits [WriteCall.put true, WriteCall.write [0xA5, 0xC0] 10,
            WriteCall.put false] + 7) / 8 ∧
      f.bytes.getLast? = some
        (if totalBits [WriteCall.put true, WriteCall.write [0xA5, 0xC0] 10,
            WriteCall.put false] % 8 = 0 then 8
         else totalBits [WriteCall.put true, WriteCall.write [0xA5, 0xC0] 10,
            WriteCall.put false] % 8) ∧
      (totalBits [WriteCall.put true, WriteCall.write [0xA5, 0xC0] 10,
            WriteCall.put false] = 0 →
        f.bytes = (Source.mk FILE.output none).file.bytes ++ BitIO_Signature ++ [8]) :=
  ⟨List.length_replicate _ _, by decide,
    by simp [WriteCall.wf],
    C4_trailer_correctness false (List.replicate 1026 0) (Source.mk FILE.output none)
      BitIOOpen_Write 4 [WriteCall.put true, WriteCall.write [0xA5, 0xC0] 10, WriteCall.put false]
      (List.length_replicate _ _) (by decide) (by simp [WriteCall.wf])⟩

/-- C5 (bulk write equals repeated single-bit write).  For every writer state
`s` between two operations (any `bits_written` in 0..7, any number of committed
bytes), every source and every `n ≤ 8 * |source|`, `BitIO_write s bits n`
returns, and it is observationally equal to `n` calls of `BitIO_put` with the
first `n` source bits, most significant bit first: the bytes pushed to the sink
plus the committed bytes, `bits_written`, and the low `bits_written` bits of the
current byte agree, and so does the sink content after any common continuation
of write calls followed by `BitIO_close`. -/
theorem C5_bulk_write_refines_put (fuel : Nat) (s : BitIO) (bits : List Nat) (n : Nat)
    (hs : WInv s) (hw : s.bits_written < 8)
    (hn : n ≤ 8 * bits.length) (hb : ∀ x ∈ bits, x < 256) (hfuel : n / 8 + 2 ≤ fuel) :
    ∃ s1, BitIO_write fuel s bits n = some s1 ∧
      writerView s1 = writerView (putAll s (srcBits bits n)) ∧
      ∀ (nd : Bool) (fuel2 : Nat) (calls : List WriteCall), (∀ c ∈ calls, c.wf fuel2) →
        ∃ out, finishWith nd fuel2 calls s1 = some out ∧
          finishWith nd fuel2 calls (putAll s (srcBits bits n)) = some out := by
  obtain ⟨e, hr⟩ := hs.rel s hw
  obtain ⟨s1, h1, h2⟩ := write_rel fuel s _ _ e bits n hr hn hb hfuel
  have h3 := putAll_rel s _ _ e (srcBits bits n) hr
  refine ⟨s1, h1, h2.view_eq h3, ?_⟩
  intro nd fuel2 calls hwf
  exact ⟨_, finishWith_rel nd fuel2 calls s1 _ _ _ h2 hwf,
    finishWith_rel nd fuel2 calls _ _ _ _ h3 hwf⟩

/-- Instance of C5: a writer with three pending bits whose buffer is one byte
short of full, and a twelve-bit write. -/
theorem C5_bulk_write_refines_put_witness :
    WInv sampleWriter ∧ sampleWriter.bits_written < 8 ∧
    12 ≤ 8 * [0xA5, 0x3C].length ∧ (∀ x ∈ [0xA5, 0x3C], x < 256) ∧ 12 / 8 + 2 ≤ 4 ∧
    ∃ s1, BitIO_write 4 sampleWriter [0xA5, 0x3C] 12 = some s1 ∧
      writerView s1 = writerView (putAll sampleWriter (srcBits [0xA5, 0x3C] 12)) ∧
      ∀ (nd : Bool) (fuel2 : Nat) (calls : List WriteCall), (∀ c ∈ calls, c.wf fuel2) →
        ∃ out, finishWith nd fuel2 calls s1 = some out ∧
          finishWith nd fuel2 calls (putAll sampleWriter (srcBits [0xA5, 0x3C] 12)) = some out :=
  have hs : WInv sampleWriter :=
    ⟨rfl, rfl, rfl, by decide,
      by show BitIO_BufferSize ≤ (List.replicate 1023 0 ++ [5, 0, 0]).length
         rw [List.length_append, List.length_replicate]; decide,
      rfl⟩
  ⟨hs, by decide, by decide, by decide, by decide,
    C5_bulk_write_refines_put 4 sampleWriter [0xA5, 0x3C] 12 hs (by decide) (by decide)
      (by decide) (by decide)⟩

/-! ## Read path -/

theorem RInv.check_read (io : BitIO) (h : RInv io) : BitIO_check_ io false = false := by
  simp [BitIO_check_, h.status]

theorem RInv.not_eof (io : BitIO) (h : RInv io) : BitIO_eof io = false := by
  simp [BitIO_eof, h.status, h.noeof]

theorem getN_add (m n : Nat) (io : BitIO) :
    getN (m + n) io =
      ((getN m io).1 ++ (getN n (getN m io).2).1, (getN n (getN m io).2).2) := by
  induction m generalizing io with
  | zero => simp [getN]
  | succ m ih =>
    have e : m + 1 + n = (m + n) + 1 := by omega
    rw [e, getN, ih]
    simp [getN]

theorem RFrame.refl (io : BitIO) (q : Nat) : RFrame io io q := ⟨rfl, rfl, rfl, rfl, rfl, rfl⟩

theorem drop_eq_mono {α : Type} (l l' : List α) (q q' : Nat) (h : l.drop q = l'.drop q)
    (hq : q ≤ q') : l.drop q' = l'.drop q' := by
  have e : q' = q + (q' - q) := by omega
  rw [e, ← List.drop_drop, ← List.drop_drop, h]

theorem RFrame.trans {a b c : BitIO} {q q' : Nat} (h1 : RFrame a b q) (h2 : RFrame b c q')
    (hq : q ≤ q') : RFrame a c q' :=
  ⟨h2.status.trans h1.status, h2.eof.trans h1.eof, h2.stream.trans h1.stream,
    h2.op.trans h1.op, h2.buflen.trans h1.buflen,
    h2.above.trans (drop_eq_mono _ _ _ _ h1.above hq)⟩

theorem RFrame.mono {a b : BitIO} {q q' : Nat} (h : RFrame a b q) (hq : q ≤ q') :
    RFrame a b q' :=
  ⟨h.status, h.eof, h.stream, h.op, h.buflen, drop_eq_mono _ _ _ _ h.above hq⟩

/-- A call of `BitIO_get` while the current byte still holds bits. -/
theorem get_step (io : BitIO) (h : RInv io) (ha : 0 < io.bits_available)
    (ha8 : io.bits_available ≤ 8) (hr : 0 < io.bits_read) (hr16 : io.bits_read < 65536) :
    BitIO_get io =
      ((io.cur >>> 7) % 256,
       { io with
         buffer_ := io.buffer_.set io.current_byte_ ((io.cur <<< 1) % 256),
         bits_read := io.bits_read - 1,
         bits_available := io.bits_available - 1 }) := by
  unfold BitIO_get
  rw [h.check_read, h.not_eof]
  have e1 : ¬ io.bits_available = 0 := by omega
  have e2 : (io.bits_read + 65536 - 1) % 65536 = io.bits_read - 1 := by omega
  have e3 : (io.bits_available + 256 - 1) % 256 = io.bits_available - 1 := by omega
  simp only [Bool.false_eq_true, if_false, e1, BitIO.setCur, CHAR_BIT, e2, e3]
  rfl

theorem shift_bit (v i : Nat) (hi : i < 7) :
    (((v <<< 1) % 256) / 2 ^ (7 - i)) % 2 = (v / 2 ^ (7 - (i + 1))) % 2 := by
  rw [Nat.shiftLeft_eq]
  interval_cases i <;> omega

theorem shift_acc (v a : Nat) : (((v <<< 1) % 256) * 2 ^ a) % 256 = (v * 2 ^ (a + 1)) % 256 := by
  rw [Nat.shiftLeft_eq, Nat.mod_mul_mod, pow_succ]
  congr 1
  ring

/-- Taking `a` bits out of the current byte. -/
theorem drain_byte (a : Nat) (io : BitIO) (h : RInv io) (ha : a ≤ io.bits_available)
    (ha8 : io.bits_available ≤ 8) (har : io.bits_available ≤ io.bits_read)
    (hr16 : io.bits_read < 65536) (hp : io.current_byte_ < io.buffer_.length)
    (hv : io.cur < 256) :
    ∃ io1, getN a io = ((List.range a).map (fun i => (io.cur / 2 ^ (7 - i)) % 2), io1) ∧
      io1.bits_available = io.bits_available - a ∧ io1.bits_read = io.bits_read - a ∧
      io1.current_byte_ = io.current_byte_ ∧ RFrame io io1 (io.current_byte_ + 1) ∧
      io1.cur = (io.cur * 2 ^ a) % 256 := by
  induction a generalizing io with
  | zero =>
    refine ⟨io, rfl, rfl, rfl, rfl, RFrame.refl _ _, ?_⟩
    simp [Nat.mod_eq_of_lt hv]
  | succ a ih =>
    have hstep := get_step io h (by omega) ha8 (by omega) hr16
    have hcur' : ({ io with
         buffer_ := io.buffer_.set io.current_byte_ ((io.cur <<< 1) % 256),
         bits_read := io.bits_read - 1,
         bits_available := io.bits_available - 1 } : BitIO).cur = (io.cur <<< 1) % 256 := by
      simp only [ BitIO.cur]
      exact getD_set_self _ _ _ _ hp
    obtain ⟨io1, h1, h2, h3, h4, h5, h6⟩ := ih
      { io with
         buffer_ := io.buffer_.set io.current_byte_ ((io.cur <<< 1) % 256),
         bits_read := io.bits_read - 1,
         bits_available := io.bits_available - 1 }
      ⟨h.status, h.noeof⟩ (by simp only; omega) (by simp only; omega) (by simp only; omega)
      (by simp only; omega) (by simpa using hp)
      (by rw [hcur']; exact Nat.mod_lt _ (by decide))
    refine ⟨io1, ?_, ?_, ?_, h4, ?_, ?_⟩
    · rw [getN, hstep]
      simp only [h1, Prod.mk.injEq, and_true]
      rw [List.range_succ_eq_map, List.map_cons, List.map_map]
      congr 1
      · rw [Nat.shiftRight_eq_div_pow]
        omega
      · apply List.map_congr_left
        intro i hi
        have hi' : i < a := List.mem_range.mp hi
        simp only [Function.comp_apply, hcur']
        exact shift_bit _ _ (by omega)
    · rw [h2]; simp only; omega
    · rw [h3]; simp only; omega
    · refine ⟨h5.status, h5.eof, h5.stream, h5.op, ?_, ?_⟩
      · rw [h5.buflen]; simp
      · rw [h5.above]
        simp only
        rw [List.drop_set_of_lt _ _ (by omega)]
    · rw [h6, hcur', shift_acc]

/-- A call of `BitIO_get` when the current byte is used up and the buffer
holds further bits: the cursor moves to the next byte first. -/
theorem get_refill (io : BitIO) (h : RInv io) (ha : io.bits_available = 0)
    (hr : 0 < io.bits_read) :
    BitIO_get io = BitIO_get
      { io with
        current_byte_ := io.current_byte_ + 1,
        bits_available := if io.bits_read > CHAR_BIT then CHAR_BIT else io.bits_read } := by
  have hne : ¬ io.bits_read = 0 := by omega
  have hpos : ¬ (if io.bits_read > CHAR_BIT then CHAR_BIT else io.bits_read) = 0 := by
    unfold CHAR_BIT; split <;> omega
  have hc2 : BitIO_check_ { io with
        current_byte_ := io.current_byte_ + 1,
        bits_available := if io.bits_read > CHAR_BIT then CHAR_BIT else io.bits_read } false
      = false := by
    simp [BitIO_check_, h.status]
  have he2 : BitIO_eof { io with
        current_byte_ := io.current_byte_ + 1,
        bits_available := if io.bits_read > CHAR_BIT then CHAR_BIT else io.bits_read }
      = false := by
    simp [BitIO_eof, h.status, h.noeof]
  conv_lhs => unfold BitIO_get
  conv_rhs => unfold BitIO_get
  rw [h.check_read, h.not_eof, hc2, he2]
  simp only [Bool.false_eq_true, if_false, ha, if_true, BitIO_advanceReadBufferPointer_, hne,
    hpos]

theorem cur_bits (buf : List Nat) (p a : Nat) (ha : a ≤ 8) :
    (List.range a).map (fun i => (buf.getD p 0 / 2 ^ (7 - i)) % 2) =
      (List.range a).map (bitAt (buf.drop p)) := by
  apply List.map_congr_left
  intro i hi
  have hi' : i < a := List.mem_range.mp hi
  unfold bitAt
  rw [getD_drop]
  have e1 : i / 8 = 0 := by omega
  have e2 : i % 8 = i := by omega
  rw [e1, e2]
  rfl

theorem range_bits_split (src : List Nat) (r : Nat) (h : 8 ≤ r) :
    (List.range r).map (bitAt src) =
      (List.range 8).map (bitAt src) ++ (List.range (r - 8)).map (bitAt (src.drop 1)) := by
  have e : r = 8 + (r - 8) := by omega
  conv_lhs => rw [e, List.range_add, List.map_append, List.map_map]
  congr 1
  apply List.map_congr_left
  intro i _
  simp only [Function.comp_apply, bitAt_drop]

/-- Taking all bits that the buffer holds, starting at a byte boundary. -/
theorem drain_buffer (k : Nat) (io : BitIO) (h : RInv io)
    (ha : io.bits_available = if io.bits_read > CHAR_BIT then CHAR_BIT else io.bits_read)
    (hr : io.bits_read ≤ 8 * k) (hr16 : io.bits_read < 65536)
    (hp : io.current_byte_ + k ≤ io.buffer_.length)
    (hb : ∀ x ∈ (io.buffer_.drop io.current_byte_).take k, x < 256) :
    ∃ io1, getN io.bits_read io =
        ((List.range io.bits_read).map (bitAt (io.buffer_.drop io.current_byte_)), io1) ∧
      io1.bits_available = 0 ∧ io1.bits_read = 0 ∧
      RFrame io io1 (io.current_byte_ + k) := by
  induction k generalizing io with
  | zero =>
    have h0 : io.bits_read = 0 := by omega
    refine ⟨io, by rw [h0]; rfl, ?_, h0, RFrame.refl _ _⟩
    rw [ha, h0]; rfl
  | succ k ih =>
    unfold CHAR_BIT at ha
    by_cases h0 : io.bits_read = 0
    · refine ⟨io, by rw [h0]; rfl, ?_, h0, RFrame.refl _ _⟩
      rw [ha, h0]; rfl
    · have hplt : io.current_byte_ < io.buffer_.length := by omega
      have hdrop : io.buffer_.drop io.current_byte_ =
          io.cur :: io.buffer_.drop (io.current_byte_ + 1) := by
        rw [List.drop_eq_getElem_cons hplt, BitIO.cur, List.getD_eq_getElem _ _ hplt]
      have hcur : io.cur < 256 := hb _ (by rw [hdrop]; simp)
      have hbrest : ∀ x ∈ (io.buffer_.drop (io.current_byte_ + 1)).take k, x < 256 := by
        intro x hx
        apply hb
        rw [hdrop, List.take_succ_cons]
        exact List.mem_cons_of_mem _ hx
      obtain ⟨io1, g1, g2, g3, g4, g5, _⟩ := drain_byte io.bits_available io h (le_refl _)
        (by rw [ha]; split <;> omega) (by rw [ha]; split <;> omega) hr16 hplt hcur
      have hinv1 : RInv io1 := ⟨g5.status.trans h.status, g5.eof.trans h.noeof⟩
      by_cases hle : io.bits_read ≤ 8
      · have haeq : io.bits_available = io.bits_read := by rw [ha]; split <;> omega
        rw [haeq] at g1 g2 g3
        refine ⟨io1, ?_, by omega, by omega, g5.mono (by omega)⟩
        rw [g1, BitIO.cur, cur_bits _ _ _ hle]
      · have haeq : io.bits_available = 8 := by rw [ha]; split <;> omega
        rw [haeq] at g1 g2 g3
        have hget : getN (io.bits_read - 8) io1 = getN (io.bits_read - 8)
            { io1 with
              current_byte_ := io1.current_byte_ + 1,
              bits_available :=
                if io1.bits_read > CHAR_BIT then CHAR_BIT else io1.bits_read } := by
          obtain ⟨m, hm⟩ : ∃ m, io.bits_read - 8 = m + 1 := ⟨io.bits_read - 9, by omega⟩
          rw [hm, getN, getN, get_refill io1 hinv1 (by omega) (by omega)]
        obtain ⟨io3, i1, i2, i3, i4⟩ := ih
          { io1 with
            current_byte_ := io1.current_byte_ + 1,
            bits_available := if io1.bits_read > CHAR_BIT then CHAR_BIT else io1.bits_read }
          ⟨hinv1.status, hinv1.noeof⟩ rfl
          (by show io1.bits_read ≤ _; omega) (by show io1.bits_read < _; omega)
          (by show io1.current_byte_ + 1 + k ≤ io1.buffer_.length
              rw [g4, g5.buflen]; omega)
          (by show ∀ x ∈ (io1.buffer_.drop (io1.current_byte_ + 1)).take k, x < 256
              rw [g4, g5.above]; exact hbrest)
        simp only at i1 i4
        rw [g3] at i1 hget
        rw [g4, g5.above] at i1
        rw [g4] at hget
        refine ⟨io3, ?_, i2, i3, ?_⟩
        · have e : io.bits_read = 8 + (io.bits_read - 8) := by omega
          conv_lhs => rw [e, getN_add, g1]
          simp only
          rw [hget, i1, range_bits_split _ _ (by omega : 8 ≤ io.bits_read), BitIO.cur,
            cur_bits _ _ _ (le_refl _), List.drop_drop]
        · have f2 : RFrame io1 io3 (io.current_byte_ + (k + 1)) := by
            refine ⟨i4.status, i4.eof, i4.stream, i4.op, i4.buflen, ?_⟩
            have := i4.above
            rw [g4] at this
            rw [show io.current_byte_ + (k + 1) = io.current_byte_ + 1 + k by omega]
            exact this
          exact g5.trans f2 (by omega)

/-- A call of `BitIO_get` that has to pull and obtains data continues on the
pulled buffer. -/
theorem get_pull (io : BitIO) (h : RInv io) (ha : io.bits_available = 0)
    (hr : io.bits_read = 0) (hp : (streamOperation io).1 = true)
    (hinv : RInv (streamOperation io).2) (hpa : (streamOperation io).2.bits_available ≠ 0) :
    BitIO_get io = BitIO_get (streamOperation io).2 := by
  conv_lhs => unfold BitIO_get
  conv_rhs => unfold BitIO_get
  rw [h.check_read, h.not_eof, hinv.check_read, hinv.not_eof]
  simp only [Bool.false_eq_true, if_false, ha, if_true, BitIO_advanceReadBufferPointer_, hr,
    hp, Bool.true_eq_false, hpa]

/-- A call of `BitIO_get` that has to pull and obtains nothing returns the end
marker. -/
theorem get_end (io : BitIO) (h : RInv io) (ha : io.bits_available = 0)
    (hr : io.bits_read = 0) (hp : (streamOperation io).1 = false) :
    BitIO_get io = (EOF_uchar, (streamOperation io).2) := by
  unfold BitIO_get
  rw [h.check_read, h.not_eof]
  simp only [Bool.false_eq_true, if_false, ha, if_true, BitIO_advanceReadBufferPointer_, hr,
    hp]

/-- Once the end-of-stream flag is set, `BitIO_get` returns the end marker and
changes nothing. -/
theorem get_after_eof (io : BitIO) (hs : io.status_ = BitIOStatus.Read) (he : io.eof = true) :
    BitIO_get io = (EOF_uchar, io) := by
  unfold BitIO_get
  simp [BitIO_check_, BitIO_eof, hs, he]

theorem getN_after_eof (k : Nat) (io : BitIO) (hs : io.status_ = BitIOStatus.Read)
    (he : io.eof = true) : getN k io = (List.replicate k EOF_uchar, io) := by
  induction k with
  | zero => rfl
  | succ k ih => rw [getN, get_after_eof io hs he, ih]; rfl

theorem bitAt_congr (A B : List Nat) (m : Nat) (h : ∀ j, j < m → A.getD j 0 = B.getD j 0)
    (i : Nat) (hi : i < 8 * m) : bitAt A i = bitAt B i := by
  unfold bitAt
  rw [h (i / 8) (by omega)]

theorem map_bitAt_congr (A B : List Nat) (m n : Nat)
    (h : ∀ j, j < m → A.getD j 0 = B.getD j 0) (hn : n ≤ 8 * m) :
    (List.range n).map (bitAt A) = (List.range n).map (bitAt B) := by
  apply List.map_congr_left
  intro i hi
  exact bitAt_congr A B m h i (by have := List.mem_range.mp hi; omega)

/-- The structured pull on a used-up buffer, in explicit form. -/
theorem pull_ready (io : BitIO) (F : List Nat) (h : RReady io F) :
    ∃ f L, io.stream_ = some f ∧ L.length = 2 ∧ L ++ f.bytes = F ∧
      streamOperation io =
        (decide ((if (f.bytes.take 1024).length = 1024 then 8192
            else (8 * (f.bytes.take 1024).length +
              (L ++ f.bytes.take 1024 ++ io.buffer_.drop (2 + (f.bytes.take 1024).length)).getD
                (2 + (f.bytes.take 1024).length - 1) 0) % 65536) > 0),
         { io with
           buffer_ := L ++ f.bytes.take 1024 ++ io.buffer_.drop (2 + (f.bytes.take 1024).length),
           stream_ := some { f with bytes := f.bytes.drop 1024,
                                    eofInd := decide (f.bytes.length < 1024) },
           bits_read := (if (f.bytes.take 1024).length = 1024 then 8192
            else (8 * (f.bytes.take 1024).length +
              (L ++ f.bytes.take 1024 ++ io.buffer_.drop (2 + (f.bytes.take 1024).length)).getD
                (2 + (f.bytes.take 1024).length - 1) 0) % 65536),
           current_byte_ := 0,
           bits_available :=
             if (if (f.bytes.take 1024).length = 1024 then 8192
                else (8 * (f.bytes.take 1024).length +
                  (L ++ f.bytes.take 1024 ++
                    io.buffer_.drop (2 + (f.bytes.take 1024).length)).getD
                    (2 + (f.bytes.take 1024).length - 1) 0) % 65536) > 8 then 8
             else (if (f.bytes.take 1024).length = 1024 then 8192
                else (8 * (f.bytes.take 1024).length +
                  (L ++ f.bytes.take 1024 ++
                    io.buffer_.drop (2 + (f.bytes.take 1024).length)).getD
                    (2 + (f.bytes.take 1024).length - 1) 0) % 65536) }) := by
  obtain ⟨f, hf, hfe, hF⟩ := h.source
  have hlen : io.buffer_.length = 1026 := h.buflen
  have hF' : io.buffer_.drop 1024 ++ f.bytes = F := hF
  have hL : (io.buffer_.drop 1024).length = 2 := by
    rw [List.length_drop, hlen]
  refine ⟨f, io.buffer_.drop 1024, hf, hL, hF', ?_⟩
  have htake : (io.buffer_.drop 1024).take 2 = io.buffer_.drop 1024 :=
    List.take_of_length_le (by rw [hL])
  have hm1 : memcpyAt io.buffer_ 0 (io.buffer_.drop 1024)
      = io.buffer_.drop 1024 ++ io.buffer_.drop 2 := by
    simp [memcpyAt, hL]
  have hm2 : ∀ D : List Nat,
      memcpyAt (io.buffer_.drop 1024 ++ io.buffer_.drop 2) 2 D
        = io.buffer_.drop 1024 ++ D ++ io.buffer_.drop (2 + D.length) := by
    intro D
    unfold memcpyAt
    have e1 : 2 = (io.buffer_.drop 1024).length := by rw [hL]
    rw [List.take_append_of_le_length (by rw [← e1]), List.take_of_length_le (by rw [← e1])]
    conv_lhs => rw [show 2 + D.length = (io.buffer_.drop 1024).length + D.length by rw [← e1]]
    rw [List.drop_append, List.drop_drop]
  simp only [streamOperation, h.op, BitIO_pull_BitIO_, h.noeof, hf, hfe, Bool.false_eq_true,
    if_false, fread, Bool.false_or, BitIO_BufferSize, CHAR_BIT,
    BitIO_BufferRedundancy, htake, hm1, hm2, Nat.reduceMul]

theorem getN_pull (m : Nat) (io : BitIO) (h : RInv io) (ha : io.bits_available = 0)
    (hr : io.bits_read = 0) (hp : (streamOperation io).1 = true)
    (hinv : RInv (streamOperation io).2) (hpa : (streamOperation io).2.bits_available ≠ 0) :
    getN (m + 1) io = getN (m + 1) (streamOperation io).2 := by
  rw [getN, getN, get_pull io h ha hr hp hinv hpa]

theorem getD_append_take (L R : List Nat) (n j : Nat) (T : List Nat)
    (hj : j < L.length + min n R.length) :
    (L ++ R.take n ++ T).getD j 0 = (L ++ R).getD j 0 := by
  rw [List.getD_append _ _ _ _ (by simp; omega)]
  by_cases h : j < L.length
  · rw [List.getD_append _ _ _ _ h, List.getD_append _ _ _ _ h]
  · rw [List.getD_append_right _ _ _ _ (by omega), List.getD_append_right _ _ _ _ (by omega)]
    simp only [List.getD_eq_getElem?_getD]
    rw [List.getElem?_take_of_lt (by omega)]

theorem take_all_lt (A C : List Nat) (k : Nat) (hkC : k ≤ C.length)
    (h : ∀ j, j < k → A.getD j 0 = C.getD j 0)
    (hb : ∀ x ∈ C, x < 256) : ∀ x ∈ A.take k, x < 256 := by
  intro x hx
  obtain ⟨j, hj⟩ := List.mem_iff_getElem?.mp hx
  rw [List.getElem?_take] at hj
  split at hj
  · rename_i hjk
    have h1 := h j hjk
    rw [List.getD_eq_getElem?_getD, hj, Option.getD_some,
      List.getD_eq_getElem _ _ (by omega)] at h1
    rw [h1]
    exact hb _ (List.getElem_mem _)
  · cases hj

/-- Reading a structured source to its end: the content bits, then the end
marker. -/
theorem read_all_aux (t : Nat) (ht1 : 1 ≤ t) (ht8 : t ≤ 8) (n : Nat) :
    ∀ (C : List Nat) (io : BitIO), C.length = n → RReady io (C ++ [t]) →
      1 ≤ C.length → (∀ x ∈ C, x < 256) →
    ∃ io1, getN (8 * (C.length - 1) + t + 1) io =
        ((List.range (8 * (C.length - 1) + t)).map (bitAt C) ++ [EOF_uchar], io1) ∧
      io1.status_ = BitIOStatus.Read ∧ io1.eof = true := by
  induction n using Nat.strong_induction_on with
  | _ n ih =>
    intro C io hn h hC hb
    obtain ⟨f, L, hf, hL, hLF, hpull⟩ := pull_ready io _ h
    have hinv : RInv io := ⟨h.status, h.noeof⟩
    have hlenF : f.bytes.length + 2 = C.length + 1 := by
      have := congrArg List.length hLF
      simp only [List.length_append, List.length_cons, List.length_nil] at this
      omega
    have hbuflen : io.buffer_.length = 1026 := h.buflen
    have hCget : ∀ j, j < C.length → (L ++ f.bytes).getD j 0 = C.getD j 0 := by
      intro j hj
      rw [hLF, List.getD_append _ _ _ _ hj]
    by_cases hfull : 1024 ≤ f.bytes.length
    · have htl : (f.bytes.take 1024).length = 1024 := by
        rw [List.length_take]; omega
      have hnot : ¬ f.bytes.length < 1024 := by omega
      have hdrop0 : io.buffer_.drop (2 + 1024) = [] :=
        List.drop_eq_nil_of_le (by rw [hbuflen])
      simp only [htl, if_true, hnot, decide_False, hdrop0, List.append_nil,
        show (8192 > 0) = True by simp, show (8192 > 8) = True by simp, decide_True]
        at hpull
      have hex : ∃ iop, streamOperation io = (true, iop) ∧
          iop.buffer_ = L ++ f.bytes.take 1024 ∧ iop.current_byte_ = 0 ∧ iop.eof = false ∧
          iop.bits_available = 8 ∧ iop.bits_read = 8192 ∧
          iop.stream_ = some ⟨f.bytes.drop 1024, false, f.closed⟩ ∧
          iop.status_ = BitIOStatus.Read ∧ iop.streamOperation_ = StreamOp.pull_BitIO :=
        ⟨_, hpull, rfl, rfl, h.noeof, rfl, rfl, rfl, h.status, h.op⟩
      obtain ⟨iop, hso, pb, pc, pe, pa, pr, ps, pst, pop⟩ := hex
      clear hpull
      have hinvp : RInv iop := ⟨pst, pe⟩
      have hgp := getN_pull (8 * (C.length - 1) + t) io hinv h.avail h.pending
        (by rw [hso]) (by rw [hso]; exact hinvp) (by rw [hso]; show iop.bits_available ≠ 0
                                                     rw [pa]; decide)
      rw [hso] at hgp
      simp only at hgp
      have hbl : iop.buffer_.length = 1026 := by
        rw [pb, List.length_append, hL, htl]
      have hpre : ∀ j, j < 1024 → iop.buffer_.getD j 0 = C.getD j 0 := by
        intro j hj
        rw [pb, ← List.append_nil (L ++ f.bytes.take 1024),
          getD_append_take L f.bytes 1024 j [] (by omega)]
        exact hCget j (by omega)
      obtain ⟨iod, d1, d2, d3, d4⟩ := drain_buffer 1024 iop hinvp (by rw [pa, pr]; rfl)
        (by rw [pr]) (by rw [pr]; omega) (by rw [pc, hbl]; omega)
        (by
          rw [pc, List.drop_zero]
          exact take_all_lt _ C 1024 (by omega) hpre hb)
      rw [pr, pc, List.drop_zero] at d1
      rw [pc, Nat.zero_add] at d4
      have hdropC : (C ++ [t]).drop 1024 = C.drop 1024 ++ [t] :=
        List.drop_append_of_le_length (by omega)
      have hready : RReady iod (C.drop 1024 ++ [t]) := by
        refine ⟨d4.status.trans pst, d4.eof.trans pe, d4.op.trans pop,
          d4.buflen.trans hbl, d2, d3, ⟨_, d4.stream.trans ps, rfl, ?_⟩⟩
        show iod.buffer_.drop 1024 ++ f.bytes.drop 1024 = _
        rw [d4.above, pb, ← hdropC, ← hLF,
          ← List.drop_append_of_le_length (by rw [List.length_append, hL, htl]; omega),
          List.append_assoc, List.take_append_drop]
      have hlen' : (C.drop 1024).length = C.length - 1024 := List.length_drop _ _
      obtain ⟨io1, r1, r2, r3⟩ := ih (C.length - 1024) (by omega) (C.drop 1024) iod hlen'
        hready (by omega) (fun x hx => hb x (List.mem_of_mem_drop hx))
      rw [hlen'] at r1
      refine ⟨io1, ?_, r2, r3⟩
      have eN : 8 * (C.length - 1) + t + 1 = 8192 + (8 * (C.length - 1024 - 1) + t + 1) := by
        omega
      have eN' : 8 * (C.length - 1) + t = 8192 + (8 * (C.length - 1024 - 1) + t) := by
        omega
      have hA : (List.range 8192).map (bitAt iop.buffer_) = (List.range 8192).map (bitAt C) :=
        map_bitAt_congr _ _ 1024 8192 hpre (by omega)
      have hB : (List.range (8 * (C.length - 1024 - 1) + t)).map (bitAt (C.drop 1024)) =
          (List.range (8 * (C.length - 1024 - 1) + t)).map (bitAt C ∘ fun x => 8192 + x) := by
        apply List.map_congr_left
        intro i _
        simp only [Function.comp_apply]
        exact bitAt_drop C 1024 i
      have hlist : (List.range (8192 + (8 * (C.length - 1024 - 1) + t))).map (bitAt C) =
          (List.range 8192).map (bitAt iop.buffer_) ++
            (List.range (8 * (C.length - 1024 - 1) + t)).map (bitAt (C.drop 1024)) := by
        rw [List.range_add, List.map_append, List.map_map, hA, hB]
      rw [hgp, eN, getN_add, d1]
      simp only
      rw [r1, eN', hlist, List.append_assoc]
    · have hshort : f.bytes.length < 1024 := by omega
      have htk : f.bytes.take 1024 = f.bytes := List.take_of_length_le (by omega)
      have hne : ¬ f.bytes.length = 1024 := by omega
      have hidx : 2 + f.bytes.length - 1 = C.length := by omega
      have hlast : (L ++ f.bytes ++ io.buffer_.drop (2 + f.bytes.length)).getD C.length 0 = t := by
        rw [List.getD_append _ _ _ _ (by rw [List.length_append, hL]; omega), hLF,
          List.getD_append_right _ _ _ _ (le_refl _), Nat.sub_self]
        rfl
      have hbits : (8 * f.bytes.length + t) % 65536 = 8 * (C.length - 1) + t := by omega
      rw [htk] at hpull
      simp only [hne, if_false, hidx, hlast, hbits, hshort, decide_True] at hpull
      have hpos : decide (8 * (C.length - 1) + t > 0) = true := by
        rw [decide_eq_true_eq]; omega
      rw [hpos] at hpull
      have hex : ∃ iop, streamOperation io = (true, iop) ∧
          iop.buffer_ = L ++ f.bytes ++ io.buffer_.drop (2 + f.bytes.length) ∧
          iop.current_byte_ = 0 ∧ iop.eof = false ∧
          iop.bits_available = (if 8 * (C.length - 1) + t > 8 then 8
            else 8 * (C.length - 1) + t) ∧
          iop.bits_read = 8 * (C.length - 1) + t ∧
          iop.stream_ = some ⟨f.bytes.drop 1024, true, f.closed⟩ ∧
          iop.status_ = BitIOStatus.Read ∧ iop.streamOperation_ = StreamOp.pull_BitIO :=
        ⟨_, hpull, rfl, rfl, h.noeof, rfl, rfl, rfl, h.status, h.op⟩
      obtain ⟨iop, hso, pb, pc, pe, pa, pr, ps, pst, pop⟩ := hex
      clear hpull
      have hinvp : RInv iop := ⟨pst, pe⟩
      have hgp := getN_pull (8 * (C.length - 1) + t) io hinv h.avail h.pending
        (by rw [hso]) (by rw [hso]; exact hinvp)
        (by rw [hso]; show iop.bits_available ≠ 0
            rw [pa]; split <;> omega)
      rw [hso] at hgp
      simp only at hgp
      have hbl : iop.buffer_.length = 1026 := by
        rw [pb, List.length_append, List.length_append, hL, List.length_drop, hbuflen]
        omega
      have hpre : ∀ j, j < C.length → iop.buffer_.getD j 0 = C.getD j 0 := by
        intro j hj
        rw [pb, List.getD_append _ _ _ _ (by rw [List.length_append, hL]; omega)]
        exact hCget j hj
      obtain ⟨iod, d1, d2, d3, d4⟩ := drain_buffer C.length iop hinvp (by rw [pa, pr]; rfl)
        (by rw [pr]; omega) (by rw [pr]; omega) (by rw [pc, hbl]; omega)
        (by
          rw [pc, List.drop_zero]
          exact take_all_lt _ C C.length (le_refl _) hpre hb)
      rw [pr, pc, List.drop_zero] at d1
      have hinvd : RInv iod := ⟨d4.status.trans pst, d4.eof.trans pe⟩
      have hpulld : streamOperation iod = (false, { iod with eof := true }) := by
        simp only [streamOperation, d4.op.trans pop, BitIO_pull_BitIO_, hinvd.noeof,
          d4.stream.trans ps, Bool.false_eq_true, if_false, if_true]
      have hend := get_end iod hinvd d2 d3 (by rw [hpulld])
      rw [hpulld] at hend
      refine ⟨{ iod with eof := true }, ?_, hinvd.status, rfl⟩
      rw [hgp, getN_add, d1]
      simp only
      rw [getN, hend, map_bitAt_congr _ _ C.length _ hpre (by omega)]
      rfl

theorem read_all (C : List Nat) (t : Nat) (io : BitIO) (h : RReady io (C ++ [t]))
    (hC : 1 ≤ C.length) (ht1 : 1 ≤ t) (ht8 : t ≤ 8) (hb : ∀ x ∈ C, x < 256) :
    ∃ io1, getN (8 * (C.length - 1) + t + 1) io =
        ((List.range (8 * (C.length - 1) + t)).map (bitAt C) ++ [EOF_uchar], io1) ∧
      io1.status_ = BitIOStatus.Read ∧ io1.eof = true :=
  read_all_aux t ht1 ht8 C.length C io rfl h hC hb

theorem detectingReadRequest_flags (modes : Nat) (h : detectingReadRequest modes = true) :
    (if modes = 0 then BitIOOpen_Read else modes) &&& (0xFFFFFFFF ^^^ BitIOOpen_Mask) = 0 ∧
      hasFlag (if modes = 0 then BitIOOpen_Read else modes) BitIOOpen_Read = true ∧
      hasFlag (if modes = 0 then BitIOOpen_Read else modes) BitIOOpen_Write = false ∧
      hasFlag (if modes = 0 then BitIOOpen_Read else modes) BitIOOpen_Plain = false ∧
      hasFlag (if modes = 0 then BitIOOpen_Read else modes) BitIOOpen_ByPath = false := by
  simp only [detectingReadRequest, Bool.and_eq_true, decide_eq_true_eq,
    Bool.not_eq_true'] at h
  obtain ⟨⟨⟨⟨a, b⟩, c⟩, d⟩, e⟩ := h
  exact ⟨a, b, c, d, e⟩

/-- With a detecting read request on a stream handle, `BitIO_open` reaches its
read branch. -/
theorem open_detecting (nd : Bool) (buf : List Nat) (src : Source) (modes : Nat)
    (hmodes : detectingReadRequest modes = true) :
    BitIO_open nd (BitIO_create buf) (some src) modes =
      BitIO_open_read nd
        { BitIO_create buf with
          stream_ := some src.file,
          managed_ := !hasFlag (if modes = 0 then BitIOOpen_Read else modes)
            BitIOOpen_Unmanaged }
        src.file (if modes = 0 then BitIOOpen_Read else modes) := by
  obtain ⟨h1, h2, h3, h4, h5⟩ := detectingReadRequest_flags modes hmodes
  have h5' : hasFlag ((if modes = 0 then BitIOOpen_Read else modes) &&&
      (if modes = 0 then BitIOOpen_Read else modes)) BitIOOpen_ByPath = false := by
    rw [Nat.and_self]; exact h5
  unfold BitIO_open
  simp only [BitIO_create, BitIO_initialize_, ne_eq, not_true_eq_false, decide_False,
    Bool.and_false, Bool.false_eq_true, if_false, h1, h2, h3, h4, h5, h5',
    Bool.xor_false, Bool.not_true, Bool.false_and, Bool.and_self]

theorem memcpyAt_sig (buf : List Nat) :
    (memcpyAt buf 0 BitIO_Signature).take 5 = BitIO_Signature := by
  simp [memcpyAt, BitIO_Signature]

theorem memcpyAt_sig_length (buf : List Nat) (h : 5 ≤ buf.length) :
    (memcpyAt buf 0 BitIO_Signature).length = buf.length := by
  rw [memcpyAt_length _ _ _ (by simpa [BitIO_Signature] using h)]

theorem memcpyAt_drop (buf : List Nat) (off : Nat) (data : List Nat) (h : off ≤ buf.length) :
    (memcpyAt buf off data).drop off = data ++ buf.drop (off + data.length) := by
  unfold memcpyAt
  have e : (buf.take off).length = off := by rw [List.length_take]; omega
  rw [List.append_assoc, List.drop_append_of_le_length (by rw [e]),
    List.drop_of_length_le (by rw [e]), List.nil_append]

/-- Read-open of a structured source with at least two bytes after the
signature. -/
theorem open_read_ready (nd : Bool) (buf : List Nat) (fo : Option FILE) (modes : Nat)
    (F : List Nat) (hbuf : buf.length = BitIO_BufferSize + BitIO_BufferRedundancy)
    (hmodes : detectingReadRequest modes = true) (hF : 2 ≤ F.length) :
    ∃ io, BitIO_open nd (BitIO_create buf)
        (some ⟨FILE.input (BitIO_Signature ++ F), fo⟩) modes = some ⟨true, io, none⟩ ∧
      RReady io F := by
  obtain ⟨h1, h2, h3, h4, h5⟩ := detectingReadRequest_flags modes hmodes
  have hbuf' : buf.length = 1026 := hbuf
  rw [open_detecting nd buf _ modes hmodes]
  have hsig5 : (BitIO_Signature ++ F).take 5 = BitIO_Signature := by
    simp [BitIO_Signature]
  have hsigd : (BitIO_Signature ++ F).drop 5 = F := by
    simp [BitIO_Signature]
  have hsl : ¬ (BitIO_Signature ++ F).length < 5 := by
    simp [BitIO_Signature]
  have hF2 : (F.take 2).length = 2 := by rw [List.length_take]; omega
  have hFl : ¬ F.length < 2 := by omega
  have hml := memcpyAt_sig_length buf (by omega)
  refine ⟨{ BitIO_create buf with
      stream_ := some ⟨F.drop 2, false, false⟩,
      managed_ := !hasFlag (if modes = 0 then BitIOOpen_Read else modes) BitIOOpen_Unmanaged,
      status_ := BitIOStatus.Read,
      buffer_ := memcpyAt (memcpyAt buf 0 BitIO_Signature) 1024 (F.take 2),
      streamOperation_ := StreamOp.pull_BitIO }, ?_, ?_⟩
  · unfold BitIO_open_read
    simp only [fread, FILE.input, BitIO_SignatureLength, hsig5, hsigd, hsl, decide_False,
      Bool.or_false, BitIO_create, BitIO_initialize_, h4, Bool.not_false, Bool.true_and,
      show BitIO_Signature.length = 5 from rfl, decide_True, memcpyAt_sig buf,
      BitIO_BufferRedundancy, hF2, hFl, Bool.and_false, Bool.false_eq_true, if_false, if_true,
      OfNat.ofNat_ne_zero, OfNat.ofNat_ne_one, Bool.false_and, Bool.or_self, Bool.and_self]
    rfl
  · have hlen2 : (memcpyAt (memcpyAt buf 0 BitIO_Signature) 1024 (F.take 2)).length = 1026 := by
      rw [memcpyAt_length _ _ _ (by rw [hml, hF2]; omega), hml, hbuf']
    refine ⟨rfl, rfl, rfl, hlen2, rfl, rfl, ⟨_, rfl, rfl, ?_⟩⟩
    show (memcpyAt (memcpyAt buf 0 BitIO_Signature) 1024 (F.take 2)).drop 1024 ++ F.drop 2 = F
    have : (memcpyAt (memcpyAt buf 0 BitIO_Signature) 1024 (F.take 2)).drop 1024 = F.take 2 := by
      rw [memcpyAt_drop _ _ _ (by rw [hml]; omega), hF2,
        List.drop_eq_nil_of_le (by rw [hml]; omega), List.append_nil]
    rw [this, List.take_append_drop]

/-- Read-open of the structured source without content, and the first
`BitIO_get` on it. -/
theorem read_trailer_only (nd : Bool) (buf : List Nat) (fo : Option FILE) (modes : Nat)
    (hbuf : buf.length = BitIO_BufferSize + BitIO_BufferRedundancy)
    (hmodes : detectingReadRequest modes = true) :
    ∃ io, BitIO_open nd (BitIO_create buf)
        (some ⟨FILE.input (BitIO_Signature ++ [8]), fo⟩) modes = some ⟨true, io, none⟩ ∧
      BitIO_eof io = false ∧ BitIO_get io = (EOF_uchar, { io with eof := true }) ∧
      io.status_ = BitIOStatus.Read := by
  obtain ⟨h1, h2, h3, h4, h5⟩ := detectingReadRequest_flags modes hmodes
  have hbuf' : buf.length = 1026 := hbuf
  rw [open_detecting nd buf _ modes hmodes]
  have hml := memcpyAt_sig_length buf (by omega)
  have h8 : (memcpyAt (memcpyAt buf 0 BitIO_Signature) 1024 [8]).getD 1024 0 = 8 := by
    have := getD_drop (memcpyAt (memcpyAt buf 0 BitIO_Signature) 1024 [8]) 1024 0 0
    rw [Nat.add_zero] at this
    rw [← this, memcpyAt_drop _ _ _ (by rw [hml]; omega)]
    rfl
  refine ⟨{ BitIO_create buf with
      stream_ := some ⟨[], true, false⟩,
      managed_ := !hasFlag (if modes = 0 then BitIOOpen_Read else modes) BitIOOpen_Unmanaged,
      status_ := BitIOStatus.Read,
      buffer_ := memcpyAt (memcpyAt buf 0 BitIO_Signature) 1024 [8],
      streamOperation_ := StreamOp.pull_BitIO }, ?_, rfl, ?_, rfl⟩
  · unfold BitIO_open_read
    simp only [fread, FILE.input, BitIO_SignatureLength, BitIO_create, BitIO_initialize_, h4,
      Bool.not_false, Bool.true_and, memcpyAt_sig buf, BitIO_BufferRedundancy,
      BitIO_BufferSize, CHAR_BIT,
      show (BitIO_Signature ++ [8]).take 5 = BitIO_Signature from rfl,
      show (BitIO_Signature ++ [8]).drop 5 = [8] from rfl,
      show (BitIO_Signature ++ [8]).length = 6 from rfl,
      show BitIO_Signature.length = 5 from rfl,
      show ([8] : List Nat).take 2 = [8] from rfl,
      show ([8] : List Nat).drop 2 = [] from rfl, h8,
      List.length_singleton, List.length_nil, decide_True, decide_False, Bool.or_false,
      Bool.or_true, Bool.and_false, Bool.and_true, Bool.false_eq_true, if_false, if_true,
      Bool.and_self, Bool.or_self, Bool.not_true, ne_eq, not_true_eq_false,
      Nat.lt_irrefl, Nat.reduceLT, Nat.reduceEqDiff, OfNat.ofNat_ne_zero, OfNat.one_ne_ofNat]
    rfl
  · unfold BitIO_get
    simp [BitIO_check_, BitIO_eof, BitIO_create, BitIO_initialize_,
      BitIO_advanceReadBufferPointer_, streamOperation, BitIO_pull_BitIO_]

theorem map_range_getD (b : List Bool) :
    (List.range b.length).map (fun i => (b.getD i false).toNat) = b.map Bool.toNat := by
  apply List.ext_getElem
  · simp
  · intro i h1 h2
    simp only [List.getElem_map, List.getElem_range]
    rw [List.getD_eq_getElem _ _ (by simpa using h2)]

theorem packBits_lt (b : List Bool) : ∀ x ∈ packBits b, x < 256 := by
  intro x hx
  unfold packBits at hx
  obtain ⟨j, _, rfl⟩ := List.mem_map.mp hx
  exact bitsVal_lt b _ 8

theorem trailerOf_range (K : Nat) : 1 ≤ trailerOf K ∧ trailerOf K ≤ 8 := by
  unfold trailerOf; split <;> omega

theorem packed_bit_count (K : Nat) (h : 0 < K) : 8 * ((K + 7) / 8 - 1) + trailerOf K = K := by
  unfold trailerOf; split <;> omega

/-- Reading a structured source with content to its end and beyond. -/
theorem structured_read (nd : Bool) (buf : List Nat) (fo : Option FILE) (modes : Nat)
    (c : List Nat) (t : Nat)
    (hbuf : buf.length = BitIO_BufferSize + BitIO_BufferRedundancy)
    (hmodes : detectingReadRequest modes = true)
    (hc : 1 ≤ c.length) (ht1 : 1 ≤ t) (ht8 : t ≤ 8) (hbytes : ∀ x ∈ c, x < 256) :
    ∃ io, BitIO_open nd (BitIO_create buf)
        (some ⟨FILE.input (BitIO_Signature ++ c ++ [t]), fo⟩) modes = some ⟨true, io, none⟩ ∧
      ∀ k, (getN (8 * (c.length - 1) + t + 1 + k) io).1 =
        (List.range (8 * (c.length - 1) + t)).map (bitAt c) ++ List.replicate (k + 1) EOF_uchar := by
  obtain ⟨io, ho, hr⟩ := open_read_ready nd buf fo modes (c ++ [t]) hbuf hmodes
    (by rw [List.length_append]; simp; omega)
  obtain ⟨io1, g1, g2, g3⟩ := read_all c t io hr hc ht1 ht8 hbytes
  rw [List.append_assoc]
  refine ⟨io, ho, ?_⟩
  intro k
  rw [getN_add, g1]
  simp only
  rw [getN_after_eof k io1 g2 g3, List.append_assoc]
  rfl

/-- C2 (structured decoding with lookahead).  For every structured source made
of the signature, `m ≥ 1` content bytes `c` and a trailer byte `t` with
`1 ≤ t ≤ 8`, the `BitIO_get` calls after a successful read-open return exactly
`8 * (m - 1) + t` bits, namely the bits of `c` most significant bit first up to
the top `t` bits of the last content byte, and from then on only the end
marker: no padding bit and no bit of the trailer is ever returned. -/
theorem C2_structured_decoding (nd : Bool) (buf : List Nat) (fo : Option FILE) (modes : Nat)
    (c : List Nat) (t : Nat)
    (hbuf : buf.length = BitIO_BufferSize + BitIO_BufferRedundancy)
    (hmodes : detectingReadRequest modes = true)
    (hc : 1 ≤ c.length) (ht1 : 1 ≤ t) (ht8 : t ≤ 8) (hbytes : ∀ x ∈ c, x < 256) :
    ∃ io, BitIO_open nd (BitIO_create buf)
        (some ⟨FILE.input (BitIO_Signature ++ c ++ [t]), fo⟩) modes = some ⟨true, io, none⟩ ∧
      ∀ k, (getN (8 * (c.length - 1) + t + 1 + k) io).1 =
        (List.range (8 * (c.length - 1) + t)).map
            (fun i => (c.getD (i / 8) 0 / 2 ^ (7 - i % 8)) % 2)
          ++ List.replicate (k + 1) EOF_uchar :=
  structured_read nd buf fo modes c t hbuf hmodes hc ht1 ht8 hbytes

/-- Instance of C2: content `B2 80`, trailer 1. -/
theorem C2_structured_decoding_witness :
    (List.replicate 1026 0).length = BitIO_BufferSize + BitIO_BufferRedundancy ∧
    detectingReadRequest 0 = true ∧ 1 ≤ [0xB2, 0x80].length ∧ 1 ≤ 1 ∧ 1 ≤ 8 ∧
    (∀ x ∈ [0xB2, 0x80], x < 256) ∧
    ∃ io, BitIO_open false (BitIO_create (List.replicate 1026 0))
        (some ⟨FILE.input (BitIO_Signature ++ [0xB2, 0x80] ++ [1]), none⟩) 0
          = some ⟨true, io, none⟩ ∧
      ∀ k, (getN (8 * ([0xB2, 0x80].length - 1) + 1 + 1 + k) io).1 =
        (List.range (8 * ([0xB2, 0x80].length - 1) + 1)).map
            (fun i => ([0xB2, 0x80].getD (i / 8) 0 / 2 ^ (7 - i % 8)) % 2)
          ++ List.replicate (k + 1) EOF_uchar :=
  ⟨List.length_replicate _ _, by decide, by decide, by decide, by decide, by decide,
    C2_structured_decoding false (List.replicate 1026 0) none 0 [0xB2, 0x80] 1
      (List.length_replicate _ _) (by decide) (by decide) (by decide) (by decide) (by decide)⟩

/-- C8 (EOF edge).  For the trailer-only structured source
`42 69 74 49 4F 08`, read-open succeeds, `BitIO_eof` is false right after the
open, the first `BitIO_get` returns the end marker, and `BitIO_eof` is true right
after that call. -/
theorem C8_eof_edge (nd : Bool) (buf : List Nat) (fo : Option FILE) (modes : Nat)
    (hbuf : buf.length = BitIO_BufferSize + BitIO_BufferRedundancy)
    (hmodes : detectingReadRequest modes = true) :
    ∃ io, BitIO_open nd (BitIO_create buf)
        (some ⟨FILE.input [0x42, 0x69, 0x74, 0x49, 0x4F, 0x08], fo⟩) modes
          = some ⟨true, io, none⟩ ∧
      BitIO_eof io = false ∧ (BitIO_get io).1 = EOF_uchar ∧
      BitIO_eof (BitIO_get io).2 = true := by
  obtain ⟨io, ho, he, hg, hs⟩ := read_trailer_only nd buf fo modes hbuf hmodes
  refine ⟨io, ho, he, by rw [hg], ?_⟩
  rw [hg]
  simp [BitIO_eof, hs]

/-- Instance of C8 with the default request and a zeroed buffer. -/
theorem C8_eof_edge_witness :
    (List.replicate 1026 0).length = BitIO_BufferSize + BitIO_BufferRedundancy ∧
    detectingReadRequest 0 = true ∧
    ∃ io, BitIO_open false (BitIO_create (List.replicate 1026 0))
        (some ⟨FILE.input [0x42, 0x69, 0x74, 0x49, 0x4F, 0x08], none⟩) 0
          = some ⟨true, io, none⟩ ∧
      BitIO_eof io = false ∧ (BitIO_get io).1 = EOF_uchar ∧
      BitIO_eof (BitIO_get io).2 = true :=
  ⟨List.length_replicate _ _, by decide,
    C8_eof_edge false (List.replicate 1026 0) none 0 (List.length_replicate _ _) (by decide)⟩

/-- C1 (round trip with the single-bit API).  For every bit sequence `b` of
length `N`: opening a structured writer on an empty sink, calling `BitIO_put`
once per bit and closing, then opening a fresh reader on the produced bytes and
calling `BitIO_get` `N + 1` times returns `b[0], ..., b[N-1]` in order followed
by the end marker 255. -/
theorem C1_round_trip (nd : Bool) (wbuf rbuf : List Nat) (sink : Source) (fo : Option FILE)
    (wmodes rmodes : Nat) (b : List Bool)
    (hwbuf : wbuf.length = BitIO_BufferSize + BitIO_BufferRedundancy)
    (hrbuf : rbuf.length = BitIO_BufferSize + BitIO_BufferRedundancy)
    (hsink : sink.file.bytes = [])
    (hw : structuredWriteRequest wmodes = true) (hr : detectingReadRequest rmodes = true) :
    ∃ wio wio1 f rio,
      BitIO_open nd (BitIO_create wbuf) (some sink) wmodes = some ⟨true, wio, none⟩ ∧
      BitIO_close nd (putAll wio b) = some (wio1, some f) ∧
      BitIO_open nd (BitIO_create rbuf) (some ⟨FILE.input f.bytes, fo⟩) rmodes
        = some ⟨true, rio, none⟩ ∧
      (getN (b.length + 1) rio).1 = b.map Bool.toNat ++ [EOF_uchar] := by
  obtain ⟨wio, wio0, wio1, f, ho, hrun, hc, hb⟩ := structured_session nd wbuf sink wmodes 0
    (b.map WriteCall.put) hwbuf hw (by
      intro c hc
      obtain ⟨x, _, rfl⟩ := List.mem_map.mp hc
      trivial)
  rw [runCalls_put] at hrun
  cases hrun
  have hK : totalBits (b.map WriteCall.put) = b.length := by
    rw [← emittedAll_length, emittedAll_put]
  rw [emittedAll_put, hK, hsink, List.nil_append] at hb
  by_cases h0 : b.length = 0
  · have hb0 : b = [] := List.length_eq_zero.mp h0
    subst hb0
    have hb' : f.bytes = BitIO_Signature ++ [8] := by rw [hb]; rfl
    obtain ⟨rio, ro, _, rg, _⟩ := read_trailer_only nd rbuf fo rmodes hrbuf hr
    rw [← hb'] at ro
    refine ⟨wio, wio1, f, rio, ho, hc, ro, ?_⟩
    simp [getN, rg]
  · have hlen := packBits_length b
    obtain ⟨t1, t8⟩ := trailerOf_range b.length
    obtain ⟨rio, ro, rg⟩ := structured_read nd rbuf fo rmodes (packBits b) (trailerOf b.length)
      hrbuf hr (by rw [hlen]; omega) t1 t8 (packBits_lt b)
    rw [← hb] at ro
    refine ⟨wio, wio1, f, rio, ho, hc, ro, ?_⟩
    have h := rg 0
    rw [hlen, packed_bit_count b.length (by omega), Nat.add_zero] at h
    rw [h]
    congr 1
    rw [← map_range_getD b]
    apply List.map_congr_left
    intro i hi
    exact bitAt_packBits b i (by have := List.mem_range.mp hi; omega)

/-- Instance of C1 at the nine bits 1,0,1,1,0,0,1,0,1. -/
theorem C1_round_trip_witness :
    (List.replicate 1026 0).length = BitIO_BufferSize + BitIO_BufferRedundancy ∧
    (List.replicate 1026 7).length = BitIO_BufferSize + BitIO_BufferRedundancy ∧
    (Source.mk FILE.output none).file.bytes = [] ∧
    structuredWriteRequest BitIOOpen_Write = true ∧ detectingReadRequest BitIOOpen_Read = true ∧
    ∃ wio wio1 f rio,
      BitIO_open false (BitIO_create (List.replicate 1026 0))
        (some (Source.mk FILE.output none)) BitIOOpen_Write = some ⟨true, wio, none⟩ ∧
      BitIO_close false (putAll wio [true, false, true, true, false, false, true, false, true])
        = some (wio1, some f) ∧
      BitIO_open false (BitIO_create (List.replicate 1026 7))
        (some ⟨FILE.input f.bytes, none⟩) BitIOOpen_Read = some ⟨true, rio, none⟩ ∧
      (getN ([true, false, true, true, false, false, true, false, true].length + 1) rio).1 =
        [true, false, true, true, false, false, true, false, true].map Bool.toNat
          ++ [EOF_uchar] :=
  ⟨List.length_replicate _ _, List.length_replicate _ _, rfl, by decide, by decide,
    C1_round_trip false (List.replicate 1026 0) (List.replicate 1026 7)
      (Source.mk FILE.output none) none BitIOOpen_Write BitIOOpen_Read
      [true, false, true, true, false, false, true, false, true]
      (List.length_replicate _ _) (List.length_replicate _ _) rfl (by decide) (by decide)⟩

theorem hasFlag_zero (flag : Nat) : hasFlag 0 flag = false := by
  simp [hasFlag]

/-- The read branch of `BitIO_open` on a source that does not start with the
signature, when the structured format is demanded. -/
theorem open_read_corrupted (nd : Bool) (io0 : BitIO) (f : FILE) (modes : Nat)
    (hop : io0.streamOperation_ = StreamOp.null)
    (hB : hasFlag modes BitIOOpen_BitIO = true)
    (hsrc : f.bytes.take 5 ≠ BitIO_Signature) :
    ∃ io1 rel, BitIO_open_read nd { io0 with stream_ := some f } f modes
        = some ⟨false, io1, rel⟩ ∧
      io1.status_ = BitIOStatus.Closed ∧ io1.stream_ = none := by
  have hdet : (decide ((f.bytes.take 5).length = 5) &&
      decide ((memcpyAt io0.buffer_ 0 (f.bytes.take 5)).take 5 = BitIO_Signature)) = false := by
    by_cases hl : (f.bytes.take 5).length = 5
    · have := memcpyAt_take io0.buffer_ 0 (f.bytes.take 5) (Nat.zero_le _)
      rw [Nat.zero_add, hl, List.take_zero, List.nil_append] at this
      simp [this, hsrc]
    · rw [decide_eq_false hl, Bool.false_and]
  unfold BitIO_open_read
  simp only [fread, BitIO_SignatureLength, Bool.and_assoc, hdet, Bool.and_false,
    Bool.false_eq_true, if_false, hop, if_true, hB, BitIO_close]
  simp [BitIO_initialize_]

/-- C10 (corruption detection).  For every Closed instance and every source
whose first five bytes are not exactly the signature (sources shorter than five
bytes included), `BitIO_open` with a request that has `BitIOOpen_Read` and
`BitIOOpen_BitIO` set returns false, and afterwards the instance is Closed with
no stream attached. -/
theorem C10_corruption_detection (nd : Bool) (io0 : BitIO) (src : Source) (modes : Nat)
    (hR : hasFlag modes BitIOOpen_Read = true) (hB : hasFlag modes BitIOOpen_BitIO = true)
    (hsrc : ∀ f, (if hasFlag modes BitIOOpen_ByPath then src.fopen else some src.file) = some f →
      f.bytes.take 5 ≠ BitIO_Signature) :
    ∃ io1 rel, BitIO_open nd (BitIO_initialize_ io0) (some src) modes = some ⟨false, io1, rel⟩ ∧
      io1.status_ = BitIOStatus.Closed ∧ io1.stream_ = none := by
  have h0 : modes ≠ 0 := by
    intro h; rw [h, hasFlag_zero] at hR; cases hR
  have hst : (BitIO_initialize_ io0).status_ = BitIOStatus.Closed := rfl
  have hns : (BitIO_initialize_ io0).stream_ = none := rfl
  unfold BitIO_open
  simp only [hst, ne_eq, not_true_eq_false, decide_False, Bool.and_false, Bool.false_eq_true,
    if_false, h0]
  split
  · exact ⟨_, _, rfl, hst, hns⟩
  split
  · exact ⟨_, _, rfl, hst, hns⟩
  split
  · exact ⟨_, _, rfl, hst, hns⟩
  split
  · exact ⟨_, _, rfl, hst, hns⟩
  rename_i hx _ _
  have hW : hasFlag modes BitIOOpen_Write = false := by
    rw [hR] at hx
    cases hw : hasFlag modes BitIOOpen_Write
    · rfl
    · rw [hw] at hx; simp at hx
  split
  · exact ⟨_, _, rfl, rfl, rfl⟩
  · rename_i f hf
    rw [hW]
    simp only [Bool.false_eq_true, if_false]
    have := open_read_corrupted nd
      { BitIO_initialize_ io0 with managed_ := !hasFlag modes BitIOOpen_Unmanaged } f modes rfl hB
      (hsrc f hf)
    exact this

/-- Instance of C10: a three-byte source and the request Read + BitIO. -/
theorem C10_corruption_detection_witness :
    hasFlag (BitIOOpen_Read ||| BitIOOpen_BitIO) BitIOOpen_Read = true ∧
    hasFlag (BitIOOpen_Read ||| BitIOOpen_BitIO) BitIOOpen_BitIO = true ∧
    (∀ f, (if hasFlag (BitIOOpen_Read ||| BitIOOpen_BitIO) BitIOOpen_ByPath
        then (Source.mk (FILE.input [0x42, 0x69, 0x74]) none).fopen
        else some (Source.mk (FILE.input [0x42, 0x69, 0x74]) none).file) = some f →
      f.bytes.take 5 ≠ BitIO_Signature) ∧
    ∃ io1 rel, BitIO_open false (BitIO_initialize_ (BitIO_create (List.replicate 1026 0)))
        (some (Source.mk (FILE.input [0x42, 0x69, 0x74]) none))
        (BitIOOpen_Read ||| BitIOOpen_BitIO) = some ⟨false, io1, rel⟩ ∧
      io1.status_ = BitIOStatus.Closed ∧ io1.stream_ = none :=
  have hs : ∀ f, (if hasFlag (BitIOOpen_Read ||| BitIOOpen_BitIO) BitIOOpen_ByPath
        then (Source.mk (FILE.input [0x42, 0x69, 0x74]) none).fopen
        else some (Source.mk (FILE.input [0x42, 0x69, 0x74]) none).file) = some f →
      f.bytes.take 5 ≠ BitIO_Signature := by
    intro f hf
    have hp : hasFlag (BitIOOpen_Read ||| BitIOOpen_BitIO) BitIOOpen_ByPath = false := by
      decide
    rw [hp] at hf
    simp only [Bool.false_eq_true, if_false, Option.some.injEq] at hf
    rw [← hf]
    decide
  ⟨by decide, by decide, hs,
    C10_corruption_detection false (BitIO_create (List.replicate 1026 0))
      (Source.mk (FILE.input [0x42, 0x69, 0x74]) none) (BitIOOpen_Read ||| BitIOOpen_BitIO)
      (by decide) (by decide) hs⟩

/-! ## Evaluations at concrete inputs -/

set_option maxRecDepth 100000

/-- C6, evaluation at a failing input.  On the structured source
`42 69 74 49 4F FF 08` eight bits remain after the open (nine `BitIO_get` calls
give eight bits and the end marker), yet `BitIO_read` with `bit_length = 3`
reports 0 bits read although it stores the byte `FF` into the destination. -/
theorem C6_read_reports_zero :
    (openedReader [0x42, 0x69, 0x74, 0x49, 0x4F, 0xFF, 0x08]).map (fun io => (getN 9 io).1)
      = some [1, 1, 1, 1, 1, 1, 1, 1, 255] ∧
    (openedReader [0x42, 0x69, 0x74, 0x49, 0x4F, 0xFF, 0x08]).bind
        (fun io => (BitIO_read 4 io [0] 3).map (fun q => (q.1, q.2.1)))
      = some (0, [255]) := by
  decide

/-- C7, evaluation at a failing input.  On the structured source
`42 69 74 49 4F AA 08` nine `BitIO_get` calls give the eight bits of `AA` and
then the end marker.  `BitIO_read` with `bit_length = 8` reports 8 bits and
stores `AA`, but the `BitIO_get` that follows returns 0, not the end marker, and
leaves the counter `bits_read` wrapped to 65535. -/
theorem C7_get_after_read_is_not_end :
    (openedReader [0x42, 0x69, 0x74, 0x49, 0x4F, 0xAA, 0x08]).map (fun io => (getN 9 io).1)
      = some [1, 0, 1, 0, 1, 0, 1, 0, 255] ∧
    (openedReader [0x42, 0x69, 0x74, 0x49, 0x4F, 0xAA, 0x08]).bind
        (fun io => (BitIO_read 4 io [0] 8).map (fun q => (q.1, q.2.1)))
      = some (8, [170]) ∧
    (openedReader [0x42, 0x69, 0x74, 0x49, 0x4F, 0xAA, 0x08]).bind
        (fun io => (BitIO_read 4 io [0] 8).map
          (fun q => ((BitIO_get q.2.2).1, (BitIO_get q.2.2).2.bits_read)))
      = some (0, 65535) := by
  decide

/-- C9, evaluation at a failing input.  On the plain five-byte source
`01 02 03 04 05`, opened with the default request, `BitIO_eof` is false after the
forty data bits; the next `BitIO_get` returns the end marker, and `BitIO_eof` is
still false after that call. -/
theorem C9_eof_not_set_after_failed_get :
    (openedReader [1, 2, 3, 4, 5]).map
      (fun io => (BitIO_eof (getN 40 io).2, (BitIO_get (getN 40 io).2).1,
        BitIO_eof (BitIO_get (getN 40 io).2).2))
      = some (false, 255, false) := by
  decide

/-! ## Request validation, misuse and close -/

theorem mask_value : (0xFFFFFFFF ^^^ BitIOOpen_Mask) = 4294967232 := by decide

theorem high_bit_set (j : Nat) (h6 : 6 ≤ j) (h32 : j < 32) :
    Nat.testBit 4294967232 j = true := by
  interval_cases j <;> decide

theorem outside_mask (m : Nat) (h : m < 2 ^ 32) :
    m &&& (0xFFFFFFFF ^^^ BitIOOpen_Mask) ≠ 0 ↔ 64 ≤ m := by
  rw [mask_value]
  constructor
  · intro h1
    by_contra h2
    apply h1
    have h3 : m < 64 := by omega
    interval_cases m <;> decide
  · intro h1 h2
    obtain ⟨j, hj, hb⟩ := Nat.ge_two_pow_implies_high_bit_true (show m ≥ 2 ^ 6 by omega)
    have hj32 : j < 32 := by
      by_contra hc
      have : m < 2 ^ j := lt_of_lt_of_le h (Nat.pow_le_pow_right (by decide) (by omega))
      rw [Nat.testBit_lt_two_pow this] at hb
      exact Bool.false_ne_true hb
    have h4 : Nat.testBit (m &&& 4294967232) j = true := by
      rw [Nat.testBit_and, hb, high_bit_set j hj hj32]; rfl
    rw [h2] at h4
    simp at h4

theorem open_rejected (nd : Bool) (io : BitIO) (source : Option Source) (modes : Nat)
    (hs : io.status_ = BitIOStatus.Closed) (hm : modes < 2 ^ 32)
    (h : rejectedRequest modes source) :
    BitIO_open nd io source modes = some ⟨false, io, none⟩ := by
  unfold BitIO_open
  simp only [hs, ne_eq, not_true_eq_false, decide_False, Bool.and_false, Bool.false_eq_true,
    if_false, Nat.and_self]
  by_cases h0 : modes = 0
  · subst h0
    rcases h with h | h | h | h | h
    · omega
    · exact absurd rfl h.1
    · exact absurd h.1 (by decide)
    · exact absurd h.1 (by decide)
    · subst h
      simp only [if_true]
      split_ifs <;> rfl
  · simp only [h0, if_false]
    by_cases g1 : modes &&& (0xFFFFFFFF ^^^ BitIOOpen_Mask) ≠ 0
    · rw [if_pos g1]
    rw [if_neg g1]
    have g1b : ¬ 64 ≤ modes := fun hc => g1 ((outside_mask modes hm).2 hc)
    by_cases g2 : (!(xor (hasFlag modes BitIOOpen_Read) (hasFlag modes BitIOOpen_Write))) = true
    · rw [if_pos g2]
    rw [if_neg g2]
    by_cases g3 : (hasFlag modes BitIOOpen_Plain && hasFlag modes ( BitIOOpen_BitIO)) = true
    · rw [if_pos g3]
    rw [if_neg g3]
    by_cases g4 : (hasFlag modes BitIOOpen_Unmanaged && hasFlag modes BitIOOpen_ByPath) = true
    · rw [if_pos g4]
    rw [if_neg g4]
    rcases h with h | h | h | h | h
    · exact absurd h g1b
    · exfalso; apply g2; rw [h.2]; simp
    · exfalso; apply g3; rw [h.1, h.2]; rfl
    · exfalso; apply g4; rw [h.1, h.2]; rfl
    · subst h; rfl

theorem open_accepted (nd : Bool) (io : BitIO) (source : Option Source) (modes : Nat)
    (hs : io.status_ = BitIOStatus.Closed) (hm : modes < 2 ^ 32)
    (h : ¬ rejectedRequest modes source) :
    ∃ src, source = some src ∧
      BitIO_open nd io source modes =
        afterValidation nd io src (if modes = 0 then BitIOOpen_Read else modes) := by
  unfold rejectedRequest at h
  push_neg at h
  obtain ⟨h1, h2, h3, h4, h5⟩ := h
  obtain ⟨src, rfl⟩ := Option.ne_none_iff_exists'.1 h5
  refine ⟨src, rfl, ?_⟩
  unfold BitIO_open afterValidation
  simp only [hs, ne_eq, not_true_eq_false, decide_False, Bool.and_false, Bool.false_eq_true,
    if_false, Nat.and_self]
  by_cases h0 : modes = 0
  · subst h0
    simp only [if_true]
    rw [if_neg (by decide), if_neg (by decide), if_neg (by decide), if_neg (by decide)]
  · simp only [h0, if_false]
    have g1 : ¬ (modes &&& (0xFFFFFFFF ^^^ BitIOOpen_Mask) ≠ 0) := fun hc =>
      absurd ((outside_mask modes hm).1 hc) (by omega)
    have g2 : ¬ ((!(xor (hasFlag modes BitIOOpen_Read) (hasFlag modes BitIOOpen_Write))) = true) := by
      have := h2 h0
      cases ha : hasFlag modes BitIOOpen_Read <;> cases hb : hasFlag modes BitIOOpen_Write <;>
        simp_all
    have g3 : ¬ ((hasFlag modes BitIOOpen_Plain && hasFlag modes ( BitIOOpen_BitIO)) = true) := by
      intro hc
      rw [Bool.and_eq_true] at hc
      exact h3 hc.1 hc.2
    have g4 : ¬ ((hasFlag modes BitIOOpen_Unmanaged && hasFlag modes BitIOOpen_ByPath) = true) := by
      intro hc
      rw [Bool.and_eq_true] at hc
      exact h4 hc.1 hc.2
    rw [if_neg g1, if_neg g2, if_neg g3, if_neg g4]

/-- Claim C12: on a Closed instance, a request refused by the validation of
`BitIO_open` (a bit outside the mask 0x3F, a nonzero word without exactly one
of read and write, plain with structured, unmanaged with by-path, or no
source) returns false and leaves the whole object as it was; every other
request gets past the validation and runs the rest of the function. -/
theorem C12_open_validation_atomic (nd : Bool) (io : BitIO) (source : Option Source)
    (modes : Nat) (hs : io.status_ = BitIOStatus.Closed) (hm : modes < 2 ^ 32) :
    (rejectedRequest modes source →
      BitIO_open nd io source modes = some ⟨false, io, none⟩) ∧
    (¬ rejectedRequest modes source →
      ∃ src, source = some src ∧
        BitIO_open nd io source modes =
          afterValidation nd io src (if modes = 0 then BitIOOpen_Read else modes)) :=
  ⟨open_rejected nd io source modes hs hm, open_accepted nd io source modes hs hm⟩

theorem C12_open_validation_atomic_witness :
    (BitIO_create [1, 2, 3]).status_ = BitIOStatus.Closed ∧ 3 < 2 ^ 32 ∧
    (rejectedRequest 3 (some ⟨FILE.output, none⟩) →
      BitIO_open false (BitIO_create [1, 2, 3]) (some ⟨FILE.output, none⟩) 3 =
        some ⟨false, BitIO_create [1, 2, 3], none⟩) ∧
    (¬ rejectedRequest 3 (some ⟨FILE.output, none⟩) →
      ∃ src, some (⟨FILE.output, none⟩ : Source) = some src ∧
        BitIO_open false (BitIO_create [1, 2, 3]) (some ⟨FILE.output, none⟩) 3 =
          afterValidation false (BitIO_create [1, 2, 3]) src
            (if 3 = 0 then BitIOOpen_Read else 3)) :=
  ⟨rfl, by decide,
    C12_open_validation_atomic false (BitIO_create [1, 2, 3]) (some ⟨FILE.output, none⟩) 3
      rfl (by decide)⟩

theorem check_refuses_write (io : BitIO)
    (h : io.status_ = BitIOStatus.Closed ∨ io.status_ = BitIOStatus.Read) :
    BitIO_check_ io true = true := by
  unfold BitIO_check_
  rcases h with h | h <;> rw [h]

theorem check_refuses_read (io : BitIO)
    (h : io.status_ = BitIOStatus.Closed ∨ io.status_ = BitIOStatus.Write) :
    BitIO_check_ io false = true := by
  unfold BitIO_check_
  rcases h with h | h
  · rw [h]
  · rw [h]
    rfl

/-- Claim C15: `BitIO_put` and `BitIO_write` on a Closed or Reading instance,
and `BitIO_get` and `BitIO_read` on a Closed or Writing instance, return the
object (with its stream) exactly as it was; `BitIO_get` then returns the end
marker 255, and `BitIO_read` returns 0 and leaves the destination alone. -/
theorem C15_misuse_is_noop (fuel : Nat) (io : BitIO) (bit : Bool) (bits : List Nat) (n : Nat) :
    (io.status_ = BitIOStatus.Closed ∨ io.status_ = BitIOStatus.Read →
      BitIO_put io bit = io ∧ BitIO_write fuel io bits n = some io) ∧
    (io.status_ = BitIOStatus.Closed ∨ io.status_ = BitIOStatus.Write →
      BitIO_get io = (255, io) ∧ BitIO_read fuel io bits n = some (0, bits, io)) := by
  constructor
  · intro h
    have hc := check_refuses_write io h
    constructor
    · unfold BitIO_put
      rw [if_pos hc]
    · unfold BitIO_write
      rw [if_pos hc]
  · intro h
    have hc := check_refuses_read io h
    constructor
    · unfold BitIO_get
      rw [if_pos hc]
      rfl
    · unfold BitIO_read
      rw [if_pos hc]

theorem C15_misuse_is_noop_witness :
    (sampleWriter.status_ = BitIOStatus.Closed ∨ sampleWriter.status_ = BitIOStatus.Write) ∧
    BitIO_get sampleWriter = (255, sampleWriter) ∧
    BitIO_read 0 sampleWriter [7] 8 = some (0, [7], sampleWriter) :=
  ⟨Or.inr rfl, (C15_misuse_is_noop 0 sampleWriter false [7] 8).2 (Or.inr rfl)⟩

theorem signature_detected (bytes : List Nat) (buf : List Nat) :
    (decide ((bytes.take 5).length = 5) &&
      decide ((memcpyAt buf 0 (bytes.take 5)).take 5 = BitIO_Signature)) =
      decide (bytes.take 5 = BitIO_Signature) := by
  by_cases h : bytes.take 5 = BitIO_Signature
  · have hl : (bytes.take 5).length = 5 := by rw [h]; rfl
    have ht : (memcpyAt buf 0 (bytes.take 5)).take 5 = bytes.take 5 := by
      unfold memcpyAt
      simp only [List.take_zero, List.nil_append]
      rw [List.take_append_of_le_length (by omega)]
      rw [List.take_of_length_le (by omega)]
    rw [ht, h]
    decide
  · by_cases hl : (bytes.take 5).length = 5
    · have ht : (memcpyAt buf 0 (bytes.take 5)).take 5 = bytes.take 5 := by
        unfold memcpyAt
        simp only [List.take_zero, List.nil_append]
        rw [List.take_append_of_le_length (by omega)]
        rw [List.take_of_length_le (by omega)]
      rw [ht, decide_eq_false h, Bool.and_false]
    · rw [decide_eq_false hl, decide_eq_false h, Bool.false_and]


/-- Claim C18: a request word of 0 is replaced by `BitIOOpen_Read` before
anything else looks at it, so both calls have the same result and leave the
same object.  On a closed instance and a source that is present the call
runs the read branch on the given stream handle: it succeeds, the status
becomes `Read`, the stream is managed, and the structure is taken from the
signature: a source that does not begin with the five signature bytes is
read as plain with those bytes consumed from the handle, one that does is
read as structured with the two lookahead bytes consumed as well. -/
theorem C18_default_mode (nd : Bool) (io : BitIO) (source : Option Source) :
    BitIO_open nd io source 0 = BitIO_open nd io source BitIOOpen_Read ∧
    ∀ src, source = some src → io.status_ = BitIOStatus.Closed →
      io.streamOperation_ = StreamOp.null →
      (src.file.bytes.take 5 ≠ BitIO_Signature →
        ∃ r, BitIO_open nd io source 0 = some r ∧ r.ok = true ∧ r.released = none ∧
          r.io.status_ = BitIOStatus.Read ∧ r.io.managed_ = true ∧
          r.io.streamOperation_ = StreamOp.pull_regular ∧
          r.io.stream_ = some (fread 5 src.file).2) ∧
      (src.file.bytes.take 5 = BitIO_Signature →
        (nd = true ∨ 2 ≤ (src.file.bytes.drop 5).length) →
        ∃ r, BitIO_open nd io source 0 = some r ∧ r.ok = true ∧ r.released = none ∧
          r.io.status_ = BitIOStatus.Read ∧ r.io.managed_ = true ∧
          r.io.streamOperation_ = StreamOp.pull_BitIO ∧
          r.io.stream_ = some (fread 2 (fread 5 src.file).2).2) := by
  constructor
  · unfold BitIO_open
    rfl
  · intro src hs hst hop
    subst hs
    have hopen : BitIO_open nd io (some src) 0 =
        BitIO_open_read nd { io with stream_ := some src.file, managed_ := true }
          src.file BitIOOpen_Read := by
      unfold BitIO_open
      have hc : (!nd && decide (io.status_ ≠ BitIOStatus.Closed)) = false := by
        rw [hst]
        simp
      rw [hc]
      rfl
    rw [hopen]
    unfold BitIO_open_read
    have hplain : hasFlag BitIOOpen_Read BitIOOpen_Plain = false := by decide
    have hbit : hasFlag BitIOOpen_Read ( BitIOOpen_BitIO) = false := by decide
    have hS : BitIO_SignatureLength = 5 := rfl
    simp only [hplain, hbit, hS, Bool.not_false, Bool.true_and, fread]
    rw [signature_detected]
    constructor
    · intro hne
      rw [decide_eq_false hne]
      simp only [Bool.false_eq_true, if_false, hop, if_true]
      exact ⟨_, rfl, rfl, rfl, rfl, rfl, rfl, rfl⟩
    · intro he hlook
      rw [decide_eq_true he]
      simp only [if_true]
      have hab : (!nd && (decide ((List.take BitIO_BufferRedundancy
            (List.drop 5 src.file.bytes)).length = 0) ||
          (decide ((List.take BitIO_BufferRedundancy (List.drop 5 src.file.bytes)).length = 1) &&
            (decide ((memcpyAt (memcpyAt io.buffer_ 0 (List.take 5 src.file.bytes))
                BitIO_BufferSize
                (List.take BitIO_BufferRedundancy (List.drop 5 src.file.bytes))).getD
                  BitIO_BufferSize 0 ≠ CHAR_BIT) ||
              !(src.file.eofInd || decide (src.file.bytes.length < 5) ||
                decide ((List.drop 5 src.file.bytes).length < BitIO_BufferRedundancy)))))) = false := by
        rcases hlook with hn | hl
        · rw [hn]
          rfl
        · have h2 : (List.take BitIO_BufferRedundancy (List.drop 5 src.file.bytes)).length = 2 := by
            rw [List.length_take]
            have : BitIO_BufferRedundancy = 2 := rfl
            omega
          rw [h2]
          simp
      rw [hab]
      simp only [Bool.false_eq_true, if_false]
      exact ⟨_, rfl, rfl, rfl, rfl, rfl, rfl, rfl⟩

theorem C18_default_mode_witness :
    (∃ r, BitIO_open false (BitIO_create (List.replicate 1026 0))
        (some ⟨FILE.input tenBitSource, none⟩) 0 = some r ∧ r.ok = true ∧ r.released = none ∧
      r.io.status_ = BitIOStatus.Read ∧ r.io.managed_ = true ∧
      r.io.streamOperation_ = StreamOp.pull_BitIO ∧
      r.io.stream_ = some (fread 2 (fread 5 (FILE.input tenBitSource)).2).2) ∧
    (∃ r, BitIO_open false (BitIO_create (List.replicate 1026 0))
        (some ⟨FILE.input [0x42, 0x69, 0x74], none⟩) 0 = some r ∧ r.ok = true ∧
      r.released = none ∧
      r.io.status_ = BitIOStatus.Read ∧ r.io.managed_ = true ∧
      r.io.streamOperation_ = StreamOp.pull_regular ∧
      r.io.stream_ = some (fread 5 (FILE.input [0x42, 0x69, 0x74])).2) :=
  ⟨((C18_default_mode false (BitIO_create (List.replicate 1026 0))
      (some ⟨FILE.input tenBitSource, none⟩)).2 ⟨FILE.input tenBitSource, none⟩
      rfl rfl rfl).2 (by decide) (Or.inr (by decide)),
   ((C18_default_mode false (BitIO_create (List.replicate 1026 0))
      (some ⟨FILE.input [0x42, 0x69, 0x74], none⟩)).2 ⟨FILE.input [0x42, 0x69, 0x74], none⟩
      rfl rfl rfl).1 (by decide)⟩

theorem close_closed (nd : Bool) (io : BitIO) (h : io.status_ = BitIOStatus.Closed) :
    BitIO_close nd io = some (io, none) := by
  unfold BitIO_close
  rw [if_pos h]

theorem close_open (nd : Bool) (io : BitIO) (h : io.status_ ≠ BitIOStatus.Closed)
    (hst : io.stream_ ≠ none) :
    ∃ io1 rel, BitIO_close nd io = some (io1, rel) ∧ io1 = BitIO_create io1.buffer_ := by
  unfold BitIO_close
  rw [if_neg h]
  have h2 : ¬ ((!nd && io.stream_.isNone) = true) := by
    cases hs : io.stream_ with
    | none => exact absurd hs hst
    | some f => simp
  rw [if_neg h2]
  exact ⟨_, _, rfl, rfl⟩

/-- Claim C16: `BitIO_close` on a Closed instance returns it unchanged and
releases no stream; on an instance that is open on a stream it leaves an
object that is Closed, has no stream, and equals a freshly created instance
with the same buffer bytes, and a second `BitIO_close` changes nothing. -/
theorem C16_close_idempotent_and_resets (nd : Bool) (io : BitIO) :
    (io.status_ = BitIOStatus.Closed → BitIO_close nd io = some (io, none)) ∧
    (io.status_ ≠ BitIOStatus.Closed → io.stream_ ≠ none →
      ∃ io1 rel, BitIO_close nd io = some (io1, rel) ∧
        io1 = BitIO_create io1.buffer_ ∧
        io1.status_ = BitIOStatus.Closed ∧ io1.stream_ = none ∧
        BitIO_close nd io1 = some (io1, none)) := by
  refine ⟨close_closed nd io, fun h hst => ?_⟩
  obtain ⟨io1, rel, h1, h2⟩ := close_open nd io h hst
  have h3 : io1.status_ = BitIOStatus.Closed := by rw [h2]; rfl
  have h4 : io1.stream_ = none := by rw [h2]; rfl
  exact ⟨io1, rel, h1, h2, h3, h4, close_closed nd io1 h3⟩

theorem C16_close_idempotent_and_resets_witness :
    sampleWriter.status_ ≠ BitIOStatus.Closed ∧ sampleWriter.stream_ ≠ none ∧
    ∃ io1 rel, BitIO_close false sampleWriter = some (io1, rel) ∧
      io1 = BitIO_create io1.buffer_ ∧
      io1.status_ = BitIOStatus.Closed ∧ io1.stream_ = none ∧
      BitIO_close false io1 = some (io1, none) :=
  ⟨by decide, by decide,
    (C16_close_idempotent_and_resets false sampleWriter).2 (by decide) (by decide)⟩

/-! ## Truncated lookahead -/

/-- Claim C11 (evaluation): a source that ends right after the signature, or
one byte later with a byte other than 8, is not reported as a failed open.
With assertions active the open aborts; with `NDEBUG` it returns true and
leaves the instance Reading. -/
theorem C11_truncated_lookahead_not_reported :
    (BitIO_open false (BitIO_create (List.replicate 1026 0))
      (some ⟨FILE.input BitIO_Signature, none⟩) 0).isNone = true ∧
    (BitIO_open false (BitIO_create (List.replicate 1026 0))
      (some ⟨FILE.input (BitIO_Signature ++ [7]), none⟩) 0).isNone = true ∧
    (BitIO_open true (BitIO_create (List.replicate 1026 0))
      (some ⟨FILE.input BitIO_Signature, none⟩) 0).map (fun r => (r.ok, r.io.status_))
      = some (true, BitIOStatus.Read) ∧
    (BitIO_open true (BitIO_create (List.replicate 1026 0))
      (some ⟨FILE.input (BitIO_Signature ++ [7]), none⟩) 0).map (fun r => (r.ok, r.io.status_))
      = some (true, BitIOStatus.Read) := by
  refine ⟨?_, ?_, ?_, ?_⟩ <;> decide

/-! ## Plain writer -/

theorem plainWriteRequest_flags (modes : Nat) (h : plainWriteRequest modes = true) :
    modes &&& (0xFFFFFFFF ^^^ BitIOOpen_Mask) = 0 ∧ hasFlag modes BitIOOpen_Write = true ∧
      hasFlag modes BitIOOpen_Read = false ∧ hasFlag modes BitIOOpen_Plain = true ∧
      hasFlag modes ( BitIOOpen_BitIO) = false ∧ hasFlag modes BitIOOpen_ByPath = false := by
  simp only [plainWriteRequest, Bool.and_eq_true, decide_eq_true_eq,
    Bool.not_eq_true'] at h
  obtain ⟨⟨⟨⟨⟨a, b⟩, c⟩, d⟩, e⟩, f⟩ := h
  exact ⟨a, b, c, d, e, f⟩

/-- A successful plain write-open: nothing is written and nothing has been
emitted yet. -/
theorem open_write_plain_rel (nd : Bool) (buf : List Nat) (src : Source) (modes : Nat)
    (hbuf : BitIO_BufferSize ≤ buf.length)
    (hmodes : plainWriteRequest modes = true) :
    ∃ io, BitIO_open nd (BitIO_create buf) (some src) modes = some ⟨true, io, none⟩ ∧
      WRel io true src.file.bytes [] := by
  obtain ⟨hvalid, hW, hR, hP, hB, hPath⟩ := plainWriteRequest_flags modes hmodes
  have h0 : modes ≠ 0 := by
    intro h; rw [h] at hW; simp [hasFlag] at hW
  have hPath2 : hasFlag (modes &&& modes) BitIOOpen_ByPath = false := by
    rw [Nat.and_self]; exact hPath
  refine ⟨{ BitIO_create buf with
      stream_ := some src.file,
      managed_ := !hasFlag modes BitIOOpen_Unmanaged, plain_ := true,
      streamOperation_ := StreamOp.push, status_ := BitIOStatus.Write }, ?_, ?_⟩
  · unfold BitIO_open
    simp only [BitIO_create, BitIO_initialize_, ne_eq, not_true_eq_false, decide_False,
      Bool.and_false, Bool.false_eq_true, if_false, h0, hvalid, hW, hR, hP, hB, hPath, hPath2,
      Bool.xor_true, Bool.not_false, Bool.not_true, Bool.false_and, Bool.and_self,
      Bool.true_and, if_true]
  · refine ⟨⟨rfl, rfl, rfl, ?_, hbuf, rfl⟩, rfl, ?_, rfl, ?_⟩
    · show 0 < BitIO_BufferSize
      decide
    · simp [producedBytes, fullBytes, BitIO_create, BitIO_initialize_]
    · simp [pendVal, bitsVal, Nat.mod_one]

/-- Opening a plain writer, performing write calls and closing. -/
theorem plain_session (nd : Bool) (buf : List Nat) (sink : Source) (modes fuel : Nat)
    (calls : List WriteCall)
    (hbuf : buf.length = BitIO_BufferSize + BitIO_BufferRedundancy)
    (hmodes : plainWriteRequest modes = true)
    (hwf : ∀ c ∈ calls, c.wf fuel) :
    ∃ io io1 io2 f,
      BitIO_open nd (BitIO_create buf) (some sink) modes = some ⟨true, io, none⟩ ∧
      runCalls fuel calls io = some io1 ∧
      BitIO_close nd io1 = some (io2, some f) ∧
      f.bytes = sink.file.bytes ++ packBits (emittedAll calls) := by
  obtain ⟨io, ho, hr⟩ := open_write_plain_rel nd buf sink modes
    (by rw [hbuf]; decide) hmodes
  obtain ⟨io1, hr1, hr2⟩ := runCalls_rel fuel calls io true _ [] hr hwf
  obtain ⟨io2, f, hc, hb, _, _⟩ := close_rel_plain nd io1 _ _ hr2
  refine ⟨io, io1, io2, f, ho, hr1, hc, ?_⟩
  rw [hb, List.nil_append]

theorem packBits_srcBits_bytes (B : List Nat) (hb : ∀ x ∈ B, x < 256) :
    packBits (srcBits B (8 * B.length)) = B := by
  have h := append_src_bytes [] B B.length rfl (le_refl _) hb
  rw [List.nil_append] at h
  rw [packBits_aligned _ h.2, h.1]
  simp [fullBytes]

/-- Claim C13: whatever `BitIO_put` and `BitIO_write` calls emit to a writer
opened with `BitIOOpen_Plain` on an empty sink, closing leaves in the sink
exactly the `ceil(K/8)` bytes of the MSB-first, zero-padded packing of the `K`
emitted bits, with neither signature nor trailer; one `BitIO_write` of all
`8 * |B|` bits of a byte sequence `B` leaves exactly `B`. -/
theorem C13_plain_writer_output (nd : Bool) (buf : List Nat) (sink : Source) (modes fuel : Nat)
    (calls : List WriteCall)
    (hbuf : buf.length = BitIO_BufferSize + BitIO_BufferRedundancy)
    (hsink : sink.file.bytes = [])
    (hmodes : plainWriteRequest modes = true)
    (hwf : ∀ c ∈ calls, c.wf fuel) :
    ∃ io io1 io2 f,
      BitIO_open nd (BitIO_create buf) (some sink) modes = some ⟨true, io, none⟩ ∧
      runCalls fuel calls io = some io1 ∧
      BitIO_close nd io1 = some (io2, some f) ∧
      f.bytes = packBits (emittedAll calls) ∧
      f.bytes.length = (totalBits calls + 7) / 8 ∧
      (∀ i, i < totalBits calls → bitAt f.bytes i = ((emittedAll calls).getD i false).toNat) ∧
      (∀ i, totalBits calls ≤ i → i < 8 * ((totalBits calls + 7) / 8) → bitAt f.bytes i = 0) ∧
      (∀ B, calls = [WriteCall.write B (8 * B.length)] → f.bytes = B) := by
  obtain ⟨io, io1, io2, f, ho, hr, hc, hb⟩ :=
    plain_session nd buf sink modes fuel calls hbuf hmodes hwf
  rw [hsink, List.nil_append] at hb
  have hK := emittedAll_length calls
  refine ⟨io, io1, io2, f, ho, hr, hc, hb, ?_, ?_, ?_, ?_⟩
  · rw [hb, packBits_length, hK]
  · intro i hi
    rw [hb]
    exact bitAt_packBits _ i (by rw [hK]; omega)
  · intro i h1 h2
    rw [hb, bitAt_packBits _ i (by rw [hK]; exact h2),
      List.getD_eq_default _ _ (by rw [hK]; exact h1)]
    rfl
  · intro B hB
    subst hB
    have hw := hwf _ (List.mem_singleton.mpr rfl)
    rw [hb]
    simp only [emittedAll, WriteCall.emitted, List.append_nil]
    exact packBits_srcBits_bytes B hw.2.1

/-- Instance of C13: the sixteen bits of the bytes 42 69 written in one call. -/
theorem C13_plain_writer_output_witness :
    (List.replicate 1026 0).length = BitIO_BufferSize + BitIO_BufferRedundancy ∧
    (Source.mk FILE.output none).file.bytes = [] ∧
    plainWriteRequest (BitIOOpen_Write ||| BitIOOpen_Plain) = true ∧
    (∀ c ∈ [WriteCall.write [0x42, 0x69] 16], c.wf 4) ∧
    ∃ io io1 io2 f,
      BitIO_open false (BitIO_create (List.replicate 1026 0))
        (some (Source.mk FILE.output none)) (BitIOOpen_Write ||| BitIOOpen_Plain)
        = some ⟨true, io, none⟩ ∧
      runCalls 4 [WriteCall.write [0x42, 0x69] 16] io = some io1 ∧
      BitIO_close false io1 = some (io2, some f) ∧
      f.bytes = packBits (emittedAll [WriteCall.write [0x42, 0x69] 16]) ∧
      f.bytes.length = (totalBits [WriteCall.write [0x42, 0x69] 16] + 7) / 8 ∧
      (∀ i, i < totalBits [WriteCall.write [0x42, 0x69] 16] →
        bitAt f.bytes i =
          ((emittedAll [WriteCall.write [0x42, 0x69] 16]).getD i false).toNat) ∧
      (∀ i, totalBits [WriteCall.write [0x42, 0x69] 16] ≤ i →
        i < 8 * ((totalBits [WriteCall.write [0x42, 0x69] 16] + 7) / 8) →
        bitAt f.bytes i = 0) ∧
      (∀ B, [WriteCall.write [0x42, 0x69] 16] = [WriteCall.write B (8 * B.length)] →
        f.bytes = B) :=
  ⟨List.length_replicate _ _, rfl, by decide, by simp [WriteCall.wf],
    C13_plain_writer_output false (List.replicate 1026 0) (Source.mk FILE.output none)
      (BitIOOpen_Write ||| BitIOOpen_Plain) 4 [WriteCall.write [0x42, 0x69] 16]
      (List.length_replicate _ _) rfl (by decide) (by simp [WriteCall.wf])⟩

/-! ## Ownership of the stream handle -/

theorem SameHandle.same (io : BitIO) : SameHandle io io := ⟨rfl, rfl, rfl⟩

theorem SameHandle.chain {a b c : BitIO} (h1 : SameHandle a b) (h2 : SameHandle b c) :
    SameHandle a c :=
  ⟨h2.managed.trans h1.managed, h2.status.trans h1.status, h2.handle.trans h1.handle⟩

theorem SameHandle.after {a b c : BitIO} (h2 : SameHandle b c) (h1 : SameHandle a b) :
    SameHandle a c := SameHandle.chain h1 h2

theorem SameHandle.step {a b c d : BitIO} (h1 : SameHandle a b) (h2 : SameHandle c d)
    (hm : c.managed_ = b.managed_) (hs : c.status_ = b.status_) (hh : c.stream_ = b.stream_) :
    SameHandle a d :=
  ⟨(h2.managed.trans hm).trans h1.managed, (h2.status.trans hs).trans h1.status,
    (h2.handle.trans (by rw [hh])).trans h1.handle⟩

theorem SameHandle.ite (c : Prop) [Decidable c] {a x y : BitIO} (hx : SameHandle a x)
    (hy : SameHandle a y) : SameHandle a (if c then x else y) := by
  split_ifs
  · exact hx
  · exact hy

theorem sameHandle_pull_structured (io : BitIO) : SameHandle io (BitIO_pull_BitIO_ io).2 := by
  unfold BitIO_pull_BitIO_
  by_cases he : io.eof = true
  · rw [if_pos he]
    exact SameHandle.same io
  · rw [if_neg he]
    cases hs : io.stream_ with
    | none => exact ⟨rfl, rfl, by simp [hs]⟩
    | some f =>
      simp only
      by_cases hf : f.eofInd = true
      · rw [if_pos hf]
        exact ⟨rfl, rfl, by simp [hs]⟩
      · rw [if_neg hf]
        exact ⟨rfl, rfl, by simp [hs, fread]⟩

theorem sameHandle_pull_regular (io : BitIO) : SameHandle io (BitIO_pull_regular_ io).2 := by
  unfold BitIO_pull_regular_
  by_cases he : io.eof = true
  · rw [if_pos he]
    exact SameHandle.same io
  · rw [if_neg he]
    cases hs : io.stream_ with
    | none => exact ⟨rfl, rfl, by simp [hs]⟩
    | some f =>
      simp only
      by_cases hf : f.eofInd = true
      · rw [if_pos hf]
        exact ⟨rfl, rfl, by simp [hs]⟩
      · rw [if_neg hf]
        exact ⟨rfl, rfl, by simp [hs, fread]⟩

theorem sameHandle_push (io : BitIO) : SameHandle io (BitIO_push_ io).2 := by
  unfold BitIO_push_
  refine ⟨rfl, rfl, ?_⟩
  cases hs : io.stream_ <;> simp [fwrite]

theorem sameHandle_streamOperation (io : BitIO) : SameHandle io (streamOperation io).2 := by
  unfold streamOperation
  cases io.streamOperation_
  · exact SameHandle.same io
  · exact sameHandle_pull_structured io
  · exact sameHandle_pull_regular io
  · exact sameHandle_push io

theorem sameHandle_advanceWrite (io : BitIO) :
    SameHandle io (BitIO_advanceWriteBufferPointer_ io) := by
  unfold BitIO_advanceWriteBufferPointer_
  exact SameHandle.ite _ (SameHandle.after (sameHandle_streamOperation _) ⟨rfl, rfl, rfl⟩)
    ⟨rfl, rfl, rfl⟩

theorem sameHandle_put (io : BitIO) (b : Bool) : SameHandle io (BitIO_put io b) := by
  unfold BitIO_put
  exact SameHandle.ite _ (SameHandle.same io)
    (SameHandle.ite _ (SameHandle.after (sameHandle_advanceWrite _) ⟨rfl, rfl, rfl⟩)
      ⟨rfl, rfl, rfl⟩)

theorem sameHandle_writeBuffer (fuel : Nat) (io : BitIO) (bits : List Nat) (off len : Nat)
    (io1 : BitIO) (h : BitIO_writeBuffer_ fuel io bits off len = some io1) :
    SameHandle io io1 := by
  induction fuel generalizing io off len with
  | zero => simp [BitIO_writeBuffer_] at h
  | succ fuel ih =>
    unfold BitIO_writeBuffer_ at h
    by_cases h0 : len = 0
    · rw [if_pos h0] at h
      cases h
      exact SameHandle.same _
    · rw [if_neg h0] at h
      exact SameHandle.after (ih _ _ _ h)
        (SameHandle.ite _ (SameHandle.after (sameHandle_streamOperation _) ⟨rfl, rfl, rfl⟩)
          ⟨rfl, rfl, rfl⟩)

theorem sameHandle_write_loop (fuel : Nat) (io : BitIO) (bits : List Nat) (off n p : Nat)
    (io1 : BitIO) (h : BitIO_write_loop fuel io bits off n p = some io1) :
    SameHandle io io1 := by
  induction fuel generalizing io off n with
  | zero => simp [BitIO_write_loop] at h
  | succ fuel ih =>
    unfold BitIO_write_loop at h
    by_cases h0 : n = 0
    · rw [if_pos h0] at h
      cases h
      exact SameHandle.same _
    · rw [if_neg h0] at h
      by_cases h1 : n < p
      · rw [if_pos h1] at h
        exact SameHandle.step (SameHandle.same io) (ih _ _ _ h) rfl rfl rfl
      · rw [if_neg h1] at h
        have hs : SameHandle io
            ( BitIO_advanceWriteBufferPointer_
              (io.setCur ((io.cur <<< p) ||| (bits.getD off 0 >>> io.bits_written)))) :=
          SameHandle.step (SameHandle.same io) (sameHandle_advanceWrite _) rfl rfl rfl
        by_cases h2 : n < CHAR_BIT
        · rw [if_pos h2] at h
          exact SameHandle.step hs (ih _ _ _ h) rfl rfl rfl
        · rw [if_neg h2] at h
          exact SameHandle.step hs (ih _ _ _ h) rfl rfl rfl

theorem sameHandle_write (fuel : Nat) (io : BitIO) (bits : List Nat) (n : Nat)
    (io1 : BitIO) (h : BitIO_write fuel io bits n = some io1) :
    SameHandle io io1 := by
  unfold BitIO_write at h
  by_cases hc : BitIO_check_ io true = true
  · rw [if_pos hc] at h
    cases h
    exact SameHandle.same io
  · rw [if_neg hc] at h
    by_cases hw0 : io.bits_written = 0
    · rw [if_pos hw0] at h
      simp only at h
      cases hw : BitIO_writeBuffer_ fuel io bits 0 (n / CHAR_BIT) with
      | none => rw [hw] at h; simp at h
      | some io2 =>
        rw [hw] at h
        simp only [Option.some.injEq] at h
        subst h
        exact SameHandle.step (sameHandle_writeBuffer _ _ _ _ _ _ hw) (SameHandle.same _) rfl rfl rfl
    · rw [if_neg hw0] at h
      exact sameHandle_write_loop _ _ _ _ _ _ _ h

theorem sameHandle_advanceRead (io : BitIO) :
    SameHandle io (BitIO_advanceReadBufferPointer_ io).2 := by
  unfold BitIO_advanceReadBufferPointer_
  by_cases h0 : io.bits_read = 0
  · rw [if_pos h0]
    simp only
    by_cases h1 : (streamOperation io).1 = false
    · rw [if_pos h1]
      exact sameHandle_streamOperation _
    · rw [if_neg h1]
      exact sameHandle_streamOperation _
  · rw [if_neg h0]
    exact ⟨rfl, rfl, rfl⟩

theorem sameHandle_get (io : BitIO) : SameHandle io (BitIO_get io).2 := by
  unfold BitIO_get
  by_cases hc : BitIO_check_ io false = true
  · rw [if_pos hc]
    exact SameHandle.same io
  · rw [if_neg hc]
    by_cases he : BitIO_eof io = true
    · rw [if_pos he]
      exact SameHandle.same io
    · rw [if_neg he]
      have hr : SameHandle io
          (if io.bits_available = 0 then BitIO_advanceReadBufferPointer_ io else (true, io)).2 := by
        by_cases ha : io.bits_available = 0
        · rw [if_pos ha]
          exact sameHandle_advanceRead io
        · rw [if_neg ha]
          exact SameHandle.same io
      simp only
      by_cases h1 :
          (if io.bits_available = 0 then BitIO_advanceReadBufferPointer_ io else (true, io)).1
            = false
      · rw [if_pos h1]
        exact hr
      · rw [if_neg h1]
        exact SameHandle.step hr (SameHandle.same _) rfl rfl rfl

theorem sameHandle_readBuffer (fuel : Nat) (io : BitIO) (bits : List Nat) (off len acc : Nat)
    (k : Nat) (dest : List Nat) (io1 : BitIO)
    (h : BitIO_readBuffer_ fuel io bits off len acc = some (k, dest, io1)) :
    SameHandle io io1 := by
  induction fuel generalizing io bits off len acc with
  | zero => simp [BitIO_readBuffer_] at h
  | succ fuel ih =>
    unfold BitIO_readBuffer_ at h
    by_cases h0 : len = 0
    · rw [if_pos h0] at h
      cases h
      exact SameHandle.same _
    · rw [if_neg h0] at h
      have hr : SameHandle io
          (if io.bits_available = 0 then streamOperation io else (true, io)).2 := by
        by_cases ha : io.bits_available = 0
        · rw [if_pos ha]
          exact sameHandle_streamOperation io
        · rw [if_neg ha]
          exact SameHandle.same io
      simp only at h
      by_cases h1 : (if io.bits_available = 0 then streamOperation io else (true, io)).1 = false
      · rw [if_pos h1] at h
        cases h
        exact hr
      · rw [if_neg h1] at h
        exact SameHandle.step hr (ih _ _ _ _ _ h) rfl rfl rfl

theorem sameHandle_read_loop (fuel : Nat) (io : BitIO) (bits : List Nat)
    (off n acc a p : Nat) (k : Nat) (dest : List Nat) (io1 : BitIO)
    (h : BitIO_read_loop fuel io bits off n acc a p = some (k, dest, io1)) :
    SameHandle io io1 := by
  induction fuel generalizing io bits off n acc with
  | zero => simp [BitIO_read_loop] at h
  | succ fuel ih =>
    unfold BitIO_read_loop at h
    by_cases h0 : n = 0
    · rw [if_pos h0] at h
      cases h
      exact SameHandle.same _
    · rw [if_neg h0] at h
      by_cases h1 : n ≤ io.bits_available
      · rw [if_pos h1] at h
        exact SameHandle.step (SameHandle.same io) (ih _ _ _ _ _ h) rfl rfl rfl
      · rw [if_neg h1] at h
        simp only at h
        by_cases h2 : (BitIO_advanceReadBufferPointer_ io).1 = false
        · rw [if_pos h2] at h
          cases h
          exact sameHandle_advanceRead io
        · rw [if_neg h2] at h
          exact SameHandle.step (sameHandle_advanceRead io) (ih _ _ _ _ _ h) rfl rfl rfl

theorem sameHandle_read (fuel : Nat) (io : BitIO) (bits : List Nat) (n : Nat)
    (k : Nat) (dest : List Nat) (io1 : BitIO)
    (h : BitIO_read fuel io bits n = some (k, dest, io1)) :
    SameHandle io io1 := by
  unfold BitIO_read at h
  by_cases hc : BitIO_check_ io false = true
  · rw [if_pos hc] at h
    cases h
    exact SameHandle.same _
  · rw [if_neg hc] at h
    have hr : SameHandle io
        (if io.bits_available = 0 then BitIO_advanceReadBufferPointer_ io else (true, io)).2 := by
      by_cases ha : io.bits_available = 0
      · rw [if_pos ha]
        exact sameHandle_advanceRead io
      · rw [if_neg ha]
        exact SameHandle.same io
    simp only at h
    by_cases h1 :
        (if io.bits_available = 0 then BitIO_advanceReadBufferPointer_ io else (true, io)).1
          = false
    · rw [if_pos h1] at h
      cases h
      exact hr
    · rw [if_neg h1] at h
      by_cases h8 :
          (if io.bits_available = 0 then BitIO_advanceReadBufferPointer_ io
            else (true, io)).2.bits_available = 8
      · rw [if_pos h8] at h
        cases hb : BitIO_readBuffer_ fuel
            (if io.bits_available = 0 then BitIO_advanceReadBufferPointer_ io else (true, io)).2
            bits 0 (n / CHAR_BIT) 0 with
        | none => rw [hb] at h; simp at h
        | some r =>
          obtain ⟨k2, dest2, io2⟩ := r
          rw [hb] at h
          simp only at h
          have h2 := SameHandle.chain hr (sameHandle_readBuffer _ _ _ _ _ _ _ _ _ hb)
          by_cases hn : k2 ≠ n - (n - n / CHAR_BIT * CHAR_BIT)
          · rw [if_pos hn] at h
            cases h
            exact h2
          · rw [if_neg hn] at h
            exact SameHandle.chain h2 (sameHandle_read_loop _ _ _ _ _ _ _ _ _ _ _ h)
      · rw [if_neg h8] at h
        exact SameHandle.chain hr (sameHandle_read_loop _ _ _ _ _ _ _ _ _ _ _ h)

theorem sameHandle_call (fuel : Nat) (c : PublicCall) (io : BitIO) (r : CallResult)
    (io1 : BitIO) (h : c.run fuel io = some (r, io1)) : SameHandle io io1 := by
  cases c with
  | put b =>
    simp only [PublicCall.run, Option.some.injEq, Prod.mk.injEq] at h
    rw [← h.2]
    exact sameHandle_put io b
  | write bits n =>
    simp only [PublicCall.run] at h
    cases hw : BitIO_write fuel io bits n with
    | none => rw [hw] at h; simp at h
    | some io2 =>
      rw [hw] at h
      simp only [Option.some.injEq, Prod.mk.injEq] at h
      rw [← h.2]
      exact sameHandle_write _ _ _ _ _ hw
  | get =>
    simp only [PublicCall.run, Option.some.injEq, Prod.mk.injEq] at h
    rw [← h.2]
    exact sameHandle_get io
  | read bits n =>
    simp only [PublicCall.run] at h
    cases hw : BitIO_read fuel io bits n with
    | none => rw [hw] at h; simp at h
    | some q =>
      obtain ⟨k, dest, io2⟩ := q
      rw [hw] at h
      simp only [Option.some.injEq, Prod.mk.injEq] at h
      rw [← h.2]
      exact sameHandle_read _ _ _ _ _ _ _ hw
  | eof =>
    simp only [PublicCall.run, Option.some.injEq, Prod.mk.injEq] at h
    rw [← h.2]
    exact SameHandle.same io

theorem sameHandle_runPublic (fuel : Nat) (calls : List PublicCall) (io : BitIO)
    (rs : List CallResult) (io1 : BitIO) (h : runPublic fuel calls io = some (rs, io1)) :
    SameHandle io io1 := by
  induction calls generalizing io rs with
  | nil =>
    simp only [runPublic, Option.some.injEq, Prod.mk.injEq] at h
    rw [← h.2]
    exact SameHandle.same io
  | cons c cs ih =>
    unfold runPublic at h
    cases hc : c.run fuel io with
    | none => rw [hc] at h; simp at h
    | some q =>
      obtain ⟨r, io2⟩ := q
      rw [hc] at h
      simp only at h
      cases hr : runPublic fuel cs io2 with
      | none => rw [hr] at h; simp at h
      | some q2 =>
        obtain ⟨rs2, io3⟩ := q2
        rw [hr] at h
        simp only [Option.some.injEq, Prod.mk.injEq] at h
        obtain ⟨_, h2⟩ := h
        subst h2
        exact SameHandle.chain (sameHandle_call _ _ _ _ _ hc) (ih _ _ hr)

theorem sameHandle_runCalls (fuel : Nat) (calls : List WriteCall) (io io1 : BitIO)
    (h : runCalls fuel calls io = some io1) : SameHandle io io1 := by
  induction calls generalizing io with
  | nil =>
    simp only [runCalls, Option.some.injEq] at h
    rw [← h]
    exact SameHandle.same io
  | cons c cs ih =>
    cases c with
    | put b =>
      unfold runCalls at h
      exact SameHandle.chain (sameHandle_put io b) (ih _ h)
    | write bits n =>
      unfold runCalls at h
      cases hw : BitIO_write fuel io bits n with
      | none => rw [hw] at h; simp at h
      | some io2 =>
        rw [hw] at h
        exact SameHandle.chain (sameHandle_write _ _ _ _ _ hw) (ih _ h)

theorem sameHandle_fputc (io X : BitIO) (v : Nat) (h : SameHandle io X) :
    SameHandle io { X with stream_ := X.stream_.map (fputc v) } := by
  refine ⟨h.managed, h.status, ?_⟩
  rw [← h.handle]
  cases X.stream_ <;> simp [fputc]

theorem release_handle (io X : BitIO) (c : Bool) (h : SameHandle io X)
    (hf : io.stream_.map FILE.closed = some c) :
    ∃ g, (if X.managed_ then X.stream_.map fclose else X.stream_) = some g ∧
      g.closed = (io.managed_ || c) := by
  have h1 := h.handle
  rw [hf] at h1
  rw [h.managed]
  cases hx : X.stream_ with
  | none => rw [hx] at h1; simp at h1
  | some g =>
    rw [hx] at h1
    simp only [Option.map_some', Option.some.injEq] at h1
    cases hm : io.managed_
    · exact ⟨g, by simp, by simp [h1]⟩
    · exact ⟨fclose g, by simp, by simp [fclose]⟩

theorem close_handle (nd : Bool) (io : BitIO) (c : Bool) (hs : io.status_ ≠ BitIOStatus.Closed)
    (hf : io.stream_.map FILE.closed = some c) :
    ∃ io1 g, BitIO_close nd io = some (io1, some g) ∧ g.closed = (io.managed_ || c) ∧
      io1.status_ = BitIOStatus.Closed ∧ io1.stream_ = none := by
  have hsome : io.stream_.isNone = false := by
    cases h : io.stream_ with
    | none => rw [h] at hf; simp at hf
    | some f => rfl
  unfold BitIO_close
  rw [if_neg hs, hsome]
  simp only [Bool.and_false, Bool.false_eq_true, if_false]
  generalize hX : (if io.status_ = BitIOStatus.Write then _ else io) = X
  have hsame : SameHandle io X := by
    rw [← hX]
    refine SameHandle.ite _ (SameHandle.ite _ ?_ ?_) (SameHandle.same io)
    · have hc := SameHandle.step (SameHandle.same io)
        (sameHandle_streamOperation
          { io.setCur (io.cur <<< (CHAR_BIT - io.bits_written)) with
            bytes_written := ((io.setCur (io.cur <<< (CHAR_BIT - io.bits_written))).bytes_written
              + 1) % 65536 }) rfl rfl rfl
      exact SameHandle.ite _ hc (sameHandle_fputc _ _ _ hc)
    · exact SameHandle.ite _ (sameHandle_fputc _ _ _ (sameHandle_streamOperation io))
        (sameHandle_streamOperation io)
  obtain ⟨g, hg1, hg2⟩ := release_handle io X c hsame hf
  rw [hg1]
  exact ⟨_, g, rfl, hg2, rfl, rfl⟩

theorem open_read_handle (nd : Bool) (io0 : BitIO) (f : FILE) (m : Nat) (r : OpenResult)
    (h : BitIO_open_read nd io0 f m = some r) (hok : r.ok = true) :
    r.io.status_ = BitIOStatus.Read ∧ r.io.managed_ = io0.managed_ ∧
      r.io.stream_.map FILE.closed = some f.closed := by
  unfold BitIO_open_read at h
  simp only at h
  split at h
  · exact absurd h (by simp)
  · rename_i io3 hd
    have h3 : io3.status_ = BitIOStatus.Read ∧ io3.managed_ = io0.managed_ ∧
        io3.stream_.map FILE.closed = some f.closed := by
      split at hd
      · split at hd
        · exact absurd hd (by simp)
        · simp only [Option.some.injEq] at hd
          rw [← hd]
          exact ⟨rfl, rfl, by simp [fread]⟩
      · simp only [Option.some.injEq] at hd
        rw [← hd]
        exact ⟨rfl, rfl, by simp [fread]⟩
    split at h
    · split at h
      · split at h
        · exact absurd h (by simp)
        · simp only [Option.some.injEq] at h
          rw [← h] at hok
          exact absurd hok (by simp)
      · simp only [Option.some.injEq] at h
        rw [← h]
        exact h3
    · simp only [Option.some.injEq] at h
      rw [← h]
      exact h3

theorem open_handle (nd : Bool) (io0 : BitIO) (src : Source) (modes : Nat) (r : OpenResult)
    (h : BitIO_open nd io0 (some src) modes = some r) (hok : r.ok = true) :
    r.io.status_ ≠ BitIOStatus.Closed ∧
      r.io.managed_ = !hasFlag modes BitIOOpen_Unmanaged ∧
      r.io.stream_.map FILE.closed = (src.handle modes).map FILE.closed := by
  have hU : hasFlag (if modes = 0 then BitIOOpen_Read else modes) BitIOOpen_Unmanaged
      = hasFlag modes BitIOOpen_Unmanaged := by
    split_ifs with h0
    · rw [h0]; rfl
    · rfl
  have hP : hasFlag (if modes = 0 then BitIOOpen_Read else modes) BitIOOpen_ByPath
      = hasFlag modes BitIOOpen_ByPath := by
    split_ifs with h0
    · rw [h0]; rfl
    · rfl
  unfold BitIO_open at h
  simp only at h
  generalize (if modes = 0 then BitIOOpen_Read else modes) = m at h hU hP
  have bad : ∀ x : BitIO, some (OpenResult.mk false x none) = some r → False := by
    intro x hx
    simp only [Option.some.injEq] at hx
    rw [← hx] at hok
    exact absurd hok (by simp)
  split at h
  · exact absurd h (by simp)
  split at h
  · exact (bad _ h).elim
  split at h
  · exact (bad _ h).elim
  split at h
  · exact (bad _ h).elim
  split at h
  · exact (bad _ h).elim
  rw [hP] at h
  unfold Source.handle
  split at h
  · exact (bad _ h).elim
  · rename_i f hf
    rw [hf]
    rw [hU] at h
    split at h
    · split at h
      · simp only [Option.some.injEq] at h
        rw [← h]
        exact ⟨by simp, rfl, rfl⟩
      · simp only [Option.some.injEq] at h
        rw [← h]
        exact ⟨by simp, rfl, by simp [fwrite]⟩
    · obtain ⟨a, b, c⟩ := open_read_handle _ _ _ _ _ h hok
      exact ⟨by rw [a]; simp, b, c⟩

/-- Closing after a successful open and any public calls: the handle is
closed exactly when the object is managed. -/
theorem close_after_open (nd : Bool) (io0 : BitIO) (src : Source) (modes : Nat)
    (r : OpenResult) (io1 : BitIO)
    (hopen : BitIO_open nd io0 (some src) modes = some r) (hok : r.ok = true)
    (hsrc : (src.handle modes).map FILE.closed = some false)
    (hrun : SameHandle r.io io1) :
    ∃ io2 f, BitIO_close nd io1 = some (io2, some f) ∧
      (f.closed = true ↔ hasFlag modes BitIOOpen_Unmanaged = false) ∧
      io2.status_ = BitIOStatus.Closed ∧ io2.stream_ = none := by
  obtain ⟨h1, h2, h3⟩ := open_handle nd io0 src modes r hopen hok
  rw [hsrc] at h3
  obtain ⟨io2, f, hc, hf, hs, hn⟩ := close_handle nd io1 false
    (by rw [hrun.status]; exact h1) (by rw [hrun.handle]; exact h3)
  refine ⟨io2, f, hc, ?_, hs, hn⟩
  rw [hf, hrun.managed, h2]
  cases hasFlag modes BitIOOpen_Unmanaged <;> simp

/-- Claim C19: after a successful `BitIO_open` on an open handle and any public
calls, `BitIO_close` returns a Closed object without stream, and the released
handle is closed exactly when `BitIOOpen_Unmanaged` was not requested; for a
structured writer opened with `BitIOOpen_Unmanaged` the handle left open holds
the earlier content, the signature, the packed bits and the trailer. -/
theorem C19_handle_ownership (nd : Bool) (fuel : Nat) :
    (∀ (io0 : BitIO) (src : Source) (modes : Nat) (calls : List PublicCall)
        (r : OpenResult) (rs : List CallResult) (io1 : BitIO),
      BitIO_open nd io0 (some src) modes = some r → r.ok = true →
      (src.handle modes).map FILE.closed = some false →
      runPublic fuel calls r.io = some (rs, io1) →
      ∃ io2 f, BitIO_close nd io1 = some (io2, some f) ∧
        (f.closed = true ↔ hasFlag modes BitIOOpen_Unmanaged = false) ∧
        io2.status_ = BitIOStatus.Closed ∧ io2.stream_ = none) ∧
    (∀ (buf : List Nat) (sink : Source) (modes : Nat) (calls : List WriteCall),
      buf.length = BitIO_BufferSize + BitIO_BufferRedundancy →
      structuredWriteRequest modes = true →
      hasFlag modes BitIOOpen_Unmanaged = true →
      sink.file.closed = false →
      (∀ c ∈ calls, c.wf fuel) →
      ∃ io io1 io2 f,
        BitIO_open nd (BitIO_create buf) (some sink) modes = some ⟨true, io, none⟩ ∧
        runCalls fuel calls io = some io1 ∧
        BitIO_close nd io1 = some (io2, some f) ∧
        f.closed = false ∧
        f.bytes = sink.file.bytes ++ BitIO_Signature ++ packBits (emittedAll calls)
          ++ [trailerOf (totalBits calls)] ∧
        io2.status_ = BitIOStatus.Closed ∧ io2.stream_ = none) := by
  constructor
  · intro io0 src modes calls r rs io1 hopen hok hsrc hrun
    exact close_after_open nd io0 src modes r io1 hopen hok hsrc
      (sameHandle_runPublic fuel calls r.io rs io1 hrun)
  · intro buf sink modes calls hbuf hmodes hU hsink hwf
    obtain ⟨io, io1, io2, f, ho, hr, hc, hb⟩ :=
      structured_session nd buf sink modes fuel calls hbuf hmodes hwf
    obtain ⟨_, _, _, _, hpath⟩ := structuredWriteRequest_flags modes hmodes
    have hsrc : (sink.handle modes).map FILE.closed = some false := by
      unfold Source.handle
      rw [hpath]
      simp [hsink]
    obtain ⟨io2b, g, hc2, hg, hs, hn⟩ := close_after_open nd (BitIO_create buf) sink modes
      ⟨true, io, none⟩ io1 ho rfl hsrc (sameHandle_runCalls fuel calls io io1 hr)
    rw [hc] at hc2
    simp only [Option.some.injEq, Prod.mk.injEq] at hc2
    obtain ⟨e1, e2⟩ := hc2
    subst e1
    subst e2
    refine ⟨io, io1, io2, f, ho, hr, hc, ?_, hb, hs, hn⟩
    cases hfc : f.closed
    · rfl
    · rw [hg.1 hfc] at hU
      exact absurd hU (by simp)

/-- Instance of C19: a managed structured writer, one put, close; and an
unmanaged structured writer, nine bits, close. -/
theorem C19_handle_ownership_witness :
    (∃ r rs io1 io2 f,
      BitIO_open false (BitIO_create (List.replicate 1026 0))
        (some (Source.mk FILE.output none)) BitIOOpen_Write = some r ∧ r.ok = true ∧
      ((Source.mk FILE.output none).handle BitIOOpen_Write).map FILE.closed = some false ∧
      runPublic 4 [PublicCall.put true] r.io = some (rs, io1) ∧
      BitIO_close false io1 = some (io2, some f) ∧ f.closed = true ∧
      io2.status_ = BitIOStatus.Closed ∧ io2.stream_ = none) ∧
    (List.replicate 1026 0).length = BitIO_BufferSize + BitIO_BufferRedundancy ∧
    structuredWriteRequest (BitIOOpen_Write ||| BitIOOpen_Unmanaged) = true ∧
    hasFlag (BitIOOpen_Write ||| BitIOOpen_Unmanaged) BitIOOpen_Unmanaged = true ∧
    (Source.mk FILE.output none).file.closed = false ∧
    (∀ c ∈ [WriteCall.write [0xB2, 0x80] 9], c.wf 4) ∧
    ∃ io io1 io2 f,
      BitIO_open false (BitIO_create (List.replicate 1026 0))
        (some (Source.mk FILE.output none)) (BitIOOpen_Write ||| BitIOOpen_Unmanaged)
        = some ⟨true, io, none⟩ ∧
      runCalls 4 [WriteCall.write [0xB2, 0x80] 9] io = some io1 ∧
      BitIO_close false io1 = some (io2, some f) ∧
      f.closed = false ∧
      f.bytes = (Source.mk FILE.output none).file.bytes ++ BitIO_Signature
        ++ packBits (emittedAll [WriteCall.write [0xB2, 0x80] 9])
        ++ [trailerOf (totalBits [WriteCall.write [0xB2, 0x80] 9])] ∧
      io2.status_ = BitIOStatus.Closed ∧ io2.stream_ = none := by
  refine ⟨?_, List.length_replicate _ _, by decide, by decide, rfl, by simp [WriteCall.wf],
    (C19_handle_ownership false 4).2 (List.replicate 1026 0) (Source.mk FILE.output none)
      (BitIOOpen_Write ||| BitIOOpen_Unmanaged) [WriteCall.write [0xB2, 0x80] 9]
      (List.length_replicate _ _) (by decide) (by decide) rfl (by simp [WriteCall.wf])⟩
  obtain ⟨io, ho, _⟩ := open_write_rel false (List.replicate 1026 0)
    (Source.mk FILE.output none) BitIOOpen_Write
    (by rw [List.length_replicate]; decide) (by decide) (by decide) (by decide) (by decide)
    (by decide)
  obtain ⟨io2, f, hc, hiff, hs, hn⟩ := (C19_handle_ownership false 4).1
    (BitIO_create (List.replicate 1026 0)) (Source.mk FILE.output none) BitIOOpen_Write
    [PublicCall.put true] ⟨true, io, none⟩ [CallResult.done] (BitIO_put io true) ho rfl
    (by decide) rfl
  exact ⟨_, _, _, io2, f, ho, rfl, by decide, rfl, hc, hiff.2 (by decide), hs, hn⟩

/-! ## Buffer bytes left by an earlier session -/

/-- Claim C17 (evaluation): two fresh instances that differ only in their
buffer bytes (all 0 against all 255), opened alike on a one-byte plain source,
return different values from the same calls: after `BitIO_read` has delivered
the eight bits, `BitIO_get` returns the top bit of the buffer byte that
follows the data. -/
theorem C17_stale_buffer_observed :
    openAndRun false (List.replicate 1026 0) [1] 0 4
        [PublicCall.read [0] 8, PublicCall.get]
      = some [CallResult.count 8 [1], CallResult.bit 0] ∧
    openAndRun false (List.replicate 1026 255) [1] 0 4
        [PublicCall.read [0] 8, PublicCall.get]
      = some [CallResult.count 8 [1], CallResult.bit 1] := by
  constructor <;> decide

/-! ## Plain reader -/

theorem range_bits_append (src : List Nat) (m b : Nat) :
    (List.range (8 * m + b)).map (bitAt src) =
      (List.range (8 * m)).map (bitAt src) ++ (List.range b).map (bitAt (src.drop m)) := by
  rw [List.range_add, List.map_append, List.map_map]
  congr 1
  apply List.map_congr_left
  intro i _
  simp only [Function.comp_apply]
  rw [bitAt_drop]

theorem memcpyAt_zero_getD (buf D : List Nat) (j : Nat) (hj : j < D.length) :
    (memcpyAt buf 0 D).getD j 0 = D.getD j 0 := by
  unfold memcpyAt
  simp only [List.take_zero, List.nil_append, Nat.zero_add]
  rw [List.getD_append _ _ _ _ hj]

theorem memcpyAt_zero_length (buf D : List Nat) (h : D.length ≤ buf.length) :
    (memcpyAt buf 0 D).length = buf.length := by
  rw [memcpyAt_length _ _ _ (by omega)]

/-- Draining a freshly filled plain buffer yields the bits of its bytes. -/
theorem plain_drain (io : BitIO) (D R : List Nat) (h : PLoaded io D R)
    (hb : ∀ x ∈ D, x < 256) :
    ∃ io1, getN (8 * D.length) io = ((List.range (8 * D.length)).map (bitAt D), io1) ∧
      PReady io1 R := by
  have hB : BitIO_BufferSize = 1024 := rfl
  have hsz := h.size
  have hbl := h.buflen
  have hinv : RInv io := ⟨h.status, h.noeof⟩
  obtain ⟨io1, d1, d2, d3, d4⟩ := drain_buffer D.length io hinv h.avail
    (by rw [h.pending]) (by rw [h.pending]; omega) (by rw [h.cursor]; omega)
    (by
      rw [h.cursor, List.drop_zero]
      exact take_all_lt _ D D.length (le_refl _) h.loaded hb)
  rw [h.pending, h.cursor, List.drop_zero] at d1
  refine ⟨io1, ?_, ?_⟩
  · rw [d1, map_bitAt_congr _ D D.length (8 * D.length) h.loaded (le_refl _)]
  · obtain ⟨f, hf, hR, he⟩ := h.source
    exact ⟨d4.status.trans h.status, d4.eof.trans h.noeof, d4.op.trans h.op,
      by rw [d4.buflen]; exact hbl, d2, d3, ⟨f, d4.stream.trans hf, hR, he⟩⟩

/-- The pull of a plain reader at the end of its source. -/
theorem plain_end_flagged (io : BitIO) (h : PReady io []) (f : FILE)
    (hf : io.stream_ = some f) (he : f.eofInd = true) (k : Nat) :
    (getN k io).1 = List.replicate k EOF_uchar := by
  cases k with
  | zero => rfl
  | succ k =>
    have hinv : RInv io := ⟨h.status, h.noeof⟩
    have hso : streamOperation io = (false, { io with eof := true }) := by
      simp only [streamOperation, h.op, BitIO_pull_regular_, h.noeof, hf, he,
        Bool.false_eq_true, if_false, if_true]
    have hg := get_end io hinv h.avail h.pending (by rw [hso])
    rw [hso] at hg
    rw [getN, hg]
    simp only
    rw [getN_after_eof k { io with eof := true } h.status rfl]
    rfl

theorem plain_end (io : BitIO) (h : PReady io []) (k : Nat) :
    (getN k io).1 = List.replicate k EOF_uchar := by
  obtain ⟨f, hf, hR, he⟩ := h.source
  cases hfe : f.eofInd with
  | true => exact plain_end_flagged io h f hf hfe k
  | false =>
    cases k with
    | zero => rfl
    | succ k =>
      have hinv : RInv io := ⟨h.status, h.noeof⟩
      have hex : ∃ iop, streamOperation io = (false, iop) ∧ PReady iop [] ∧
          ∃ g, iop.stream_ = some g ∧ g.eofInd = true := by
        refine ⟨{ io with
            buffer_ := memcpyAt io.buffer_ 0 [],
            stream_ := some ⟨[], true, f.closed⟩,
            bits_read := 0, current_byte_ := 0, bits_available := 0 }, ?_,
          ⟨h.status, h.noeof, h.op, ?_, rfl, rfl, ⟨_, rfl, rfl, fun _ => rfl⟩⟩,
          ⟨_, rfl, rfl⟩⟩
        · simp [streamOperation, h.op, BitIO_pull_regular_, h.noeof, hf, hfe, fread, hR,
            BitIO_BufferSize, CHAR_BIT]
        · show BitIO_BufferSize ≤ (memcpyAt io.buffer_ 0 []).length
          rw [memcpyAt_zero_length _ _ (by simp)]
          exact h.buflen
      obtain ⟨iop, hso, hp, g, hg, hge⟩ := hex
      have hgt := get_end io hinv h.avail h.pending (by rw [hso])
      rw [hso] at hgt
      rw [getN, hgt]
      simp only
      rw [plain_end_flagged iop hp g hg hge k]
      rfl

/-- The pull of a plain reader whose source is not used up. -/
theorem plain_pull (io : BitIO) (R : List Nat) (h : PReady io R) (hR : R ≠ []) :
    ∃ iop, (∀ m, getN (m + 1) io = getN (m + 1) iop) ∧
      PLoaded iop (R.take BitIO_BufferSize) (R.drop BitIO_BufferSize) := by
  have hB : BitIO_BufferSize = 1024 := rfl
  obtain ⟨f, hf, hfR, he⟩ := h.source
  have hfe : f.eofInd = false := by
    cases hc : f.eofInd with
    | true => exact absurd (he hc) hR
    | false => rfl
  have hinv : RInv io := ⟨h.status, h.noeof⟩
  have hlen : 0 < R.length := List.length_pos.mpr hR
  have htl : 0 < (R.take 1024).length := by
    rw [List.length_take]; omega
  have htl2 : (R.take 1024).length ≤ 1024 := by
    rw [List.length_take]; omega
  have hex : ∃ iop, streamOperation io = (true, iop) ∧
      iop.buffer_ = memcpyAt io.buffer_ 0 (R.take 1024) ∧ iop.current_byte_ = 0 ∧
      iop.eof = false ∧ iop.bits_available = 8 ∧ iop.bits_read = (R.take 1024).length * 8 ∧
      iop.stream_ = some ⟨R.drop 1024, decide (R.length < 1024), f.closed⟩ ∧
      iop.status_ = BitIOStatus.Read ∧ iop.streamOperation_ = StreamOp.pull_regular := by
    refine ⟨{ io with
        buffer_ := memcpyAt io.buffer_ 0 (R.take 1024),
        stream_ := some ⟨R.drop 1024, decide (R.length < 1024), f.closed⟩,
        bits_read := (R.take 1024).length * 8, current_byte_ := 0, bits_available := 8 },
      ?_, rfl, rfl, h.noeof, rfl, rfl, rfl, h.status, h.op⟩
    simp only [streamOperation, h.op, BitIO_pull_regular_, h.noeof, hf, hfe, fread, hfR,
      BitIO_BufferSize, CHAR_BIT, Bool.false_eq_true, if_false, Bool.false_or, htl,
      gt_iff_lt, decide_True, if_true]
  obtain ⟨iop, hso, pb, pc, pe, pa, pr, ps, pst, pop⟩ := hex
  have hinvp : RInv iop := ⟨pst, pe⟩
  refine ⟨iop, ?_, ?_⟩
  · intro m
    have hgp := getN_pull m io hinv h.avail h.pending (by rw [hso])
      (by rw [hso]; exact hinvp) (by rw [hso]; show iop.bits_available ≠ 0; rw [pa]; decide)
    rw [hso] at hgp
    exact hgp
  · have hbl := h.buflen
    refine ⟨pst, pe, pop, ?_, htl2, pc, ?_, ?_, ?_, ⟨_, ps, rfl, ?_⟩⟩
    · rw [pb, memcpyAt_zero_length _ _ (by omega)]
      exact hbl
    · rw [pa, pr]
      unfold CHAR_BIT
      split_ifs <;> omega
    · rw [pr]
      show (R.take 1024).length * 8 = 8 * (R.take 1024).length
      omega
    · intro j hj
      rw [pb]
      exact memcpyAt_zero_getD _ _ j hj
    · intro hc
      simp only [decide_eq_true_eq] at hc
      exact List.drop_eq_nil_of_le (by omega)

theorem plain_rest (n : Nat) :
    ∀ (R : List Nat) (io : BitIO), R.length = n → PReady io R → (∀ x ∈ R, x < 256) →
      ∀ k, (getN (8 * R.length + k) io).1 =
        (List.range (8 * R.length)).map (bitAt R) ++ List.replicate k EOF_uchar := by
  induction n using Nat.strong_induction_on with
  | _ n ih =>
    intro R io hn h hb k
    by_cases hR : R = []
    · subst hR
      simp only [List.length_nil, Nat.mul_zero, Nat.zero_add, List.range_zero, List.map_nil,
        List.nil_append]
      exact plain_end io h k
    · have hB : BitIO_BufferSize = 1024 := rfl
      have hlen : 0 < R.length := List.length_pos.mpr hR
      obtain ⟨iop, hpull, hload⟩ := plain_pull io R h hR
      have hbD : ∀ x ∈ R.take BitIO_BufferSize, x < 256 :=
        fun x hx => hb x (List.mem_of_mem_take hx)
      have hbR : ∀ x ∈ R.drop BitIO_BufferSize, x < 256 :=
        fun x hx => hb x (List.mem_of_mem_drop hx)
      obtain ⟨iod, hd, hready⟩ := plain_drain iop _ _ hload hbD
      have hDl : (R.take BitIO_BufferSize).length = min 1024 R.length := by
        rw [List.length_take]
        rfl
      have hRl : (R.drop BitIO_BufferSize).length = R.length - 1024 := by
        rw [List.length_drop]
        rfl
      have hrec := ih (R.drop BitIO_BufferSize).length (by rw [hRl]; omega)
        (R.drop BitIO_BufferSize) iod rfl hready hbR k
      have hsplit : 8 * R.length + k
          = 8 * (R.take BitIO_BufferSize).length
            + (8 * (R.drop BitIO_BufferSize).length + k) := by
        rw [hDl, hRl]; omega
      have hpos : 8 * R.length + k = (8 * R.length + k - 1) + 1 := by omega
      rw [hpos, hpull, ← hpos, hsplit, getN_add, hd]
      simp only
      rw [hrec]
      have hbits : (List.range (8 * R.length)).map (bitAt R)
          = (List.range (8 * (R.take BitIO_BufferSize).length)).map
              (bitAt (R.take BitIO_BufferSize))
            ++ (List.range (8 * (R.drop BitIO_BufferSize).length)).map
              (bitAt (R.drop BitIO_BufferSize)) := by
        have e : 8 * R.length = 8 * min 1024 R.length + 8 * (R.length - 1024) := by omega
        rw [e, range_bits_append R (min 1024 R.length) (8 * (R.length - 1024)), hDl, hRl]
        congr 1
        · apply map_bitAt_congr R (R.take BitIO_BufferSize) (min 1024 R.length) _ _ (le_refl _)
          intro j hj
          simp only [List.getD_eq_getElem?_getD]
          rw [List.getElem?_take_of_lt (by rw [hB]; omega)]
        · by_cases hc : R.length ≤ 1024
          · have : R.length - 1024 = 0 := by omega
            rw [this]
            rfl
          · have : min 1024 R.length = 1024 := by omega
            rw [this]
            rfl
      rw [hbits, List.append_assoc]

/-- Reading a plain source whose first bytes sit in the buffer. -/
theorem plain_all (io : BitIO) (D R : List Nat) (h : PLoaded io D R)
    (hbD : ∀ x ∈ D, x < 256) (hbR : ∀ x ∈ R, x < 256) (k : Nat) :
    (getN (8 * (D ++ R).length + k) io).1 =
      (List.range (8 * (D ++ R).length)).map (bitAt (D ++ R))
        ++ List.replicate k EOF_uchar := by
  obtain ⟨iod, hd, hready⟩ := plain_drain io D R h hbD
  have hrec := plain_rest R.length R iod rfl hready hbR k
  have hsplit : 8 * (D ++ R).length + k = 8 * D.length + (8 * R.length + k) := by
    rw [List.length_append]; omega
  rw [hsplit, getN_add, hd]
  simp only
  rw [hrec]
  have e : 8 * (D ++ R).length = 8 * D.length + 8 * R.length := by
    rw [List.length_append]; omega
  rw [e, range_bits_append (D ++ R) D.length (8 * R.length), List.drop_left, List.append_assoc]
  congr 1
  apply map_bitAt_congr D (D ++ R) D.length _ _ (le_refl _)
  intro j hj
  rw [List.getD_append _ _ _ _ hj]

theorem plainReadRequest_flags (modes : Nat) (src : List Nat)
    (h : plainReadRequest modes src = true) :
    (if modes = 0 then BitIOOpen_Read else modes) &&& (0xFFFFFFFF ^^^ BitIOOpen_Mask) = 0 ∧
      hasFlag (if modes = 0 then BitIOOpen_Read else modes) BitIOOpen_Read = true ∧
      hasFlag (if modes = 0 then BitIOOpen_Read else modes) BitIOOpen_Write = false ∧
      hasFlag (if modes = 0 then BitIOOpen_Read else modes) BitIOOpen_ByPath = false ∧
      hasFlag (if modes = 0 then BitIOOpen_Read else modes) ( BitIOOpen_BitIO) = false ∧
      (hasFlag (if modes = 0 then BitIOOpen_Read else modes) BitIOOpen_Plain = true ∨
        src.take BitIO_SignatureLength ≠ BitIO_Signature) := by
  simp only [plainReadRequest, Bool.and_eq_true, decide_eq_true_eq,
    Bool.not_eq_true', Bool.or_eq_true] at h
  obtain ⟨⟨⟨⟨⟨a, b⟩, c⟩, d⟩, e⟩, f⟩ := h
  exact ⟨a, b, c, d, e, f⟩

/-- A successful plain read-open: the probe bytes sit in the buffer as the first
content bytes. -/
theorem open_plain_loaded (nd : Bool) (buf : List Nat) (src : Source) (modes : Nat)
    (hbuf : buf.length = BitIO_BufferSize + BitIO_BufferRedundancy)
    (hfresh : src.file.eofInd = false)
    (hmodes : plainReadRequest modes src.file.bytes = true) :
    ∃ io, BitIO_open nd (BitIO_create buf) (some src) modes = some ⟨true, io, none⟩ ∧
      PLoaded io (src.file.bytes.take 5) (src.file.bytes.drop 5) := by
  obtain ⟨h1, h2, h3, h4, h5, h6⟩ := plainReadRequest_flags modes _ hmodes
  have h4b : hasFlag ((if modes = 0 then BitIOOpen_Read else modes) &&&
      (if modes = 0 then BitIOOpen_Read else modes)) BitIOOpen_ByPath = false := by
    rw [Nat.and_self]; exact h4
  have hdet : (!hasFlag (if modes = 0 then BitIOOpen_Read else modes) BitIOOpen_Plain
      && decide ((src.file.bytes.take 5).length = 5)
      && decide ((memcpyAt buf 0 (src.file.bytes.take 5)).take 5 = BitIO_Signature)) = false := by
    rcases h6 with h6 | h6
    · rw [h6]; rfl
    · by_cases hl : (src.file.bytes.take 5).length = 5
      · have e : (memcpyAt buf 0 (src.file.bytes.take 5)).take 5 = src.file.bytes.take 5 := by
          have := memcpyAt_take buf 0 (src.file.bytes.take 5) (Nat.zero_le _)
          rw [hl] at this
          simpa using this
        rw [e]
        have : decide (src.file.bytes.take 5 = BitIO_Signature) = false := by
          simpa [BitIO_SignatureLength] using h6
        rw [this]
        simp
      · have : decide ((src.file.bytes.take 5).length = 5) = false := by simpa using hl
        rw [this]
        simp
  have hav : (if (src.file.bytes.take 5).length > 0 then 8 else 0)
      = if (src.file.bytes.take 5).length * 8 > 8 then 8 else (src.file.bytes.take 5).length * 8 := by
    split_ifs <;> omega
  refine ⟨{ BitIO_create buf with
      stream_ := some ⟨src.file.bytes.drop 5, decide (src.file.bytes.length < 5), src.file.closed⟩,
      managed_ := !hasFlag (if modes = 0 then BitIOOpen_Read else modes) BitIOOpen_Unmanaged,
      status_ := BitIOStatus.Read,
      buffer_ := memcpyAt buf 0 (src.file.bytes.take 5),
      streamOperation_ := StreamOp.pull_regular,
      bits_read := (src.file.bytes.take 5).length * 8,
      bits_available := if (src.file.bytes.take 5).length > 0 then 8 else 0 }, ?_, ?_⟩
  · unfold BitIO_open
    simp only [BitIO_create, BitIO_initialize_, ne_eq, not_true_eq_false, decide_False,
      Bool.and_false, Bool.false_eq_true, if_false, h1, h2, h3, h4, h5, h4b,
      Bool.xor_false, Bool.not_true, Bool.false_and, Bool.and_self]
    unfold BitIO_open_read
    simp only [fread, hfresh, BitIO_SignatureLength, hdet, Bool.false_or, Bool.false_eq_true,
      if_false, if_true, h5, CHAR_BIT]
  · have hl5 : (src.file.bytes.take 5).length ≤ 5 := by
      rw [List.length_take]; omega
    refine ⟨rfl, rfl, rfl, ?_, ?_, rfl, ?_, ?_, ?_, ⟨_, rfl, rfl, ?_⟩⟩
    · show BitIO_BufferSize ≤ (memcpyAt buf 0 (src.file.bytes.take 5)).length
      rw [memcpyAt_zero_length _ _ (by rw [hbuf]; unfold BitIO_BufferSize; omega), hbuf]
      omega
    · unfold BitIO_BufferSize; omega
    · exact hav
    · show (src.file.bytes.take 5).length * 8 = 8 * (src.file.bytes.take 5).length
      omega
    · intro j hj
      exact memcpyAt_zero_getD _ _ j hj
    · intro hc
      simp only [decide_eq_true_eq] at hc
      exact List.drop_eq_nil_of_le (by omega)

/-- Claim C14: a source of `N` bytes read as plain (the request sets
`BitIOOpen_Plain`, or detection finds no signature) opens successfully, and
successive calls of `BitIO_get` return the `8 * N` bits of the source, most
significant bit first, followed by the end marker 255 for as long as it is
called; the probe bytes are part of the content. -/
theorem C14_plain_reading_yields_every_bit (nd : Bool) (buf : List Nat) (src : Source)
    (modes : Nat)
    (hbuf : buf.length = BitIO_BufferSize + BitIO_BufferRedundancy)
    (hfresh : src.file.eofInd = false)
    (hbytes : ∀ x ∈ src.file.bytes, x < 256)
    (hmodes : plainReadRequest modes src.file.bytes = true) :
    ∃ io, BitIO_open nd (BitIO_create buf) (some src) modes = some ⟨true, io, none⟩ ∧
      ∀ k, (getN (8 * src.file.bytes.length + k) io).1 =
        (List.range (8 * src.file.bytes.length)).map (bitAt src.file.bytes)
          ++ List.replicate k 255 := by
  obtain ⟨io, ho, hl⟩ := open_plain_loaded nd buf src modes hbuf hfresh hmodes
  refine ⟨io, ho, fun k => ?_⟩
  have h := plain_all io _ _ hl (fun x hx => hbytes x (List.mem_of_mem_take hx))
    (fun x hx => hbytes x (List.mem_of_mem_drop hx)) k
  rw [List.take_append_drop] at h
  exact h

/-- Instance of C14: the five signature bytes read with `BitIOOpen_Plain`. -/
theorem C14_plain_reading_yields_every_bit_witness :
    (List.replicate 1026 0).length = BitIO_BufferSize + BitIO_BufferRedundancy ∧
    (Source.mk (FILE.input BitIO_Signature) none).file.eofInd = false ∧
    (∀ x ∈ (Source.mk (FILE.input BitIO_Signature) none).file.bytes, x < 256) ∧
    plainReadRequest (BitIOOpen_Read ||| BitIOOpen_Plain)
      (Source.mk (FILE.input BitIO_Signature) none).file.bytes = true ∧
    ∃ io, BitIO_open false (BitIO_create (List.replicate 1026 0))
        (some (Source.mk (FILE.input BitIO_Signature) none)) (BitIOOpen_Read ||| BitIOOpen_Plain)
        = some ⟨true, io, none⟩ ∧
      ∀ k, (getN (8 * (Source.mk (FILE.input BitIO_Signature) none).file.bytes.length + k) io).1 =
        (List.range (8 * (Source.mk (FILE.input BitIO_Signature) none).file.bytes.length)).map
            (bitAt (Source.mk (FILE.input BitIO_Signature) none).file.bytes)
          ++ List.replicate k 255 :=
  ⟨List.length_replicate _ _, rfl, by decide, by decide,
    C14_plain_reading_yields_every_bit false (List.replicate 1026 0)
      (Source.mk (FILE.input BitIO_Signature) none) (BitIOOpen_Read ||| BitIOOpen_Plain)
      (List.length_replicate _ _) rfl (by decide) (by decide)⟩

/-! ## Heap order -/

theorem ThreeWayPreorder.not_lt {K : Type} {compare : K → K → Int}
    (h : ThreeWayPreorder compare) (a b : K) (hn : ¬ compare a b < 0) : compare b a ≤ 0 := by
  have := h.flip a b
  by_contra hc
  exact hn (this.2 (by omega))

theorem emplace_back_data {α : Type} (v : Vector α) (x : α) (o : Bool) :
    (Vector_emplace_back v x o).data = v.data ++ [⟨x, o⟩] := by
  unfold Vector_emplace_back Vector_recap VectorItem_create_
  simp only
  split_ifs <;> rfl

theorem pop_back_data {α : Type} (v : Vector α) :
    (Vector_pop_back v).data = v.data.dropLast := by
  unfold Vector_pop_back Vector_recap Vector_size
  simp only
  split_ifs with h1 <;> first | rfl | (rw [List.length_eq_zero.mp h1]; rfl)

/-- A successful write-open of a fresh instance starts a writer that has
emitted nothing. -/
theorem open_write_any (nd : Bool) (buf : List Nat) (src : Source) (modes : Nat)
    (r : OpenResult) (hbuf : BitIO_BufferSize ≤ buf.length)
    (h : BitIO_open nd (BitIO_create buf) (some src) modes = some r) (hok : r.ok = true)
    (hw : r.io.status_ = BitIOStatus.Write) :
    ∃ pre, WRel r.io r.io.plain_ pre [] := by
  unfold BitIO_open at h
  simp only at h
  generalize (if modes = 0 then BitIOOpen_Read else modes) = m at h
  have bad : ∀ x : BitIO, some (OpenResult.mk false x none) = some r → False := by
    intro x hx
    simp only [Option.some.injEq] at hx
    rw [← hx] at hok
    exact absurd hok (by simp)
  split at h
  · exact absurd h (by simp)
  split at h
  · exact (bad _ h).elim
  split at h
  · exact (bad _ h).elim
  split at h
  · exact (bad _ h).elim
  split at h
  · exact (bad _ h).elim
  split at h
  · exact (bad _ h).elim
  · rename_i f hf
    split at h
    · split at h
      · simp only [Option.some.injEq] at h
        rw [← h]
        refine ⟨f.bytes, ⟨rfl, rfl, rfl, ?_, hbuf, rfl⟩, rfl, ?_, rfl, ?_⟩
        · show 0 < BitIO_BufferSize
          decide
        · simp [producedBytes, fullBytes, BitIO_create, BitIO_initialize_]
        · simp [pendVal, bitsVal, Nat.mod_one]
      · simp only [Option.some.injEq] at h
        rw [← h]
        refine ⟨f.bytes ++ BitIO_Signature, ⟨rfl, rfl, rfl, ?_, hbuf, rfl⟩, rfl, ?_, rfl, ?_⟩
        · show 0 < BitIO_BufferSize
          decide
        · simp [producedBytes, fwrite, fullBytes, BitIO_create, BitIO_initialize_]
        · simp [pendVal, bitsVal, Nat.mod_one]
    · obtain ⟨a, _, _⟩ := open_read_handle _ _ _ _ _ h hok
      rw [a] at hw
      cases hw

theorem take_wf (fuel : Nat) (calls : List WriteCall) (hwf : ∀ c ∈ calls, c.wf fuel) (k : Nat) :
    ∀ c ∈ calls.take k, c.wf fuel :=
  fun c hc => hwf c (List.mem_of_mem_take hc)

/-- Claim C27: after a successful write-open of a fresh instance, on return
from each call of any sequence of well-formed `BitIO_put` and `BitIO_write`
calls (that is, after every prefix of the sequence) the writer holds fewer
than 8 pending bits. -/
theorem C27_write_mode_invariant (nd : Bool) (buf : List Nat) (src : Source) (modes fuel : Nat)
    (r : OpenResult) (calls : List WriteCall)
    (hbuf : buf.length = BitIO_BufferSize + BitIO_BufferRedundancy)
    (hopen : BitIO_open nd (BitIO_create buf) (some src) modes = some r) (hok : r.ok = true)
    (hw : r.io.status_ = BitIOStatus.Write)
    (hwf : ∀ c ∈ calls, c.wf fuel) :
    ∀ k, ∃ io1, runCalls fuel (calls.take k) r.io = some io1 ∧
      io1.status_ = BitIOStatus.Write ∧ io1.bits_written < 8 := by
  intro k
  obtain ⟨pre, hrel⟩ := open_write_any nd buf src modes r (by rw [hbuf]; decide) hopen hok hw
  obtain ⟨io1, h1, h2⟩ := runCalls_rel fuel (calls.take k) r.io _ pre [] hrel
    (take_wf fuel calls hwf k)
  refine ⟨io1, h1, h2.1.status, ?_⟩
  rw [h2.2.2.2.1]
  exact Nat.mod_lt _ (by decide)

/-- Instance of C27: a structured writer, seven puts' worth of bits in one
write, then one put that completes the byte. -/
theorem C27_write_mode_invariant_witness :
    (List.replicate 1026 0).length = BitIO_BufferSize + BitIO_BufferRedundancy ∧
    (∃ r, BitIO_open false (BitIO_create (List.replicate 1026 0))
        (some (Source.mk FILE.output none)) BitIOOpen_Write = some r ∧ r.ok = true ∧
      r.io.status_ = BitIOStatus.Write ∧
      (∀ c ∈ [WriteCall.write [0xFE] 7, WriteCall.put true], c.wf 4) ∧
      ∀ k, ∃ io1,
        runCalls 4 ([WriteCall.write [0xFE] 7, WriteCall.put true].take k) r.io = some io1 ∧
        io1.status_ = BitIOStatus.Write ∧ io1.bits_written < 8) := by
  refine ⟨List.length_replicate _ _, ?_⟩
  obtain ⟨io, ho, hr⟩ := open_write_rel false (List.replicate 1026 0)
    (Source.mk FILE.output none) BitIOOpen_Write
    (by rw [List.length_replicate]; decide) (by decide) (by decide) (by decide) (by decide)
    (by decide)
  exact ⟨⟨true, io, none⟩, ho, rfl, hr.1.status, by simp [WriteCall.wf],
    C27_write_mode_invariant false (List.replicate 1026 0) (Source.mk FILE.output none)
      BitIOOpen_Write 4 ⟨true, io, none⟩ [WriteCall.write [0xFE] 7, WriteCall.put true]
      (List.length_replicate _ _) ho rfl hr.1.status (by simp [WriteCall.wf])⟩

/-- Once the pending count is 0 while `bits_available` is not, the loop of
`BitIO_readBuffer_` makes no progress: it neither pulls nor copies, whatever
the number of iterations. -/
theorem readBuffer_stuck (fuel : Nat) :
    ∀ (io : BitIO) (bits : List Nat) (off len acc : Nat),
      io.bits_available ≠ 0 → io.bits_read = 0 → len ≠ 0 →
      BitIO_readBuffer_ fuel io bits off len acc = none := by
  induction fuel with
  | zero => intro io bits off len acc _ _ _; rfl
  | succ fuel ih =>
    intro io bits off len acc ha hr hl
    unfold BitIO_readBuffer_
    rw [if_neg hl]
    simp only [ha, if_false, hr, CHAR_BIT, Nat.zero_div, Nat.zero_mod, ne_eq,
      not_true_eq_false, Nat.add_zero, Bool.true_eq_false]
    have h1 : (if len > 0 then 0 else len) = 0 := by
      split_ifs <;> omega
    simp only [h1, Nat.zero_mul, gt_iff_lt, Nat.lt_irrefl, if_false, Nat.add_zero,
      Nat.sub_zero]
    exact ih _ _ _ _ _ (by simpa using ha) (by simp) hl

/-- A byte-aligned `BitIO_read` that asks for more whole bytes than the buffer
holds never returns. -/
theorem read_stuck (fuel : Nat) (io : BitIO) (bits : List Nat) (n : Nat)
    (hs : io.status_ = BitIOStatus.Read) (ha : io.bits_available = 8)
    (hr8 : io.bits_read % 8 = 0) (hr16 : io.bits_read < 65536)
    (hn : io.bits_read / 8 < n / 8) :
    BitIO_read fuel io bits n = none := by
  unfold BitIO_read
  have hc : BitIO_check_ io false = false := by
    unfold BitIO_check_; rw [hs]
  rw [hc]
  simp only [Bool.false_eq_true, if_false, ha, OfNat.ofNat_ne_zero, CHAR_BIT, if_true,
    Bool.true_eq_false]
  cases fuel with
  | zero => rfl
  | succ fuel =>
    have hstep : BitIO_readBuffer_ (fuel + 1) io bits 0 (n / 8) 0 = none := by
      unfold BitIO_readBuffer_
      rw [if_neg (by omega)]
      simp only [ha, OfNat.ofNat_ne_zero, if_false, CHAR_BIT, hr8, ne_eq, not_true_eq_false,
        Nat.add_zero, Bool.true_eq_false]
      have h1 : (if n / 8 > io.bits_read / 8 then io.bits_read / 8 else n / 8)
          = io.bits_read / 8 := by
        rw [if_pos hn]
      have h2 : (if io.bits_read / 8 * 8 > io.bits_read then io.bits_read
          else io.bits_read / 8 * 8) = io.bits_read := by
        split_ifs <;> omega
      simp only [h1, h2]
      exact readBuffer_stuck fuel _ _ _ _ _ (by simp [ha]) (by simp) (by omega)
    rw [hstep]

/-- Claim C26 (evaluation): a plain source of six bytes is opened, so that the
buffer holds the five probe bytes, and `BitIO_read` is asked for 48 bits; and
a plain source of one byte is opened and `BitIO_read` is asked for 16 bits.
In both cases the call does not return, whatever the number of iterations
allowed: `BitIO_readBuffer_` keeps looping without pulling or copying. -/
theorem C26_aligned_read_never_returns (fuel : Nat) :
    (∃ io, BitIO_open false (BitIO_create (List.replicate 1026 0))
        (some ⟨FILE.input [1, 2, 3, 4, 5, 6], none⟩) 0 = some ⟨true, io, none⟩ ∧
      BitIO_read fuel io [0, 0, 0, 0, 0, 0] 48 = none) ∧
    (∃ io, BitIO_open false (BitIO_create (List.replicate 1026 0))
        (some ⟨FILE.input [1], none⟩) 0 = some ⟨true, io, none⟩ ∧
      BitIO_read fuel io [0, 0] 16 = none) := by
  constructor
  · obtain ⟨io, ho, hl⟩ := open_plain_loaded false (List.replicate 1026 0)
      ⟨FILE.input [1, 2, 3, 4, 5, 6], none⟩ 0 (List.length_replicate _ _) rfl (by decide)
    refine ⟨io, ho, ?_⟩
    have hp : io.bits_read = 40 := hl.pending
    have ha : io.bits_available = 8 := by
      rw [hl.avail, hp]; rfl
    exact read_stuck fuel io _ 48 hl.status ha (by rw [hp]) (by rw [hp]; decide)
      (by rw [hp]; decide)
  · obtain ⟨io, ho, hl⟩ := open_plain_loaded false (List.replicate 1026 0)
      ⟨FILE.input [1], none⟩ 0 (List.length_replicate _ _) rfl (by decide)
    refine ⟨io, ho, ?_⟩
    have hp : io.bits_read = 8 := hl.pending
    have ha : io.bits_available = 8 := by
      rw [hl.avail, hp]; rfl
    exact read_stuck fuel io _ 16 hl.status ha (by rw [hp]) (by rw [hp]; decide)
      (by rw [hp]; decide)

/-- Claim C28 (evaluation): on the well-formed structured source
`42 69 74 49 4F AA 08`, `BitIO_read` with `bit_length = 8` reports 8 bits and
returns with `bits_available = 8` although the pending count `bits_read` is 0;
the `BitIO_get` that follows lowers both, which wraps the pending count to
65535. -/
theorem C28_read_counters_diverge :
    (openedReader [0x42, 0x69, 0x74, 0x49, 0x4F, 0xAA, 0x08]).bind
        (fun io => (BitIO_read 4 io [0] 8).map
          (fun q => (q.1, q.2.2.bits_available, q.2.2.bits_read)))
      = some (8, 8, 0) ∧
    (openedReader [0x42, 0x69, 0x74, 0x49, 0x4F, 0xAA, 0x08]).bind
        (fun io => (BitIO_read 4 io [0] 8).map
          (fun q => ((BitIO_get q.2.2).2.bits_available, (BitIO_get q.2.2).2.bits_read)))
      = some (7, 65535) := by
  decide

/-- Claim C29 (evaluation): on the well-formed structured source `longSource`
the first pull fills the effective region, and `BitIO_read` of its 8192 bits
leaves the cursor at index 1024, the first redundancy byte, which holds `80`.
The `BitIO_get` that follows does not pull: it returns the top bit of that
byte and shifts the byte in place, so the redundancy region is read and
modified as content. -/
theorem C29_redundancy_byte_read_as_content :
    (openedReader longSource).bind
        (fun io => (BitIO_read 4 io (List.replicate 1024 0) 8192).map
          (fun q => (q.1, q.2.2.current_byte_, q.2.2.buffer_.getD 1024 0)))
      = some (8192, 1024, 128) ∧
    (openedReader longSource).bind
        (fun io => (BitIO_read 4 io (List.replicate 1024 0) 8192).map
          (fun q => ((BitIO_get q.2.2).1, (BitIO_get q.2.2).2.current_byte_,
            (BitIO_get q.2.2).2.buffer_.getD 1024 0)))
      = some (1, 1024, 0) := by
  decide

theorem sampleReader_bytes : ∀ x ∈ sampleReader.buffer_, x < 256 := by
  intro x hx
  simp only [sampleReader, List.mem_append, List.mem_replicate, List.mem_cons,
    List.mem_singleton, List.not_mem_nil, or_false] at hx
  omega

/-- The buffer that a structured pull leaves: the two redundancy bytes, the
bytes read, and the old bytes behind them. -/
theorem pull_buffer (buf D : List Nat) (hlen : buf.length = 1026) :
    memcpyAt (memcpyAt buf 0 ((buf.drop 1024).take 2)) 2 D
      = buf.drop 1024 ++ D ++ buf.drop (2 + D.length) := by
  have hL : (buf.drop 1024).length = 2 := by rw [List.length_drop, hlen]
  have htake : (buf.drop 1024).take 2 = buf.drop 1024 := List.take_of_length_le (by rw [hL])
  rw [htake]
  have hm1 : memcpyAt buf 0 (buf.drop 1024) = buf.drop 1024 ++ buf.drop 2 := by
    simp [memcpyAt, hL]
  rw [hm1]
  unfold memcpyAt
  have e1 : 2 = (buf.drop 1024).length := by rw [hL]
  rw [List.take_append_of_le_length (by rw [← e1]), List.take_of_length_le (by rw [← e1])]
  conv_lhs => rw [show 2 + D.length = (buf.drop 1024).length + D.length by rw [← e1]]
  rw [List.drop_append, List.drop_drop]

/-- Claim C30: a structured pull made while neither the end-of-stream flag nor
the stream's end-of-file indicator is set copies the two redundancy bytes to
indices 0 and 1, places the `r <= 1024` bytes read behind them, resets the
cursor, sets the pending count to `8 * 1024` when `r = 1024` and to
`8 * r + v` otherwise (`v` the byte at index `r + 1`: the last byte read when
`r > 0`, the second redundancy byte when `r = 0`), sets `bits_available` to
the smaller of 8 and the pending count, and reports data exactly when the
pending count is positive.  With the flag set the pull returns false and
changes nothing; with only the indicator set it returns false and sets the
flag. -/
theorem C30_structured_pull_arithmetic (io : BitIO) (f : FILE)
    (hlen : io.buffer_.length = BitIO_BufferSize + BitIO_BufferRedundancy)
    (hbuf : ∀ x ∈ io.buffer_, x < 256) (hsrc : ∀ x ∈ f.bytes, x < 256)
    (hs : io.stream_ = some f) :
    (io.eof = false → f.eofInd = false →
      ∃ (io1 : BitIO) (r v pending : Nat),
        BitIO_pull_BitIO_ io = (decide (pending > 0), io1) ∧
        r = min 1024 f.bytes.length ∧
        io1.buffer_ = io.buffer_.drop 1024 ++ f.bytes.take 1024 ++ io.buffer_.drop (2 + r) ∧
        io1.buffer_.length = 1026 ∧
        io1.stream_ = some { f with bytes := f.bytes.drop 1024,
                                    eofInd := decide (f.bytes.length < 1024) } ∧
        io1.current_byte_ = 0 ∧
        v = io1.buffer_.getD (r + 1) 0 ∧
        (0 < r → r < 1024 → v = f.bytes.getD (f.bytes.length - 1) 0) ∧
        (r = 0 → v = io.buffer_.getD 1025 0) ∧
        pending = (if r = 1024 then 8 * 1024 else 8 * r + v) ∧
        io1.bits_read = pending ∧
        io1.bits_available = min 8 pending ∧
        io1.eof = false ∧ io1.status_ = io.status_ ∧
        io1.streamOperation_ = io.streamOperation_) ∧
    (io.eof = true → BitIO_pull_BitIO_ io = (false, io)) ∧
    (io.eof = false → f.eofInd = true →
      BitIO_pull_BitIO_ io = (false, { io with eof := true })) := by
  have hlen2 : io.buffer_.length = 1026 := hlen
  refine ⟨?_, ?_, ?_⟩
  · intro he hfe
    have hDl : (f.bytes.take 1024).length = min 1024 f.bytes.length := List.length_take _ _
    have hL : (io.buffer_.drop 1024).length = 2 := by rw [List.length_drop, hlen2]
    have hbufeq := pull_buffer io.buffer_ (f.bytes.take 1024) hlen2
    have hnewlen : (io.buffer_.drop 1024 ++ f.bytes.take 1024
        ++ io.buffer_.drop (2 + (f.bytes.take 1024).length)).length = 1026 := by
      simp only [List.length_append, List.length_drop, hlen2, hDl]
      omega
    have hvlt : (io.buffer_.drop 1024 ++ f.bytes.take 1024
        ++ io.buffer_.drop (2 + (f.bytes.take 1024).length)).getD
          (2 + (f.bytes.take 1024).length - 1) 0 < 256 := by
      rw [List.getD_eq_getElem _ _ (by rw [hnewlen, hDl]; omega)]
      have hmem := List.getElem_mem
        (l := io.buffer_.drop 1024 ++ f.bytes.take 1024
          ++ io.buffer_.drop (2 + (f.bytes.take 1024).length))
        (n := 2 + (f.bytes.take 1024).length - 1) (by rw [hnewlen, hDl]; omega)
      rcases List.mem_append.mp hmem with h1 | h1
      · rcases List.mem_append.mp h1 with h2 | h2
        · exact hbuf _ (List.mem_of_mem_drop h2)
        · exact hsrc _ (List.mem_of_mem_take h2)
      · exact hbuf _ (List.mem_of_mem_drop h1)
    refine ⟨{ io with
        buffer_ := io.buffer_.drop 1024 ++ f.bytes.take 1024
          ++ io.buffer_.drop (2 + (f.bytes.take 1024).length),
        stream_ := some { f with bytes := f.bytes.drop 1024,
                                 eofInd := decide (f.bytes.length < 1024) },
        bits_read := (if (f.bytes.take 1024).length = 1024 then 8192
          else 8 * (f.bytes.take 1024).length +
            (io.buffer_.drop 1024 ++ f.bytes.take 1024
              ++ io.buffer_.drop (2 + (f.bytes.take 1024).length)).getD
              (2 + (f.bytes.take 1024).length - 1) 0),
        current_byte_ := 0,
        bits_available := min 8 (if (f.bytes.take 1024).length = 1024 then 8192
          else 8 * (f.bytes.take 1024).length +
            (io.buffer_.drop 1024 ++ f.bytes.take 1024
              ++ io.buffer_.drop (2 + (f.bytes.take 1024).length)).getD
              (2 + (f.bytes.take 1024).length - 1) 0) },
      min 1024 f.bytes.length,
      (io.buffer_.drop 1024 ++ f.bytes.take 1024
        ++ io.buffer_.drop (2 + (f.bytes.take 1024).length)).getD
        (min 1024 f.bytes.length + 1) 0,
      (if (f.bytes.take 1024).length = 1024 then 8192
          else 8 * (f.bytes.take 1024).length +
            (io.buffer_.drop 1024 ++ f.bytes.take 1024
              ++ io.buffer_.drop (2 + (f.bytes.take 1024).length)).getD
              (2 + (f.bytes.take 1024).length - 1) 0),
      ?_, rfl, ?_, hnewlen, rfl, rfl, rfl, ?_, ?_, ?_, rfl, rfl, he, rfl, rfl⟩
    · have hmod : (8 * (f.bytes.take 1024).length +
          (io.buffer_.drop 1024 ++ f.bytes.take 1024
            ++ io.buffer_.drop (2 + (f.bytes.take 1024).length)).getD
            (2 + (f.bytes.take 1024).length - 1) 0) % 65536
          = 8 * (f.bytes.take 1024).length +
          (io.buffer_.drop 1024 ++ f.bytes.take 1024
            ++ io.buffer_.drop (2 + (f.bytes.take 1024).length)).getD
            (2 + (f.bytes.take 1024).length - 1) 0 := by
        apply Nat.mod_eq_of_lt
        rw [hDl] at hvlt ⊢
        omega
      unfold BitIO_pull_BitIO_
      simp only [he, hs, hfe, Bool.false_eq_true, if_false, fread, Bool.false_or,
        BitIO_BufferSize, CHAR_BIT, BitIO_BufferRedundancy, hbufeq, hmod, Nat.reduceMul]
      congr 2
      split_ifs <;> omega
    · rw [hDl]
    · intro h0 h1
      have hfl : f.bytes.length < 1024 := by omega
      have htk : f.bytes.take 1024 = f.bytes := List.take_of_length_le (by omega)
      have hr : min 1024 f.bytes.length = f.bytes.length := by omega
      rw [hr, htk, List.append_assoc, List.getD_append_right _ _ _ _ (by rw [hL]; omega),
        List.getD_append _ _ _ _ (by rw [hL]; omega), hL]
      congr 1
    · intro h0
      have hfl : f.bytes.length = 0 := by omega
      have hnil : f.bytes = [] := List.length_eq_zero.mp hfl
      rw [h0, hnil]
      simp only [List.take_nil, List.append_nil, List.length_nil, Nat.add_zero]
      rw [List.getD_append _ _ _ _ (by rw [hL]; omega), getD_drop]
    · rw [hDl]
      have e : 2 + min 1024 f.bytes.length - 1 = min 1024 f.bytes.length + 1 := by omega
      rw [e]
  · intro he
    unfold BitIO_pull_BitIO_
    rw [if_pos he]
  · intro he hfe
    unfold BitIO_pull_BitIO_
    simp [he, hs, hfe]

/-- Instance of C30: the pull of a reader whose redundancy bytes are `AA 08`
and whose stream is used up. -/
theorem C30_structured_pull_arithmetic_witness :
    sampleReader.buffer_.length = BitIO_BufferSize + BitIO_BufferRedundancy ∧
    (∀ x ∈ sampleReader.buffer_, x < 256) ∧ (∀ x ∈ (FILE.input []).bytes, x < 256) ∧
    sampleReader.stream_ = some (FILE.input []) ∧
    (sampleReader.eof = false → (FILE.input []).eofInd = false →
      ∃ (io1 : BitIO) (r v pending : Nat),
        BitIO_pull_BitIO_ sampleReader = (decide (pending > 0), io1) ∧
        r = min 1024 (FILE.input []).bytes.length ∧
        io1.buffer_ = sampleReader.buffer_.drop 1024 ++ (FILE.input []).bytes.take 1024
          ++ sampleReader.buffer_.drop (2 + r) ∧
        io1.buffer_.length = 1026 ∧
        io1.stream_ = some (FILE.mk ((FILE.input []).bytes.drop 1024)
          (decide ((FILE.input []).bytes.length < 1024)) (FILE.input []).closed) ∧
        io1.current_byte_ = 0 ∧
        v = io1.buffer_.getD (r + 1) 0 ∧
        (0 < r → r < 1024 →
          v = (FILE.input []).bytes.getD ((FILE.input []).bytes.length - 1) 0) ∧
        (r = 0 → v = sampleReader.buffer_.getD 1025 0) ∧
        pending = (if r = 1024 then 8 * 1024 else 8 * r + v) ∧
        io1.bits_read = pending ∧
        io1.bits_available = min 8 pending ∧
        io1.eof = false ∧ io1.status_ = sampleReader.status_ ∧
        io1.streamOperation_ = sampleReader.streamOperation_) ∧
    (sampleReader.eof = true → BitIO_pull_BitIO_ sampleReader = (false, sampleReader)) ∧
    (sampleReader.eof = false → (FILE.input []).eofInd = true →
      BitIO_pull_BitIO_ sampleReader = (false, { sampleReader with eof := true })) :=
  ⟨by simp [sampleReader, BitIO_BufferSize, BitIO_BufferRedundancy], sampleReader_bytes,
    by simp [FILE.input], rfl,
    C30_structured_pull_arithmetic sampleReader (FILE.input [])
      (by simp [sampleReader, BitIO_BufferSize, BitIO_BufferRedundancy]) sampleReader_bytes
      (by simp [FILE.input]) rfl⟩

theorem Vector_at_data {α : Type} (v : Vector α) (i : Nat) :
    Vector_at v i = (v.data[i]?).map (fun item => item.data) := by
  unfold Vector_at Vector_size
  split_ifs with h
  · rw [List.getElem?_eq_none h]
    rfl
  · rfl

/-- Claim C24: after `Vector_emplace_back` on a vector of size `s` the size is
`s + 1`, `Vector_at` returns the appended element at `s`, what it returned
before below `s`, and `NULL` from `s + 1` on; a full vector grows from
capability `c` to `2c + 10`, any other keeps its capability; a following
`Vector_pop_back` restores the size and the elements. -/
theorem C24_vector_append_and_indexing {α : Type} (v : Vector α) (x : α) (owned : Bool) :
    Vector_size (Vector_emplace_back v x owned) = Vector_size v + 1 ∧
    Vector_at (Vector_emplace_back v x owned) (Vector_size v) = some x ∧
    (∀ i, i < Vector_size v → Vector_at (Vector_emplace_back v x owned) i = Vector_at v i) ∧
    (∀ i, Vector_size v + 1 ≤ i → Vector_at (Vector_emplace_back v x owned) i = none) ∧
    (Vector_size v = v.capability →
      (Vector_emplace_back v x owned).capability = 2 * v.capability + 10) ∧
    (Vector_size v ≠ v.capability →
      (Vector_emplace_back v x owned).capability = v.capability) ∧
    Vector_size (Vector_pop_back (Vector_emplace_back v x owned)) = Vector_size v ∧
    (Vector_pop_back (Vector_emplace_back v x owned)).data = v.data ∧
    (∀ i, Vector_at (Vector_pop_back (Vector_emplace_back v x owned)) i = Vector_at v i) := by
  have hd := emplace_back_data v x owned
  have hp : (Vector_pop_back (Vector_emplace_back v x owned)).data = v.data := by
    rw [pop_back_data, hd, List.dropLast_concat]
  refine ⟨?_, ?_, ?_, ?_, ?_, ?_, ?_, hp, ?_⟩
  · unfold Vector_size
    rw [hd]
    simp
  · rw [Vector_at_data, hd]
    unfold Vector_size
    simp
  · intro i hi
    unfold Vector_size at hi
    rw [Vector_at_data, Vector_at_data, hd, List.getElem?_append_left hi]
  · intro i hi
    unfold Vector_size at hi
    rw [Vector_at_data, hd, List.getElem?_eq_none (by simp; omega)]
    rfl
  · intro hfull
    unfold Vector_emplace_back Vector_recap
    simp only [hfull, if_true, VectorEnlargeBias, Nat.shiftLeft_eq]
    rw [if_neg (by omega)]
    simp only
    omega
  · intro hnot
    unfold Vector_emplace_back
    simp only [hnot, if_false]
  · unfold Vector_size
    rw [hp]
  · intro i
    rw [Vector_at_data, Vector_at_data, hp]

/-- Instance of C24: appending 9 to a full vector of capacity 1. -/
theorem C24_vector_append_and_indexing_witness :
    Vector_size (Vector_emplace_back (Vector.mk [⟨7, false⟩] 1) 9 true) = 1 + 1 ∧
    Vector_at (Vector_emplace_back (Vector.mk [⟨7, false⟩] 1) 9 true) 1 = some 9 ∧
    Vector_at (Vector_emplace_back (Vector.mk [⟨7, false⟩] 1) 9 true) 0 = some 7 ∧
    Vector_at (Vector_emplace_back (Vector.mk [⟨7, false⟩] 1) 9 true) 2 = none ∧
    (Vector_emplace_back (Vector.mk [⟨7, false⟩] 1) 9 true).capability = 2 * 1 + 10 ∧
    Vector_size (Vector_pop_back (Vector_emplace_back (Vector.mk [⟨7, false⟩] 1) 9 true)) = 1 :=
  ⟨(C24_vector_append_and_indexing (Vector.mk [⟨7, false⟩] 1) 9 true).1,
    (C24_vector_append_and_indexing (Vector.mk [⟨7, false⟩] 1) 9 true).2.1,
    ((C24_vector_append_and_indexing (Vector.mk [⟨7, false⟩] 1) 9 true).2.2.1 0
      (by decide)).trans (by decide),
    (C24_vector_append_and_indexing (Vector.mk [⟨7, false⟩] 1) 9 true).2.2.2.1 2 (by decide),
    (C24_vector_append_and_indexing (Vector.mk [⟨7, false⟩] 1) 9 true).2.2.2.2.1 rfl,
    (C24_vector_append_and_indexing (Vector.mk [⟨7, false⟩] 1) 9 true).2.2.2.2.2.2.1⟩

theorem linked_append {α : Type} {m : ListMem α} : ∀ (X : List NodeRef) (a : NodeRef)
    (Y : List NodeRef), Linked m (X ++ a :: Y) ↔ Linked m (X ++ [a]) ∧ Linked m (a :: Y) := by
  intro X
  induction X with
  | nil => intro a Y; simp [Linked]
  | cons x X ih =>
    intro a Y
    cases X with
    | nil => simp [Linked]; tauto
    | cons y X =>
      have := ih a Y
      show ((m.cell x).next = some y ∧ (m.cell y).prev = some x ∧ Linked m (y :: X ++ a :: Y)) ↔
        ((m.cell x).next = some y ∧ (m.cell y).prev = some x ∧ Linked m (y :: X ++ [a])) ∧
          Linked m (a :: Y)
      rw [this]; tauto

theorem linked_frame {α : Type} {m m1 : ListMem α} : ∀ (l : List NodeRef), Linked m l →
    (∀ x ∈ l.dropLast, (m1.cell x).next = (m.cell x).next) →
    (∀ y ∈ l.tail, (m1.cell y).prev = (m.cell y).prev) → Linked m1 l := by
  intro l
  induction l with
  | nil => intro _ _ _; trivial
  | cons a l ih =>
    intro hl hn hp
    cases l with
    | nil => trivial
    | cons b l =>
      simp only [Linked] at hl ⊢
      refine ⟨?_, ?_, ih hl.2.2 ?_ ?_⟩
      · rw [hn a (by simp [List.dropLast])]; exact hl.1
      · rw [hp b (by simp)]; exact hl.2.1
      · intro x hx; exact hn x (by simp [List.dropLast] at hx ⊢; right; exact hx)
      · intro y hy; exact hp y (by simp at hy ⊢; right; exact hy)

theorem linked_mid {α : Type} {m : ListMem α} (X Y : List NodeRef) (a b : NodeRef)
    (h : Linked m (X ++ a :: b :: Y)) :
    (m.cell a).next = some b ∧ (m.cell b).prev = some a := by
  rw [linked_append] at h
  exact ⟨h.2.1, h.2.2.1⟩

theorem setNext_next {α : Type} (m : ListMem α) (p q : NodeRef) (v : Option NodeRef) :
    ((m.setNext p v).cell q).next = if q = p then v else (m.cell q).next := by
  unfold ListMem.setNext; by_cases h : q = p <;> simp [h]

theorem setNext_prev {α : Type} (m : ListMem α) (p q : NodeRef) (v : Option NodeRef) :
    ((m.setNext p v).cell q).prev = (m.cell q).prev := by
  unfold ListMem.setNext; by_cases h : q = p <;> simp [h]

theorem setNext_data {α : Type} (m : ListMem α) (p q : NodeRef) (v : Option NodeRef) :
    ((m.setNext p v).cell q).data = (m.cell q).data := by
  unfold ListMem.setNext; by_cases h : q = p <;> simp [h]

theorem setNext_ne {α : Type} (m : ListMem α) (p q : NodeRef) (v : Option NodeRef)
    (h : q ≠ p) : (m.setNext p v).cell q = m.cell q := by
  unfold ListMem.setNext; simp [h]

theorem setNext_size {α : Type} (m : ListMem α) (p : NodeRef) (v : Option NodeRef) :
    (m.setNext p v).size = m.size := rfl

theorem setPrev_prev {α : Type} (m : ListMem α) (p q : NodeRef) (v : Option NodeRef) :
    ((m.setPrev p v).cell q).prev = if q = p then v else (m.cell q).prev := by
  unfold ListMem.setPrev; by_cases h : q = p <;> simp [h]

theorem setPrev_next {α : Type} (m : ListMem α) (p q : NodeRef) (v : Option NodeRef) :
    ((m.setPrev p v).cell q).next = (m.cell q).next := by
  unfold ListMem.setPrev; by_cases h : q = p <;> simp [h]

theorem setPrev_data {α : Type} (m : ListMem α) (p q : NodeRef) (v : Option NodeRef) :
    ((m.setPrev p v).cell q).data = (m.cell q).data := by
  unfold ListMem.setPrev; by_cases h : q = p <;> simp [h]

theorem setPrev_ne {α : Type} (m : ListMem α) (p q : NodeRef) (v : Option NodeRef)
    (h : q ≠ p) : (m.setPrev p v).cell q = m.cell q := by
  unfold ListMem.setPrev; simp [h]

theorem setPrev_size {α : Type} (m : ListMem α) (p : NodeRef) (v : Option NodeRef) :
    (m.setPrev p v).size = m.size := rfl

theorem setSize_cell {α : Type} (m : ListMem α) (l v : Nat) :
    (m.setSize l v).cell = m.cell := rfl

theorem setSize_size {α : Type} (m : ListMem α) (l v k : Nat) :
    (m.setSize l v).size k = if k = l then v else m.size k := rfl

theorem emplace_after_spliced {α : Type} (m : ListMem α) (list : Nat) (n a b : NodeRef)
    (hab : (m.cell a).next = some b) (hna : n ≠ a) (hnb : n ≠ b) :
    ∃ m1, List_emplace_after m list n a = some (n, m1) ∧ Spliced m m1 a n b ∧
      m1.size list = m.size list + 1 ∧ ∀ l, l ≠ list → m1.size l = m.size l := by
  have han : a ≠ n := fun h => hna h.symm
  have hbn : b ≠ n := fun h => hnb h.symm
  unfold List_emplace_after
  simp only [setNext_next, han, if_false, hab]
  refine ⟨_, rfl, ?_, ?_, ?_⟩
  · constructor
    · simp [setSize_cell, setNext_next, setPrev_next, hna]
    · simp [setSize_cell, setPrev_prev]
    · simp [setSize_cell, setNext_next, setPrev_next]
    · simp [setSize_cell, setNext_prev, setPrev_prev, hbn]
    · intro x hxa hxn
      simp [setSize_cell, setNext_next, setPrev_next, hxa, hxn]
    · intro x hxb hxn
      simp [setSize_cell, setNext_prev, setPrev_prev, hxb, hxn]
    · intro x
      simp [setSize_cell, setNext_data, setPrev_data]
    · intro x hxa hxb hxn
      simp [setSize_cell, setNext_ne, setPrev_ne, hxa, hxb, hxn]
  · simp [setSize_size, setNext_size, setPrev_size]
  · intro l hl
    simp [setSize_size, setNext_size, setPrev_size, hl]

theorem emplace_before_spliced {α : Type} (m : ListMem α) (list : Nat) (n a b : NodeRef)
    (hab : (m.cell b).prev = some a) (hna : n ≠ a) (hnb : n ≠ b) :
    ∃ m1, List_emplace_before m list n b = some (n, m1) ∧ Spliced m m1 a n b ∧
      m1.size list = m.size list + 1 ∧ ∀ l, l ≠ list → m1.size l = m.size l := by
  have han : a ≠ n := fun h => hna h.symm
  have hbn : b ≠ n := fun h => hnb h.symm
  unfold List_emplace_before
  simp only [setNext_prev, setPrev_prev, hnb, if_false, if_true, hab]
  refine ⟨_, rfl, ?_, ?_, ?_⟩
  · constructor
    · simp [setSize_cell, setNext_next, setPrev_next, hna]
    · simp [setSize_cell, setNext_prev, setPrev_prev, hnb]
    · simp [setSize_cell, setNext_next, setPrev_next]
    · simp [setSize_cell, setNext_prev, setPrev_prev, hbn]
    · intro x hxa hxn
      simp [setSize_cell, setNext_next, setPrev_next, hxa, hxn]
    · intro x hxb hxn
      simp [setSize_cell, setNext_prev, setPrev_prev, hxb, hxn]
    · intro x
      simp [setSize_cell, setNext_data, setPrev_data]
    · intro x hxa hxb hxn
      simp [setSize_cell, setNext_ne, setPrev_ne, hxa, hxb, hxn]
  · simp [setSize_size, setNext_size, setPrev_size]
  · intro l hl
    simp [setSize_size, setNext_size, setPrev_size, hl]

theorem detach_unspliced {α : Type} (m : ListMem α) (list : Nat) (n a b : NodeRef)
    (hprev : (m.cell n).prev = some a) (hnext : (m.cell n).next = some b)
    (hna : n ≠ a) (hnb : n ≠ b) (hsize : m.size list ≠ 0) :
    ∃ m1, List_detach m list n = some m1 ∧ Unspliced m m1 a n b ∧
      m1.size list = m.size list - 1 ∧ ∀ l, l ≠ list → m1.size l = m.size l := by
  have han : a ≠ n := fun h => hna h.symm
  have hbn : b ≠ n := fun h => hnb h.symm
  unfold List_detach
  simp only [setNext_next, setNext_prev, hsize, hna, if_false, hprev, hnext]
  refine ⟨_, rfl, ?_, ?_, ?_⟩
  · constructor
    · simp [setSize_cell, setNext_next, setPrev_next, han]
    · simp [setSize_cell, setNext_prev, setPrev_prev, hbn]
    · intro x hxa hxn
      simp [setSize_cell, setNext_next, setPrev_next, hxa, hxn]
    · intro x hxb hxn
      simp [setSize_cell, setNext_prev, setPrev_prev, hxb, hxn]
    · intro x
      simp [setSize_cell, setNext_data, setPrev_data]
    · intro x hxa hxb hxn
      simp [setSize_cell, setNext_ne, setPrev_ne, hxa, hxb, hxn]
  · simp [setSize_size, setNext_size, setPrev_size]
  · intro l hl
    simp [setSize_size, setNext_size, setPrev_size, hl]

theorem linked_insert {α : Type} {m m1 : ListMem α} {a n b : NodeRef} (X Y : List NodeRef)
    (hs : Spliced m m1 a n b) (hl : Linked m (X ++ a :: b :: Y))
    (h1 : ∀ x ∈ X, x ≠ a ∧ x ≠ n) (h2 : ∀ y ∈ (X ++ [a]).tail, y ≠ b ∧ y ≠ n)
    (h3 : ∀ x ∈ (b :: Y).dropLast, x ≠ a ∧ x ≠ n) (h4 : ∀ y ∈ Y, y ≠ b ∧ y ≠ n) :
    Linked m1 (X ++ a :: n :: b :: Y) := by
  rw [linked_append] at hl ⊢
  obtain ⟨hl1, -, -, hl2⟩ := hl
  refine ⟨linked_frame _ hl1 ?_ ?_, hs.next_a, hs.prev_n, hs.next_n, hs.prev_b,
    linked_frame _ hl2 ?_ ?_⟩
  · intro x hx
    rw [List.dropLast_concat] at hx
    exact hs.next_other x (h1 x hx).1 (h1 x hx).2
  · intro y hy
    exact hs.prev_other y (h2 y hy).1 (h2 y hy).2
  · intro x hx
    exact hs.next_other x (h3 x hx).1 (h3 x hx).2
  · intro y hy
    exact hs.prev_other y (h4 y hy).1 (h4 y hy).2

theorem linked_remove {α : Type} {m m1 : ListMem α} {a n b : NodeRef} (X Y : List NodeRef)
    (hs : Unspliced m m1 a n b) (hl : Linked m (X ++ a :: n :: b :: Y))
    (h1 : ∀ x ∈ X, x ≠ a ∧ x ≠ n) (h2 : ∀ y ∈ (X ++ [a]).tail, y ≠ b ∧ y ≠ n)
    (h3 : ∀ x ∈ (b :: Y).dropLast, x ≠ a ∧ x ≠ n) (h4 : ∀ y ∈ Y, y ≠ b ∧ y ≠ n) :
    Linked m1 (X ++ a :: b :: Y) := by
  rw [linked_append] at hl ⊢
  obtain ⟨hl1, -, -, -, -, hl2⟩ := hl
  refine ⟨linked_frame _ hl1 ?_ ?_, hs.next_a, hs.prev_b, linked_frame _ hl2 ?_ ?_⟩
  · intro x hx
    rw [List.dropLast_concat] at hx
    exact hs.next_other x (h1 x hx).1 (h1 x hx).2
  · intro y hy
    exact hs.prev_other y (h2 y hy).1 (h2 y hy).2
  · intro x hx
    exact hs.next_other x (h3 x hx).1 (h3 x hx).2
  · intro y hy
    exact hs.prev_other y (h4 y hy).1 (h4 y hy).2

/-- The disequalities between the nodes of a duplicate-free cycle
`hd :: U ++ M` cut into `X ++ [a]` and `b :: Y`. -/
theorem cut_facts (hd a b : NodeRef) (U M X Y : List NodeRef)
    (hnd : (hd :: (U ++ M)).Nodup) (hXU : hd :: U = X ++ [a]) (hMY : M ++ [hd] = b :: Y) :
    (∀ x ∈ X, x ≠ a) ∧ (∀ y ∈ (X ++ [a]).tail, y ≠ b) ∧
    (∀ x ∈ (b :: Y).dropLast, x ≠ a) ∧ (∀ y ∈ Y, y ≠ b) ∧
    (∀ x ∈ X, x ∈ hd :: (U ++ M)) ∧ (∀ y ∈ (X ++ [a]).tail, y ∈ hd :: (U ++ M)) ∧
    (∀ x ∈ (b :: Y).dropLast, x ∈ hd :: (U ++ M)) ∧ (∀ y ∈ Y, y ∈ hd :: (U ++ M)) ∧
    a ∈ hd :: (U ++ M) ∧ b ∈ hd :: (U ++ M) := by
  have hnd1 : (X ++ [a]).Nodup := by
    rw [← hXU]
    rw [← List.cons_append] at hnd
    exact (List.nodup_append.mp hnd).1
  have hnd2 : (b :: Y).Nodup := by
    rw [← hMY]
    have h := List.nodup_cons.mp hnd
    have hM : M.Nodup := (List.nodup_append.mp h.2).2.1
    rw [List.nodup_append]
    refine ⟨hM, by simp, ?_⟩
    intro x hx hx1
    simp at hx1
    subst hx1
    exact h.1 (by simp [hx])
  have htail : (X ++ [a]).tail = U := by rw [← hXU]; rfl
  have hdrop : (b :: Y).dropLast = M := by rw [← hMY, List.dropLast_concat]
  have ha : a ∈ hd :: U := by rw [hXU]; simp
  have hb : b ∈ M ++ [hd] := by rw [hMY]; simp
  have hX : ∀ x ∈ X, x ∈ hd :: U := by intro x hx; rw [hXU]; simp [hx]
  have hY : ∀ y ∈ Y, y ∈ M ++ [hd] := by intro y hy; rw [hMY]; simp [hy]
  have hUM : ∀ x ∈ hd :: U, ∀ y ∈ M, x ≠ y := by
    intro x hx y hy hxy
    subst hxy
    rw [← List.cons_append] at hnd
    exact (List.nodup_append.mp hnd).2.2 hx hy
  have hdU : hd ∉ U := by
    intro h
    exact (List.nodup_cons.mp hnd).1 (by simp [h])
  refine ⟨?_, ?_, ?_, ?_, ?_, ?_, ?_, ?_, ?_, ?_⟩
  · intro x hx hxa
    subst hxa
    have := List.nodup_append.mp hnd1
    exact this.2.2 hx (by simp)
  · rw [htail]
    intro y hy hyb
    subst hyb
    simp at hb
    rcases hb with hb | hb
    · exact hUM y (by simp [hy]) y hb rfl
    · subst hb; exact hdU hy
  · rw [hdrop]
    intro x hx hxa
    subst hxa
    exact hUM x ha x hx rfl
  · intro y hy hyb
    subst hyb
    exact (List.nodup_cons.mp hnd2).1 hy
  · intro x hx
    have := hX x hx
    simp at this ⊢; tauto
  · rw [htail]; intro y hy; simp [hy]
  · rw [hdrop]; intro x hx; simp [hx]
  · intro y hy
    have := hY y hy
    simp at this ⊢; tauto
  · simp at ha ⊢; tauto
  · simp at hb ⊢; tauto

theorem listRepr_frame {α : Type} {m m1 : ListMem α} {list : Nat} {seq : List NodeRef}
    (h : ListRepr m list seq)
    (hc : ∀ x ∈ NodeRef.head list :: seq, m1.cell x = m.cell x)
    (hs : m1.size list = m.size list) : ListRepr m1 list seq := by
  refine ⟨linked_frame _ h.linked ?_ ?_, h.nodup, by rw [hs]; exact h.size⟩
  · intro x hx
    rw [List.dropLast_concat] at hx
    rw [hc x hx]
  · intro y hy
    simp only [List.cons_append, List.tail_cons, List.mem_append, List.mem_singleton] at hy
    rw [hc y (by simp; tauto)]

/-- Linking a new node `n` at the cut `U | M` of a list. -/
theorem repr_insert {α : Type} {m m1 : ListMem α} {list : Nat} {a n b : NodeRef}
    (U M X Y : List NodeRef) (h : ListRepr m list (U ++ M))
    (hXU : NodeRef.head list :: U = X ++ [a]) (hMY : M ++ [NodeRef.head list] = b :: Y)
    (hn : n ∉ NodeRef.head list :: (U ++ M))
    (hs : Spliced m m1 a n b) (hsize : m1.size list = m.size list + 1) :
    ListRepr m1 list (U ++ n :: M) := by
  obtain ⟨c1, c2, c3, c4, d1, d2, d3, d4, -, -⟩ := cut_facts _ a b U M X Y h.nodup hXU hMY
  have hne : ∀ x, x ∈ NodeRef.head list :: (U ++ M) → x ≠ n := by
    intro x hx hxn; subst hxn; exact hn hx
  have hl : Linked m (X ++ a :: b :: Y) := by
    have := h.linked
    have e : NodeRef.head list :: (U ++ M) ++ [NodeRef.head list] = X ++ a :: b :: Y := by
      calc NodeRef.head list :: (U ++ M) ++ [NodeRef.head list]
          = (NodeRef.head list :: U) ++ (M ++ [NodeRef.head list]) := by simp
        _ = X ++ a :: b :: Y := by rw [hXU, hMY]; simp
    rw [e] at this; exact this
  have := linked_insert X Y hs hl (fun x hx => ⟨c1 x hx, hne x (d1 x hx)⟩)
    (fun y hy => ⟨c2 y hy, hne y (d2 y hy)⟩) (fun x hx => ⟨c3 x hx, hne x (d3 x hx)⟩)
    (fun y hy => ⟨c4 y hy, hne y (d4 y hy)⟩)
  refine ⟨?_, ?_, ?_⟩
  · have e : NodeRef.head list :: (U ++ n :: M) ++ [NodeRef.head list]
        = X ++ a :: n :: b :: Y := by
      calc NodeRef.head list :: (U ++ n :: M) ++ [NodeRef.head list]
          = (NodeRef.head list :: U) ++ n :: (M ++ [NodeRef.head list]) := by simp
        _ = X ++ a :: n :: b :: Y := by rw [hXU, hMY]; simp
    rw [e]; exact this
  · have hnd := h.nodup
    rw [← List.cons_append] at hnd ⊢
    have hp : ((NodeRef.head list :: U) ++ n :: M).Perm (n :: ((NodeRef.head list :: U) ++ M)) :=
      List.perm_middle
    rw [hp.nodup_iff, List.nodup_cons]
    exact ⟨by simpa using hn, hnd⟩
  · rw [hsize, h.size]; simp; omega

/-- Unlinking the node `n` of a list. -/
theorem repr_remove {α : Type} {m m1 : ListMem α} {list : Nat} {a n b : NodeRef}
    (U M X Y : List NodeRef) (h : ListRepr m list (U ++ n :: M))
    (hXU : NodeRef.head list :: U = X ++ [a]) (hMY : M ++ [NodeRef.head list] = b :: Y)
    (hs : Unspliced m m1 a n b) (hsize : m1.size list = m.size list - 1) :
    ListRepr m1 list (U ++ M) := by
  have hnd0 := h.nodup
  have hp : ((NodeRef.head list :: U) ++ n :: M).Perm (n :: ((NodeRef.head list :: U) ++ M)) :=
    List.perm_middle
  rw [← List.cons_append, hp.nodup_iff, List.nodup_cons] at hnd0
  obtain ⟨hn, hnd⟩ := hnd0
  obtain ⟨c1, c2, c3, c4, d1, d2, d3, d4, -, -⟩ := cut_facts _ a b U M X Y hnd hXU hMY
  have hne : ∀ x, x ∈ NodeRef.head list :: (U ++ M) → x ≠ n := by
    intro x hx hxn; subst hxn; exact hn hx
  have hl : Linked m (X ++ a :: n :: b :: Y) := by
    have := h.linked
    have e : NodeRef.head list :: (U ++ n :: M) ++ [NodeRef.head list]
        = X ++ a :: n :: b :: Y := by
      calc NodeRef.head list :: (U ++ n :: M) ++ [NodeRef.head list]
          = (NodeRef.head list :: U) ++ n :: (M ++ [NodeRef.head list]) := by simp
        _ = X ++ a :: n :: b :: Y := by rw [hXU, hMY]; simp
    rw [e] at this; exact this
  have := linked_remove X Y hs hl (fun x hx => ⟨c1 x hx, hne x (d1 x hx)⟩)
    (fun y hy => ⟨c2 y hy, hne y (d2 y hy)⟩) (fun x hx => ⟨c3 x hx, hne x (d3 x hx)⟩)
    (fun y hy => ⟨c4 y hy, hne y (d4 y hy)⟩)
  refine ⟨?_, hnd, ?_⟩
  · have e : NodeRef.head list :: (U ++ M) ++ [NodeRef.head list] = X ++ a :: b :: Y := by
      calc NodeRef.head list :: (U ++ M) ++ [NodeRef.head list]
          = (NodeRef.head list :: U) ++ (M ++ [NodeRef.head list]) := by simp
        _ = X ++ a :: b :: Y := by rw [hXU, hMY]; simp
    rw [e]; exact this
  · rw [hsize, h.size]; simp

theorem concat_cut (x : NodeRef) (l : List NodeRef) : ∃ b Y, l ++ [x] = b :: Y := by
  cases l with
  | nil => exact ⟨x, [], rfl⟩
  | cons b l => exact ⟨b, l ++ [x], rfl⟩

theorem cons_cut (x : NodeRef) (l : List NodeRef) : ∃ X a, x :: l = X ++ [a] := by
  rcases List.eq_nil_or_concat (x :: l) with h | ⟨X, a, h⟩
  · simp at h
  · exact ⟨X, a, by simpa using h⟩

theorem seqInsertAfter_split (n a : NodeRef) : ∀ (U M : List NodeRef), a ∉ U →
    seqInsertAfter n a (U ++ a :: M) = U ++ a :: n :: M := by
  intro U
  induction U with
  | nil => intro M _; simp [seqInsertAfter]
  | cons u U ih =>
    intro M h
    simp only [List.mem_cons, not_or] at h
    have hu : u ≠ a := fun e => h.1 e.symm
    simp [seqInsertAfter, hu, ih M h.2]

theorem seqInsertBefore_split (n c : NodeRef) : ∀ (U M : List NodeRef), c ∉ U →
    seqInsertBefore n c (U ++ c :: M) = U ++ n :: c :: M := by
  intro U
  induction U with
  | nil => intro M _; simp [seqInsertBefore]
  | cons u U ih =>
    intro M h
    simp only [List.mem_cons, not_or] at h
    have hu : u ≠ c := fun e => h.1 e.symm
    simp [seqInsertBefore, hu, ih M h.2]

theorem mem_split_first (a : NodeRef) (seq : List NodeRef) (h : a ∈ seq) :
    ∃ U M, seq = U ++ a :: M ∧ a ∉ U := by
  induction seq with
  | nil => simp at h
  | cons s seq ih =>
    by_cases e : s = a
    · exact ⟨[], seq, by simp [e], by simp⟩
    · have : a ∈ seq := by
        simp only [List.mem_cons] at h
        rcases h with h | h
        · exact absurd h.symm e
        · exact h
      obtain ⟨U, M, h1, h2⟩ := ih this
      refine ⟨s :: U, M, by simp [h1], ?_⟩
      simp only [List.mem_cons, not_or]
      exact ⟨fun x => e x.symm, h2⟩

/-- The common part of the two emplace functions: a cut `U | M` of the
sequence with `a` the node before the cut and `b` the node after it. -/
theorem repr_cut_insert {α : Type} {m : ListMem α} {list : Nat} {a n b : NodeRef}
    (U M X Y : List NodeRef) (h : ListRepr m list (U ++ M))
    (hXU : NodeRef.head list :: U = X ++ [a]) (hMY : M ++ [NodeRef.head list] = b :: Y)
    (hn : n ∉ NodeRef.head list :: (U ++ M)) :
    (m.cell a).next = some b ∧ (m.cell b).prev = some a ∧ n ≠ a ∧ n ≠ b ∧
    ∀ m1, Spliced m m1 a n b → m1.size list = m.size list + 1 →
      (∀ l, l ≠ list → m1.size l = m.size l) →
      ListRepr m1 list (U ++ n :: M) ∧ (∀ x, (m1.cell x).data = (m.cell x).data) ∧
      (∀ x, x ≠ n → x ∉ NodeRef.head list :: (U ++ M) → m1.cell x = m.cell x) ∧
      (∀ l, l ≠ list → m1.size l = m.size l) := by
  obtain ⟨-, -, -, -, -, -, -, -, ha, hb⟩ := cut_facts _ a b U M X Y h.nodup hXU hMY
  have hl : Linked m (X ++ a :: b :: Y) := by
    have := h.linked
    have e : NodeRef.head list :: (U ++ M) ++ [NodeRef.head list] = X ++ a :: b :: Y := by
      calc NodeRef.head list :: (U ++ M) ++ [NodeRef.head list]
          = (NodeRef.head list :: U) ++ (M ++ [NodeRef.head list]) := by simp
        _ = X ++ a :: b :: Y := by rw [hXU, hMY]; simp
    rw [e] at this; exact this
  have hm := linked_mid X Y a b hl
  have hna : n ≠ a := fun e => hn (e ▸ ha)
  have hnb : n ≠ b := fun e => hn (e ▸ hb)
  refine ⟨hm.1, hm.2, hna, hnb, ?_⟩
  intro m1 hs hsize hother
  refine ⟨repr_insert U M X Y h hXU hMY hn hs hsize, hs.data, ?_, hother⟩
  intro x hxn hx
  exact hs.cell_other x (fun e => hx (e ▸ ha)) (fun e => hx (e ▸ hb)) hxn

theorem emplace_after_repr {α : Type} (m : ListMem α) (list : Nat) (seq : List NodeRef)
    (n a : NodeRef) (h : ListRepr m list seq) (ha : a ∈ NodeRef.head list :: seq)
    (hn : n ∉ NodeRef.head list :: seq) :
    ∃ m1, List_emplace_after m list n a = some (n, m1) ∧
      ListRepr m1 list (listInsertAfter list n a seq) ∧
      (∀ x, (m1.cell x).data = (m.cell x).data) ∧
      (∀ x, x ≠ n → x ∉ NodeRef.head list :: seq → m1.cell x = m.cell x) ∧
      (∀ l, l ≠ list → m1.size l = m.size l) := by
  have key : ∃ U M X, seq = U ++ M ∧ NodeRef.head list :: U = X ++ [a] ∧
      listInsertAfter list n a seq = U ++ n :: M := by
    by_cases e : a = NodeRef.head list
    · exact ⟨[], seq, [], rfl, by simp [e], by simp [listInsertAfter, e]⟩
    · have : a ∈ seq := by
        simp only [List.mem_cons] at ha
        rcases ha with ha | ha
        · exact absurd ha e
        · exact ha
      obtain ⟨U, M, h1, h2⟩ := mem_split_first a seq this
      refine ⟨U ++ [a], M, NodeRef.head list :: U, by simp [h1], by simp, ?_⟩
      simp [listInsertAfter, e, h1, seqInsertAfter_split n a U M h2]
  obtain ⟨U, M, X, hseq, hXU, hres⟩ := key
  obtain ⟨b, Y, hMY⟩ := concat_cut (NodeRef.head list) M
  subst hseq
  obtain ⟨hab, -, hna, hnb, hrest⟩ := repr_cut_insert U M X Y h hXU hMY hn
  obtain ⟨m1, hrun, hs, hsize, hother⟩ := emplace_after_spliced m list n a b hab hna hnb
  rw [hres]
  exact ⟨m1, hrun, hrest m1 hs hsize hother⟩

theorem emplace_before_repr {α : Type} (m : ListMem α) (list : Nat) (seq : List NodeRef)
    (n c : NodeRef) (h : ListRepr m list seq) (hc : c ∈ NodeRef.head list :: seq)
    (hn : n ∉ NodeRef.head list :: seq) :
    ∃ m1, List_emplace_before m list n c = some (n, m1) ∧
      ListRepr m1 list (listInsertBefore list n c seq) ∧
      (∀ x, (m1.cell x).data = (m.cell x).data) ∧
      (∀ x, x ≠ n → x ∉ NodeRef.head list :: seq → m1.cell x = m.cell x) ∧
      (∀ l, l ≠ list → m1.size l = m.size l) := by
  have key : ∃ U M Y, seq = U ++ M ∧ M ++ [NodeRef.head list] = c :: Y ∧
      listInsertBefore list n c seq = U ++ n :: M := by
    by_cases e : c = NodeRef.head list
    · exact ⟨seq, [], [], by simp, by simp [e], by simp [listInsertBefore, e]⟩
    · have : c ∈ seq := by
        simp only [List.mem_cons] at hc
        rcases hc with hc | hc
        · exact absurd hc e
        · exact hc
      obtain ⟨U, M, h1, h2⟩ := mem_split_first c seq this
      refine ⟨U, c :: M, M ++ [NodeRef.head list], h1, by simp, ?_⟩
      simp [listInsertBefore, e, h1, seqInsertBefore_split n c U M h2]
  obtain ⟨U, M, Y, hseq, hMY, hres⟩ := key
  obtain ⟨X, a, hXU⟩ := cons_cut (NodeRef.head list) U
  subst hseq
  obtain ⟨-, hab, hna, hnb, hrest⟩ := repr_cut_insert U M X Y h hXU hMY hn
  obtain ⟨m1, hrun, hs, hsize, hother⟩ := emplace_before_spliced m list n a c hab hna hnb
  rw [hres]
  exact ⟨m1, hrun, hrest m1 hs hsize hother⟩

theorem detach_repr {α : Type} (m : ListMem α) (list : Nat) (seq : List NodeRef)
    (n : NodeRef) (h : ListRepr m list seq) (hn : n ∈ seq) :
    ∃ m1, List_detach m list n = some m1 ∧ ListRepr m1 list (seq.erase n) ∧
      (∀ x, (m1.cell x).data = (m.cell x).data) ∧
      (∀ x, x ∉ NodeRef.head list :: seq → m1.cell x = m.cell x) ∧
      (∀ l, l ≠ list → m1.size l = m.size l) := by
  obtain ⟨U, M, hseq, hnU⟩ := mem_split_first n seq hn
  subst hseq
  obtain ⟨X, a, hXU⟩ := cons_cut (NodeRef.head list) U
  obtain ⟨b, Y, hMY⟩ := concat_cut (NodeRef.head list) M
  have hnd0 := h.nodup
  have hp : ((NodeRef.head list :: U) ++ n :: M).Perm (n :: ((NodeRef.head list :: U) ++ M)) :=
    List.perm_middle
  rw [← List.cons_append, hp.nodup_iff, List.nodup_cons] at hnd0
  obtain ⟨hn1, hnd⟩ := hnd0
  obtain ⟨-, -, -, -, -, -, -, -, ha, hb⟩ := cut_facts _ a b U M X Y hnd hXU hMY
  have hl : Linked m (X ++ a :: n :: b :: Y) := by
    have := h.linked
    have e : NodeRef.head list :: (U ++ n :: M) ++ [NodeRef.head list]
        = X ++ a :: n :: b :: Y := by
      calc NodeRef.head list :: (U ++ n :: M) ++ [NodeRef.head list]
          = (NodeRef.head list :: U) ++ n :: (M ++ [NodeRef.head list]) := by simp
        _ = X ++ a :: n :: b :: Y := by rw [hXU, hMY]; simp
    rw [e] at this; exact this
  have hm1 := linked_mid X (b :: Y) a n hl
  have hm2 := linked_mid (X ++ [a]) Y n b (by simpa using hl)
  have hna : n ≠ a := fun e => hn1 (e ▸ ha)
  have hnb : n ≠ b := fun e => hn1 (e ▸ hb)
  have hsz : m.size list ≠ 0 := by rw [h.size]; simp
  obtain ⟨m1, hrun, hs, hsize, hother⟩ :=
    detach_unspliced m list n a b hm1.2 hm2.1 hna hnb hsz
  have he : (U ++ n :: M).erase n = U ++ M := by
    rw [List.erase_append_right _ hnU]; simp
  rw [he]
  refine ⟨m1, hrun, repr_remove U M X Y h hXU hMY hs hsize, hs.data, ?_, hother⟩
  intro x hx
  have hx1 : x ∈ NodeRef.head list :: (U ++ M) → False := by
    intro h1; apply hx; simp at h1 ⊢; tauto
  exact hs.cell_other x (fun e => hx1 (e ▸ ha)) (fun e => hx1 (e ▸ hb))
    (fun e => hx (by subst e; simp))

theorem initialize_repr {α : Type} (m : ListMem α) (list : Nat) :
    ListRepr ( List_initialize m list) list [] ∧
    (∀ x, x ≠ NodeRef.head list → ( List_initialize m list).cell x = m.cell x) ∧
    (∀ l, l ≠ list → ( List_initialize m list).size l = m.size l) := by
  unfold List_initialize
  refine ⟨⟨?_, by simp, ?_⟩, ?_, ?_⟩
  · simp [Linked, setSize_cell, setPrev_prev, setPrev_next, setNext_next]
  · simp [setSize_size]
  · intro x hx
    simp [setSize_cell, setPrev_ne, setNext_ne, hx]
  · intro l hl
    simp [setSize_size, setPrev_size, setNext_size, hl]

theorem find_loop_path {α : Type} (m : ListMem α) (list : Nat) (data : Option α)
    (comparator : Option α → Option α → Bool) : ∀ (rest : List NodeRef) (p : NodeRef)
    (fuel : Nat), Linked m (p :: rest ++ [NodeRef.head list]) → NodeRef.head list ∉ rest →
    rest.length < fuel →
    List_find_loop m list data comparator fuel (m.cell p).next
      = some (rest.find? (fun x => comparator data (m.cell x).data)) := by
  intro rest
  induction rest with
  | nil =>
    intro p fuel hl _ hf
    obtain ⟨k, rfl⟩ : ∃ k, fuel = k + 1 := ⟨fuel - 1, by simp at hf; omega⟩
    simp only [List.cons_append, List.nil_append, Linked] at hl
    rw [hl.1]
    simp [List_find_loop]
  | cons r rest ih =>
    intro p fuel hl hh hf
    obtain ⟨k, rfl⟩ : ∃ k, fuel = k + 1 := ⟨fuel - 1, by simp at hf; omega⟩
    have hl1 : (m.cell p).next = some r ∧ (m.cell r).prev = some p ∧
        Linked m (r :: rest ++ [NodeRef.head list]) := by
      cases rest <;> exact hl
    simp only [List.mem_cons, not_or] at hh
    have hr : r ≠ NodeRef.head list := fun e => hh.1 e.symm
    rw [hl1.1]
    simp only [List_find_loop, hr, if_false, List.find?_cons]
    cases hc : comparator data (m.cell r).data with
    | true => simp
    | false =>
      simp only [Bool.false_eq_true, if_false]
      exact ih r k hl1.2.2 hh.2 (by simp at hf; omega)

theorem find_repr {α : Type} [DecidableEq α] (m : ListMem α) (list : Nat)
    (seq : List NodeRef) (h : ListRepr m list seq) (fuel : Nat) (hf : seq.length < fuel)
    (data : Option α) (c : Option α → Option α → Bool) :
    List_find fuel m list data (some c)
        = some (seq.find? (fun x => c data (m.cell x).data)) ∧
    List_find fuel m list data none
        = some (seq.find? (fun x => decide (data = (m.cell x).data))) := by
  have hh : NodeRef.head list ∉ seq := (List.nodup_cons.mp h.nodup).1
  exact ⟨find_loop_path m list data c seq _ fuel h.linked hh hf,
    find_loop_path m list data List_default_comparator seq _ fuel h.linked hh hf⟩

theorem clear_loop_path {α : Type} (m : ListMem α) (list : Nat) : ∀ (rest : List NodeRef)
    (p : NodeRef) (fuel : Nat), Linked m (p :: rest ++ [NodeRef.head list]) →
    NodeRef.head list ∉ rest → rest.length < fuel →
    List_clear_loop m list fuel (m.cell p).next = some () := by
  intro rest
  induction rest with
  | nil =>
    intro p fuel hl _ hf
    obtain ⟨k, rfl⟩ : ∃ k, fuel = k + 1 := ⟨fuel - 1, by simp at hf; omega⟩
    simp only [List.cons_append, List.nil_append, Linked] at hl
    rw [hl.1]
    simp [List_clear_loop]
  | cons r rest ih =>
    intro p fuel hl hh hf
    obtain ⟨k, rfl⟩ : ∃ k, fuel = k + 1 := ⟨fuel - 1, by simp at hf; omega⟩
    have hl1 : (m.cell p).next = some r ∧ (m.cell r).prev = some p ∧
        Linked m (r :: rest ++ [NodeRef.head list]) := by
      cases rest <;> exact hl
    simp only [List.mem_cons, not_or] at hh
    have hr : r ≠ NodeRef.head list := fun e => hh.1 e.symm
    rw [hl1.1]
    simp only [List_clear_loop, hr, if_false]
    exact ih r k hl1.2.2 hh.2 (by simp at hf; omega)

theorem clear_repr {α : Type} (m : ListMem α) (list : Nat) (seq : List NodeRef)
    (h : ListRepr m list seq) (fuel : Nat) (hf : seq.length < fuel) :
    List_clear fuel m list = some ( List_initialize m list) := by
  have hh : NodeRef.head list ∉ seq := (List.nodup_cons.mp h.nodup).1
  unfold List_clear
  rw [clear_loop_path m list seq _ fuel h.linked hh hf]

theorem built_repr {α : Type} (list : Nat) (m : ListMem α) (seq : List NodeRef)
    (hb : ListBuilt list m seq) : ListRepr m list seq := by
  induction hb with
  | init m => exact (initialize_repr m list).1
  | create m seq a data owned _ ha ih =>
    refine listRepr_frame ih ?_ rfl
    intro x hx
    have : x ≠ NodeRef.node a := by
      intro e; subst e
      simp only [List.mem_cons] at hx
      rcases hx with hx | hx
      · cases hx
      · exact ha hx
    simp [ListNode_create, this]
  | emplace_front m seq n r _ hn hrun ih =>
    obtain ⟨m1, h1, h2, -⟩ := emplace_after_repr m list seq n (NodeRef.head list) ih (by simp) hn
    unfold List_emplace_front at hrun
    rw [h1] at hrun
    cases hrun
    simpa [listInsertAfter] using h2
  | emplace_back m seq n r _ hn hrun ih =>
    obtain ⟨m1, h1, h2, -⟩ := emplace_before_repr m list seq n (NodeRef.head list) ih (by simp) hn
    unfold List_emplace_back at hrun
    rw [h1] at hrun
    cases hrun
    simpa [listInsertBefore] using h2
  | emplace_after m seq n a r _ hn ha hrun ih =>
    obtain ⟨m1, h1, h2, -⟩ := emplace_after_repr m list seq n a ih ha hn
    rw [h1] at hrun
    cases hrun
    exact h2
  | emplace_before m seq n c r _ hn hc hrun ih =>
    obtain ⟨m1, h1, h2, -⟩ := emplace_before_repr m list seq n c ih hc hn
    rw [h1] at hrun
    cases hrun
    exact h2
  | detach m seq n m1 _ hn hrun ih =>
    obtain ⟨m2, h1, h2, -⟩ := detach_repr m list seq n ih hn
    rw [h1] at hrun
    cases hrun
    exact h2

/-- C25: in every list built by `List_initialize`, `ListNode_create` and the
four emplace functions and `List_detach`, with `seq` its nodes front to back,
the `next` chain from the head visits exactly `seq`, and `List_find` run with
more fuel than the list has nodes returns the first node of `seq` whose stored
data satisfies `comparator(data, node.data)`, `NULL` when there is none; with
a `NULL` comparator the test is equality of `data` and the stored pointer. -/
theorem C25_find_returns_first_match {α : Type} [DecidableEq α] (list : Nat) (m : ListMem α)
    (seq : List NodeRef) (hb : ListBuilt list m seq) (fuel : Nat) (hf : seq.length < fuel)
    (data : Option α) (comparator : Option α → Option α → Bool) :
    ListRepr m list seq ∧
    List_find fuel m list data (some comparator)
        = some (seq.find? (fun x => comparator data (m.cell x).data)) ∧
    List_find fuel m list data none
        = some (seq.find? (fun x => decide (data = (m.cell x).data))) :=
  ⟨built_repr list m seq hb, find_repr m list seq (built_repr list m seq hb) fuel hf data comparator⟩

theorem sampleListMem_built :
    ListBuilt 0 sampleListMem [NodeRef.node 2, NodeRef.node 1] := by
  have h0 : ListBuilt 0 ( List_initialize emptyListMem 0) [] := ListBuilt.init _
  have h1 := ListBuilt.create _ _ 1 (some 5) true h0 (by simp)
  have h2 : ListBuilt 0 sampleListMem1 [NodeRef.node 1] :=
    ListBuilt.emplace_front _ _ (NodeRef.node 1) (NodeRef.node 1, sampleListMem1) h1
      (by decide) rfl
  have h3 := ListBuilt.create _ _ 2 (some 7) true h2 (by decide)
  exact ListBuilt.emplace_front _ _ (NodeRef.node 2) (NodeRef.node 2, sampleListMem) h3
    (by decide) rfl

theorem C25_find_returns_first_match_witness :
    ListBuilt 0 sampleListMem [NodeRef.node 2, NodeRef.node 1] ∧
    [NodeRef.node 2, NodeRef.node 1].length < 3 ∧
    ListRepr sampleListMem 0 [NodeRef.node 2, NodeRef.node 1] ∧
    List_find 3 sampleListMem 0 (some 5) (some (fun a b => decide (a = b)))
        = some ([NodeRef.node 2, NodeRef.node 1].find?
            (fun x => (fun a b => decide (a = b)) (some 5) (sampleListMem.cell x).data)) ∧
    List_find 3 sampleListMem 0 (some 5) none
        = some ([NodeRef.node 2, NodeRef.node 1].find?
            (fun x => decide (some 5 = (sampleListMem.cell x).data))) :=
  ⟨sampleListMem_built, by decide,
    C25_find_returns_first_match 0 sampleListMem [NodeRef.node 2, NodeRef.node 1]
      sampleListMem_built 3 (by decide) (some 5) (fun a b => decide (a = b))⟩

theorem sampleListMem_find :
    List_find 3 sampleListMem 0 (some 5) none = some (some (NodeRef.node 1)) ∧
    List_find 3 sampleListMem 0 (some 7) none = some (some (NodeRef.node 2)) ∧
    List_find 3 sampleListMem 0 (some 9) none = some none := by
  decide

/-! ## Hash tables: the representation is preserved -/

theorem bucketNodes_nil {K V : Type} (t : HashTable K V) (i : Nat) :
    bucketNodes t i [] = [] := rfl

theorem bucketNodes_cons {K V : Type} (t : HashTable K V) (i : Nat)
    (p : Nat × KeyValueRef K V) (log : List (Nat × KeyValueRef K V)) :
    bucketNodes t i (p :: log)
      = if bucketOf t p.2.target.key = i then NodeRef.node p.1 :: bucketNodes t i log
        else bucketNodes t i log := by
  unfold bucketNodes
  by_cases h : bucketOf t p.2.target.key = i <;> simp [List.filter_cons, h]

theorem bucketNodes_mem {K V : Type} (t : HashTable K V) (i : Nat)
    (log : List (Nat × KeyValueRef K V)) (x : NodeRef) (hx : x ∈ bucketNodes t i log) :
    ∃ p ∈ log, bucketOf t p.2.target.key = i ∧ x = NodeRef.node p.1 := by
  unfold bucketNodes at hx
  simp only [List.mem_map, List.mem_filter, decide_eq_true_eq] at hx
  obtain ⟨p, ⟨hp, hb⟩, rfl⟩ := hx
  exact ⟨p, hp, hb, rfl⟩

theorem bucketNodes_length {K V : Type} (t : HashTable K V) (i : Nat)
    (log : List (Nat × KeyValueRef K V)) : (bucketNodes t i log).length ≤ log.length := by
  unfold bucketNodes
  rw [List.length_map]
  exact List.length_filter_le _ _

theorem bucketNodes_fresh {K V : Type} (t : HashTable K V) (i : Nat)
    (log : List (Nat × KeyValueRef K V)) (na : Nat) (h : na ∉ log.map Prod.fst) :
    NodeRef.node na ∉ bucketNodes t i log := by
  intro hx
  obtain ⟨p, hp, -, e⟩ := bucketNodes_mem t i log _ hx
  cases e
  exact h (List.mem_map.mpr ⟨p, hp, rfl⟩)

theorem bucketNodes_disjoint {K V : Type} (t : HashTable K V) (i j : Nat)
    (log : List (Nat × KeyValueRef K V)) (hnd : (log.map Prod.fst).Nodup) (hij : i ≠ j)
    (x : NodeRef) (hi : x ∈ bucketNodes t i log) : x ∉ bucketNodes t j log := by
  intro hj
  obtain ⟨p, hp, hbp, e1⟩ := bucketNodes_mem t i log x hi
  obtain ⟨q, hq, hbq, e2⟩ := bucketNodes_mem t j log x hj
  rw [e1] at e2
  cases p with
  | mk p1 p2 =>
    cases q with
    | mk q1 q2 =>
      simp only [NodeRef.node.injEq] at e2
      subst e2
      have : (p1, p2) = (p1, q2) := List.inj_on_of_nodup_map hnd hp hq rfl
      cases this
      exact hij (hbp.symm.trans hbq)

theorem init_fold_repr {α : Type} (index : Nat) (m : ListMem α) : ∀ (k i : Nat), i < k →
    ListRepr ((List.range k).foldl (fun m1 i => List_initialize m1 (index + i)) m)
      (index + i) [] := by
  intro k
  induction k with
  | zero => intro i hi; omega
  | succ k ih =>
    intro i hi
    rw [List.range_succ, List.foldl_append]
    simp only [List.foldl_cons, List.foldl_nil]
    by_cases e : i = k
    · subst e
      exact (initialize_repr _ _).1
    · have := ih i (by omega)
      refine listRepr_frame this ?_ ?_
      · intro x hx
        simp only [List.mem_cons, List.mem_nil_iff, or_false] at hx
        subst hx
        exact (initialize_repr _ _).2.1 _ (by simp; omega)
      · exact (initialize_repr _ _).2.2 _ (by omega)

theorem initialize_table_repr {K V : Type} (m : ListMem (KeyValueRef K V)) (index lines : Nat)
    (hash : K → Nat) (compare : K → K → Int) :
    TableRepr ( HashTable_initialize m index lines hash compare).1
      ( HashTable_initialize m index lines hash compare).2 [] := by
  refine ⟨?_, by simp, by simp⟩
  intro i hi
  exact init_fold_repr index m lines i hi

theorem clear_loop_repr {K V : Type} (fuel index lines : Nat) : ∀ (is : List Nat)
    (S : Nat → List NodeRef) (m : ListMem (KeyValueRef K V)),
    (∀ j x, x ∈ S j → ∀ l, x ≠ NodeRef.head l) →
    (∀ j, j < lines → ListRepr m (index + j) (S j)) → (∀ j, (S j).length < fuel) →
    (∀ i ∈ is, i < lines) →
    ∃ m1, HashTable_clear_loop fuel index is m = some m1 ∧
      ∀ j, j < lines → ListRepr m1 (index + j) (if j ∈ is then [] else S j) := by
  intro is
  induction is with
  | nil =>
    intro S m _ hr _ _
    exact ⟨m, rfl, fun j hj => by simpa using hr j hj⟩
  | cons i is ih =>
    intro S m hS hr hlen his
    have hi : i < lines := his i (by simp)
    have hc := clear_repr m (index + i) (S i) (hr i hi) fuel (hlen i)
    obtain ⟨m1, h1, h2⟩ := ih (fun j => if j = i then [] else S j) ( List_initialize m (index + i))
      (by
        intro j x hx l
        by_cases e : j = i
        · simp [e] at hx
        · simp only [e, if_false] at hx
          exact hS j x hx l)
      (by
        intro j hj
        by_cases e : j = i
        · subst e
          simpa using (initialize_repr m (index + j)).1
        · simp only [e, if_false]
          refine listRepr_frame (hr j hj) ?_ ?_
          · intro x hx
            refine (initialize_repr m (index + i)).2.1 x ?_
            simp only [List.mem_cons] at hx
            rcases hx with hx | hx
            · subst hx; simp; omega
            · exact hS j x hx _
          · exact (initialize_repr m (index + i)).2.2 _ (by omega))
      (by
        intro j
        by_cases e : j = i
        · simp only [e, if_true, List.length_nil]
          have := hlen i
          omega
        · simp only [e, if_false]
          exact hlen j)
      (fun k hk => his k (by simp [hk]))
    refine ⟨m1, ?_, ?_⟩
    · simp only [HashTable_clear_loop, hc]
      exact h1
    · intro j hj
      have := h2 j hj
      by_cases e : j = i
      · subst e
        simpa using this
      · by_cases e1 : j ∈ is
        · simpa [e, e1] using this
        · simpa [e, e1] using this

theorem find_loop_table {K V : Type} (m : ListMem (KeyValueRef K V)) (t : HashTable K V)
    (list : Nat) (key : K) : ∀ (L : List (Nat × KeyValueRef K V)) (p0 : NodeRef) (fuel : Nat),
    Linked m (p0 :: L.map (fun p => NodeRef.node p.1) ++ [NodeRef.head list]) →
    (∀ p ∈ L, (m.cell (NodeRef.node p.1)).data = some p.2) → L.length < fuel →
    HashTable_find_loop m t list key fuel (m.cell p0).next
      = some ((L.find? (fun p => decide (t.compare key p.2.target.key = 0))).map Prod.snd) := by
  intro L
  induction L with
  | nil =>
    intro p0 fuel hl _ hf
    obtain ⟨k, rfl⟩ : ∃ k, fuel = k + 1 := ⟨fuel - 1, by simp at hf; omega⟩
    simp only [List.map_nil, List.cons_append, List.nil_append, Linked] at hl
    rw [hl.1]
    simp [HashTable_find_loop]
  | cons r L ih =>
    intro p0 fuel hl hd hf
    obtain ⟨k, rfl⟩ : ∃ k, fuel = k + 1 := ⟨fuel - 1, by simp at hf; omega⟩
    have hl1 : (m.cell p0).next = some (NodeRef.node r.1) ∧
        (m.cell (NodeRef.node r.1)).prev = some p0 ∧
        Linked m (NodeRef.node r.1 :: L.map (fun p => NodeRef.node p.1)
          ++ [NodeRef.head list]) := by
      cases L <;> exact hl
    rw [hl1.1]
    have hr := hd r (by simp)
    simp only [HashTable_find_loop, if_false, List.find?_cons, hr]
    by_cases hc : t.compare key r.2.target.key = 0
    · simp [hc]
    · simp only [hc, if_false, decide_False]
      exact ih _ k hl1.2.2 (fun p hp => hd p (by simp [hp])) (by simp at hf; omega)

theorem erase_loop_table {K V : Type} (m : ListMem (KeyValueRef K V)) (list : Nat)
    (entry : KeyValueRef K V) : ∀ (L : List (Nat × KeyValueRef K V)) (p0 : NodeRef)
    (fuel : Nat),
    Linked m (p0 :: L.map (fun p => NodeRef.node p.1) ++ [NodeRef.head list]) →
    (∀ p ∈ L, (m.cell (NodeRef.node p.1)).data = some p.2) → L.length < fuel →
    HashTable_erase_loop m list entry fuel (m.cell p0).next
      = some ((L.find? (fun p => decide (p.2.addr = entry.addr))).map
          (fun p => NodeRef.node p.1)) := by
  intro L
  induction L with
  | nil =>
    intro p0 fuel hl _ hf
    obtain ⟨k, rfl⟩ : ∃ k, fuel = k + 1 := ⟨fuel - 1, by simp at hf; omega⟩
    simp only [List.map_nil, List.cons_append, List.nil_append, Linked] at hl
    rw [hl.1]
    simp [HashTable_erase_loop]
  | cons r L ih =>
    intro p0 fuel hl hd hf
    obtain ⟨k, rfl⟩ : ∃ k, fuel = k + 1 := ⟨fuel - 1, by simp at hf; omega⟩
    have hl1 : (m.cell p0).next = some (NodeRef.node r.1) ∧
        (m.cell (NodeRef.node r.1)).prev = some p0 ∧
        Linked m (NodeRef.node r.1 :: L.map (fun p => NodeRef.node p.1)
          ++ [NodeRef.head list]) := by
      cases L <;> exact hl
    rw [hl1.1]
    have hr := hd r (by simp)
    simp only [HashTable_erase_loop, if_false, List.find?_cons, hr, Option.map_some']
    by_cases hc : r.2.addr = entry.addr
    · simp [hc]
    · simp only [hc, if_false, decide_False, Option.some.injEq]
      exact ih _ k hl1.2.2 (fun p hp => hd p (by simp [hp])) (by simp at hf; omega)

theorem bucketOf_lt {K V : Type} (t : HashTable K V) (key : K) (h : t.lines ≠ 0) :
    bucketOf t key < t.lines := Nat.mod_lt _ (Nat.pos_of_ne_zero h)

theorem find_filter_imp {α : Type} (q c : α → Bool) (hqc : ∀ a, c a = true → q a = true) :
    ∀ l : List α, (l.filter q).find? c = l.find? c := by
  intro l
  induction l with
  | nil => rfl
  | cons a l ih =>
    by_cases hq : q a = true
    · simp only [List.filter_cons, hq, if_true, List.find?_cons, ih]
    · have hc : c a = false := by
        cases h : c a with
        | false => rfl
        | true => exact absurd (hqc a h) hq
      simp [List.filter_cons, hq, List.find?_cons, hc, ih]

theorem find_filter_and {α : Type} (q r : α → Bool) :
    ∀ l : List α, (l.filter q).find? r = l.find? (fun a => r a && q a) := by
  intro l
  induction l with
  | nil => rfl
  | cons a l ih =>
    cases hq : q a <;> cases hr : r a <;>
      simp [List.filter_cons, List.find?_cons, hq, hr, ih]

/-- What `HashTable_find` returns: the first match among the entries of the
bucket of `key`. -/
theorem find_table {K V : Type} (m : ListMem (KeyValueRef K V)) (t : HashTable K V)
    (log : List (Nat × KeyValueRef K V)) (h : TableRepr m t log) (hl : t.lines ≠ 0)
    (fuel : Nat) (hf : log.length < fuel) (key : K) :
    HashTable_find fuel m t key
      = some (((log.filter (fun p => decide (bucketOf t p.2.target.key = bucketOf t key))).find?
          (fun p => decide (t.compare key p.2.target.key = 0))).map Prod.snd) := by
  unfold HashTable_find HashTable_bounded_hash_
  simp only [hl, if_false]
  have hb := (h.buckets (bucketOf t key) (bucketOf_lt t key hl)).linked
  unfold bucketNodes at hb
  refine find_loop_table m t _ key _ _ fuel hb ?_ ?_
  · intro p hp
    exact h.data p (List.mem_filter.mp hp).1
  · exact lt_of_le_of_lt (List.length_filter_le _ _) hf

/-- With a hash that agrees on keys comparing equal, the bucket of `key` holds
every match. -/
theorem find_table_consistent {K V : Type} (m : ListMem (KeyValueRef K V))
    (t : HashTable K V) (log : List (Nat × KeyValueRef K V)) (h : TableRepr m t log)
    (hl : t.lines ≠ 0) (hcons : ∀ a b, t.compare a b = 0 → t.hash a = t.hash b)
    (fuel : Nat) (hf : log.length < fuel) (key : K) :
    HashTable_find fuel m t key
      = some ((log.find? (fun p => decide (t.compare key p.2.target.key = 0))).map Prod.snd) := by
  rw [find_table m t log h hl fuel hf key, find_filter_imp]
  intro p hp
  simp only [decide_eq_true_eq] at hp ⊢
  unfold bucketOf
  rw [hcons _ _ hp]

theorem insert_direct_table {K V : Type} (m : ListMem (KeyValueRef K V)) (t : HashTable K V)
    (log : List (Nat × KeyValueRef K V)) (key : K) (owns_key : Bool) (value : V)
    (owns_value : Bool) (entry_addr node_addr : Nat) (h : TableRepr m t log)
    (hl : t.lines ≠ 0) (hna : node_addr ∉ log.map Prod.fst) :
    ∃ m1, HashTable_insert_direct m t key owns_key value owns_value entry_addr node_addr
        = some (⟨entry_addr, KeyValue_create key owns_key value owns_value⟩, m1) ∧
      TableRepr m1 t
        ((node_addr, ⟨entry_addr, KeyValue_create key owns_key value owns_value⟩) :: log) := by
  have hlt := bucketOf_lt t key hl
  have hcell : ∀ x, x ≠ NodeRef.node node_addr →
      (ListNode_create m node_addr
        (some (⟨entry_addr, KeyValue_create key owns_key value owns_value⟩ : KeyValueRef K V))
        true).2.cell x = m.cell x := by
    intro x hx; simp [ListNode_create, hx]
  have hfresh : ∀ i, ∀ x ∈ NodeRef.head (t.index + i) :: bucketNodes t i log,
      x ≠ NodeRef.node node_addr := by
    intro i x hx e
    subst e
    simp only [List.mem_cons] at hx
    rcases hx with hx | hx
    · cases hx
    · exact bucketNodes_fresh t i log node_addr hna hx
  have h0 : ListRepr (ListNode_create m node_addr
      (some (⟨entry_addr, KeyValue_create key owns_key value owns_value⟩ : KeyValueRef K V))
      true).2 (t.index + bucketOf t key) (bucketNodes t (bucketOf t key) log) :=
    listRepr_frame (h.buckets _ hlt) (fun x hx => hcell x (hfresh _ x hx)) rfl
  obtain ⟨m1, h1, h2, h3, h4, h5⟩ := emplace_after_repr _ (t.index + bucketOf t key) _
    (NodeRef.node node_addr) (NodeRef.head (t.index + bucketOf t key)) h0 (by simp)
    (fun hx => hfresh _ _ hx rfl)
  refine ⟨m1, ?_, ?_, ?_, ?_⟩
  · unfold HashTable_insert_direct HashTable_bounded_hash_ List_emplace_front
    simp only [hl, if_false]
    have e : (ListNode_create m node_addr
        (some (⟨entry_addr, KeyValue_create key owns_key value owns_value⟩ : KeyValueRef K V))
        true).1 = NodeRef.node node_addr := rfl
    rw [e]
    unfold bucketOf at h1
    rw [h1]
  · intro i hi
    rw [bucketNodes_cons]
    by_cases e : bucketOf t key = i
    · subst e
      have e1 : bucketOf t (KeyValue_create key owns_key value owns_value).key = bucketOf t key :=
        rfl
      simp only [e1, if_true]
      simpa [listInsertAfter] using h2
    · have e1 : ¬ bucketOf t (KeyValue_create key owns_key value owns_value).key = i := e
      simp only [e1, if_false]
      refine listRepr_frame (h.buckets i hi) ?_ ?_
      · intro x hx
        have hxn := hfresh i x hx
        rw [h4 x hxn, hcell x hxn]
        intro hx1
        simp only [List.mem_cons] at hx hx1
        rcases hx with hx | hx
        · subst hx
          rcases hx1 with hx1 | hx1
          · simp at hx1; omega
          · obtain ⟨p, -, -, e2⟩ := bucketNodes_mem t _ log _ hx1
            cases e2
        · rcases hx1 with hx1 | hx1
          · subst hx1
            obtain ⟨p, -, -, e2⟩ := bucketNodes_mem t _ log _ hx
            cases e2
          · exact bucketNodes_disjoint t i (bucketOf t key) log h.nodup (fun x => e x.symm)
              x hx hx1
      · rw [h5 _ (by omega)]
        rfl
  · intro p hp
    simp only [List.mem_cons] at hp
    rcases hp with hp | hp
    · subst hp
      rw [h3]
      simp [ListNode_create]
    · have : NodeRef.node p.1 ≠ NodeRef.node node_addr := by
        intro e
        cases e
        exact hna (List.mem_map.mpr ⟨p, hp, rfl⟩)
      rw [h3, hcell _ this]
      exact h.data p hp
  · simp only [List.map_cons, List.nodup_cons]
    exact ⟨hna, h.nodup⟩

theorem clear_table {K V : Type} (m : ListMem (KeyValueRef K V)) (t : HashTable K V)
    (log : List (Nat × KeyValueRef K V)) (h : TableRepr m t log) (fuel : Nat)
    (hf : log.length < fuel) :
    ∃ m1, HashTable_clear fuel m t = some (m1, { t with size := 0 }) ∧
      TableRepr m1 { t with size := 0 } [] := by
  obtain ⟨m1, h1, h2⟩ := clear_loop_repr fuel t.index t.lines (List.range t.lines)
    (fun j => bucketNodes t j log) m
    (by
      intro j x hx l e
      obtain ⟨p, -, -, e2⟩ := bucketNodes_mem t j log x hx
      rw [e2] at e
      cases e)
    h.buckets
    (fun j => lt_of_le_of_lt (bucketNodes_length t j log) hf)
    (fun i hi => List.mem_range.mp hi)
  refine ⟨m1, ?_, ?_, by simp, by simp⟩
  · unfold HashTable_clear
    rw [h1]
  · intro i hi
    have := h2 i hi
    simp only [List.mem_range] at this
    rw [if_pos hi] at this
    exact this

theorem erase_buckets {K V : Type} (t : HashTable K V) (h : Nat)
    (pred : Nat × KeyValueRef K V → Bool)
    (hpred : ∀ p, pred p = true → bucketOf t p.2.target.key = h) :
    ∀ (log : List (Nat × KeyValueRef K V)) (p0 : Nat × KeyValueRef K V),
    (log.map Prod.fst).Nodup → log.find? pred = some p0 →
    bucketNodes t h (log.eraseP pred) = (bucketNodes t h log).erase (NodeRef.node p0.1) ∧
    ∀ i, i ≠ h → bucketNodes t i (log.eraseP pred) = bucketNodes t i log := by
  intro log
  induction log with
  | nil => intro p0 _ hf; simp at hf
  | cons p log ih =>
    intro p0 hnd hf
    simp only [List.map_cons, List.nodup_cons] at hnd
    by_cases hp : pred p = true
    · simp only [List.find?_cons, hp, Option.some.injEq] at hf
      subst hf
      have hb := hpred p hp
      have e : (p :: log).eraseP pred = log := by simp [List.eraseP_cons, hp]
      rw [e]
      refine ⟨?_, ?_⟩
      · rw [bucketNodes_cons, if_pos hb]
        simp
      · intro i hi
        rw [bucketNodes_cons, if_neg (fun e => hi (hb.symm.trans e).symm)]
    · have hp1 : pred p = false := by simpa using hp
      simp only [List.find?_cons, hp1] at hf
      obtain ⟨ih1, ih2⟩ := ih p0 hnd.2 hf
      have hmem : p0 ∈ log := List.mem_of_find?_eq_some hf
      have hne : NodeRef.node p.1 ≠ NodeRef.node p0.1 := by
        intro e
        injection e with e1
        apply hnd.1
        rw [e1]
        exact List.mem_map.mpr ⟨p0, hmem, rfl⟩
      have e : (p :: log).eraseP pred = p :: log.eraseP pred := by
        simp [List.eraseP_cons, hp1]
      rw [e]
      refine ⟨?_, ?_⟩
      · rw [bucketNodes_cons, bucketNodes_cons]
        by_cases hb : bucketOf t p.2.target.key = h
        · rw [if_pos hb, if_pos hb, ih1, List.erase_cons_tail]
          simpa using hne
        · rw [if_neg hb, if_neg hb, ih1]
      · intro i hi
        rw [bucketNodes_cons, bucketNodes_cons, ih2 i hi]

theorem erase_table {K V : Type} (m : ListMem (KeyValueRef K V)) (t : HashTable K V)
    (log : List (Nat × KeyValueRef K V)) (h : TableRepr m t log) (hl : t.lines ≠ 0)
    (fuel : Nat) (hf : log.length < fuel) (hint : K) (entry : KeyValueRef K V) :
    ∃ m1, HashTable_erase_entry_key_hint fuel m t hint entry = some m1 ∧
      TableRepr m1 t (logErase t hint entry log) := by
  have hlt := bucketOf_lt t hint hl
  have hb := h.buckets (bucketOf t hint) hlt
  have hloop := erase_loop_table m (t.index + bucketOf t hint) entry
    (log.filter (fun p => decide (bucketOf t p.2.target.key = bucketOf t hint)))
    (NodeRef.head (t.index + bucketOf t hint)) fuel hb.linked
    (fun p hp => h.data p (List.mem_filter.mp hp).1)
    (lt_of_le_of_lt (List.length_filter_le _ _) hf)
  rw [find_filter_and] at hloop
  unfold HashTable_erase_entry_key_hint HashTable_bounded_hash_
  simp only [hl, if_false]
  unfold bucketOf at hloop
  rw [hloop]
  cases hfind : log.find? (fun p => decide (p.2.addr = entry.addr) &&
      decide (bucketOf t p.2.target.key = bucketOf t hint)) with
  | none =>
    unfold bucketOf at hfind
    rw [hfind]
    refine ⟨m, rfl, ?_⟩
    have : logErase t hint entry log = log := by
      unfold logErase
      apply List.eraseP_of_forall_not
      intro p hp
      have := List.find?_eq_none.mp hfind p hp
      unfold bucketOf
      simpa using this
    rw [this]
    exact h
  | some p0 =>
    have hfind1 := hfind
    unfold bucketOf at hfind1
    rw [hfind1]
    simp only [Option.map_some']
    have hmem : p0 ∈ log := List.mem_of_find?_eq_some hfind
    have hp0 := List.find?_some hfind
    simp only [Bool.and_eq_true, decide_eq_true_eq] at hp0
    have hn : NodeRef.node p0.1 ∈ bucketNodes t (bucketOf t hint) log := by
      unfold bucketNodes
      exact List.mem_map.mpr ⟨p0, List.mem_filter.mpr ⟨hmem, by simpa using hp0.2⟩, rfl⟩
    obtain ⟨m1, h1, h2, h3, h4, h5⟩ := detach_repr m (t.index + bucketOf t hint) _ _ hb hn
    obtain ⟨e1, e2⟩ := erase_buckets t (bucketOf t hint)
      (fun p => decide (p.2.addr = entry.addr) &&
        decide (bucketOf t p.2.target.key = bucketOf t hint))
      (by intro p hp; simp only [Bool.and_eq_true, decide_eq_true_eq] at hp; exact hp.2)
      log p0 h.nodup hfind
    refine ⟨m1, h1, ?_, ?_, ?_⟩
    · intro i hi
      unfold logErase
      by_cases e : i = bucketOf t hint
      · subst e
        rw [e1]
        exact h2
      · rw [e2 i e]
        refine listRepr_frame (h.buckets i hi) ?_ (h5 _ (by omega))
        intro x hx
        apply h4
        intro hx1
        simp only [List.mem_cons] at hx hx1
        rcases hx with hx | hx
        · subst hx
          rcases hx1 with hx1 | hx1
          · simp at hx1; omega
          · obtain ⟨p, -, -, e3⟩ := bucketNodes_mem t _ log _ hx1
            cases e3
        · rcases hx1 with hx1 | hx1
          · subst hx1
            obtain ⟨p, -, -, e3⟩ := bucketNodes_mem t _ log _ hx
            cases e3
          · exact bucketNodes_disjoint t i (bucketOf t hint) log h.nodup e x hx hx1
    · intro p hp
      rw [h3]
      exact h.data p ((List.eraseP_sublist log).subset hp)
    · exact ((List.eraseP_sublist log).map Prod.fst).nodup h.nodup

/-- `HashTable_insert` on a represented table: either the bucket of `key` holds
a match and nothing changes, or the entry is added. -/
theorem insert_table {K V : Type} (m : ListMem (KeyValueRef K V)) (t : HashTable K V)
    (log : List (Nat × KeyValueRef K V)) (h : TableRepr m t log) (hl : t.lines ≠ 0)
    (fuel : Nat) (hf : log.length < fuel) (key : K) (owns_key : Bool) (value : V)
    (owns_value : Bool) (result : Option (Option (KeyValueRef K V)))
    (entry_addr node_addr : Nat) (hna : node_addr ∉ log.map Prod.fst) :
    (∃ found, HashTable_find fuel m t key = some (some found) ∧
      HashTable_insert fuel m t key owns_key value owns_value result entry_addr node_addr
        = some (false, result.map (fun _ => some found), m)) ∨
    (∃ m1, HashTable_find fuel m t key = some none ∧
      HashTable_insert fuel m t key owns_key value owns_value result entry_addr node_addr
        = some (true, result.map (fun _ =>
            some ⟨entry_addr, KeyValue_create key owns_key value owns_value⟩), m1) ∧
      TableRepr m1 t
        ((node_addr, ⟨entry_addr, KeyValue_create key owns_key value owns_value⟩) :: log)) := by
  have hfind := find_table m t log h hl fuel hf key
  cases hres : ((log.filter (fun p => decide (bucketOf t p.2.target.key = bucketOf t key))).find?
          (fun p => decide (t.compare key p.2.target.key = 0))).map Prod.snd with
  | some found =>
    rw [hres] at hfind
    left
    refine ⟨found, hfind, ?_⟩
    unfold HashTable_insert
    rw [hfind]
  | none =>
    rw [hres] at hfind
    right
    obtain ⟨m1, h1, h2⟩ := insert_direct_table m t log key owns_key value owns_value entry_addr
      node_addr h hl hna
    refine ⟨m1, hfind, ?_, h2⟩
    unfold HashTable_insert
    rw [hfind]
    simp only [h1]

theorem lines_of_hash {K V : Type} (t : HashTable K V) (key : K) (hash : Nat)
    (h : HashTable_bounded_hash_ t key = some hash) : t.lines ≠ 0 := by
  intro e
  simp [HashTable_bounded_hash_, e] at h

theorem built_table_repr {K V : Type} (m : ListMem (KeyValueRef K V)) (t : HashTable K V)
    (log : List (Nat × KeyValueRef K V)) (hb : TableBuilt m t log) : TableRepr m t log := by
  induction hb with
  | init m index lines hash compare => exact initialize_table_repr m index lines hash compare
  | insert_direct m t log key ok value ov ea na r _ hna hrun ih =>
    have hl : t.lines ≠ 0 := by
      intro e
      simp [HashTable_insert_direct, HashTable_bounded_hash_, e] at hrun
    obtain ⟨m1, h1, h2⟩ := insert_direct_table m t log key ok value ov ea na ih hl hna
    rw [h1] at hrun
    cases hrun
    exact h2
  | insert m t log fuel key ok value ov result ea na r _ hna hf hrun ih =>
    have hl : t.lines ≠ 0 := by
      intro e
      simp [HashTable_insert, HashTable_find, HashTable_bounded_hash_, e] at hrun
    rcases insert_table m t log ih hl fuel hf key ok value ov result ea na hna with
      ⟨found, -, h1⟩ | ⟨m1, -, h1, h2⟩
    · rw [h1] at hrun
      cases hrun
      simpa using ih
    · rw [h1] at hrun
      cases hrun
      simpa using h2
  | erase m t log fuel hint entry m1 _ hf hrun ih =>
    have hl : t.lines ≠ 0 := by
      intro e
      simp [HashTable_erase_entry_key_hint, HashTable_bounded_hash_, e] at hrun
    obtain ⟨m2, h1, h2⟩ := erase_table m t log ih hl fuel hf hint entry
    rw [h1] at hrun
    cases hrun
    exact h2
  | clear m t log fuel r _ hf hrun ih =>
    obtain ⟨m1, h1, h2⟩ := clear_table m t log ih fuel hf
    rw [h1] at hrun
    cases hrun
    exact h2

theorem inserted_built {K V : Type} (m : ListMem (KeyValueRef K V)) (t : HashTable K V)
    (log : List (Nat × KeyValueRef K V)) (hb : TableInserted m t log) : TableBuilt m t log := by
  induction hb with
  | init m index lines hash compare => exact TableBuilt.init m index lines hash compare
  | insert m t log fuel key ok value ov result ea na r _ hna hf hrun ih =>
    exact TableBuilt.insert m t log fuel key ok value ov result ea na r ih hna hf hrun

theorem inserted_pairwise {K V : Type} (m : ListMem (KeyValueRef K V)) (t : HashTable K V)
    (log : List (Nat × KeyValueRef K V)) (hb : TableInserted m t log)
    (hcons : ∀ a b, t.compare a b = 0 → t.hash a = t.hash b) :
    log.Pairwise (fun newer older => t.compare newer.2.target.key older.2.target.key ≠ 0) := by
  induction hb with
  | init m index lines hash compare => exact List.Pairwise.nil
  | insert m t log fuel key ok value ov result ea na r hprev hna hf hrun ih =>
    have hrepr := built_table_repr m t log (inserted_built m t log hprev)
    have hl : t.lines ≠ 0 := by
      intro e
      simp [HashTable_insert, HashTable_find, HashTable_bounded_hash_, e] at hrun
    have hfind := find_table_consistent m t log hrepr hl hcons fuel hf key
    rcases insert_table m t log hrepr hl fuel hf key ok value ov result ea na hna with
      ⟨found, -, h1⟩ | ⟨m1, h0, h1, h2⟩
    · rw [h1] at hrun
      cases hrun
      simpa using ih hcons
    · rw [h1] at hrun
      cases hrun
      simp only [if_true, List.pairwise_cons]
      refine ⟨?_, ih hcons⟩
      intro p hp
      rw [h0] at hfind
      simp only [Option.some.injEq] at hfind
      have hnone : log.find? (fun p => decide (t.compare key p.2.target.key = 0)) = none := by
        cases hx : log.find? (fun p => decide (t.compare key p.2.target.key = 0)) with
        | none => rfl
        | some y => rw [hx] at hfind; simp at hfind
      have := List.find?_eq_none.mp hnone p hp
      simpa [KeyValue_create] using this

/-! ## Hash tables: lookup and insertion -/

/-- C22: in every table built by `HashTable_initialize`, insertions, erasures
and clearings that has `lines > 0` and a hash giving equal hashes to keys that
compare equal, with `log` its stored entries, the most recently inserted first
(the memory holds exactly these in its buckets), `HashTable_find` run with
more fuel than there are entries returns the first entry of `log` with
`compare(key, entry.key) == 0`: `NULL` when no stored entry compares equal, and
otherwise the entry `e` before which (more recent than which) no entry compares
equal. -/
theorem C22_find_returns_most_recent {K V : Type} (m : ListMem (KeyValueRef K V))
    (t : HashTable K V) (log : List (Nat × KeyValueRef K V)) (hb : TableBuilt m t log)
    (hl : 0 < t.lines) (hcons : ∀ a b, t.compare a b = 0 → t.hash a = t.hash b)
    (fuel : Nat) (hf : log.length < fuel) (key : K) :
    TableRepr m t log ∧
    HashTable_find fuel m t key
      = some ((log.find? (fun p => decide (t.compare key p.2.target.key = 0))).map Prod.snd) ∧
    ((∀ p ∈ log, t.compare key p.2.target.key ≠ 0) → HashTable_find fuel m t key = some none) ∧
    (∀ newer e older, log = newer ++ e :: older → t.compare key e.2.target.key = 0 →
      (∀ p ∈ newer, t.compare key p.2.target.key ≠ 0) →
      HashTable_find fuel m t key = some (some e.2)) := by
  have hr := built_table_repr m t log hb
  have hfind := find_table_consistent m t log hr (Nat.pos_iff_ne_zero.mp hl) hcons fuel hf key
  refine ⟨hr, hfind, ?_, ?_⟩
  · intro hno
    rw [hfind]
    have : log.find? (fun p => decide (t.compare key p.2.target.key = 0)) = none := by
      apply List.find?_eq_none.mpr
      intro p hp
      simpa using hno p hp
    rw [this]
    rfl
  · intro newer e older hlog he hnewer
    rw [hfind, hlog]
    have : (newer ++ e :: older).find? (fun p => decide (t.compare key p.2.target.key = 0))
        = some e := by
      rw [List.find?_append]
      have h1 : newer.find? (fun p => decide (t.compare key p.2.target.key = 0)) = none := by
        apply List.find?_eq_none.mpr
        intro p hp
        simpa using hnewer p hp
      rw [h1]
      simp [List.find?_cons, he]
    rw [this]
    rfl

theorem sampleTable_built : TableBuilt sampleTableMem sampleTable sampleLog := by
  have h0 : TableBuilt sampleTableMem0 sampleTable [] :=
    TableBuilt.init emptyTableMem 0 4 (fun k => k) natCompare
  have h1 : TableBuilt sampleTableMem1 sampleTable
      [(1, ⟨100, KeyValue_create 1 false 10 false⟩)] :=
    TableBuilt.insert_direct sampleTableMem0 sampleTable [] 1 false 10 false 100 1
      (⟨100, KeyValue_create 1 false 10 false⟩, sampleTableMem1) h0 (by simp) rfl
  exact TableBuilt.insert_direct sampleTableMem1 sampleTable _ 1 false 11 false 101 2
    (⟨101, KeyValue_create 1 false 11 false⟩, sampleTableMem) h1 (by simp) rfl

theorem sampleTable_consistent :
    ∀ a b, sampleTable.compare a b = 0 → sampleTable.hash a = sampleTable.hash b := by
  intro a b h
  have h1 : natCompare a b = 0 := h
  unfold natCompare at h1
  show a = b
  omega

theorem C22_find_returns_most_recent_witness :
    TableBuilt sampleTableMem sampleTable sampleLog ∧ 0 < sampleTable.lines ∧
    (∀ a b, sampleTable.compare a b = 0 → sampleTable.hash a = sampleTable.hash b) ∧
    sampleLog.length < 3 ∧
    (TableRepr sampleTableMem sampleTable sampleLog ∧
    HashTable_find 3 sampleTableMem sampleTable 1
      = some ((sampleLog.find?
          (fun p => decide (sampleTable.compare 1 p.2.target.key = 0))).map Prod.snd) ∧
    ((∀ p ∈ sampleLog, sampleTable.compare 1 p.2.target.key ≠ 0) →
      HashTable_find 3 sampleTableMem sampleTable 1 = some none) ∧
    (∀ newer e older, sampleLog = newer ++ e :: older →
      sampleTable.compare 1 e.2.target.key = 0 →
      (∀ p ∈ newer, sampleTable.compare 1 p.2.target.key ≠ 0) →
      HashTable_find 3 sampleTableMem sampleTable 1 = some (some e.2))) :=
  ⟨sampleTable_built, by decide, sampleTable_consistent, by decide,
    C22_find_returns_most_recent sampleTableMem sampleTable sampleLog sampleTable_built
      (by decide) sampleTable_consistent 3 (by decide) 1⟩

theorem sampleTable_find :
    (HashTable_find 3 sampleTableMem sampleTable 1).map (fun r => r.map (fun e => e.addr))
      = some (some 101) ∧
    (HashTable_find 3 sampleTableMem sampleTable 5).map (fun r => r.map (fun e => e.addr))
      = some none := by
  decide

theorem insertedTable_inserted : TableInserted insertedTableMem sampleTable insertedLog := by
  have h0 : TableInserted sampleTableMem0 sampleTable [] :=
    TableInserted.init emptyTableMem 0 4 (fun k => k) natCompare
  have h1 : TableInserted insertedTableMem1 sampleTable
      [(1, ⟨100, KeyValue_create 1 false 10 false⟩)] :=
    TableInserted.insert sampleTableMem0 sampleTable [] 3 1 false 10 false none 100 1
      (true, none, insertedTableMem1) h0 (by simp) (by decide) rfl
  exact TableInserted.insert insertedTableMem1 sampleTable _ 3 5 false 50 false none 101 2
    (true, none, insertedTableMem) h1 (by simp) (by decide) rfl

theorem sampleTable_symmetric :
    ∀ a b, sampleTable.compare a b = 0 → sampleTable.compare b a = 0 := by
  intro a b h
  have h1 : natCompare a b = 0 := h
  show natCompare b a = 0
  unfold natCompare at h1 ⊢
  omega

/-- Claim C23: in every table built by `HashTable_initialize`, insertions,
erasures and clearings that has `lines > 0` and a hash giving equal hashes to
keys that compare equal, with `log` its stored entries, the most recently
inserted first, `HashTable_insert` run with more fuel than there are entries
and a node address not in use does this.  If a stored entry has
`compare(key, entry.key) == 0`, it returns false, `*result` (when `result` is
not `NULL`) becomes the most recently inserted of the stored entries that
compare equal, and the memory is the one it was called on.  If none has, it
returns true, `*result` becomes the new entry, and the table holds the new
entry in front of the old ones.  In a table populated only through
`HashTable_insert` no two stored entries have keys that compare equal: for
each stored entry and each entry stored before it, `compare(newer.key,
older.key)` is not 0, and when `compare` reports equality in both argument
orders alike, neither is `compare(older.key, newer.key)`. -/
theorem C23_insert_respects_key_conflicts {K V : Type} (m : ListMem (KeyValueRef K V))
    (t : HashTable K V) (log : List (Nat × KeyValueRef K V)) (hb : TableBuilt m t log)
    (hl : 0 < t.lines) (hcons : ∀ a b, t.compare a b = 0 → t.hash a = t.hash b)
    (fuel : Nat) (hf : log.length < fuel) (key : K) (owns_key : Bool) (value : V)
    (owns_value : Bool) (result : Option (Option (KeyValueRef K V)))
    (entry_addr node_addr : Nat) (hna : node_addr ∉ log.map Prod.fst) :
    ((∃ p ∈ log, t.compare key p.2.target.key = 0) →
      ∃ newer e older, log = newer ++ e :: older ∧ t.compare key e.2.target.key = 0 ∧
        (∀ p ∈ newer, t.compare key p.2.target.key ≠ 0) ∧
        HashTable_insert fuel m t key owns_key value owns_value result entry_addr node_addr
          = some (false, result.map (fun _ => some e.2), m)) ∧
    ((∀ p ∈ log, t.compare key p.2.target.key ≠ 0) →
      ∃ m1, HashTable_insert fuel m t key owns_key value owns_value result entry_addr node_addr
          = some (true, result.map (fun _ =>
              some ⟨entry_addr, KeyValue_create key owns_key value owns_value⟩), m1) ∧
        TableRepr m1 t
          ((node_addr, ⟨entry_addr, KeyValue_create key owns_key value owns_value⟩) :: log) ∧
        TableBuilt m1 t
          ((node_addr, ⟨entry_addr, KeyValue_create key owns_key value owns_value⟩) :: log)) ∧
    (TableInserted m t log →
      log.Pairwise (fun newer older =>
        t.compare newer.2.target.key older.2.target.key ≠ 0 ∧
        ((∀ a b, t.compare a b = 0 → t.compare b a = 0) →
          t.compare older.2.target.key newer.2.target.key ≠ 0))) := by
  have hr := built_table_repr m t log hb
  have hl1 := Nat.pos_iff_ne_zero.mp hl
  have hfind := find_table_consistent m t log hr hl1 hcons fuel hf key
  have hins := insert_table m t log hr hl1 fuel hf key owns_key value owns_value result
    entry_addr node_addr hna
  refine ⟨?_, ?_, fun hi => ?_⟩
  · rintro ⟨q, hq, hqc⟩
    cases hx : log.find? (fun p => decide (t.compare key p.2.target.key = 0)) with
    | none =>
      have := List.find?_eq_none.mp hx q hq
      simp [hqc] at this
    | some p =>
      obtain ⟨hp, newer, older, hlog, hnewer⟩ := List.find?_eq_some.mp hx
      simp only [decide_eq_true_eq] at hp
      refine ⟨newer, p, older, hlog, hp, ?_, ?_⟩
      · intro a ha
        have := hnewer a ha
        simpa using this
      · rw [hx] at hfind
        rcases hins with ⟨found, h0, h1⟩ | ⟨m1, h0, -, -⟩
        · rw [h0] at hfind
          simp only [Option.map_some', Option.some.injEq] at hfind
          rw [h1, hfind]
        · rw [h0] at hfind
          simp at hfind
  · intro hno
    have hx : log.find? (fun p => decide (t.compare key p.2.target.key = 0)) = none := by
      apply List.find?_eq_none.mpr
      intro p hp
      simpa using hno p hp
    rw [hx] at hfind
    rcases hins with ⟨found, h0, -⟩ | ⟨m1, -, h1, h2⟩
    · rw [h0] at hfind
      simp at hfind
    · refine ⟨m1, h1, h2, ?_⟩
      have := TableBuilt.insert m t log fuel key owns_key value owns_value result entry_addr
        node_addr _ hb hna hf h1
      simpa using this
  · refine (inserted_pairwise m t log hi hcons).imp ?_
    intro a b hab
    exact ⟨hab, fun hsym hba => hab (hsym _ _ hba)⟩

/-- Instance of C23: the table holding the keys 5 and 1, both stored by
`HashTable_insert`, asked to insert key 5 again. -/
theorem C23_insert_respects_key_conflicts_witness :
    TableBuilt insertedTableMem sampleTable insertedLog ∧ 0 < sampleTable.lines ∧
    (∀ a b, sampleTable.compare a b = 0 → sampleTable.hash a = sampleTable.hash b) ∧
    insertedLog.length < 3 ∧ 3 ∉ insertedLog.map Prod.fst ∧
    TableInserted insertedTableMem sampleTable insertedLog ∧
    (∃ p ∈ insertedLog, sampleTable.compare 5 p.2.target.key = 0) ∧
    (((∃ p ∈ insertedLog, sampleTable.compare 5 p.2.target.key = 0) →
      ∃ newer e older, insertedLog = newer ++ e :: older ∧
        sampleTable.compare 5 e.2.target.key = 0 ∧
        (∀ p ∈ newer, sampleTable.compare 5 p.2.target.key ≠ 0) ∧
        HashTable_insert 3 insertedTableMem sampleTable 5 false 51 false (some none) 102 3
          = some (false, (some none : Option (Option (KeyValueRef Nat Nat))).map
              (fun _ => some e.2), insertedTableMem)) ∧
    ((∀ p ∈ insertedLog, sampleTable.compare 5 p.2.target.key ≠ 0) →
      ∃ m1, HashTable_insert 3 insertedTableMem sampleTable 5 false 51 false (some none) 102 3
          = some (true, (some none : Option (Option (KeyValueRef Nat Nat))).map (fun _ =>
              some ⟨102, KeyValue_create 5 false 51 false⟩), m1) ∧
        TableRepr m1 sampleTable
          ((3, ⟨102, KeyValue_create 5 false 51 false⟩) :: insertedLog) ∧
        TableBuilt m1 sampleTable
          ((3, ⟨102, KeyValue_create 5 false 51 false⟩) :: insertedLog)) ∧
    (TableInserted insertedTableMem sampleTable insertedLog →
      insertedLog.Pairwise (fun newer older =>
        sampleTable.compare newer.2.target.key older.2.target.key ≠ 0 ∧
        ((∀ a b, sampleTable.compare a b = 0 → sampleTable.compare b a = 0) →
          sampleTable.compare older.2.target.key newer.2.target.key ≠ 0)))) :=
  ⟨inserted_built _ _ _ insertedTable_inserted, by decide, sampleTable_consistent, by decide,
    by decide, insertedTable_inserted,
    ⟨(2, ⟨101, KeyValue_create 5 false 50 false⟩), by simp [insertedLog], by decide⟩,
    C23_insert_respects_key_conflicts insertedTableMem sampleTable insertedLog
      (inserted_built _ _ _ insertedTable_inserted) (by decide) sampleTable_consistent 3
      (by decide) 5 false 51 false (some none) 102 3 (by decide)⟩

theorem insertedTable_conflict :
    (HashTable_insert 3 insertedTableMem sampleTable 5 false 51 false (some none) 102 3).map
        (fun r => (r.1, r.2.1.map (fun e => e.map (fun e1 => (e1.addr, e1.target.value)))))
      = some (false, some (some (101, 50))) ∧
    (HashTable_insert 3 insertedTableMem sampleTable 9 false 90 false (some none) 102 3).map
        (fun r => (r.1, r.2.1.map (fun e => e.map (fun e1 => (e1.addr, e1.target.value)))))
      = some (true, some (some (102, 90))) := by
  decide

/-! ## Structured pull at the end of the stream -/

/-- Claim C30 (evaluation): in `drainedReader` the end-of-stream flag is clear
while the stream has already met its end on the short read of the previous
pull.  The structured pull made in this state reports no data and copies no
redundancy byte (indices 0 and 1 keep `00 08` although the redundancy region
holds `AA 08`), and it changes the state: it sets the end-of-stream flag. -/
theorem C30_pull_at_stream_end_sets_flag :
    drainedReader.map (fun s => (s.eof, s.stream_.map (fun f => f.eofInd), s.bits_read))
      = some (false, some true, 0) ∧
    drainedReader.map (fun s => ((BitIO_pull_BitIO_ s).1, (BitIO_pull_BitIO_ s).2.eof))
      = some (false, true) ∧
    drainedReader.map (fun s => (s.buffer_.drop 1024, s.buffer_.take 2,
        (BitIO_pull_BitIO_ s).2.buffer_.take 2))
      = some ([0xAA, 0x08], [0, 0x08], [0, 0x08]) ∧
    drainedReader.map (fun s => decide ((BitIO_pull_BitIO_ s).2 = s)) = some false := by
  decide

/-! ## The end of the stream -/

theorem pull_structured_true (io : BitIO) (h : (BitIO_pull_BitIO_ io).1 = true) :
    (BitIO_pull_BitIO_ io).2.eof = io.eof ∧ (BitIO_pull_BitIO_ io).2.status_ = io.status_ := by
  unfold BitIO_pull_BitIO_ at h ⊢
  by_cases he : io.eof = true
  · simp [he] at h
  · simp only [he, Bool.false_eq_true, if_false] at h ⊢
    cases hs : io.stream_ with
    | none => simp [hs] at h
    | some f =>
      simp only [hs] at h ⊢
      by_cases hf : f.eofInd = true
      · simp [hf] at h
      · simp only [hf, Bool.false_eq_true, if_false]
        exact ⟨trivial, trivial⟩

theorem pull_plain_true (io : BitIO) (h : (BitIO_pull_regular_ io).1 = true) :
    (BitIO_pull_regular_ io).2.eof = io.eof ∧ (BitIO_pull_regular_ io).2.status_ = io.status_ := by
  unfold BitIO_pull_regular_ at h ⊢
  by_cases he : io.eof = true
  · simp [he] at h
  · simp only [he, Bool.false_eq_true, if_false] at h ⊢
    cases hs : io.stream_ with
    | none => simp [hs] at h
    | some f =>
      simp only [hs] at h ⊢
      by_cases hf : f.eofInd = true
      · simp [hf] at h
      · simp only [hf, Bool.false_eq_true, if_false]
        exact ⟨trivial, trivial⟩

theorem streamOperation_true (io : BitIO) (h : (streamOperation io).1 = true) :
    (streamOperation io).2.eof = io.eof ∧ (streamOperation io).2.status_ = io.status_ := by
  unfold streamOperation at h ⊢
  cases ho : io.streamOperation_ with
  | null => simp [ho] at h
  | pull_BitIO => simp only [ho] at h ⊢; exact pull_structured_true io h
  | pull_regular => simp only [ho] at h ⊢; exact pull_plain_true io h
  | push => exact ⟨rfl, rfl⟩

theorem advanceRead_true (io : BitIO) (h : (BitIO_advanceReadBufferPointer_ io).1 = true) :
    (BitIO_advanceReadBufferPointer_ io).2.eof = io.eof ∧
    (BitIO_advanceReadBufferPointer_ io).2.status_ = io.status_ := by
  unfold BitIO_advanceReadBufferPointer_ at h ⊢
  by_cases hb : io.bits_read = 0
  · simp only [hb, if_true] at h ⊢
    by_cases hr : (streamOperation io).1 = false
    · simp [hr] at h
    · simp only [hr, if_false]
      exact streamOperation_true io (by simpa using hr)
  · simp only [hb, if_false]
    exact ⟨trivial, trivial⟩

/-- A call of `BitIO_get` after which `BitIO_eof` is true has returned the end
marker. -/
theorem get_eof_marker (io : BitIO) (h : BitIO_eof (BitIO_get io).2 = true) :
    (BitIO_get io).1 = EOF_uchar := by
  unfold BitIO_get at h ⊢
  by_cases hc : BitIO_check_ io false = true
  · simp [hc]
  · by_cases he : BitIO_eof io = true
    · simp [hc, he]
    · simp only [hc, he, Bool.false_eq_true, if_false] at h ⊢
      have hst : io.status_ = BitIOStatus.Read := by
        unfold BitIO_check_ at hc
        cases hs : io.status_ <;> simp [hs] at hc ⊢
      have heof : io.eof = false := by
        unfold BitIO_eof at he
        rw [hst] at he
        simpa using he
      by_cases ha : io.bits_available = 0
      · simp only [ha, if_true] at h ⊢
        by_cases hr : (BitIO_advanceReadBufferPointer_ io).1 = false
        · simp [hr]
        · simp only [hr, if_false] at h ⊢
          have := advanceRead_true io (by simpa using hr)
          unfold BitIO_eof at h
          simp only [ BitIO.setCur, this.2, hst, this.1, heof] at h
          exact absurd h (by simp)
      · simp only [ha, if_false] at h ⊢
        unfold BitIO_eof at h
        simp only [ BitIO.setCur, hst, heof] at h
        exact absurd h (by simp)

theorem getN_fst_length (n : Nat) : ∀ io : BitIO, (getN n io).1.length = n := by
  induction n with
  | zero => intro io; rfl
  | succ n ih =>
    intro io
    rw [getN]
    simp only [List.length_cons]
    rw [ih]

theorem getN_succ_last (n : Nat) (io : BitIO) :
    getN (n + 1) io =
      ((getN n io).1 ++ [(BitIO_get (getN n io).2).1], (BitIO_get (getN n io).2).2) := by
  rw [getN_add n 1 io]
  rfl

/-- A call of `BitIO_get` that returns anything but the end marker was made
with `BitIO_eof` false, and leaves `BitIO_eof` false. -/
theorem get_bit_eof (io : BitIO) (h : (BitIO_get io).1 ≠ EOF_uchar) :
    BitIO_eof io = false ∧ BitIO_eof (BitIO_get io).2 = false := by
  constructor
  · by_contra he
    apply h
    unfold BitIO_get
    by_cases hc : BitIO_check_ io false = true
    · simp [hc]
    · have he1 : BitIO_eof io = true := by simpa using he
      simp [hc, he1]
  · by_contra he
    exact h (get_eof_marker io (by simpa using he))

/-- The calls of `BitIO_get` that return the bits `bits`, one after the other:
each returns its bit, and `BitIO_eof` is false before and after each of them. -/
theorem getN_bits_eof (io : BitIO) (bits rest : List Nat) (j : Nat)
    (hall : ∀ x ∈ bits, x ≠ EOF_uchar)
    (h : (getN (bits.length + j) io).1 = bits ++ rest) :
    (∀ k, k < bits.length → (BitIO_get (getN k io).2).1 = bits.getD k 0) ∧
    (1 ≤ bits.length → ∀ k, k ≤ bits.length → BitIO_eof (getN k io).2 = false) := by
  have hget : ∀ k, k < bits.length → (BitIO_get (getN k io).2).1 = bits.getD k 0 := by
    intro k hk
    have e : bits.length + j = (k + 1) + (bits.length + j - (k + 1)) := by omega
    rw [e, getN_add, getN_succ_last] at h
    simp only at h
    have h1 := congrArg (fun l => l.getD k 0) h
    simp only at h1
    have hl := getN_fst_length k io
    rw [List.append_assoc, List.getD_append_right _ _ _ _ (by omega), hl, Nat.sub_self] at h1
    rw [List.getD_append _ _ _ _ hk] at h1
    simpa using h1
  refine ⟨hget, ?_⟩
  intro h1 k hk
  have hbit : ∀ i, i < bits.length → (BitIO_get (getN i io).2).1 ≠ EOF_uchar := by
    intro i hi
    rw [hget i hi, List.getD_eq_getElem _ _ hi]
    exact hall _ (List.getElem_mem _)
  by_cases hlt : k < bits.length
  · exact (get_bit_eof _ (hbit k hlt)).1
  · have hk1 : k = (k - 1) + 1 := by omega
    rw [hk1, getN_succ_last]
    exact (get_bit_eof _ (hbit (k - 1) (by omega))).2

theorem bitAt_le_one (bytes : List Nat) (i : Nat) : bitAt bytes i ≤ 1 := by
  unfold bitAt
  omega

theorem map_bitAt_no_marker (bytes : List Nat) (n : Nat) :
    ∀ x ∈ (List.range n).map (bitAt bytes), x ≠ EOF_uchar := by
  intro x hx
  obtain ⟨i, _, rfl⟩ := List.mem_map.mp hx
  have := bitAt_le_one bytes i
  unfold EOF_uchar
  omega

theorem structured_eof_edge (nd : Bool) (buf : List Nat) (fo : Option FILE) (modes : Nat)
    (c : List Nat) (t : Nat)
    (hbuf : buf.length = BitIO_BufferSize + BitIO_BufferRedundancy)
    (hmodes : detectingReadRequest modes = true)
    (hc : 1 ≤ c.length) (ht1 : 1 ≤ t) (ht8 : t ≤ 8) (hbytes : ∀ x ∈ c, x < 256) :
    ∃ io, BitIO_open nd (BitIO_create buf)
        (some ⟨FILE.input (BitIO_Signature ++ c ++ [t]), fo⟩) modes = some ⟨true, io, none⟩ ∧
      (∀ k, k ≤ 8 * (c.length - 1) + t → BitIO_eof (getN k io).2 = false) ∧
      (BitIO_get (getN (8 * (c.length - 1) + t - 1) io).2).1
        = bitAt c (8 * (c.length - 1) + t - 1) ∧
      (BitIO_get (getN (8 * (c.length - 1) + t) io).2).1 = EOF_uchar ∧
      BitIO_eof (BitIO_get (getN (8 * (c.length - 1) + t) io).2).2 = true := by
  obtain ⟨io, ho, hr⟩ := open_read_ready nd buf fo modes (c ++ [t]) hbuf hmodes
    (by rw [List.length_append]; simp; omega)
  obtain ⟨io1, g1, g2, g3⟩ := read_all c t io hr hc ht1 ht8 hbytes
  rw [List.append_assoc]
  refine ⟨io, ho, ?_⟩
  generalize hN : 8 * (c.length - 1) + t = N at g1 ⊢
  have hlen : ((List.range N).map (bitAt c)).length = N := by simp
  have h := getN_bits_eof io ((List.range N).map (bitAt c)) [EOF_uchar] 1
    (map_bitAt_no_marker c N) (by rw [hlen, g1])
  rw [hlen] at h
  have hlast := getN_succ_last N io
  rw [g1] at hlast
  have e1 := congrArg Prod.fst hlast
  have e2 := congrArg Prod.snd hlast
  simp only at e1 e2
  have hl := getN_fst_length N io
  have e3 := congrArg (fun l => l.getD N 0) e1
  simp only at e3
  rw [List.getD_append_right _ _ _ _ (by omega), List.getD_append_right _ _ _ _ (by omega),
    hl, hlen, Nat.sub_self] at e3
  refine ⟨h.2 (by omega), ?_, ?_, ?_⟩
  · rw [h.1 (N - 1) (by omega), List.getD_eq_getElem _ _ (by rw [hlen]; omega)]
    simp
  · simpa using e3.symm
  · rw [← e2]
    unfold BitIO_eof
    rw [g2]
    exact g3

theorem plain_eof_edge (nd : Bool) (buf : List Nat) (src : Source) (modes : Nat)
    (hbuf : buf.length = BitIO_BufferSize + BitIO_BufferRedundancy)
    (hfresh : src.file.eofInd = false)
    (hbytes : ∀ x ∈ src.file.bytes, x < 256)
    (hmodes : plainReadRequest modes src.file.bytes = true)
    (hne : 1 ≤ src.file.bytes.length) :
    ∃ io, BitIO_open nd (BitIO_create buf) (some src) modes = some ⟨true, io, none⟩ ∧
      (∀ k, k ≤ 8 * src.file.bytes.length → BitIO_eof (getN k io).2 = false) ∧
      (BitIO_get (getN (8 * src.file.bytes.length - 1) io).2).1
        = bitAt src.file.bytes (8 * src.file.bytes.length - 1) ∧
      (BitIO_get (getN (8 * src.file.bytes.length) io).2).1 = EOF_uchar := by
  obtain ⟨io, ho, hl⟩ := open_plain_loaded nd buf src modes hbuf hfresh hmodes
  refine ⟨io, ho, ?_⟩
  have h0 := plain_all io _ _ hl (fun x hx => hbytes x (List.mem_of_mem_take hx))
    (fun x hx => hbytes x (List.mem_of_mem_drop hx)) 1
  rw [List.take_append_drop] at h0
  generalize hN : 8 * src.file.bytes.length = N at h0 ⊢
  have hlen : ((List.range N).map (bitAt src.file.bytes)).length = N := by simp
  have h := getN_bits_eof io ((List.range N).map (bitAt src.file.bytes)) [EOF_uchar] 1
    (map_bitAt_no_marker _ N) (by rw [hlen, h0]; rfl)
  rw [hlen] at h
  have hlast := getN_succ_last N io
  have e1 := congrArg Prod.fst hlast
  simp only at e1
  rw [h0] at e1
  have hl := getN_fst_length N io
  have e3 := congrArg (fun l => l.getD N 0) e1
  simp only at e3
  rw [List.getD_append_right _ _ _ _ (by omega), List.getD_append_right _ _ _ _ (by omega),
    hl, hlen, Nat.sub_self] at e3
  refine ⟨h.2 (by omega), ?_, ?_⟩
  · rw [h.1 (N - 1) (by omega), List.getD_eq_getElem _ _ (by rw [hlen]; omega)]
    simp
  · simpa using e3.symm

/-- Claim C31 (counterexample): the structured source `42 69 74 49 4F AA 08`
holds eight bits.  `BitIO_eof` is false before the eighth `BitIO_get`, which
returns the final bit, and it is still false immediately after that call;
only the ninth call, which returns the end marker, makes it true. -/
theorem C31_eof_false_after_final_bit :
    (openedReader [0x42, 0x69, 0x74, 0x49, 0x4F, 0xAA, 0x08]).map
        (fun io => ((getN 8 io).1, BitIO_eof (getN 7 io).2, BitIO_eof (getN 8 io).2))
      = some ([1, 0, 1, 0, 1, 0, 1, 0], false, false) ∧
    (openedReader [0x42, 0x69, 0x74, 0x49, 0x4F, 0xAA, 0x08]).map
        (fun io => ((BitIO_get (getN 8 io).2).1, BitIO_eof (BitIO_get (getN 8 io).2).2))
      = some (255, true) := by
  decide

/-- Claim C31, amended: on a stream that holds `n ≥ 1` valid bits, `BitIO_eof`
is false after each of the first `n` calls of `BitIO_get` and before the first:
it is false immediately before the call that consumes the final valid bit and
still false immediately after it.  The next call returns the end marker; on a
structured stream (signature, content bytes `c`, trailer `1 ≤ t ≤ 8`)
`BitIO_eof` is true immediately after that call.  The second part is the same
for a source read as plain, except that nothing is said of `BitIO_eof` after
the call that returns the end marker. -/
theorem C31_eof_around_final_bit (nd : Bool) (buf : List Nat)
    (hbuf : buf.length = BitIO_BufferSize + BitIO_BufferRedundancy) :
    (∀ (fo : Option FILE) (modes : Nat) (c : List Nat) (t : Nat),
      detectingReadRequest modes = true → 1 ≤ c.length → 1 ≤ t → t ≤ 8 →
      (∀ x ∈ c, x < 256) →
      ∃ io, BitIO_open nd (BitIO_create buf)
          (some ⟨FILE.input (BitIO_Signature ++ c ++ [t]), fo⟩) modes = some ⟨true, io, none⟩ ∧
        (∀ k, k ≤ 8 * (c.length - 1) + t → BitIO_eof (getN k io).2 = false) ∧
        (BitIO_get (getN (8 * (c.length - 1) + t - 1) io).2).1
          = bitAt c (8 * (c.length - 1) + t - 1) ∧
        (BitIO_get (getN (8 * (c.length - 1) + t) io).2).1 = EOF_uchar ∧
        BitIO_eof (BitIO_get (getN (8 * (c.length - 1) + t) io).2).2 = true) ∧
    (∀ (src : Source) (modes : Nat),
      src.file.eofInd = false → (∀ x ∈ src.file.bytes, x < 256) →
      plainReadRequest modes src.file.bytes = true → 1 ≤ src.file.bytes.length →
      ∃ io, BitIO_open nd (BitIO_create buf) (some src) modes = some ⟨true, io, none⟩ ∧
        (∀ k, k ≤ 8 * src.file.bytes.length → BitIO_eof (getN k io).2 = false) ∧
        (BitIO_get (getN (8 * src.file.bytes.length - 1) io).2).1
          = bitAt src.file.bytes (8 * src.file.bytes.length - 1) ∧
        (BitIO_get (getN (8 * src.file.bytes.length) io).2).1 = EOF_uchar) :=
  ⟨fun fo modes c t hm hc h1 h8 hb => structured_eof_edge nd buf fo modes c t hbuf hm hc h1 h8 hb,
   fun src modes hf hb hm hne => plain_eof_edge nd buf src modes hbuf hf hb hm hne⟩

/-- Instance of C31: the structured source with content `B2 80` and trailer 1
(nine bits), and the plain source `01 02 03`. -/
theorem C31_eof_around_final_bit_witness :
    (List.replicate 1026 0).length = BitIO_BufferSize + BitIO_BufferRedundancy ∧
    (∃ io, BitIO_open false (BitIO_create (List.replicate 1026 0))
        (some ⟨FILE.input (BitIO_Signature ++ [0xB2, 0x80] ++ [1]), none⟩) 0
          = some ⟨true, io, none⟩ ∧
      (∀ k, k ≤ 8 * ([0xB2, 0x80].length - 1) + 1 → BitIO_eof (getN k io).2 = false) ∧
      (BitIO_get (getN (8 * ([0xB2, 0x80].length - 1) + 1 - 1) io).2).1
        = bitAt [0xB2, 0x80] (8 * ([0xB2, 0x80].length - 1) + 1 - 1) ∧
      (BitIO_get (getN (8 * ([0xB2, 0x80].length - 1) + 1) io).2).1 = EOF_uchar ∧
      BitIO_eof (BitIO_get (getN (8 * ([0xB2, 0x80].length - 1) + 1) io).2).2 = true) ∧
    (∃ io, BitIO_open false (BitIO_create (List.replicate 1026 0))
        (some (Source.mk (FILE.input [1, 2, 3]) none)) 0 = some ⟨true, io, none⟩ ∧
      (∀ k, k ≤ 8 * (Source.mk (FILE.input [1, 2, 3]) none).file.bytes.length →
        BitIO_eof (getN k io).2 = false) ∧
      (BitIO_get (getN (8 * (Source.mk (FILE.input [1, 2, 3]) none).file.bytes.length - 1)
          io).2).1
        = bitAt (Source.mk (FILE.input [1, 2, 3]) none).file.bytes
            (8 * (Source.mk (FILE.input [1, 2, 3]) none).file.bytes.length - 1) ∧
      (BitIO_get (getN (8 * (Source.mk (FILE.input [1, 2, 3]) none).file.bytes.length)
          io).2).1 = EOF_uchar) :=
  ⟨List.length_replicate _ _,
   (C31_eof_around_final_bit false (List.replicate 1026 0) (List.length_replicate _ _)).1
     none 0 [0xB2, 0x80] 1 (by decide) (by decide) (by decide) (by decide) (by decide),
   (C31_eof_around_final_bit false (List.replicate 1026 0) (List.length_replicate _ _)).2
     (Source.mk (FILE.input [1, 2, 3]) none) 0 rfl (by decide) (by decide) (by decide)⟩

/-- Claim C32 (evaluation): on `tenBitSource`, five calls of `BitIO_get` and a
`BitIO_read` of 5 bits take the ten bits and leave `bits_available = 3` with
nothing pending.  A `BitIO_read` of 4 bits then finds the end of the stream,
and the next `BitIO_get` returns the end marker.  The `BitIO_read` of 4 bits
that follows the end marker does not return 0: it reports 3 bits. -/
theorem C32_read_after_end_marker_reports_bits :
    (openedReader tenBitSource).bind
        (fun io => (BitIO_read 4 (getN 5 io).2 [0] 5).map
          (fun q => ((getN 5 io).1, q.1, q.2.1)))
      = some ([1, 1, 1, 1, 1], 5, [0xF8]) ∧
    (openedReader tenBitSource).bind
        (fun io => (BitIO_read 4 (getN 5 io).2 [0] 5).map
          (fun q => (q.2.2.bits_available, q.2.2.bits_read, q.2.2.eof)))
      = some (3, 0, false) ∧
    (openedReader tenBitSource).bind
        (fun io => (BitIO_read 4 (getN 5 io).2 [0] 5).bind
          (fun q => (BitIO_read 4 q.2.2 [0] 4).map
            (fun q2 => (q2.1, q2.2.2.eof, (BitIO_get q2.2.2).1))))
      = some (3, true, 255) ∧
    (openedReader tenBitSource).bind
        (fun io => (BitIO_read 4 (getN 5 io).2 [0] 5).bind
          (fun q => (BitIO_read 4 q.2.2 [0] 4).bind
            (fun q2 => (BitIO_read 4 (BitIO_get q2.2.2).2 [0] 4).map (fun q3 => q3.1))))
      = some 3 := by
  decide

/-! ## Write cursor and pushes -/

theorem blocks_setCur {io : BitIO} {base : Nat} (h : WBlocks io base) (v : Nat) :
    WBlocks (io.setCur v) base := by
  obtain ⟨inv, hb⟩ := h
  refine ⟨⟨inv.status, inv.op, inv.cursor, inv.room, ?_, inv.attached⟩, hb⟩
  simpa [ BitIO.setCur] using inv.buflen

theorem blocks_setBits {io : BitIO} {base : Nat} (h : WBlocks io base) (k : Nat) :
    WBlocks { io with bits_written := k } base := by
  obtain ⟨inv, hb⟩ := h
  exact ⟨⟨inv.status, inv.op, inv.cursor, inv.room, inv.buflen, inv.attached⟩, hb⟩

/-- Committing the current byte pushes a whole block or nothing. -/
theorem blocks_advance {io : BitIO} {base : Nat} (h : WBlocks io base) :
    WBlocks (BitIO_advanceWriteBufferPointer_ io) base := by
  obtain ⟨inv, f, k, hf, hk⟩ := h
  have hcur := inv.cursor
  have hroom := inv.room
  have hbl := inv.buflen
  have hB : BitIO_BufferSize = 1024 := rfl
  have e3 : (io.bytes_written + 1) % 65536 = io.bytes_written + 1 := by omega
  unfold BitIO_advanceWriteBufferPointer_
  simp only [e3]
  by_cases hpush : io.bytes_written + 1 = BitIO_BufferSize
  · rw [if_pos hpush]
    simp only [streamOperation, inv.op, BitIO_push_]
    refine ⟨⟨inv.status, rfl, rfl, ?_, hbl, by simp [hf]⟩, ?_⟩
    · show 0 < BitIO_BufferSize
      decide
    · refine ⟨fwrite (io.buffer_.take (io.bytes_written + 1)) f, k + 1, by simp [hf], ?_⟩
      simp only [fwrite, List.length_append, List.length_take]
      rw [hB] at hk hpush ⊢
      omega
  · rw [if_neg hpush]
    refine ⟨⟨inv.status, inv.op, by simp [hcur], ?_, hbl, inv.attached⟩, f, k, hf, hk⟩
    show io.bytes_written + 1 < BitIO_BufferSize
    omega

theorem put_blocks (io : BitIO) (base : Nat) (b : Bool) (h : WBlocks io base) :
    WBlocks (BitIO_put io b) base := by
  unfold BitIO_put
  rw [h.inv.check_write]
  simp only [Bool.false_eq_true, if_false]
  split
  · exact blocks_advance (blocks_setBits (blocks_setBits (blocks_setCur h _) _) 0)
  · exact blocks_setBits (blocks_setCur h _) _

theorem writeBuffer_blocks : ∀ (fuel : Nat) (io : BitIO) (base : Nat) (bits : List Nat)
    (off length : Nat) (io1 : BitIO), WBlocks io base →
    BitIO_writeBuffer_ fuel io bits off length = some io1 → WBlocks io1 base := by
  intro fuel
  induction fuel with
  | zero => intro io base bits off length io1 _ h; simp [BitIO_writeBuffer_] at h
  | succ fuel ih =>
    intro io base bits off length io1 hb h
    rw [BitIO_writeBuffer_] at h
    by_cases h0 : length = 0
    · rw [if_pos h0] at h
      cases h
      exact hb
    · rw [if_neg h0] at h
      obtain ⟨inv, f, k, hf, hk⟩ := hb
      have hcur := inv.cursor
      have hroom := inv.room
      have hbl := inv.buflen
      have hB : BitIO_BufferSize = 1024 := rfl
      have havail : (BitIO_BufferSize + 4294967296 - io.bytes_written) % 4294967296
          = BitIO_BufferSize - io.bytes_written := by
        omega
      simp only [havail] at h
      generalize hws : (if BitIO_BufferSize - io.bytes_written < length
        then BitIO_BufferSize - io.bytes_written else length) = ws at h
      have hws1 : 1 ≤ ws ∧ ws ≤ length ∧ io.bytes_written + ws ≤ BitIO_BufferSize := by
        split at hws <;> omega
      have hcl : ((bits.drop off).take ws).length ≤ ws := by
        simp only [List.length_take]; omega
      have e3 : (io.bytes_written + ws) % 65536 = io.bytes_written + ws := by omega
      have hlen : (memcpyAt io.buffer_ io.current_byte_ ((bits.drop off).take ws)).length
          = io.buffer_.length := memcpyAt_length _ _ _ (by omega)
      refine ih _ base bits _ _ io1 ?_ h
      rw [e3]
      by_cases hpush : ws = BitIO_BufferSize - io.bytes_written
      · rw [if_pos hpush]
        simp only [streamOperation, inv.op, BitIO_push_]
        refine ⟨⟨inv.status, rfl, rfl, ?_, by rw [hlen]; exact hbl, by simp [hf]⟩, ?_⟩
        · show 0 < BitIO_BufferSize
          decide
        · refine ⟨_, k + 1, by simp only [hf, Option.map_some']; rfl, ?_⟩
          simp only [fwrite, List.length_append, List.length_take, hlen]
          rw [hB] at hk hpush ⊢
          omega
      · rw [if_neg hpush]
        refine ⟨⟨inv.status, inv.op, by simp [hcur], ?_, by rw [hlen]; exact hbl,
          inv.attached⟩, f, k, hf, hk⟩
        show io.bytes_written + ws < BitIO_BufferSize
        omega

theorem write_loop_blocks : ∀ (fuel : Nat) (io : BitIO) (base : Nat) (bits : List Nat)
    (off bit_length padding_bits : Nat) (io1 : BitIO), WBlocks io base →
    BitIO_write_loop fuel io bits off bit_length padding_bits = some io1 → WBlocks io1 base := by
  intro fuel
  induction fuel with
  | zero =>
    intro io base bits off bit_length padding_bits io1 _ h
    simp [BitIO_write_loop] at h
  | succ fuel ih =>
    intro io base bits off bit_length padding_bits io1 hb h
    rw [BitIO_write_loop] at h
    by_cases h0 : bit_length = 0
    · rw [if_pos h0] at h
      cases h
      exact hb
    · rw [if_neg h0] at h
      simp only at h
      by_cases h1 : bit_length < padding_bits
      · rw [if_pos h1] at h
        exact ih _ base bits _ _ _ io1 (blocks_setBits (blocks_setCur hb _) _) h
      · rw [if_neg h1] at h
        by_cases h2 : bit_length < CHAR_BIT
        · rw [if_pos h2] at h
          exact ih _ base bits _ _ _ io1
            (blocks_setCur (blocks_setBits
              (blocks_setCur (blocks_advance (blocks_setCur hb _)) _) _) _) h
        · rw [if_neg h2] at h
          exact ih _ base bits _ _ _ io1 (blocks_setCur (blocks_advance (blocks_setCur hb _)) _) h

theorem write_blocks (fuel : Nat) (io : BitIO) (base : Nat) (bits : List Nat) (n : Nat)
    (io1 : BitIO) (hb : WBlocks io base) (h : BitIO_write fuel io bits n = some io1) :
    WBlocks io1 base := by
  unfold BitIO_write at h
  rw [hb.inv.check_write] at h
  simp only [Bool.false_eq_true, if_false] at h
  by_cases hw : io.bits_written = 0
  · rw [if_pos hw] at h
    split at h
    · simp at h
    · rename_i io2 h2
      simp only [Option.some.injEq] at h
      rw [← h]
      exact blocks_setBits (blocks_setCur (writeBuffer_blocks _ _ _ _ _ _ _ hb h2) _) _
  · rw [if_neg hw] at h
    exact write_loop_blocks _ _ _ _ _ _ _ _ hb h

theorem runCalls_blocks (fuel : Nat) : ∀ (calls : List WriteCall) (io : BitIO) (base : Nat)
    (io1 : BitIO), WBlocks io base → runCalls fuel calls io = some io1 → WBlocks io1 base := by
  intro calls
  induction calls with
  | nil =>
    intro io base io1 hb h
    simp only [runCalls, Option.some.injEq] at h
    rw [← h]
    exact hb
  | cons c cs ih =>
    intro io base io1 hb h
    cases c with
    | put b =>
      simp only [runCalls] at h
      exact ih _ base io1 (put_blocks io base b hb) h
    | write bits n =>
      simp only [runCalls] at h
      split at h
      · simp at h
      · rename_i io2 h2
        exact ih _ base io1 (write_blocks fuel io base bits n io2 hb h2) h

/-- A successful write-open of a fresh instance: nothing is committed, and the
sink holds what the writer starts from. -/
theorem open_write_fresh (nd : Bool) (buf : List Nat) (src : Source) (modes : Nat)
    (r : OpenResult) (hbuf : BitIO_BufferSize ≤ buf.length)
    (h : BitIO_open nd (BitIO_create buf) (some src) modes = some r) (hok : r.ok = true)
    (hw : r.io.status_ = BitIOStatus.Write) :
    ∃ f, r.io.stream_ = some f ∧ r.io.bytes_written = 0 ∧
      WRel r.io r.io.plain_ f.bytes [] := by
  unfold BitIO_open at h
  simp only at h
  generalize (if modes = 0 then BitIOOpen_Read else modes) = m at h
  have bad : ∀ x : BitIO, some (OpenResult.mk false x none) = some r → False := by
    intro x hx
    simp only [Option.some.injEq] at hx
    rw [← hx] at hok
    exact absurd hok (by simp)
  split at h
  · exact absurd h (by simp)
  split at h
  · exact (bad _ h).elim
  split at h
  · exact (bad _ h).elim
  split at h
  · exact (bad _ h).elim
  split at h
  · exact (bad _ h).elim
  split at h
  · exact (bad _ h).elim
  · rename_i f hf
    split at h
    · split at h
      · simp only [Option.some.injEq] at h
        rw [← h]
        refine ⟨f, rfl, rfl, ⟨rfl, rfl, rfl, ?_, hbuf, rfl⟩, rfl, ?_, rfl, ?_⟩
        · show 0 < BitIO_BufferSize
          decide
        · simp [producedBytes, fullBytes, BitIO_create, BitIO_initialize_]
        · simp [pendVal, bitsVal, Nat.mod_one]
      · simp only [Option.some.injEq] at h
        rw [← h]
        refine ⟨fwrite BitIO_Signature f, rfl, rfl, ⟨rfl, rfl, rfl, ?_, hbuf, rfl⟩, rfl, ?_,
          rfl, ?_⟩
        · show 0 < BitIO_BufferSize
          decide
        · simp [producedBytes, fwrite, fullBytes, BitIO_create, BitIO_initialize_]
        · simp [pendVal, bitsVal, Nat.mod_one]
    · obtain ⟨a, _, _⟩ := open_read_handle _ _ _ _ _ h hok
      rw [a] at hw
      cases hw

theorem fullBytes_len (e : List Bool) : (fullBytes e).length = e.length / 8 := by
  simp [fullBytes]

theorem packBits_split (e : List Bool) (n : Nat) (hn : n ≤ e.length / 8) :
    packBits e = (fullBytes e).take n ++ (packBits e).drop n ∧
    (packBits e).length = e.length / 8 + (if e.length % 8 = 0 then 0 else 1) := by
  have hpre : ∃ rest, packBits e = fullBytes e ++ rest ∧
      rest.length = (if e.length % 8 = 0 then 0 else 1) := by
    by_cases h : e.length % 8 = 0
    · exact ⟨[], by rw [packBits_aligned e h]; simp, by simp [h]⟩
    · exact ⟨_, packBits_unaligned e h, by simp [h]⟩
  obtain ⟨rest, h1, h2⟩ := hpre
  constructor
  · have : (packBits e).take n = (fullBytes e).take n := by
      rw [h1, List.take_append_of_le_length (by rw [fullBytes_len]; exact hn)]
    rw [← this, List.take_append_drop]
  · rw [h1, List.length_append, fullBytes_len, h2]

/-- The state of a writer after it has emitted the bits `e` from a sink that
held `f0`: cursor, committed bytes and the blocks pushed. -/
theorem blocks_explicit (io1 : BitIO) (pl : Bool) (pre : List Nat) (e : List Bool)
    (hrel : WRel io1 pl pre e) (hb : WBlocks io1 pre.length) :
    ∃ f1, io1.stream_ = some f1 ∧
      io1.bytes_written = e.length / 8 % BitIO_BufferSize ∧
      f1.bytes = pre ++ (fullBytes e).take (BitIO_BufferSize * (e.length / 8 / BitIO_BufferSize)) := by
  obtain ⟨inv, f1, k, hf, hk⟩ := hb
  obtain ⟨_, _, hprod, _, _⟩ := hrel
  have hroom := inv.room
  have hbl := inv.buflen
  have hB : BitIO_BufferSize = 1024 := rfl
  unfold producedBytes at hprod
  rw [hf] at hprod
  simp only at hprod
  have hlen := congrArg List.length hprod
  simp only [List.length_append, List.length_take, fullBytes_len] at hlen
  rw [hB] at hk hroom hbl ⊢
  have hmin : min io1.bytes_written io1.buffer_.length = io1.bytes_written := by omega
  rw [hmin, hk] at hlen
  have hK : k = e.length / 8 / 1024 := by omega
  have hbw : io1.bytes_written = e.length / 8 % 1024 := by omega
  refine ⟨f1, hf, hbw, ?_⟩
  have h1 : f1.bytes = (f1.bytes ++ io1.buffer_.take io1.bytes_written).take f1.bytes.length := by
    rw [List.take_left]
  rw [h1, hprod, hk, List.take_append, hK]

/-- C33: after a successful write-open of a fresh instance, on return from
each call of any sequence of well-formed `BitIO_put` and `BitIO_write` calls
(after every prefix of the sequence) the cursor index equals the number of
committed bytes, which is below 1024 and equals the number of whole bytes
emitted so far modulo 1024, and the sink holds what it held at the open
followed by exactly the whole blocks of 1024 emitted bytes: each push took
place when the 1024th byte of a block was committed.  `BitIO_close` called in
that state then appends the committed bytes and the pending byte, if any, at
most 1024 bytes, followed for a structured writer by the size indicator. -/
theorem C33_write_cursor_in_effective_region (nd : Bool) (buf : List Nat) (src : Source)
    (modes fuel : Nat) (r : OpenResult) (calls : List WriteCall)
    (hbuf : buf.length = BitIO_BufferSize + BitIO_BufferRedundancy)
    (hopen : BitIO_open nd (BitIO_create buf) (some src) modes = some r) (hok : r.ok = true)
    (hw : r.io.status_ = BitIOStatus.Write)
    (hwf : ∀ c ∈ calls, c.wf fuel) :
    ∃ f0, r.io.stream_ = some f0 ∧ ∀ k, ∃ io1 f1,
      runCalls fuel (calls.take k) r.io = some io1 ∧
      io1.status_ = BitIOStatus.Write ∧
      io1.current_byte_ = io1.bytes_written ∧ io1.bytes_written < BitIO_BufferSize ∧
      io1.bytes_written = (emittedAll (calls.take k)).length / 8 % BitIO_BufferSize ∧
      io1.stream_ = some f1 ∧
      f1.bytes = f0.bytes ++ (fullBytes (emittedAll (calls.take k))).take
        (BitIO_BufferSize * ((emittedAll (calls.take k)).length / 8 / BitIO_BufferSize)) ∧
      ∀ nd1 : Bool, ∃ io2 f2 pushed,
        BitIO_close nd1 io1 = some (io2, some f2) ∧
        pushed.length = io1.bytes_written + (if io1.bits_written = 0 then 0 else 1) ∧
        pushed.length ≤ BitIO_BufferSize ∧
        f2.bytes = f1.bytes ++ pushed ++
          (if io1.plain_ then [] else [trailerOf (emittedAll (calls.take k)).length]) := by
  obtain ⟨f0, hf0, hbw0, hrel0⟩ := open_write_fresh nd buf src modes r (by rw [hbuf]; decide)
    hopen hok hw
  refine ⟨f0, hf0, ?_⟩
  intro k
  have hb0 : WBlocks r.io f0.bytes.length := ⟨hrel0.1, f0, 0, hf0, by simp⟩
  obtain ⟨io1, h1, h2⟩ := runCalls_rel fuel (calls.take k) r.io _ f0.bytes [] hrel0
    (take_wf fuel calls hwf k)
  simp only [List.nil_append] at h2
  have hb1 := runCalls_blocks fuel (calls.take k) r.io _ io1 hb0 h1
  obtain ⟨f1, hf1, hbw, hbytes⟩ := blocks_explicit io1 _ f0.bytes _ h2 hb1
  refine ⟨io1, f1, h1, h2.1.status, h2.1.cursor, h2.1.room, hbw, hf1, hbytes, ?_⟩
  intro nd1
  have hB : BitIO_BufferSize = 1024 := rfl
  have hbits : io1.bits_written = (emittedAll (calls.take k)).length % 8 := h2.2.2.2.1
  obtain ⟨hsplit, hplen⟩ := packBits_split (emittedAll (calls.take k))
    (BitIO_BufferSize * ((emittedAll (calls.take k)).length / 8 / BitIO_BufferSize))
    (by rw [hB]; omega)
  have hpl : (List.drop (BitIO_BufferSize * ((emittedAll (calls.take k)).length / 8
      / BitIO_BufferSize)) (packBits (emittedAll (calls.take k)))).length
      = io1.bytes_written + (if io1.bits_written = 0 then 0 else 1) := by
    rw [List.length_drop, hplen, hbw, hbits, hB]
    omega
  have hroom := h2.1.room
  have hple : (List.drop (BitIO_BufferSize * ((emittedAll (calls.take k)).length / 8
      / BitIO_BufferSize)) (packBits (emittedAll (calls.take k)))).length
      ≤ BitIO_BufferSize := by
    rw [hpl]
    split_ifs <;> omega
  cases hp : io1.plain_ with
  | true =>
    have h3 : WRel io1 true f0.bytes (emittedAll (calls.take k)) := by
      have := h2.2.1
      rw [hp] at this
      rw [this]
      exact h2
    obtain ⟨io2, f2, hc, hfb, -, -⟩ := close_rel_plain nd1 io1 f0.bytes _ h3
    refine ⟨io2, f2, _, hc, hpl, hple, ?_⟩
    rw [hfb, hbytes]
    simp only [if_true, List.append_nil, List.append_assoc]
    rw [← hsplit]
  | false =>
    have h3 : WRel io1 false f0.bytes (emittedAll (calls.take k)) := by
      have := h2.2.1
      rw [hp] at this
      rw [this]
      exact h2
    obtain ⟨io2, f2, hc, hfb, -, -⟩ := close_rel nd1 io1 f0.bytes _ h3
    refine ⟨io2, f2, _, hc, hpl, hple, ?_⟩
    rw [hfb, hbytes]
    simp only [Bool.false_eq_true, if_false, List.append_assoc]
    rw [← List.append_assoc ((fullBytes _).take _), ← hsplit]

theorem C33_write_cursor_in_effective_region_witness :
    (List.replicate 1026 0).length = BitIO_BufferSize + BitIO_BufferRedundancy ∧
    (∃ r, BitIO_open false (BitIO_create (List.replicate 1026 0))
        (some (Source.mk FILE.output none)) BitIOOpen_Write = some r ∧ r.ok = true ∧
      r.io.status_ = BitIOStatus.Write ∧
      (∀ c ∈ [WriteCall.write [0xFE] 7, WriteCall.put true], c.wf 4) ∧
      ∃ f0, r.io.stream_ = some f0 ∧ ∀ k, ∃ io1 f1,
        runCalls 4 ([WriteCall.write [0xFE] 7, WriteCall.put true].take k) r.io = some io1 ∧
        io1.status_ = BitIOStatus.Write ∧
        io1.current_byte_ = io1.bytes_written ∧ io1.bytes_written < BitIO_BufferSize ∧
        io1.bytes_written
          = (emittedAll ([WriteCall.write [0xFE] 7, WriteCall.put true].take k)).length / 8
            % BitIO_BufferSize ∧
        io1.stream_ = some f1 ∧
        f1.bytes = f0.bytes ++
          (fullBytes (emittedAll ([WriteCall.write [0xFE] 7, WriteCall.put true].take k))).take
            (BitIO_BufferSize *
              ((emittedAll ([WriteCall.write [0xFE] 7, WriteCall.put true].take k)).length / 8
                / BitIO_BufferSize)) ∧
        ∀ nd1 : Bool, ∃ io2 f2 pushed,
          BitIO_close nd1 io1 = some (io2, some f2) ∧
          pushed.length = io1.bytes_written + (if io1.bits_written = 0 then 0 else 1) ∧
          pushed.length ≤ BitIO_BufferSize ∧
          f2.bytes = f1.bytes ++ pushed ++
            (if io1.plain_ then []
             else [trailerOf
               (emittedAll ([WriteCall.write [0xFE] 7, WriteCall.put true].take k)).length])) := by
  refine ⟨List.length_replicate _ _, ?_⟩
  obtain ⟨io, ho, hr⟩ := open_write_rel false (List.replicate 1026 0)
    (Source.mk FILE.output none) BitIOOpen_Write
    (by rw [List.length_replicate]; decide) (by decide) (by decide) (by decide) (by decide)
    (by decide)
  exact ⟨⟨true, io, none⟩, ho, rfl, hr.1.status, by simp [WriteCall.wf],
    C33_write_cursor_in_effective_region false (List.replicate 1026 0)
      (Source.mk FILE.output none) BitIOOpen_Write 4 ⟨true, io, none⟩
      [WriteCall.write [0xFE] 7, WriteCall.put true]
      (List.length_replicate _ _) ho rfl hr.1.status (by simp [WriteCall.wf])⟩

/-! ## Source indices read by `BitIO_write` -/

theorem writeBuffer_reads_some : ∀ (fuel : Nat) (io : BitIO) (bits : List Nat)
    (off length : Nat),
    (BitIO_writeBuffer_reads fuel io bits off length).isSome
      = (BitIO_writeBuffer_ fuel io bits off length).isSome := by
  intro fuel
  induction fuel with
  | zero => intro io bits off length; rfl
  | succ fuel ih =>
    intro io bits off length
    unfold BitIO_writeBuffer_reads BitIO_writeBuffer_
    by_cases h0 : length = 0
    · simp [h0]
    · simp only [h0, if_false]
      rw [← ih]
      cases BitIO_writeBuffer_reads fuel _ bits _ _ <;> rfl

theorem write_loop_reads_some : ∀ (fuel : Nat) (io : BitIO) (bits : List Nat)
    (off bit_length padding_bits : Nat),
    (BitIO_write_loop_reads fuel io bits off bit_length padding_bits).isSome
      = (BitIO_write_loop fuel io bits off bit_length padding_bits).isSome := by
  intro fuel
  induction fuel with
  | zero => intro io bits off bit_length padding_bits; rfl
  | succ fuel ih =>
    intro io bits off bit_length padding_bits
    unfold BitIO_write_loop_reads BitIO_write_loop
    by_cases h0 : bit_length = 0
    · simp [h0]
    · simp only [h0, if_false]
      by_cases h1 : bit_length < padding_bits
      · simp only [h1, if_true, Option.isSome_map']
        exact ih _ _ _ _ _
      · simp only [h1, if_false]
        by_cases h2 : bit_length < CHAR_BIT
        · simp only [h2, if_true, Option.isSome_map']
          exact ih _ _ _ _ _
        · simp only [h2, if_false, Option.isSome_map']
          exact ih _ _ _ _ _

/-- The reads are defined exactly when `BitIO_write` returns. -/
theorem write_reads_some (fuel : Nat) (io : BitIO) (bits : List Nat) (bit_length : Nat) :
    (BitIO_write_reads fuel io bits bit_length).isSome
      = (BitIO_write fuel io bits bit_length).isSome := by
  unfold BitIO_write_reads BitIO_write
  by_cases hc : BitIO_check_ io true = true
  · simp [hc]
  · simp only [hc, Bool.false_eq_true, if_false]
    by_cases hw : io.bits_written = 0
    · simp only [hw, if_true]
      have := writeBuffer_reads_some fuel io bits 0 (bit_length / CHAR_BIT)
      cases h1 : BitIO_writeBuffer_reads fuel io bits 0 (bit_length / CHAR_BIT) <;>
        cases h2 : BitIO_writeBuffer_ fuel io bits 0 (bit_length / CHAR_BIT) <;>
        simp [h1, h2] at this ⊢
    · simp only [hw, if_false]
      exact write_loop_reads_some _ _ _ _ _ _

theorem writeBuffer_reads_range : ∀ (fuel : Nat) (io : BitIO) (bits : List Nat)
    (off length : Nat) (L : List Nat),
    BitIO_writeBuffer_reads fuel io bits off length = some L →
    ∀ x ∈ L, off ≤ x ∧ x < off + length := by
  intro fuel
  induction fuel with
  | zero => intro io bits off length L h; simp [BitIO_writeBuffer_reads] at h
  | succ fuel ih =>
    intro io bits off length L h x hx
    unfold BitIO_writeBuffer_reads at h
    by_cases h0 : length = 0
    · simp only [h0, if_true, Option.some.injEq] at h
      subst h
      simp at hx
    · simp only [h0, if_false] at h
      split at h
      · simp at h
      · rename_i rest hrest
        simp only [Option.some.injEq] at h
        subst h
        have hws : (if (BitIO_BufferSize + 4294967296 - io.bytes_written) % 4294967296 < length
            then (BitIO_BufferSize + 4294967296 - io.bytes_written) % 4294967296 else length)
            ≤ length := by
          split_ifs <;> omega
        rcases List.mem_append.mp hx with hx | hx
        · rw [List.mem_range'_1] at hx
          omega
        · have := ih _ _ _ _ _ hrest x hx
          omega

theorem write_loop_reads_range : ∀ (fuel : Nat) (io : BitIO) (bits : List Nat)
    (off bit_length padding_bits : Nat) (L : List Nat),
    BitIO_write_loop_reads fuel io bits off bit_length padding_bits = some L →
    ∀ x ∈ L, off ≤ x ∧ x < off + (bit_length + 7) / 8 := by
  intro fuel
  induction fuel with
  | zero => intro io bits off bit_length padding_bits L h; simp [BitIO_write_loop_reads] at h
  | succ fuel ih =>
    intro io bits off bit_length padding_bits L h x hx
    unfold BitIO_write_loop_reads at h
    by_cases h0 : bit_length = 0
    · simp only [h0, if_true, Option.some.injEq] at h
      subst h
      simp at hx
    · simp only [h0, if_false] at h
      have hpos : 0 < (bit_length + 7) / 8 := by omega
      by_cases h1 : bit_length < padding_bits
      · simp only [h1, if_true, Option.map_eq_some'] at h
        obtain ⟨rest, hrest, rfl⟩ := h
        rcases List.mem_cons.mp hx with hx | hx
        · omega
        · have := ih _ _ _ _ _ _ hrest x hx
          omega
      · simp only [h1, if_false] at h
        by_cases h2 : bit_length < CHAR_BIT
        · simp only [h2, if_true, Option.map_eq_some'] at h
          obtain ⟨rest, hrest, rfl⟩ := h
          rcases List.mem_cons.mp hx with hx | hx
          · omega
          · have := ih _ _ _ _ _ _ hrest x hx
            omega
        · simp only [h2, if_false, Option.map_eq_some'] at h
          obtain ⟨rest, hrest, rfl⟩ := h
          unfold CHAR_BIT at h2 hrest
          rcases List.mem_cons.mp hx with hx | hx
          · omega
          · have := ih _ _ _ _ _ _ hrest x hx
            omega

/-- Where `BitIO_write` reads its source: always below `ceil(n / 8)`, except
that an aligned writer asked for a multiple of 8 bits also reads index
`n / 8 = ceil(n / 8)`. -/
theorem write_reads_spec (fuel : Nat) (io : BitIO) (bits : List Nat) (n : Nat) (L : List Nat)
    (hc : BitIO_check_ io true = false) (h : BitIO_write_reads fuel io bits n = some L) :
    (io.bits_written = 0 → n % 8 = 0 → n / 8 ∈ L ∧ (n + 7) / 8 = n / 8) ∧
    (¬ (io.bits_written = 0 ∧ n % 8 = 0) → ∀ x ∈ L, x < (n + 7) / 8) := by
  unfold BitIO_write_reads at h
  simp only [hc, Bool.false_eq_true, if_false] at h
  by_cases hw : io.bits_written = 0
  · simp only [hw, if_true] at h
    split at h
    · simp at h
    · rename_i rest hrest
      simp only [Option.some.injEq] at h
      subst h
      unfold CHAR_BIT at hrest ⊢
      refine ⟨fun _ hn => ⟨by simp, by omega⟩, ?_⟩
      intro hne x hx
      have hn : n % 8 ≠ 0 := fun e => hne ⟨hw, e⟩
      rcases List.mem_append.mp hx with hx | hx
      · have := writeBuffer_reads_range _ _ _ _ _ _ hrest x hx
        omega
      · simp only [List.mem_singleton] at hx
        omega
  · simp only [hw, if_false] at h
    refine ⟨fun e => absurd e hw, ?_⟩
    intro _ x hx
    have := write_loop_reads_range _ _ _ _ _ _ _ h x hx
    omega

/-- Claim C34 (evaluation): a freshly opened structured writer is byte
aligned.  `BitIO_write` with `bit_length = 0` and an empty source reads index
0 of the source, and with `bit_length = 8` and a source of one byte it reads
indices 0 and 1: the read of `bits[byte_length]` is made although no bit of
that byte is wanted.  In general an aligned writer asked for a multiple of 8
bits reads index `n / 8 = ceil(n / 8)`; in every other case all reads are
below `ceil(n / 8)`. -/
theorem C34_aligned_write_reads_past_source :
    (∀ (fuel : Nat) (io : BitIO) (bits : List Nat) (n : Nat) (L : List Nat),
      BitIO_check_ io true = false → BitIO_write_reads fuel io bits n = some L →
      (io.bits_written = 0 → n % 8 = 0 → n / 8 ∈ L ∧ (n + 7) / 8 = n / 8) ∧
      (¬ (io.bits_written = 0 ∧ n % 8 = 0) → ∀ x ∈ L, x < (n + 7) / 8)) ∧
    (∀ (fuel : Nat) (io : BitIO) (bits : List Nat) (n : Nat),
      (BitIO_write_reads fuel io bits n).isSome = (BitIO_write fuel io bits n).isSome) ∧
    freshWriter.map (fun io => (io.status_, io.bits_written))
      = some (BitIOStatus.Write, 0) ∧
    freshWriter.bind (fun io => BitIO_write_reads 2 io [] 0) = some [0] ∧
    freshWriter.bind (fun io => BitIO_write_reads 3 io [0xA5] 8) = some [0, 1] :=
  ⟨fun fuel io bits n L hc h => write_reads_spec fuel io bits n L hc h,
    write_reads_some, by decide, by decide, by decide⟩

/-! ## Hash tables: the size field -/

theorem built_size_zero {K V : Type} (m : ListMem (KeyValueRef K V)) (t : HashTable K V)
    (log : List (Nat × KeyValueRef K V)) (hb : TableBuilt m t log) : t.size = 0 := by
  induction hb with
  | init m index lines hash compare => rfl
  | insert_direct m t log key ok value ov ea na r _ _ _ ih => exact ih
  | insert m t log fuel key ok value ov result ea na r _ _ _ _ ih => exact ih
  | erase m t log fuel hint entry m1 _ _ _ ih => exact ih
  | clear m t log fuel r hprev hf hrun ih =>
    obtain ⟨m1, h1, -⟩ := clear_table m t log (built_table_repr m t log hprev) fuel hf
    rw [h1] at hrun
    cases hrun
    rfl

theorem bucket_count {K V : Type} (t : HashTable K V) (hl : t.lines ≠ 0) :
    ∀ log : List (Nat × KeyValueRef K V),
    ((List.range t.lines).map (fun i => (bucketNodes t i log).length)).sum = log.length := by
  intro log
  induction log with
  | nil => simp [bucketNodes_nil]
  | cons p log ih =>
    have hp : bucketOf t p.2.target.key < t.lines := bucketOf_lt t _ hl
    have step : ∀ n : Nat,
        ((List.range n).map (fun i => (bucketNodes t i (p :: log)).length)).sum
          = ((List.range n).map (fun i => (bucketNodes t i log).length)).sum
            + (if bucketOf t p.2.target.key < n then 1 else 0) := by
      intro n
      induction n with
      | zero => simp
      | succ n ihn =>
        rw [List.range_succ, List.map_append, List.sum_append, List.map_append, List.sum_append,
          ihn]
        simp only [List.map_cons, List.map_nil, List.sum_cons, List.sum_nil, Nat.add_zero,
          bucketNodes_cons]
        by_cases e : bucketOf t p.2.target.key = n
        · have h1 : ¬ bucketOf t p.2.target.key < n := by omega
          have h2 : bucketOf t p.2.target.key < n + 1 := by omega
          simp only [e, if_true, h1, h2, if_false, List.length_cons]
          simp
          omega
        · by_cases h1 : bucketOf t p.2.target.key < n
          · have h2 : bucketOf t p.2.target.key < n + 1 := by omega
            simp only [e, if_false, h1, h2, if_true]
            omega
          · have h2 : ¬ bucketOf t p.2.target.key < n + 1 := by omega
            simp only [e, if_false, h1, h2]
            omega
    rw [step, ih, if_pos hp]
    simp

/-- The entries stored in a represented table are as many as its history
lists. -/
theorem stored_count {K V : Type} (m : ListMem (KeyValueRef K V)) (t : HashTable K V)
    (log : List (Nat × KeyValueRef K V)) (h : TableRepr m t log) (hl : t.lines ≠ 0) :
    storedEntries m t = log.length := by
  unfold storedEntries
  rw [← bucket_count t hl log]
  congr 1
  apply List.map_congr_left
  intro i hi
  exact (h.buckets i (List.mem_range.mp hi)).size

/-- Claim C35 (evaluation): the size field of every table built by
`HashTable_initialize`, insertions, erasures and clearings is 0, whereas the
number of entries in its bucket lists is the number of entries inserted and
not erased.  In `sampleTable`, after two calls of `HashTable_insert_direct`,
the bucket lists hold 2 entries and the size field is 0. -/
theorem C35_size_field_stays_zero :
    (∀ (K V : Type) (m : ListMem (KeyValueRef K V)) (t : HashTable K V)
        (log : List (Nat × KeyValueRef K V)), TableBuilt m t log →
      t.size = 0 ∧ (t.lines ≠ 0 → storedEntries m t = log.length)) ∧
    TableBuilt sampleTableMem sampleTable sampleLog ∧
    storedEntries sampleTableMem sampleTable = 2 ∧
    sampleTable.size = 0 :=
  ⟨fun _ _ m t log hb => ⟨built_size_zero m t log hb,
      fun hl => stored_count m t log (built_table_repr m t log hb) hl⟩,
    sampleTable_built, by decide, by decide⟩

/-! ## Vector: size and capability -/

theorem recap_bound {α : Type} (v : Vector α) (n : Nat) (h : Vector_size v ≤ v.capability) :
    Vector_size (Vector_recap v n) = Vector_size v ∧
    Vector_size (Vector_recap v n) ≤ (Vector_recap v n).capability ∧
    ((Vector_recap v n).capability = v.capability ∨ (Vector_recap v n).capability = n) := by
  unfold Vector_recap
  by_cases c : n = v.capability ∨ n < Vector_size v
  · rw [if_pos c]
    exact ⟨rfl, h, Or.inl rfl⟩
  · rw [if_neg c]
    simp only [not_or, not_lt] at c
    exact ⟨rfl, c.2, Or.inr rfl⟩

theorem emplace_back_bound {α : Type} (v : Vector α) (x : α) (owned : Bool)
    (h : Vector_size v ≤ v.capability) :
    Vector_size (Vector_emplace_back v x owned) = Vector_size v + 1 ∧
    Vector_size v < (Vector_emplace_back v x owned).capability ∧
    (Vector_size v = v.capability →
      (Vector_emplace_back v x owned).capability = 2 * v.capability + 10) ∧
    (Vector_size v < v.capability →
      (Vector_emplace_back v x owned).capability = v.capability) := by
  unfold Vector_emplace_back
  by_cases hfull : Vector_size v = v.capability
  · have hs : (v.capability <<< 1) + VectorEnlargeBias = 2 * v.capability + 10 := by
      rw [Nat.shiftLeft_eq]; unfold VectorEnlargeBias; omega
    have hc : ¬ ((v.capability <<< 1) + VectorEnlargeBias = v.capability ∨
        (v.capability <<< 1) + VectorEnlargeBias < Vector_size v) := by
      rw [hs]; omega
    rw [if_pos hfull]
    unfold Vector_recap
    rw [if_neg hc]
    refine ⟨?_, ?_, fun _ => hs, fun hlt => absurd hlt (by omega)⟩
    · simp [Vector_size]
    · show Vector_size v < (v.capability <<< 1) + VectorEnlargeBias
      rw [hs]; omega
  · rw [if_neg hfull]
    refine ⟨by simp [Vector_size], ?_, fun e => absurd e hfull, fun _ => rfl⟩
    show Vector_size v < v.capability
    omega

theorem pop_back_bound {α : Type} (v : Vector α) (h : Vector_size v ≤ v.capability) :
    Vector_size (Vector_pop_back v) ≤ (Vector_pop_back v).capability ∧
    Vector_size (Vector_pop_back v) = Vector_size v - 1 ∧
    ((Vector_pop_back v).capability = v.capability ∨
      (Vector_pop_back v).capability = v.capability >>> 1) := by
  unfold Vector_pop_back
  by_cases h0 : Vector_size v = 0
  · rw [if_pos h0]
    exact ⟨h, by omega, Or.inl rfl⟩
  · rw [if_neg h0]
    have hlen : Vector_size ({ v with data := v.data.dropLast } : Vector α) = Vector_size v - 1 := by
      simp [Vector_size]
    have hle : Vector_size ({ v with data := v.data.dropLast } : Vector α)
        ≤ ({ v with data := v.data.dropLast } : Vector α).capability := by
      rw [hlen]; show Vector_size v - 1 ≤ v.capability; omega
    by_cases hh : Vector_size ({ v with data := v.data.dropLast } : Vector α)
        < (({ v with data := v.data.dropLast } : Vector α).capability >>> 1)
    · simp only []
      rw [if_pos hh]
      obtain ⟨r1, r2, r3⟩ := recap_bound ({ v with data := v.data.dropLast } : Vector α)
        (({ v with data := v.data.dropLast } : Vector α).capability >>> 1) hle
      exact ⟨r2, by rw [r1, hlen], r3⟩
    · simp only []
      rw [if_neg hh]
      exact ⟨hle, hlen, Or.inl rfl⟩

theorem swap_bound {α : Type} (v : Vector α) (p q : Nat) :
    Vector_size (Vector_swap v p q) = Vector_size v ∧
    (Vector_swap v p q).capability = v.capability := by
  unfold Vector_swap
  by_cases c : p ≥ Vector_size v ∨ q ≥ Vector_size v
  · rw [if_pos c]
    exact ⟨rfl, rfl⟩
  · rw [if_neg c]
    cases hp : v.data[p]? with
    | none => exact ⟨rfl, rfl⟩
    | some a =>
      cases hq : v.data[q]? with
      | none => exact ⟨rfl, rfl⟩
      | some b => exact ⟨by simp [Vector_size], rfl⟩

theorem clear_bound {α : Type} (v : Vector α) :
    Vector_size (Vector_clear v) ≤ (Vector_clear v).capability ∧
    (Vector_clear v).capability < SIZE_RANGE := by
  unfold Vector_clear Vector_size VectorInitialCapability SIZE_RANGE
  simp

theorem create_bound {α : Type} :
    Vector_size (Vector_create : Vector α) ≤ (Vector_create : Vector α).capability ∧
    (Vector_create : Vector α).capability < SIZE_RANGE := by
  unfold Vector_create Vector_size VectorInitialCapability SIZE_RANGE
  simp

theorem reachable_capability {α : Type} (v : Vector α) (hr : VectorReachable v) :
    Vector_size v ≤ v.capability ∧ v.capability < SIZE_RANGE := by
  induction hr with
  | create => exact create_bound
  | emplace_back v x owned _ hgrow ih =>
    obtain ⟨e1, e2, e3, e4⟩ := emplace_back_bound v x owned ih.1
    refine ⟨by omega, ?_⟩
    by_cases hfull : Vector_size v = v.capability
    · have := hgrow hfull
      rw [Nat.shiftLeft_eq] at this
      unfold VectorEnlargeBias at this
      rw [e3 hfull]
      omega
    · rw [e4 (by omega)]
      exact ih.2
  | pop_back v _ ih =>
    obtain ⟨e1, -, e3⟩ := pop_back_bound v ih.1
    refine ⟨e1, ?_⟩
    rcases e3 with e3 | e3
    · rw [e3]; exact ih.2
    · rw [e3, Nat.shiftRight_eq_div_pow]
      exact lt_of_le_of_lt (Nat.div_le_self _ _) ih.2
  | recap v n _ hn ih =>
    obtain ⟨-, e2, e3⟩ := recap_bound v n ih.1
    refine ⟨e2, ?_⟩
    rcases e3 with e3 | e3
    · rw [e3]; exact ih.2
    · rw [e3]; exact hn
  | swap v p q _ ih =>
    obtain ⟨e1, e2⟩ := swap_bound v p q
    rw [e1, e2]
    exact ih
  | clear v _ _ => exact clear_bound v

/-- C36: in every vector reachable from `Vector_create` by
`Vector_emplace_back`, `Vector_pop_back`, `Vector_recap` (to any capability),
`Vector_swap` and `Vector_clear`, `size <= capability` holds.  For the next
`Vector_emplace_back` the slot written, index `size`, lies below the
capability in force at the store, which is `2 * capability + 10` when the
vector was full and the old capability otherwise; the next `Vector_pop_back`
leaves the capability as it is or halves it, and leaves it at least the new
size; and `Vector_recap` to any capability keeps `size <= capability`. -/
theorem C36_vector_capacity_invariant {α : Type} (v : Vector α) (hr : VectorReachable v) :
    Vector_size v ≤ v.capability ∧
    (∀ (x : α) (owned : Bool),
      Vector_size v < (Vector_emplace_back v x owned).capability ∧
      Vector_size (Vector_emplace_back v x owned) ≤ (Vector_emplace_back v x owned).capability ∧
      (Vector_size v = v.capability →
        (Vector_emplace_back v x owned).capability = 2 * v.capability + 10) ∧
      (Vector_size v < v.capability →
        (Vector_emplace_back v x owned).capability = v.capability)) ∧
    (Vector_size (Vector_pop_back v) ≤ (Vector_pop_back v).capability ∧
      ((Vector_pop_back v).capability = v.capability ∨
        (Vector_pop_back v).capability = v.capability >>> 1)) ∧
    (∀ n : Nat, Vector_size (Vector_recap v n) ≤ (Vector_recap v n).capability) ∧
    (∀ p q : Nat, Vector_size (Vector_swap v p q) ≤ (Vector_swap v p q).capability) ∧
    Vector_size (Vector_clear v) ≤ (Vector_clear v).capability := by
  have h := (reachable_capability v hr).1
  refine ⟨h, ?_, ?_, ?_, ?_, (clear_bound v).1⟩
  · intro x owned
    obtain ⟨e1, e2, e3, e4⟩ := emplace_back_bound v x owned h
    exact ⟨e2, by omega, e3, e4⟩
  · obtain ⟨e1, -, e3⟩ := pop_back_bound v h
    exact ⟨e1, e3⟩
  · intro n
    exact (recap_bound v n h).2.1
  · intro p q
    obtain ⟨e1, e2⟩ := swap_bound v p q
    rw [e1, e2]
    exact h

theorem sampleVector_reachable : VectorReachable sampleVector :=
  VectorReachable.emplace_back _ 7 false
    (VectorReachable.recap _ 1 VectorReachable.create (by decide)) (fun _ => by decide)

theorem C36_vector_capacity_invariant_witness :
    VectorReachable sampleVector ∧
    (Vector_size sampleVector ≤ sampleVector.capability ∧
    (∀ (x : Nat) (owned : Bool),
      Vector_size sampleVector < (Vector_emplace_back sampleVector x owned).capability ∧
      Vector_size (Vector_emplace_back sampleVector x owned)
        ≤ (Vector_emplace_back sampleVector x owned).capability ∧
      (Vector_size sampleVector = sampleVector.capability →
        (Vector_emplace_back sampleVector x owned).capability
          = 2 * sampleVector.capability + 10) ∧
      (Vector_size sampleVector < sampleVector.capability →
        (Vector_emplace_back sampleVector x owned).capability = sampleVector.capability)) ∧
    (Vector_size (Vector_pop_back sampleVector) ≤ (Vector_pop_back sampleVector).capability ∧
      ((Vector_pop_back sampleVector).capability = sampleVector.capability ∨
        (Vector_pop_back sampleVector).capability = sampleVector.capability >>> 1)) ∧
    (∀ n : Nat, Vector_size (Vector_recap sampleVector n)
      ≤ (Vector_recap sampleVector n).capability) ∧
    (∀ p q : Nat, Vector_size (Vector_swap sampleVector p q)
      ≤ (Vector_swap sampleVector p q).capability) ∧
    Vector_size (Vector_clear sampleVector) ≤ (Vector_clear sampleVector).capability) :=
  ⟨sampleVector_reachable, C36_vector_capacity_invariant sampleVector sampleVector_reachable⟩

theorem sampleVector_full :
    Vector_size sampleVector = 1 ∧ sampleVector.capability = 1 ∧
    (Vector_emplace_back sampleVector 9 false).capability = 12 := by
  decide

/-! ## Heaps beyond the index bound -/

end BaSe
